import Mathlib

/-!
# esp-prot: bit-banged single-wire and two-wire bus masters

A shallow embedding of `src/esp_ow/esp_ow.c` and `src/esp_i2c.c`.

The C code talks to the outside world only through GPIO register writes
(`GPIO_OUT_EN_S`, `GPIO_OUT_EN_C`), GPIO register reads (`GPIO_IN`), busy-wait
delays and the allocator.  The embedding threads a `World` through every
function: it carries the state of the environment (whatever is attached to the
pins), the log of the events the code issued, and the number of list nodes the
allocator can still hand out.  The environment is a parameter `Hw σ`: a
transition function on events and the level it puts on each pin.  Taking
`σ := List Ev` and `step := fun t e => e :: t` makes the level an arbitrary
function of the history, so a statement proved for every `Hw σ` holds for every
deterministic behaviour of the bus.

Machine integers are natural numbers, reduced modulo `2 ^ 8` wherever the C
variable is a `uint8_t` that is incremented or shifted.
-/

set_option maxRecDepth 1000000
set_option autoImplicit false

/-! ## Hardware interface -/

/-- Events on the GPIO, delay and allocator interface, as the code issues them. -/
inductive Ev where
  /-- The write `GPIO_OUT_EN_S = 1 << pin`: the pin becomes an output and is driven low. -/
  | out_en_s (pin : Nat)
  /-- The write `GPIO_OUT_EN_C = 1 << pin`: the pin becomes an input, the line is released. -/
  | out_en_c (pin : Nat)
  /-- One read of `GPIO_IN` masked with `1 << pin`, with the level that was read. -/
  | gpio_in (pin : Nat) (v : Bool)
  /-- The SDK busy wait `os_delay_us (us)`. -/
  | os_delay_us (us : Nat)
  /-- The noop loop `delay (count)` of `esp_i2c.c`. -/
  | delay (count : Nat)
  /-- The call `esp_gpio_setup (pin, mode)`; `pullup` tells `GPIO_MODE_INPUT_PULLUP`
  from `GPIO_MODE_INPUT`. -/
  | gpio_setup (pin : Nat) (pullup : Bool)
  deriving DecidableEq

/-- Behaviour of whatever is attached to the pins: how it reacts to each event and
which level (`true` = high) a read of a pin returns. -/
structure Hw (σ : Type) where
  step : σ → Ev → σ
  level : σ → Nat → Bool

/-- The world the code runs in. `log` holds the issued events, most recent first.
`heap` is the number of list nodes `os_zalloc` can still hand out. -/
structure World (σ : Type) where
  env : σ
  log : List Ev
  heap : Nat

section hw
variable {σ : Type}

/-- Issue one event: the environment reacts and the event is logged. -/
def emit (H : Hw σ) (e : Ev) (w : World σ) : World σ :=
  { w with env := H.step w.env e, log := e :: w.log }

/-- The expression `(GPIO_IN & (0x1 << pin)) != 0`. -/
def gpio_read (H : Hw σ) (pin : Nat) (w : World σ) : Bool × World σ :=
  (H.level w.env pin, emit H (Ev.gpio_in pin (H.level w.env pin)) w)

/-- The call `os_zalloc (sizeof node)`: `false` stands for a `NULL` result. -/
def os_zalloc (w : World σ) : Bool × World σ :=
  if w.heap = 0 then (false, w) else (true, { w with heap := w.heap - 1 })

/-- The call `os_free` on `n` nodes. -/
def os_free (n : Nat) (w : World σ) : World σ :=
  { w with heap := w.heap + n }

end hw

/-! ## Single-wire engine (`esp_ow.c`) -/

namespace OW

section code
variable {σ : Type}

def OW_LOW (H : Hw σ) (gpio_num : Nat) (w : World σ) : World σ :=
  emit H (Ev.out_en_s gpio_num) w

def OW_RELEASE (H : Hw σ) (gpio_num : Nat) (w : World σ) : World σ :=
  emit H (Ev.out_en_c gpio_num) w

def OW_READ (H : Hw σ) (gpio_num : Nat) (w : World σ) : Bool × World σ :=
  gpio_read H gpio_num w

def os_delay_us (H : Hw σ) (us : Nat) (w : World σ) : World σ :=
  emit H (Ev.os_delay_us us) w

/-- The CRC lookup table. -/
def crc_lookup : List Nat := [
  0, 94, 188, 226, 97, 63, 221, 131, 194, 156, 126, 32, 163, 253, 31, 65,
  157, 195, 33, 127, 252, 162, 64, 30, 95, 1, 227, 189, 62, 96, 130, 220,
  35, 125, 159, 193, 66, 28, 254, 160, 225, 191, 93, 3, 128, 222, 60, 98,
  190, 224, 2, 92, 223, 129, 99, 61, 124, 34, 192, 158, 29, 67, 161, 255,
  70, 24, 250, 164, 39, 121, 155, 197, 132, 218, 56, 102, 229, 187, 89, 7,
  219, 133, 103, 57, 186, 228, 6, 88, 25, 71, 165, 251, 120, 38, 196, 154,
  101, 59, 217, 135, 4, 90, 184, 230, 167, 249, 27, 69, 198, 152, 122, 36,
  248, 166, 68, 26, 153, 199, 37, 123, 58, 100, 134, 216, 91, 5, 231, 185,
  140, 210, 48, 110, 237, 179, 81, 15, 78, 16, 242, 172, 47, 113, 147, 205,
  17, 79, 173, 243, 112, 46, 204, 146, 211, 141, 111, 49, 178, 236, 14, 80,
  175, 241, 19, 77, 206, 144, 114, 44, 109, 51, 209, 143, 12, 82, 176, 238,
  50, 108, 142, 208, 83, 13, 239, 177, 240, 174, 76, 18, 145, 207, 45, 115,
  202, 148, 118, 40, 171, 245, 23, 73, 8, 86, 180, 234, 105, 55, 213, 139,
  87, 9, 235, 181, 54, 104, 138, 212, 149, 203, 41, 119, 244, 170, 72, 22,
  233, 183, 85, 11, 136, 214, 52, 106, 43, 117, 151, 201, 74, 20, 246, 168,
  116, 42, 200, 150, 21, 75, 169, 247, 182, 232, 10, 84, 215, 137, 107, 53]

/-- The function `esp_ow_crc8`: `crc_lookup[crc8 ^ value]`; both arguments are `uint8_t`. -/
def esp_ow_crc8 (crc8 value : Nat) : Nat :=
  crc_lookup.getD (crc8 ^^^ value) 0

/-- The function `esp_ow_read_bit`: one read slot. -/
def esp_ow_read_bit (H : Hw σ) (gpio_num : Nat) (w : World σ) : Bool × World σ :=
  let w1 := OW_LOW H gpio_num w
  let w2 := os_delay_us H 2 w1
  let w3 := OW_RELEASE H gpio_num w2
  let w4 := os_delay_us H 5 w3
  let r := OW_READ H gpio_num w4
  (r.1, os_delay_us H 53 r.2)

/-- The function `esp_ow_write_bit`: one write slot. -/
def esp_ow_write_bit (H : Hw σ) (gpio_num : Nat) (bit : Bool) (w : World σ) : World σ :=
  let w1 := OW_LOW H gpio_num w
  if bit then
    os_delay_us H 55 (OW_RELEASE H gpio_num (os_delay_us H 5 w1))
  else
    os_delay_us H 5 (OW_RELEASE H gpio_num (os_delay_us H 55 w1))

/-- The function `esp_ow_init`. -/
def esp_ow_init (H : Hw σ) (gpio_num : Nat) (w : World σ) : World σ :=
  emit H (Ev.gpio_setup gpio_num true) w

/-- The `do ... while (retries < 48)` loop of `esp_ow_reset`. The first argument
bounds the number of iterations; 48 is never exhausted. Returns `atr`, `retries`. -/
def esp_ow_reset_poll (H : Hw σ) (gpio_num : Nat) :
    Nat → Nat → World σ → Bool × Nat × World σ
  | 0, retries, w => (false, retries, w)
  | n + 1, retries, w =>
    let w1 := os_delay_us H 5 w
    let retries1 := retries + 1
    let r := OW_READ H gpio_num w1
    if r.1 = false then (true, retries1, r.2)
    else if retries1 < 48 then esp_ow_reset_poll H gpio_num n retries1 r.2
    else (false, retries1, r.2)

/-- The function `esp_ow_reset`. -/
def esp_ow_reset (H : Hw σ) (gpio_num : Nat) (w : World σ) : Bool × World σ :=
  let w1 := OW_LOW H gpio_num w
  let w2 := os_delay_us H 480 w1
  let w3 := OW_RELEASE H gpio_num w2
  let p := esp_ow_reset_poll H gpio_num 48 0 w3
  (p.1, os_delay_us H ((480 - p.2.1 * 5) % 65536) p.2.2)

/-- The loop `for (mask = 1; mask; mask <<= 1)` of `esp_ow_read`; `mask` is a `uint8_t`. -/
def esp_ow_read_loop (H : Hw σ) (gpio_num : Nat) :
    Nat → Nat → Nat → World σ → Nat × World σ
  | 0, _, byte, w => (byte, w)
  | n + 1, mask, byte, w =>
    if mask = 0 then (byte, w)
    else
      let r := esp_ow_read_bit H gpio_num w
      esp_ow_read_loop H gpio_num n ((mask <<< 1) % 256)
        (if r.1 then byte ||| mask else byte) r.2

/-- The function `esp_ow_read`: the mask leaves the loop as 0 after 8 shifts. -/
def esp_ow_read (H : Hw σ) (gpio_num : Nat) (w : World σ) : Nat × World σ :=
  esp_ow_read_loop H gpio_num 9 1 0 w

/-- The function `esp_ow_read_bytes`: the loop `for (idx = 0; idx < len; idx++)`, as a recursion
on the number `len - idx` of bytes left. -/
def esp_ow_read_bytes_loop (H : Hw σ) (gpio_num : Nat) :
    Nat → Nat → List Nat → World σ → List Nat × World σ
  | 0, _, buf, w => (buf, w)
  | n + 1, idx, buf, w =>
    let r := esp_ow_read H gpio_num w
    esp_ow_read_bytes_loop H gpio_num n (idx + 1) (buf.set idx r.1) r.2

def esp_ow_read_bytes (H : Hw σ) (gpio_num : Nat) (buf : List Nat) (len : Nat)
    (w : World σ) : List Nat × World σ :=
  esp_ow_read_bytes_loop H gpio_num len 0 buf w

/-- The loop `for (mask = 1; mask; mask <<= 1)` of `esp_ow_write`. -/
def esp_ow_write_loop (H : Hw σ) (gpio_num byte : Nat) :
    Nat → Nat → World σ → World σ
  | 0, _, w => w
  | n + 1, mask, w =>
    if mask = 0 then w
    else
      esp_ow_write_loop H gpio_num byte n ((mask <<< 1) % 256)
        (esp_ow_write_bit H gpio_num ((byte &&& mask) != 0) w)

/-- The function `esp_ow_write`. -/
def esp_ow_write (H : Hw σ) (gpio_num byte : Nat) (w : World σ) : World σ :=
  esp_ow_write_loop H gpio_num byte 9 1 w

/-- The function `esp_ow_write_bytes`, the buffer being the `len` bytes to send. -/
def esp_ow_write_bytes (H : Hw σ) (gpio_num : Nat) : List Nat → World σ → World σ
  | [], w => w
  | b :: buf, w => esp_ow_write_bytes H gpio_num buf (esp_ow_write H gpio_num b w)

/-- Error codes. -/
inductive esp_ow_err where
  | ESP_OW_OK
  | ESP_OW_ERR
  | ESP_OW_ERR_MEM
  | ESP_OW_ERR_BAD_CMD
  | ESP_OW_ERR_BAD_CRC
  | ESP_OW_ERR_NO_DEV
  | ESP_OW_ERR_ROOT_NOT_NULL
  | ESP_OW_ERR_PIN_FLAPPING
  deriving DecidableEq

open esp_ow_err

def ESP_OW_CMD_READ_ROM : Nat := 0x33
def ESP_OW_CMD_MATCH_ROM : Nat := 0x55
def ESP_OW_CMD_SEARCH_ROM : Nat := 0xF0
def ESP_OW_CMD_SEARCH_ROM_ALERT : Nat := 0xEC
def ESP_OW_CMD_SKIP_ROM : Nat := 0xCC

/-- A node of the device list; the `next` link is the tail of the Lean list that
holds the node, and `custom` is left out (it is `NULL` in every node made here). -/
structure esp_ow_device where
  rom : List Nat
  gpio_num : Nat
  deriving DecidableEq

/-- The function `esp_ow_match_rom`. -/
def esp_ow_match_rom (H : Hw σ) (gpio_num : Nat) (rom : List Nat) (w : World σ) : World σ :=
  esp_ow_write_bytes H gpio_num (rom.take 8) (esp_ow_write H gpio_num ESP_OW_CMD_MATCH_ROM w)

/-- The function `esp_ow_match_dev`. -/
def esp_ow_match_dev (H : Hw σ) (device : esp_ow_device) (w : World σ) : World σ :=
  esp_ow_match_rom H device.gpio_num device.rom w

/-- The local variables of `search` that live across loop iterations; `prev_adr`
is the ROM of the node `prev_search`, updated in place. -/
structure SearchVars where
  prev_adr : List Nat
  rom_byte_idx : Nat
  rom_bit_idx : Nat
  rom_byte_mask : Nat
  found_dis : Nat
  crc : Nat
  one_count : Nat
  deriving DecidableEq

/-- The search direction chosen in one iteration of `search`, lines 250-273. -/
def search_dir (prev_dis : Nat) (v : SearchVars) (bit bit_com : Bool) : Bool :=
  if bit = false ∧ bit_com = false then
    if v.rom_bit_idx < prev_dis then
      (v.prev_adr.getD v.rom_byte_idx 0 &&& v.rom_bit_idx) != 0
    else
      v.rom_bit_idx == prev_dis
  else
    bit

/-- The updates of the local variables in one iteration of `search`, lines 250-295,
given the two bits read and apart from the write slot. -/
def search_update (prev_dis : Nat) (v : SearchVars) (bit bit_com : Bool) : SearchVars :=
  let sch_dir := search_dir prev_dis v bit bit_com
  let found_dis :=
    if (bit = false ∧ bit_com = false) ∧ sch_dir = false then v.rom_bit_idx else v.found_dis
  let byte := v.prev_adr.getD v.rom_byte_idx 0
  let prev_adr :=
    v.prev_adr.set v.rom_byte_idx
      (if sch_dir then byte ||| v.rom_byte_mask else byte &&& (255 ^^^ v.rom_byte_mask))
  let one_count := if sch_dir then (v.one_count + 1) % 256 else v.one_count
  let rom_bit_idx := (v.rom_bit_idx + 1) % 256
  let rom_byte_mask := (v.rom_byte_mask <<< 1) % 256
  if rom_byte_mask = 0 then
    { prev_adr := prev_adr
      rom_byte_idx := (v.rom_byte_idx + 1) % 256
      rom_bit_idx := rom_bit_idx
      rom_byte_mask := 1
      found_dis := found_dis
      crc := esp_ow_crc8 v.crc (prev_adr.getD v.rom_byte_idx 0)
      one_count := one_count }
  else
    { prev_adr := prev_adr
      rom_byte_idx := v.rom_byte_idx
      rom_bit_idx := rom_bit_idx
      rom_byte_mask := rom_byte_mask
      found_dis := found_dis
      crc := v.crc
      one_count := one_count }

/-- One iteration of the `do ... while (rom_byte_idx < 8)` loop of `search`:
`none` is the early `return ESP_OW_ERR_NO_DEV`. -/
def search_body (H : Hw σ) (gpio_num prev_dis : Nat) (v : SearchVars) (w : World σ) :
    Option SearchVars × World σ :=
  let r1 := esp_ow_read_bit H gpio_num w
  let r2 := esp_ow_read_bit H gpio_num r1.2
  if r1.1 = true ∧ r2.1 = true then (none, r2.2)
  else
    (some (search_update prev_dis v r1.1 r2.1),
     esp_ow_write_bit H gpio_num (search_dir prev_dis v r1.1 r2.1) r2.2)

/-- The loop of `search`. The first argument bounds the number of iterations
(`none` when it is exhausted); the Boolean tells whether the loop ran to its end
(`true`) or was left by the early return (`false`). -/
def search_loop (H : Hw σ) (gpio_num prev_dis : Nat) :
    Nat → SearchVars → World σ → Option (Bool × SearchVars × World σ)
  | 0, _, _ => none
  | n + 1, v, w =>
    match search_body H gpio_num prev_dis v w with
    | (none, w1) => some (false, v, w1)
    | (some v1, w1) =>
      if v1.rom_byte_idx < 8 then search_loop H gpio_num prev_dis n v1 w1
      else some (true, v1, w1)

/-- What a call of `search` leaves behind: the error code, the node `prev_search`
with its ROM as updated in place, and the values of `*prev_dis` and `*is_last`. -/
structure SearchOut (σ : Type) where
  err : esp_ow_err
  dev : esp_ow_device
  prev_dis : Nat
  is_last : Bool
  w : World σ

/-- The static function `search`: one pass of the ROM search. The loop runs 64
times at most, so the iteration bound 64 is never exhausted (`search_returns`). -/
def search (H : Hw σ) (gpio_num sch_type : Nat) (prev_search : esp_ow_device)
    (prev_dis : Nat) (is_last : Bool) (w : World σ) : Option (SearchOut σ) :=
  let r := esp_ow_reset H gpio_num w
  if r.1 = false then
    some ⟨ESP_OW_ERR_NO_DEV, prev_search, prev_dis, is_last, r.2⟩
  else
    let w1 := esp_ow_write H gpio_num sch_type r.2
    let v0 : SearchVars :=
      { prev_adr := prev_search.rom, rom_byte_idx := 0, rom_bit_idx := 1,
        rom_byte_mask := 1, found_dis := 0, crc := 0, one_count := 0 }
    match search_loop H gpio_num prev_dis 64 v0 w1 with
    | none => none
    | some (false, v, w2) =>
      some ⟨ESP_OW_ERR_NO_DEV, { prev_search with rom := v.prev_adr }, prev_dis, is_last, w2⟩
    | some (true, v, w2) =>
      let dev : esp_ow_device := { prev_search with rom := v.prev_adr }
      if v.rom_bit_idx = 65 ∧ v.crc = 0 then
        if v.one_count = 0 then some ⟨ESP_OW_ERR_PIN_FLAPPING, dev, prev_dis, is_last, w2⟩
        else some ⟨ESP_OW_OK, dev, v.found_dis, if v.found_dis = 0 then true else is_last, w2⟩
      else if v.crc ≠ 0 then some ⟨ESP_OW_ERR_BAD_CRC, dev, prev_dis, is_last, w2⟩
      else some ⟨ESP_OW_ERR, dev, prev_dis, is_last, w2⟩

/-- The static function `add_device`: `none` is the `NULL` result. The new node
copies the ROM and the pin of the previous one. -/
def add_device (prev_node : esp_ow_device) (w : World σ) : Option esp_ow_device × World σ :=
  let a := os_zalloc w
  if a.1 = false then (none, a.2)
  else (some { rom := prev_node.rom, gpio_num := prev_node.gpio_num }, a.2)

/-- The `do ... while (is_last_dev == false)` loop of `esp_ow_search`. `nodes` are
the nodes of the list before `dev_curr`, in list order. The first argument bounds
the number of passes (`none` when it is exhausted). Returns the error code and the
whole list. -/
def esp_ow_search_loop (H : Hw σ) (gpio_num sch_type : Nat) :
    Nat → List esp_ow_device → esp_ow_device → Nat → Bool → World σ →
      Option (esp_ow_err × List esp_ow_device × World σ)
  | 0, _, _, _, _, _ => none
  | n + 1, nodes, dev_curr, last_disc, is_last_dev, w =>
    match search H gpio_num sch_type dev_curr last_disc is_last_dev w with
    | none => none
    | some o =>
      if o.err = ESP_OW_OK ∧ o.is_last = false then
        match add_device o.dev o.w with
        | (none, w1) => some (ESP_OW_ERR_MEM, nodes ++ [o.dev], w1)
        | (some new_node, w1) =>
          esp_ow_search_loop H gpio_num sch_type n (nodes ++ [o.dev]) new_node
            o.prev_dis o.is_last w1
      else some (o.err, nodes ++ [o.dev], o.w)

/-- The function `esp_ow_search`. `root` is the list `*root` points to (`[]` for `NULL`); the
result holds the error code and the list `*root` points to afterwards. `passes`
bounds the number of passes. -/
def esp_ow_search (H : Hw σ) (passes : Nat) (gpio_num sch_type : Nat)
    (root : List esp_ow_device) (w : World σ) :
    Option (esp_ow_err × List esp_ow_device × World σ) :=
  if root ≠ [] then some (ESP_OW_ERR_ROOT_NOT_NULL, root, w)
  else if ¬ (sch_type = ESP_OW_CMD_SEARCH_ROM ∨ sch_type = ESP_OW_CMD_SEARCH_ROM_ALERT) then
    some (ESP_OW_ERR_BAD_CMD, root, w)
  else
    let a := os_zalloc w
    if a.1 = false then some (ESP_OW_ERR_MEM, [], a.2)
    else
      let dev_curr : esp_ow_device := { rom := List.replicate 8 0, gpio_num := gpio_num }
      match esp_ow_search_loop H gpio_num sch_type passes [] dev_curr 0 false a.2 with
      | none => none
      | some (err, nodes, w1) =>
        if err ≠ ESP_OW_OK then some (err, [], os_free nodes.length w1)
        else some (err, nodes, w1)

/-- The filter loop `while (curr != NULL)` of `esp_ow_search_family`. The first list holds the
nodes in front of `curr`, which stay in the list (`prev` is the last of them, `NULL`
when there is none); the second list is `curr` with the nodes behind it. Returns the
list `*root` points to when the loop is left. -/
def esp_ow_search_family_loop (family_code : Nat) :
    List esp_ow_device → List esp_ow_device → World σ → List esp_ow_device × World σ
  | kept, [], w => (kept, w)
  | kept, curr :: rest, w =>
    if curr.rom.getD 0 0 ≠ family_code then
      if kept = [] then esp_ow_search_family_loop family_code [] rest (os_free 1 w)
      else esp_ow_search_family_loop family_code kept rest (os_free 1 w)
    else esp_ow_search_family_loop family_code (kept ++ [curr]) rest w

/-- The function `esp_ow_search_family`; `family_code` is a `uint8_t`. -/
def esp_ow_search_family (H : Hw σ) (passes : Nat) (gpio_num sch_type family_code : Nat)
    (root : List esp_ow_device) (w : World σ) :
    Option (esp_ow_err × List esp_ow_device × World σ) :=
  match esp_ow_search H passes gpio_num sch_type root w with
  | none => none
  | some (err, root1, w1) =>
    if err ≠ ESP_OW_OK then some (err, root1, w1)
    else
      let r := esp_ow_search_family_loop family_code [] root1 w1
      if r.1 = [] then some (ESP_OW_ERR_NO_DEV, r.1, r.2) else some (ESP_OW_OK, r.1, r.2)

/-- The function `esp_ow_read_rom`: `rom` is the 8-byte array the caller passes. -/
def esp_ow_read_rom (H : Hw σ) (gpio_num : Nat) (rom : List Nat) (w : World σ) :
    List Nat × World σ :=
  let r := esp_ow_reset H gpio_num w
  let w1 := esp_ow_write H gpio_num ESP_OW_CMD_READ_ROM r.2
  esp_ow_read_bytes H gpio_num rom 8 w1

/-- The function `esp_ow_read_rom_dev`: the result of `os_zalloc` is used unchecked, so a failed
allocation has no result (`none`). -/
def esp_ow_read_rom_dev (H : Hw σ) (gpio_num : Nat) (w : World σ) :
    Option (esp_ow_device × World σ) :=
  let a := os_zalloc w
  if a.1 = false then none
  else
    let r := esp_ow_read_rom H gpio_num (List.replicate 8 0) a.2
    some ({ rom := r.1, gpio_num := 0 }, r.2)

end code

end OW

/-! ## A simulated single-wire bus

Slave devices on one line, seen from the pins: every device answers a reset
pulse with a presence pulse, takes a command byte in eight write slots, and
after the search command repeats, for each of the 64 ROM bits, a slot sending
its bit, a slot sending the complement and a slot receiving the direction bit;
a device whose bit differs from the direction bit stays silent until the next
reset. The line is a wired AND: it reads low as soon as the master or any
device pulls it low. After the read-ROM command the devices send their 64 ROM
bits. -/

namespace OW

/-- Running CRC over a sequence of bytes, starting from 0. -/
def crc_fold (bytes : List Nat) : Nat :=
  bytes.foldl esp_ow_crc8 0

/-- Bit `k` of a ROM, `k` counted from 0: bit 0 is the least significant bit of
byte 0 (bit position `k + 1` in the numbering of `search`). -/
def rom_bit (rom : List Nat) (k : Nat) : Bool :=
  (rom.getD (k / 8) 0).testBit (k % 8)

/-- What the simulated devices expect next. -/
inductive SimPhase where
  /-- Waiting for a reset pulse. -/
  | idle
  /-- Receiving command bit `n`, the lower bits being `acc`. -/
  | cmd (n acc : Nat)
  /-- Search: about to send ROM bit `k`. -/
  | bit (k : Nat)
  /-- Search: about to send the complement of ROM bit `k`. -/
  | comp (k : Nat)
  /-- Search: about to receive the direction for bit `k`. -/
  | dir (k : Nat)
  /-- Read ROM: about to send ROM bit `k`. -/
  | rom (k : Nat)
  deriving DecidableEq

/-- State of the simulated bus. `active` are the devices still taking part since
the last reset; `low_for` is the time the master has held the line low in the
current slot; `out` is the level the devices leave on the line (`false` when one
of them pulls it low). -/
structure Sim where
  devices : List (List Nat)
  active : List (List Nat)
  phase : SimPhase
  master_low : Bool
  low_for : Nat
  out : Bool
  deriving DecidableEq

/-- The devices react when the master releases the line: a low time of 480 or more
is a reset pulse, otherwise the slot is served according to the phase. A write slot
carries a 1 when the line was low for less than 15 units. -/
def sim_release (s : Sim) : Sim :=
  if 480 ≤ s.low_for then
    { s with master_low := false, active := s.devices, phase := SimPhase.cmd 0 0,
             out := s.devices.isEmpty }
  else
    match s.phase with
    | SimPhase.idle => { s with master_low := false }
    | SimPhase.cmd n acc =>
      let acc1 := if s.low_for < 15 then acc + 2 ^ n else acc
      if n < 7 then { s with master_low := false, phase := SimPhase.cmd (n + 1) acc1 }
      else if acc1 = ESP_OW_CMD_SEARCH_ROM then
        { s with master_low := false, phase := SimPhase.bit 0 }
      else if acc1 = ESP_OW_CMD_READ_ROM then
        { s with master_low := false, phase := SimPhase.rom 0 }
      else { s with master_low := false, phase := SimPhase.idle }
    | SimPhase.bit k =>
      { s with master_low := false, phase := SimPhase.comp k,
               out := s.active.all (fun r => rom_bit r k) }
    | SimPhase.comp k =>
      { s with master_low := false, phase := SimPhase.dir k,
               out := s.active.all (fun r => !rom_bit r k) }
    | SimPhase.dir k =>
      { s with master_low := false,
               active := s.active.filter (fun r => rom_bit r k == decide (s.low_for < 15)),
               phase := if k + 1 < 64 then SimPhase.bit (k + 1) else SimPhase.idle }
    | SimPhase.rom k =>
      { s with master_low := false,
               phase := if k + 1 < 64 then SimPhase.rom (k + 1) else SimPhase.idle,
               out := s.active.all (fun r => rom_bit r k) }

/-- Reaction of the simulated bus to the events of the master. -/
def sim_step (s : Sim) : Ev → Sim
  | Ev.out_en_s _ => { s with master_low := true, low_for := 0, out := true }
  | Ev.os_delay_us us => if s.master_low then { s with low_for := s.low_for + us } else s
  | Ev.out_en_c _ => sim_release s
  | _ => s

/-- The simulated bus as an environment: the line reads high when neither the
master nor a device pulls it low. -/
def sim_hw : Hw Sim where
  step := sim_step
  level := fun s _ => !s.master_low && s.out

/-- The simulated bus with the given device ROMs, before any activity. -/
def sim_init (devices : List (List Nat)) : Sim :=
  { devices := devices, active := [], phase := SimPhase.idle,
    master_low := false, low_for := 0, out := true }

/-- The world made of the simulated bus, an empty log and `heap` free nodes. -/
def sim_world (devices : List (List Nat)) (heap : Nat) : World Sim :=
  { env := sim_init devices, log := [], heap := heap }

/-- A ROM is well formed when it has 8 bytes, each below 256. -/
def rom_wf (rom : List Nat) : Prop :=
  rom.length = 8 ∧ ∀ b ∈ rom, b < 256

/-- A ROM is CRC-valid when its last byte is the CRC of the first seven. -/
def rom_crc_ok (rom : List Nat) : Prop :=
  rom.getD 7 0 = crc_fold (rom.take 7)

instance (rom : List Nat) : Decidable (rom_wf rom) := by
  unfold rom_wf
  infer_instance

instance (rom : List Nat) : Decidable (rom_crc_ok rom) := by
  unfold rom_crc_ok
  infer_instance

end OW

/-! ## Loop invariant of `search` -/

namespace OW

/-- State of the local variables of `search` in front of the iteration for bit `k`
(counted from 0), or behind the loop when `k = 64`: the three indices are in step,
the ROM has 8 bytes, `crc` is the running CRC of the bytes that are complete, and
`one_count` is 0 exactly when all bits stored so far are 0. -/
structure SearchInv (k : Nat) (v : SearchVars) : Prop where
  byte_idx : v.rom_byte_idx = k / 8
  bit_idx : v.rom_bit_idx = k + 1
  mask : v.rom_byte_mask = 2 ^ (k % 8)
  len : v.prev_adr.length = 8
  bytes : ∀ b ∈ v.prev_adr, b < 256
  crc : v.crc = crc_fold (v.prev_adr.take (k / 8))
  ones_le : v.one_count ≤ k
  ones_zero : v.one_count = 0 ↔ ∀ j, j < k → rom_bit v.prev_adr j = false

/-- The local variables of `search` when its loop is entered. -/
def search_vars0 (rom : List Nat) : SearchVars :=
  { prev_adr := rom, rom_byte_idx := 0, rom_bit_idx := 1, rom_byte_mask := 1,
    found_dis := 0, crc := 0, one_count := 0 }

/-- Relation between the variables of `search` in front of bit `k` (`v`) and in
front of bit `k1` (`v1`): the loop invariant holds at `k1`, the ROM bits from `k` up
to `k1` have been taken from the ROM `r`, and the other bits are as they were. -/
structure Stored (r : List Nat) (k k1 : Nat) (v v1 : SearchVars) : Prop where
  inv : SearchInv k1 v1
  bits_in : ∀ j, k ≤ j → j < k1 → rom_bit v1.prev_adr j = rom_bit r j
  bits_out : ∀ j, j < k ∨ k1 ≤ j → rom_bit v1.prev_adr j = rom_bit v.prev_adr j

end OW

/-! ## Two-wire engine (`esp_i2c.c`) -/

namespace I2C

/-- I2C error codes. -/
inductive esp_i2c_err where
  | ESP_I2C_OK
  | ESP_I2C_ERR_INIT_CONFLICT
  | ESP_I2C_ERR_STOP_OUTSIDE_TRANS
  | ESP_I2C_ERR_ARB_LOST
  | ESP_I2C_ERR_LONG_STRETCH
  | ESP_I2C_ERR_NO_ACK
  | ESP_I2C_ERR_ROOT_NOT_NULL
  | ESP_I2C_ERR_DATA_CORRUPTED
  deriving DecidableEq

open esp_i2c_err

def ESP_I2C_ACK : Bool := false
def ESP_I2C_NACK : Bool := true

def ESP_I2C_SPEED_100 : Nat := 9
def ESP_I2C_SPEED_200 : Nat := 5
def ESP_I2C_SPEED_300 : Nat := 3
def ESP_I2C_SPEED_400 : Nat := 1

/-- I2C bus states. -/
def ESP_I2C_HIGH : Bool := true
def ESP_I2C_LO : Bool := false

/-- The address with the read bit set, `(uint8_t) ((addr << 1) | 0x01)`. -/
def ESP_I2C_ADDR_READ (addr : Nat) : Nat := ((addr <<< 1) ||| 0x01) % 256

/-- The address with the write bit set, `(uint8_t) ((addr << 1) & 0xFE)`. -/
def ESP_I2C_ADDR_WRITE (addr : Nat) : Nat := ((addr <<< 1) &&& 0xFE) % 256

/-- The static variables of `esp_i2c.c`, together with the world. The field
`initialized` is the C variable `init`. -/
structure State (σ : Type) where
  initialized : Bool
  gpio_scl : Nat
  gpio_sda : Nat
  in_trans : Bool
  max_cs : Nat
  i2c_delay_short : Nat
  i2c_delay_long : Nat
  w : World σ

section code
variable {σ : Type}

/-- The static variables at program start (zero initialised). -/
def State.boot (w : World σ) : State σ :=
  { initialized := false, gpio_scl := 0, gpio_sda := 0, in_trans := false, max_cs := 0,
    i2c_delay_short := 0, i2c_delay_long := 0, w := w }

def SDA_LOW (H : Hw σ) (s : State σ) : State σ :=
  { s with w := emit H (Ev.out_en_s s.gpio_sda) s.w }

def SCL_LOW (H : Hw σ) (s : State σ) : State σ :=
  { s with w := emit H (Ev.out_en_s s.gpio_scl) s.w }

def SDA_RELEASE (H : Hw σ) (s : State σ) : State σ :=
  { s with w := emit H (Ev.out_en_c s.gpio_sda) s.w }

def SCL_RELEASE (H : Hw σ) (s : State σ) : State σ :=
  { s with w := emit H (Ev.out_en_c s.gpio_scl) s.w }

def SDA_READ (H : Hw σ) (s : State σ) : Bool × State σ :=
  ((gpio_read H s.gpio_sda s.w).1, { s with w := (gpio_read H s.gpio_sda s.w).2 })

def SCL_READ (H : Hw σ) (s : State σ) : Bool × State σ :=
  ((gpio_read H s.gpio_scl s.w).1, { s with w := (gpio_read H s.gpio_scl s.w).2 })

/-- The static function `delay`: `count` noop loops. -/
def delay (H : Hw σ) (count : Nat) (s : State σ) : State σ :=
  { s with w := emit H (Ev.delay count) s.w }

/-- The static function `chk_cs`, the loop
`while (SCL_READ() == ESP_I2C_LO && (idx++) < max_cs);` with `idx` a `uint8_t`:
the counter is incremented, modulo 256, whenever the clock was read low, also when
the comparison with `max_cs` then ends the loop. The first argument bounds the
number of polls (`none` when it is exhausted); the second is `idx`. -/
def chk_cs (H : Hw σ) : Nat → Nat → State σ → Option (Nat × State σ)
  | 0, _, _ => none
  | n + 1, idx, s =>
    if (SCL_READ H s).1 = ESP_I2C_LO then
      if idx < s.max_cs then chk_cs H n ((idx + 1) % 256) (SCL_READ H s).2
      else some ((idx + 1) % 256, (SCL_READ H s).2)
    else some (idx, (SCL_READ H s).2)

/-- The function `esp_i2c_fail_fast`. -/
def esp_i2c_fail_fast (H : Hw σ) (err : esp_i2c_err) (s : State σ) : esp_i2c_err × State σ :=
  (err, { SDA_RELEASE H (SCL_RELEASE H s) with in_trans := false })

/-- The static function `tick`: one clock cycle. `fuel` bounds the polls of each
clock-stretch wait. -/
def tick (H : Hw σ) (fuel : Nat) (s : State σ) : Option (esp_i2c_err × State σ) :=
  let s1 := SCL_RELEASE H (delay H s.i2c_delay_short s)
  match chk_cs H fuel 0 s1 with
  | none => none
  | some (idx, s2) =>
    if idx = s2.max_cs then some (esp_i2c_fail_fast H ESP_I2C_ERR_LONG_STRETCH s2)
    else
      some (ESP_I2C_OK,
        delay H s2.i2c_delay_short (SCL_LOW H (delay H s2.i2c_delay_long s2)))

/-- The function `esp_i2c_set_speed`. -/
def esp_i2c_set_speed (speed : Nat) (s : State σ) : State σ :=
  { s with i2c_delay_short := speed, i2c_delay_long := (2 * speed) % 256 }

/-- The function `esp_i2c_init`. -/
def esp_i2c_init (H : Hw σ) (scl_gpio_num sda_gpio_num : Nat) (s : State σ) :
    esp_i2c_err × State σ :=
  if s.initialized then
    if s.gpio_scl = scl_gpio_num ∧ s.gpio_sda = sda_gpio_num then (ESP_I2C_OK, s)
    else (ESP_I2C_ERR_INIT_CONFLICT, s)
  else
    let w1 := emit H (Ev.gpio_setup sda_gpio_num false)
      (emit H (Ev.gpio_setup scl_gpio_num false) s.w)
    let s1 : State σ :=
      { s with initialized := true, gpio_scl := scl_gpio_num, gpio_sda := sda_gpio_num,
               max_cs := 230 * 3, w := w1 }
    (ESP_I2C_OK, { esp_i2c_set_speed ESP_I2C_SPEED_100 s1 with in_trans := false })

/-- The function `esp_i2c_start`. -/
def esp_i2c_start (H : Hw σ) (fuel : Nat) (s : State σ) : Option (esp_i2c_err × State σ) :=
  if s.in_trans then
    let s1 := delay H s.i2c_delay_short (SCL_RELEASE H (delay H s.i2c_delay_short s))
    match chk_cs H fuel 0 s1 with
    | none => none
    | some (idx, s2) =>
      if idx = s2.max_cs then some (esp_i2c_fail_fast H ESP_I2C_ERR_LONG_STRETCH s2)
      else
        let s3 := if 0 < idx then delay H s2.i2c_delay_short s2 else s2
        let s4 := delay H s3.i2c_delay_short (SDA_LOW H s3)
        let s5 := delay H s4.i2c_delay_short (SCL_LOW H s4)
        some (ESP_I2C_OK, SDA_RELEASE H s5)
  else
    let s1 := SDA_RELEASE H (SCL_RELEASE H s)
    if (SDA_READ H s1).1 = ESP_I2C_LO then some (ESP_I2C_ERR_ARB_LOST, (SDA_READ H s1).2)
    else
      match chk_cs H fuel 0 (SDA_READ H s1).2 with
      | none => none
      | some (idx, s2) =>
        if idx = s2.max_cs then some (esp_i2c_fail_fast H ESP_I2C_ERR_LONG_STRETCH s2)
        else
          let s3 := delay H s2.i2c_delay_short (SDA_LOW H (delay H s2.i2c_delay_short s2))
          let s4 := delay H s3.i2c_delay_short (SCL_LOW H s3)
          some (ESP_I2C_OK, { SDA_RELEASE H s4 with in_trans := true })

/-- The function `esp_i2c_stop`. -/
def esp_i2c_stop (H : Hw σ) (fuel : Nat) (s : State σ) : Option (esp_i2c_err × State σ) :=
  if s.in_trans = false then some (esp_i2c_fail_fast H ESP_I2C_ERR_STOP_OUTSIDE_TRANS s)
  else
    let s1 := SCL_RELEASE H (delay H s.i2c_delay_short (SDA_LOW H s))
    match chk_cs H fuel 0 s1 with
    | none => none
    | some (idx, s2) =>
      if idx = s2.max_cs then some (esp_i2c_fail_fast H ESP_I2C_ERR_LONG_STRETCH s2)
      else
        let s3 := delay H s2.i2c_delay_short (SDA_RELEASE H (delay H s2.i2c_delay_short s2))
        let s4 := delay H s3.i2c_delay_short (SCL_LOW H s3)
        some (ESP_I2C_OK, { s4 with in_trans := false })

/-- The static function `write_bit`. -/
def write_bit (H : Hw σ) (fuel : Nat) (bit : Bool) (s : State σ) :
    Option (esp_i2c_err × State σ) :=
  let s1 := if bit then SDA_RELEASE H s else SDA_LOW H s
  match tick H fuel s1 with
  | none => none
  | some (err, s2) =>
    if err ≠ ESP_I2C_OK then some (esp_i2c_fail_fast H err s2)
    else some (ESP_I2C_OK, if bit = false then SDA_RELEASE H s2 else s2)

/-- The static function `read_bit`. `bit` is the content of `*bit` at the call; the
Boolean of the result is its content at the return. -/
def read_bit (H : Hw σ) (fuel : Nat) (bit : Bool) (s : State σ) :
    Option (esp_i2c_err × Bool × State σ) :=
  let s1 := SCL_RELEASE H (delay H s.i2c_delay_short s)
  match chk_cs H fuel 0 s1 with
  | none => none
  | some (idx, s2) =>
    if idx = s2.max_cs then
      some ((esp_i2c_fail_fast H ESP_I2C_ERR_LONG_STRETCH s2).1, bit,
        (esp_i2c_fail_fast H ESP_I2C_ERR_LONG_STRETCH s2).2)
    else
      let r := SDA_READ H (delay H s2.i2c_delay_short s2)
      let s3 := delay H r.2.i2c_delay_short r.2
      some (ESP_I2C_OK, r.1, delay H s3.i2c_delay_short (SCL_LOW H s3))

/-- The loop `for (mask = 0x80; mask; mask >>= 1)` of `esp_i2c_write_byte`. The first
argument bounds the number of iterations; 9 is never exhausted. `none` in the
result stands for a loop that ran to its end. -/
def esp_i2c_write_byte_loop (H : Hw σ) (fuel byte : Nat) :
    Nat → Nat → State σ → Option (Option esp_i2c_err × State σ)
  | 0, _, _ => none
  | n + 1, mask, s =>
    if mask = 0 then some (none, s)
    else
      match write_bit H fuel ((byte &&& mask) != 0) s with
      | none => none
      | some (err, s1) =>
        if err ≠ ESP_I2C_OK then some (some err, s1)
        else esp_i2c_write_byte_loop H fuel byte n (mask >>> 1) s1

/-- The function `esp_i2c_write_byte`. `ack_resp` is the content of `*ack_resp` at the call; the
Boolean of the result is its content at the return. -/
def esp_i2c_write_byte (H : Hw σ) (fuel byte : Nat) (ack_resp : Bool) (s : State σ) :
    Option (esp_i2c_err × Bool × State σ) :=
  match esp_i2c_write_byte_loop H fuel byte 9 0x80 s with
  | none => none
  | some (some err, s1) => some (err, ack_resp, s1)
  | some (none, s1) => read_bit H fuel ack_resp s1

/-- The loop `for (idx = 0; idx < 8; idx++)` of `esp_i2c_read_byte`, as a recursion on
the number `8 - idx` of bits left. `none` in the result stands for a loop that ran
to its end. -/
def esp_i2c_read_byte_loop (H : Hw σ) (fuel : Nat) :
    Nat → Bool → Nat → State σ → Option (Option esp_i2c_err × Nat × State σ)
  | 0, _, dst, s => some (none, dst, s)
  | n + 1, bit, dst, s =>
    match read_bit H fuel bit s with
    | none => none
    | some (err, bit1, s1) =>
      if err ≠ ESP_I2C_OK then some (some err, dst, s1)
      else
        esp_i2c_read_byte_loop H fuel n bit1
          (((dst <<< 1) ||| (if bit1 then 1 else 0)) % 256) s1

/-- The function `esp_i2c_read_byte`. `dst` is the content of `*dst` at the call; the number of
the result is its content at the return. The local `bit` is not initialised; it is
written by `read_bit` before it is read. -/
def esp_i2c_read_byte (H : Hw σ) (fuel : Nat) (dst : Nat) (ack_type : Bool) (s : State σ) :
    Option (esp_i2c_err × Nat × State σ) :=
  match esp_i2c_read_byte_loop H fuel 8 false dst s with
  | none => none
  | some (some err, dst1, s1) => some (err, dst1, s1)
  | some (none, dst1, s1) =>
    match write_bit H fuel ack_type s1 with
    | none => none
    | some (err, s2) => some (err, dst1, s2)

/-- The loop of `esp_i2c_write_bytes` over the bytes still to send. After a NACK
`esp_i2c_fail_fast` is called and its result dropped: the loop goes on. -/
def esp_i2c_write_bytes_loop (H : Hw σ) (fuel : Nat) :
    List Nat → Bool → State σ → Option (esp_i2c_err × State σ)
  | [], _, s => some (ESP_I2C_OK, s)
  | b :: buf, ack_resp, s =>
    match esp_i2c_write_byte H fuel b ack_resp s with
    | none => none
    | some (err, ack1, s1) =>
      if err ≠ ESP_I2C_OK then some (esp_i2c_fail_fast H err s1)
      else
        esp_i2c_write_bytes_loop H fuel buf ack1
          (if ack1 ≠ ESP_I2C_ACK then (esp_i2c_fail_fast H ESP_I2C_ERR_NO_ACK s1).2 else s1)

/-- The function `esp_i2c_write_bytes`: `buf` holds the `len` bytes to send. The local `ack_resp`
is not initialised; it is written by `esp_i2c_write_byte` before it is read. -/
def esp_i2c_write_bytes (H : Hw σ) (fuel : Nat) (buf : List Nat) (s : State σ) :
    Option (esp_i2c_err × State σ) :=
  esp_i2c_write_bytes_loop H fuel buf false s

/-- The loop `for (idx = 0; idx < len; idx++)` of `esp_i2c_read_bytes`, as a recursion
on the number `len - idx` of bytes left. -/
def esp_i2c_read_bytes_loop (H : Hw σ) (fuel len : Nat) :
    Nat → Nat → Bool → List Nat → State σ → Option (esp_i2c_err × List Nat × State σ)
  | 0, _, _, buf, s => some (ESP_I2C_OK, buf, s)
  | n + 1, idx, ack_type, buf, s =>
    let ack_type1 := if idx + 1 = len then ESP_I2C_NACK else ack_type
    match esp_i2c_read_byte H fuel (buf.getD idx 0) ack_type1 s with
    | none => none
    | some (err, dst, s1) =>
      if err ≠ ESP_I2C_OK then
        some ((esp_i2c_fail_fast H err s1).1, buf.set idx dst, (esp_i2c_fail_fast H err s1).2)
      else esp_i2c_read_bytes_loop H fuel len n (idx + 1) ack_type1 (buf.set idx dst) s1

/-- The function `esp_i2c_read_bytes`: `buf` is the content of the buffer at the call. -/
def esp_i2c_read_bytes (H : Hw σ) (fuel : Nat) (buf : List Nat) (len : Nat) (s : State σ) :
    Option (esp_i2c_err × List Nat × State σ) :=
  esp_i2c_read_bytes_loop H fuel len len 0 ESP_I2C_ACK buf s

/-- The function `esp_i2c_start_read_write`. The result of the `esp_i2c_stop` after a NACK is
dropped. -/
def esp_i2c_start_read_write (H : Hw σ) (fuel address : Nat) (stop_on_nack : Bool)
    (s : State σ) : Option (esp_i2c_err × State σ) :=
  match esp_i2c_start H fuel s with
  | none => none
  | some (err, s1) =>
    if err ≠ ESP_I2C_OK then some (err, s1)
    else
      match esp_i2c_write_byte H fuel address false s1 with
      | none => none
      | some (err1, ack_resp, s2) =>
        if err1 ≠ ESP_I2C_OK then some (err1, s2)
        else if ack_resp ≠ ESP_I2C_ACK then
          if stop_on_nack then
            match esp_i2c_stop H fuel s2 with
            | none => none
            | some (_, s3) => some (esp_i2c_fail_fast H ESP_I2C_ERR_NO_ACK s3)
          else some (esp_i2c_fail_fast H ESP_I2C_ERR_NO_ACK s2)
        else some (ESP_I2C_OK, s2)

/-- The function `esp_i2c_start_write`. -/
def esp_i2c_start_write (H : Hw σ) (fuel address reg : Nat) (s : State σ) :
    Option (esp_i2c_err × State σ) :=
  match esp_i2c_start_read_write H fuel (ESP_I2C_ADDR_WRITE address) true s with
  | none => none
  | some (err, s1) =>
    if err ≠ ESP_I2C_OK then some (err, s1)
    else
      match esp_i2c_write_byte H fuel reg false s1 with
      | none => none
      | some (err1, ack_resp, s2) =>
        if err1 ≠ ESP_I2C_OK then some (err1, s2)
        else if ack_resp ≠ ESP_I2C_ACK then some (esp_i2c_fail_fast H ESP_I2C_ERR_NO_ACK s2)
        else some (ESP_I2C_OK, s2)

/-- The function `esp_i2c_start_read`. -/
def esp_i2c_start_read (H : Hw σ) (fuel address reg : Nat) (s : State σ) :
    Option (esp_i2c_err × State σ) :=
  match esp_i2c_start_write H fuel address reg s with
  | none => none
  | some (err, s1) =>
    if err ≠ ESP_I2C_OK then some (err, s1)
    else esp_i2c_start_read_write H fuel (ESP_I2C_ADDR_READ address) true s1

/-- The two tests of `esp_i2c_scan` that skip an address. -/
def scan_skip (address : Nat) : Bool :=
  (address >>> 0x3 == 0xF) || (address &&& 0x78 == 0 && decide (0 < address &&& 0x3))

/-- Storing a found address in the list of `esp_i2c_scan`: in the node `curr` (the
last one) when its address is still 0, in a new node otherwise. `none` when the
allocation of the new node fails, its result being used unchecked. -/
def scan_record (address : Nat) (nodes : List Nat) (s : State σ) :
    Option (List Nat × State σ) :=
  if nodes.getLastD 0 = 0 then some (nodes.dropLast ++ [address], s)
  else
    if (os_zalloc s.w).1 = false then none
    else some (nodes ++ [address], { s with w := (os_zalloc s.w).2 })

/-- The loop `for (address = 1; address < 128; address++)` of `esp_i2c_scan`. `nodes`
holds the addresses of the nodes of the list, the last one being `curr`. The first
argument bounds the number of iterations; 128 is never exhausted. -/
def esp_i2c_scan_loop (H : Hw σ) (fuel : Nat) :
    Nat → Nat → List Nat → State σ → Option (List Nat × State σ)
  | 0, _, _, _ => none
  | n + 1, address, nodes, s =>
    if ¬ address < 128 then some (nodes, s)
    else if scan_skip address then
      esp_i2c_scan_loop H fuel n ((address + 1) % 256) nodes s
    else
      match esp_i2c_start_read_write H fuel (ESP_I2C_ADDR_WRITE address) true s with
      | none => none
      | some (err, s1) =>
        if err ≠ ESP_I2C_OK then esp_i2c_scan_loop H fuel n ((address + 1) % 256) nodes s1
        else
          match scan_record address nodes s1 with
          | none => none
          | some (nodes1, s2) =>
            match esp_i2c_stop H fuel s2 with
            | none => none
            | some (_, s3) => esp_i2c_scan_loop H fuel n ((address + 1) % 256) nodes1 s3

/-- The function `esp_i2c_scan`. `root` holds the addresses of the list `*root` points to (`[]`
for `NULL`), also in the result. The results of `os_zalloc` are used unchecked: a
failed allocation has no result (`none`). -/
def esp_i2c_scan (H : Hw σ) (fuel : Nat) (root : List Nat) (s : State σ) :
    Option (esp_i2c_err × List Nat × State σ) :=
  if root ≠ [] then some (ESP_I2C_ERR_ROOT_NOT_NULL, root, s)
  else if (os_zalloc s.w).1 = false then none
  else
    match esp_i2c_scan_loop H fuel 128 1 [0] { s with w := (os_zalloc s.w).2 } with
    | none => none
    | some (nodes, s1) =>
      if nodes.headD 0 = 0 then
        some (ESP_I2C_OK, [], { s1 with w := os_free nodes.length s1.w })
      else some (ESP_I2C_OK, nodes, s1)

end code

end I2C

/-! ## A simulated two-wire bus

Slave devices on the two lines, seen from the pins. Both lines idle high; no slave
stretches the clock. After a start condition (data falls while the clock is high)
the slaves take in the eight bits of the address byte on the rising clock edges; on
the eighth falling clock edge a slave that is addressed pulls the data line low for
the ninth clock pulse, the acknowledge. A stop condition (data rises while the clock
is high) ends the transfer. -/

namespace I2C

/-- What the simulated slaves expect next. -/
inductive SimPhase where
  /-- No transfer. -/
  | idle
  /-- Receiving address bit `n` (counted from the most significant bit), the bits
  received so far being `acc`. -/
  | addr (n acc : Nat)
  /-- Acknowledge slot for the address byte `byte`. -/
  | ack (byte : Nat)
  /-- After the acknowledge slot. -/
  | rest
  deriving DecidableEq

/-- What the master does to a line. -/
inductive LineOp where
  | scl_low
  | scl_release
  | sda_low
  | sda_release
  deriving DecidableEq

/-- The changing part of the simulated bus: `scl_m` and `sda_m` tell whether the
master has released the clock and data line. -/
structure Lines where
  scl_m : Bool
  sda_m : Bool
  phase : SimPhase
  deriving DecidableEq

/-- State of the simulated bus. `acks` tells which address bytes (with their
read/write bit) are acknowledged. -/
structure Sim where
  scl_pin : Nat
  sda_pin : Nat
  acks : Nat → Bool
  lines : Lines

/-- Reaction of the simulated slaves to what the master does to the lines. -/
def line_step (l : Lines) : LineOp → Lines
  | LineOp.scl_low =>
    -- falling clock edge: after the eighth bit comes the acknowledge slot
    if l.scl_m then
      match l.phase with
      | SimPhase.addr n acc =>
        if n = 8 then { l with scl_m := false, phase := SimPhase.ack acc }
        else { l with scl_m := false }
      | SimPhase.ack _ => { l with scl_m := false, phase := SimPhase.rest }
      | _ => { l with scl_m := false }
    else l
  | LineOp.sda_low =>
    -- data driven low: a start condition when the clock is high
    if l.scl_m ∧ l.sda_m then { l with sda_m := false, phase := SimPhase.addr 0 0 }
    else { l with sda_m := false }
  | LineOp.scl_release =>
    -- rising clock edge: the slaves sample the data line
    if l.scl_m = false then
      match l.phase with
      | SimPhase.addr n acc =>
        if n < 8 then
          { l with scl_m := true,
                   phase := SimPhase.addr (n + 1) (2 * acc + (if l.sda_m then 1 else 0)) }
        else { l with scl_m := true }
      | _ => { l with scl_m := true }
    else l
  | LineOp.sda_release =>
    -- data released: a stop condition when the clock is high
    if l.scl_m ∧ l.sda_m = false then { l with sda_m := true, phase := SimPhase.idle }
    else { l with sda_m := true }

/-- A slave pulls the data line low in the acknowledge slot of an address byte that
is acknowledged. -/
def pulls (acks : Nat → Bool) : SimPhase → Bool
  | SimPhase.ack byte => acks byte
  | _ => false

/-- Reaction of the simulated bus to the events of the master: the events on the
clock pin and on the data pin act on the lines. -/
def sim_step (e : Sim) : Ev → Sim
  | Ev.out_en_s pin =>
    if pin = e.scl_pin then { e with lines := line_step e.lines LineOp.scl_low }
    else if pin = e.sda_pin then { e with lines := line_step e.lines LineOp.sda_low }
    else e
  | Ev.out_en_c pin =>
    if pin = e.scl_pin then { e with lines := line_step e.lines LineOp.scl_release }
    else if pin = e.sda_pin then { e with lines := line_step e.lines LineOp.sda_release }
    else e
  | _ => e

/-- Levels on the simulated bus: the clock is high when the master has released it,
the data line is high when neither the master nor a slave pulls it low. -/
def sim_level (e : Sim) (pin : Nat) : Bool :=
  if pin = e.scl_pin then e.lines.scl_m
  else if pin = e.sda_pin then e.lines.sda_m && !pulls e.acks e.lines.phase
  else true

/-- The simulated bus as an environment. -/
def sim_hw : Hw Sim where
  step := sim_step
  level := sim_level

/-- The simulated bus on which exactly the write-mode address bytes of the 7-bit
addresses in `addrs` are acknowledged, before any activity. -/
def sim_init (scl sda : Nat) (addrs : List Nat) : Sim :=
  { scl_pin := scl, sda_pin := sda
    acks := fun b => decide (b % 2 = 0 ∧ b / 2 ∈ addrs)
    lines := { scl_m := true, sda_m := true, phase := SimPhase.idle } }

/-- The two-wire engine initialised on pins `scl` and `sda` of the simulated bus
with the given addresses, with `heap` free nodes. -/
def sim_state (scl sda : Nat) (addrs : List Nat) (heap : Nat) : State Sim :=
  (esp_i2c_init sim_hw scl sda
    (State.boot { env := sim_init scl sda addrs, log := [], heap := heap })).2

/-- The engine is wired to the simulated bus: its pins are the two distinct pins of
the bus, the clock-stretch bound has the value set by `esp_i2c_init`, and the bus
acknowledges the address bytes told by `acks`. None of this changes in a run. -/
structure Wired (acks : Nat → Bool) (s : State Sim) : Prop where
  scl : s.gpio_scl = s.w.env.scl_pin
  sda : s.gpio_sda = s.w.env.sda_pin
  ne : s.w.env.sda_pin ≠ s.w.env.scl_pin
  cs : s.max_cs = 690
  acks : s.w.env.acks = acks

/-- The engine is wired to the simulated bus, is inside (`it = true`) or outside a
transaction, and the lines are in state `l`. -/
structure On (acks : Nat → Bool) (it : Bool) (l : Lines) (s : State Sim) : Prop where
  wired : Wired acks s
  in_trans : s.in_trans = it
  lines : s.w.env.lines = l

/-- The state of the engine wired to the simulated bus, from its parts. -/
def on_sim (ini : Bool) (scl sda : Nat) (it : Bool) (ds dl : Nat) (acks : Nat → Bool)
    (l : Lines) (log : List Ev) (heap : Nat) : State Sim :=
  { initialized := ini, gpio_scl := scl, gpio_sda := sda, in_trans := it, max_cs := 690,
    i2c_delay_short := ds, i2c_delay_long := dl,
    w := { env := { scl_pin := scl, sda_pin := sda, acks := acks, lines := l },
           log := log, heap := heap } }

/-! The effect of the operations of the engine on the lines of the simulated bus. -/

/-- The lines after `esp_i2c_fail_fast`. -/
def lines_fail_fast (l : Lines) : Lines :=
  line_step (line_step l LineOp.scl_release) LineOp.sda_release

/-- The lines after `tick`. -/
def lines_tick (l : Lines) : Lines :=
  line_step (line_step l LineOp.scl_release) LineOp.scl_low

/-- The lines after `write_bit`. -/
def lines_write_bit (bit : Bool) (l : Lines) : Lines :=
  if bit then lines_tick (line_step l LineOp.sda_release)
  else line_step (lines_tick (line_step l LineOp.sda_low)) LineOp.sda_release

/-- The lines after a start condition sent from outside a transaction. -/
def lines_start (l : Lines) : Lines :=
  line_step (line_step (line_step (lines_fail_fast l) LineOp.sda_low) LineOp.scl_low)
    LineOp.sda_release

/-- The lines after a stop condition. -/
def lines_stop (l : Lines) : Lines :=
  line_step (line_step (line_step (line_step l LineOp.sda_low) LineOp.scl_release)
    LineOp.sda_release) LineOp.scl_low

/-- The lines after the eight `write_bit` of `esp_i2c_write_byte`, most significant
bit first. -/
def lines_write_bits (byte : Nat) (l : Lines) : Lines :=
  lines_write_bit ((byte &&& 1) != 0) (lines_write_bit ((byte &&& 2) != 0)
    (lines_write_bit ((byte &&& 4) != 0) (lines_write_bit ((byte &&& 8) != 0)
      (lines_write_bit ((byte &&& 16) != 0) (lines_write_bit ((byte &&& 32) != 0)
        (lines_write_bit ((byte &&& 64) != 0) (lines_write_bit ((byte &&& 128) != 0) l)))))))

/-- The pure part of `scan_record`: where a found address goes in the list. -/
def record (nodes : List Nat) (address : Nat) : List Nat :=
  if nodes.getLastD 0 = 0 then nodes.dropLast ++ [address] else nodes ++ [address]

/-- The addresses, out of the `n` addresses from `a` on, that `esp_i2c_scan` probes
and that are acknowledged. -/
def scan_expect (acks : Nat → Bool) (a n : Nat) : List Nat :=
  (List.range' a n).filter (fun x => !scan_skip x && acks (ESP_I2C_ADDR_WRITE x))

/-- A clock line that the environment holds low for the first `n` polls and leaves
high afterwards, the data line being high: the state is the number of polls of the
clock line made so far. -/
def stretch_hw (scl n : Nat) : Hw Nat where
  step := fun k e =>
    match e with
    | Ev.gpio_in pin _ => if pin = scl then k + 1 else k
    | _ => k
  level := fun k pin => if pin = scl then decide (n ≤ k) else true

/-- A clock line that the environment holds low forever, the data line being high. -/
def stuck_hw (scl : Nat) : Hw Unit where
  step := fun _ _ => ()
  level := fun _ pin => if pin = scl then false else true

end I2C

/-! ## A single-wire bus without devices, and the bitwise CRC -/

namespace OW

/-- A bus on which nothing but the master ever pulls the line of pin `pin` low.
`idle` holds of the states of such a bus and is kept by every event; `released` holds
once the master has released the line, until it drives the line again, and in these
states the line reads high. -/
structure Quiet {σ : Type} (H : Hw σ) (pin : Nat) (idle released : σ → Prop) : Prop where
  step_idle : ∀ x e, idle x → idle (H.step x e)
  release : ∀ x, idle x → released (H.step x (Ev.out_en_c pin))
  released_idle : ∀ x, released x → idle x
  wait : ∀ x us, released x → released (H.step x (Ev.os_delay_us us))
  sample : ∀ x v, released x → released (H.step x (Ev.gpio_in pin v))
  high : ∀ x, released x → H.level x pin = true

/-- One step of the bitwise CRC: the value is shifted right by one bit, and XORed
with `0x8C` when the bit shifted out is 1. -/
def crc8_bitwise_step (x : Nat) : Nat :=
  if x % 2 = 1 then (x >>> 1) ^^^ 0x8C else x >>> 1

/-- The bitwise Dallas/Maxim CRC8 update (polynomial `x^8 + x^5 + x^4 + 1`, reflected):
eight steps from the running CRC XORed with the next byte. -/
def crc8_bitwise (c v : Nat) : Nat :=
  Nat.iterate crc8_bitwise_step 8 (c ^^^ v)

end OW

/-! ## The public functions of the two-wire engine, and what they do to the lines -/

namespace I2C

open esp_i2c_err

/-- The public functions of `esp_i2c.c` that work on the bus state, with their
arguments. For the functions that return through a pointer, the argument holds the
content of the target at the call. -/
inductive Op where
  | init (scl_gpio_num sda_gpio_num : Nat)
  | set_speed (speed : Nat)
  | start
  | stop
  | fail_fast (err : esp_i2c_err)
  | write_byte (byte : Nat) (ack_resp : Bool)
  | read_byte (dst : Nat) (ack_type : Bool)
  | write_bytes (buf : List Nat)
  | read_bytes (buf : List Nat) (len : Nat)
  | start_read_write (address : Nat) (stop_on_nack : Bool)
  | start_write (address reg : Nat)
  | start_read (address reg : Nat)
  | scan (root : List Nat)

/-- The functions that send a start condition. -/
def Op.starts : Op → Bool
  | Op.start => true
  | Op.start_read_write _ _ => true
  | Op.start_write _ _ => true
  | Op.start_read _ _ => true
  | _ => false

section run
variable {σ : Type}

/-- One call of a public function: the error code it returns (`none` for
`esp_i2c_set_speed`, which returns nothing) and the bus state it leaves. The outer
`none` is a call that does not return. -/
def Op.run (H : Hw σ) (fuel : Nat) : Op → State σ → Option (Option esp_i2c_err × State σ)
  | Op.init scl sda, s => some (some (esp_i2c_init H scl sda s).1, (esp_i2c_init H scl sda s).2)
  | Op.set_speed speed, s => some (none, esp_i2c_set_speed speed s)
  | Op.start, s => (esp_i2c_start H fuel s).map (fun r => (some r.1, r.2))
  | Op.stop, s => (esp_i2c_stop H fuel s).map (fun r => (some r.1, r.2))
  | Op.fail_fast err, s =>
    some (some (esp_i2c_fail_fast H err s).1, (esp_i2c_fail_fast H err s).2)
  | Op.write_byte byte ack_resp, s =>
    (esp_i2c_write_byte H fuel byte ack_resp s).map (fun r => (some r.1, r.2.2))
  | Op.read_byte dst ack_type, s =>
    (esp_i2c_read_byte H fuel dst ack_type s).map (fun r => (some r.1, r.2.2))
  | Op.write_bytes buf, s => (esp_i2c_write_bytes H fuel buf s).map (fun r => (some r.1, r.2))
  | Op.read_bytes buf len, s =>
    (esp_i2c_read_bytes H fuel buf len s).map (fun r => (some r.1, r.2.2))
  | Op.start_read_write address stop_on_nack, s =>
    (esp_i2c_start_read_write H fuel address stop_on_nack s).map (fun r => (some r.1, r.2))
  | Op.start_write address reg, s =>
    (esp_i2c_start_write H fuel address reg s).map (fun r => (some r.1, r.2))
  | Op.start_read address reg, s =>
    (esp_i2c_start_read H fuel address reg s).map (fun r => (some r.1, r.2))
  | Op.scan root, s => (esp_i2c_scan H fuel root s).map (fun r => (some r.1, r.2.2))

end run

/-- The last thing the master did to the line of pin `pin`, from the log (most recent
event first): `some true` when it released the line, `some false` when it drove the
line low, `none` when it never touched the line. -/
def last_pin_action (pin : Nat) : List Ev → Option Bool
  | [] => none
  | Ev.out_en_c p :: log => if p = pin then some true else last_pin_action pin log
  | Ev.out_en_s p :: log => if p = pin then some false else last_pin_action pin log
  | _ :: log => last_pin_action pin log

/-- The bus is left idle: the engine is outside a transaction, and the last thing it
did to the clock line and to the data line was to release it. -/
def Idle {σ : Type} (s : State σ) : Prop :=
  s.in_trans = false ∧ last_pin_action s.gpio_scl s.w.log = some true ∧
    last_pin_action s.gpio_sda s.w.log = some true

/-- What a log tells about the lines: the events that drive or release a line and
the samples of the data line; delays and samples of other pins are left out. -/
def bus_trace (sda : Nat) (log : List Ev) : List Ev :=
  log.filter (fun e =>
    match e with
    | Ev.out_en_s _ => true
    | Ev.out_en_c _ => true
    | Ev.gpio_in p _ => p == sda
    | _ => false)

/-- One bit on the lines, in the order of time: the data line is released for a 1 and
driven low for a 0, then comes one clock pulse, and after a 0 the data line is
released. -/
def bit_frame (scl sda : Nat) (bit : Bool) : List Ev :=
  if bit then [Ev.out_en_c sda, Ev.out_en_c scl, Ev.out_en_s scl]
  else [Ev.out_en_s sda, Ev.out_en_c scl, Ev.out_en_s scl, Ev.out_en_c sda]

/-- One byte on the lines, in the order of time: the eight bits from bit 7 down to
bit 0, then a ninth clock pulse in which the data line is sampled as `ack`. -/
def byte_frame (scl sda byte : Nat) (ack : Bool) : List Ev :=
  ((List.range 8).map (fun i => byte.testBit (7 - i))).flatMap (bit_frame scl sda) ++
    [Ev.out_en_c scl, Ev.gpio_in sda ack, Ev.out_en_s scl]

/-- The static variables other than `in_trans` are the same in both states, the heap
is the same, and the log of the second state is `new` in front of the log of the
first. -/
structure Ext {σ : Type} (s s1 : State σ) (new : List Ev) : Prop where
  initialized : s1.initialized = s.initialized
  gpio_scl : s1.gpio_scl = s.gpio_scl
  gpio_sda : s1.gpio_sda = s.gpio_sda
  max_cs : s1.max_cs = s.max_cs
  i2c_delay_short : s1.i2c_delay_short = s.i2c_delay_short
  i2c_delay_long : s1.i2c_delay_long = s.i2c_delay_long
  heap : s1.w.heap = s.w.heap
  log : s1.w.log = new ++ s.w.log

end I2C

/-! ## Frames on the two lines, and buses without clock-stretch timeout -/

namespace I2C

/-- One clock pulse in which the data line is sampled as `v`, in the order of time. -/
def read_frame (scl sda : Nat) (v : Bool) : List Ev :=
  [Ev.out_en_c scl, Ev.gpio_in sda v, Ev.out_en_s scl]

/-- The number with the given binary digits, most significant digit first. -/
def byte_of_bits (bits : List Bool) : Nat :=
  bits.foldl (fun acc b => 2 * acc + (if b then 1 else 0)) 0

/-- One byte read from the lines, in the order of time: a clock pulse with a sample
of the data line for each of `bits`, then the bit `ack` written by the master. -/
def read_byte_frame (scl sda : Nat) (bits : List Bool) (ack : Bool) : List Ev :=
  bits.flatMap (read_frame scl sda) ++ bit_frame scl sda ack

/-- Several bytes read from the lines, in the order of time: the master writes
`ESP_I2C_NACK` after the last byte and `ESP_I2C_ACK` after each of the others. -/
def read_bytes_frame (scl sda : Nat) : List (List Bool) → List Ev
  | [] => []
  | bits :: rest =>
    read_byte_frame scl sda bits (if rest.isEmpty then ESP_I2C_NACK else ESP_I2C_ACK) ++
      read_bytes_frame scl sda rest

/-- A bus on which no clock-stretch wait of the master times out. `inv` holds of the
states of the bus and is kept by every event; `rel` holds from the release of the
clock line by the master until the master drives the clock low again; in a state
where `rel` holds the clock-stretch wait of an engine with clock pin `scl` and bound
`max_cs` ends within `fuel` polls, with a count other than the bound. -/
structure NoTimeout {σ : Type} (H : Hw σ) (fuel scl max_cs : Nat) (inv rel : σ → Prop) :
    Prop where
  step : ∀ x e, inv x → inv (H.step x e)
  release : ∀ x, inv x → rel (H.step x (Ev.out_en_c scl))
  keep : ∀ x e, rel x → e ≠ Ev.out_en_s scl → rel (H.step x e)
  rel_inv : ∀ x, rel x → inv x
  wait : ∀ t : State σ, rel t.w.env → t.gpio_scl = scl → t.max_cs = max_cs →
    ∃ idx t1, chk_cs H fuel 0 t = some (idx, t1) ∧ idx ≠ max_cs

/-- The engine with clock pin `scl` and clock-stretch bound `max_cs` on a bus in a
state where `inv` holds. -/
def Good {σ : Type} (inv : σ → Prop) (scl max_cs : Nat) (s : State σ) : Prop :=
  inv s.w.env ∧ s.gpio_scl = scl ∧ s.max_cs = max_cs

end I2C

/-! ## Slots on the single wire, and the record of a search pass -/

namespace OW

/-- One write slot carrying `bit`, in the order of time: the line is driven low, for
5 units for a 1 and for 55 units for a 0, then released for the rest of the 60
units. -/
def write_slot (pin : Nat) (bit : Bool) : List Ev :=
  [Ev.out_en_s pin, Ev.os_delay_us (if bit then 5 else 55), Ev.out_en_c pin,
    Ev.os_delay_us (if bit then 55 else 5)]

/-- One read slot in which the line is sampled as `v`, in the order of time. -/
def read_slot (pin : Nat) (v : Bool) : List Ev :=
  [Ev.out_en_s pin, Ev.os_delay_us 2, Ev.out_en_c pin, Ev.os_delay_us 5, Ev.gpio_in pin v,
    Ev.os_delay_us 53]

/-- The eight bits of a byte, least significant bit first. -/
def bits_lsb (byte : Nat) : List Bool :=
  (List.range 8).map byte.testBit

/-- One poll for the presence pulse, in the order of time: a wait of 5 units and a
sample of the line. -/
def poll_frame (pin : Nat) (v : Bool) : List Ev :=
  [Ev.os_delay_us 5, Ev.gpio_in pin v]

/-- The time spent in `os_delay_us` by a sequence of events. -/
def total_delay (l : List Ev) : Nat :=
  (l.map (fun e => match e with
    | Ev.os_delay_us us => us
    | _ => 0)).sum

/-- What one iteration of the loop of `search` does on the line, in the order of time:
a read slot for the bit, a read slot for the complement, a write slot for the
direction. -/
def step_frame (pin : Nat) (s : Bool × Bool × Bool) : List Ev :=
  read_slot pin s.1 ++ read_slot pin s.2.1 ++ write_slot pin s.2.2

section steps
variable {σ : Type}

/-- The record of the loop of `search`, a second reading of `search_loop`: for each
iteration that does not leave by the early return, the bit read, the complement
read and the direction written, in the order of the iterations. -/
def search_steps (H : Hw σ) (gpio_num prev_dis : Nat) :
    Nat → SearchVars → World σ → List (Bool × Bool × Bool)
  | 0, _, _ => []
  | n + 1, v, w =>
    match search_body H gpio_num prev_dis v w with
    | (none, _) => []
    | (some v1, w1) =>
      ((esp_ow_read_bit H gpio_num w).1,
        (esp_ow_read_bit H gpio_num (esp_ow_read_bit H gpio_num w).2).1,
        search_dir prev_dis v (esp_ow_read_bit H gpio_num w).1
          (esp_ow_read_bit H gpio_num (esp_ow_read_bit H gpio_num w).2).1) ::
        (if v1.rom_byte_idx < 8 then search_steps H gpio_num prev_dis n v1 w1 else [])

/-- The record of one pass of `search`: empty when the reset finds no presence pulse,
otherwise the record of the loop, entered after the reset and the command byte. -/
def search_pass_steps (H : Hw σ) (gpio_num sch_type : Nat) (prev_search : esp_ow_device)
    (prev_dis : Nat) (w : World σ) : List (Bool × Bool × Bool) :=
  if (esp_ow_reset H gpio_num w).1 = false then []
  else
    search_steps H gpio_num prev_dis 64 (search_vars0 prev_search.rom)
      (esp_ow_write H gpio_num sch_type (esp_ow_reset H gpio_num w).2)

end steps

end OW

/-! ## Pin actions, and a bus with the data line held low -/

namespace I2C

/-- What the master did to the pins, from a log: the events that drive or release a
line. -/
def pin_actions (log : List Ev) : List Ev :=
  log.filter (fun e =>
    match e with
    | Ev.out_en_s _ => true
    | Ev.out_en_c _ => true
    | _ => false)

/-- A bus on which the data line reads low whatever the master does, and every other
line reads high: every start condition loses the arbitration. -/
def arb_hw (sda : Nat) : Hw Unit where
  step := fun _ _ => ()
  level := fun _ pin => decide (pin ≠ sda)

end I2C

/-! ## Facts about the CRC table -/

namespace OW

theorem crc_lookup_getD_lt (x : Nat) : crc_lookup.getD x 0 < 256 := by
  by_cases hx : x < 256
  · revert x
    decide
  · rw [List.getD_eq_default]
    · norm_num
    · have hl : crc_lookup.length = 256 := by decide
      omega

theorem crc_lookup_eq_zero : ∀ x, x < 256 → crc_lookup.getD x 0 = 0 → x = 0 := by
  decide

theorem esp_ow_crc8_lt (c v : Nat) : esp_ow_crc8 c v < 256 :=
  crc_lookup_getD_lt _

theorem esp_ow_crc8_eq_zero {c v : Nat} (hc : c < 256) (hv : v < 256)
    (h : esp_ow_crc8 c v = 0) : c = v := by
  have hx : c ^^^ v < 2 ^ 8 := Nat.xor_lt_two_pow hc hv
  have h0 : c ^^^ v = 0 := crc_lookup_eq_zero _ hx h
  exact Nat.xor_eq_zero.mp h0

theorem crc_fold_append_singleton (l : List Nat) (x : Nat) :
    crc_fold (l ++ [x]) = esp_ow_crc8 (crc_fold l) x := by
  simp [crc_fold, List.foldl_append]

theorem crc_fold_lt (l : List Nat) : crc_fold l < 256 := by
  induction l using List.reverseRecOn with
  | nil => simp [crc_fold]
  | append_singleton l x _ =>
    rw [crc_fold_append_singleton]
    exact esp_ow_crc8_lt _ _

end OW

/-! ## ROM bits -/

namespace OW

/-- Reading back a ROM bit after an iteration of `search` has stored direction `d`
at bit `k`: bit `k` is `d`, every other bit is as before. -/
theorem rom_bit_store (l : List Nat) (hl : l.length = 8) (k j : Nat) (hk : k < 64) (d : Bool) :
    rom_bit (l.set (k / 8)
        (if d then l.getD (k / 8) 0 ||| 2 ^ (k % 8)
         else l.getD (k / 8) 0 &&& (255 ^^^ 2 ^ (k % 8)))) j =
      if j = k then d else rom_bit l j := by
  have hk8 : k / 8 < l.length := by omega
  unfold rom_bit
  by_cases hq : j / 8 = k / 8
  · rw [hq, List.getD_eq_getElem?_getD, List.getElem?_set_self hk8, Option.getD_some]
    have h255 : ∀ t, t < 8 → (255 : Nat).testBit t = true := by decide
    have ht := h255 (j % 8) (Nat.mod_lt _ (by norm_num))
    by_cases hjk : j = k
    · subst hjk
      cases d <;> simp [Nat.testBit_two_pow, ht]
    · have hne : k % 8 ≠ j % 8 := by omega
      rw [if_neg hjk]
      cases d <;> simp [Nat.testBit_two_pow, ht, hne]
  · have hjk : j ≠ k := fun h => hq (by rw [h])
    rw [if_neg hjk, List.getD_eq_getElem?_getD, List.getElem?_set_ne (Ne.symm hq),
      ← List.getD_eq_getElem?_getD]

/-- Two well-formed ROMs with the same 64 bits are equal. -/
theorem rom_ext {a b : List Nat} (ha : a.length = 8) (hb : b.length = 8)
    (hab : ∀ x ∈ a, x < 256) (hbb : ∀ x ∈ b, x < 256)
    (h : ∀ j, j < 64 → rom_bit a j = rom_bit b j) : a = b := by
  apply List.ext_getElem (by rw [ha, hb])
  intro i h1 h2
  apply Nat.eq_of_testBit_eq
  intro t
  by_cases ht : t < 8
  · have := h (8 * i + t) (by omega)
    unfold rom_bit at this
    have hd : (8 * i + t) / 8 = i := by omega
    have hm : (8 * i + t) % 8 = t := by omega
    rw [hd, hm, List.getD_eq_getElem _ _ h1, List.getD_eq_getElem _ _ h2] at this
    exact this
  · have hp : (2 : Nat) ^ 8 ≤ 2 ^ t := Nat.pow_le_pow_right (by norm_num) (by omega)
    have h256 : (2 : Nat) ^ 8 = 256 := by norm_num
    have e1 : a[i] < 2 ^ t := by
      have := hab _ (List.getElem_mem h1)
      omega
    have e2 : b[i] < 2 ^ t := by
      have := hbb _ (List.getElem_mem h2)
      omega
    rw [Nat.testBit_lt_two_pow e1, Nat.testBit_lt_two_pow e2]

theorem rom_bit_zero (j : Nat) : rom_bit (List.replicate 8 0) j = false := by
  unfold rom_bit
  rw [List.getD_eq_getElem?_getD, List.getElem?_replicate]
  split <;> simp

end OW

/-! ## The loop of `search` on an arbitrary bus -/

namespace OW

section generic
variable {σ : Type}

/-- The byte that an iteration of `search` stores at `rom_byte_idx`. -/
theorem search_update_prev_adr (pd : Nat) (v : SearchVars) (bit com : Bool) :
    (search_update pd v bit com).prev_adr =
      v.prev_adr.set v.rom_byte_idx
        (if search_dir pd v bit com then
          v.prev_adr.getD v.rom_byte_idx 0 ||| v.rom_byte_mask
         else v.prev_adr.getD v.rom_byte_idx 0 &&& (255 ^^^ v.rom_byte_mask)) := by
  unfold search_update
  dsimp only
  split <;> rfl

theorem search_update_rom_bit_idx (pd : Nat) (v : SearchVars) (bit com : Bool) :
    (search_update pd v bit com).rom_bit_idx = (v.rom_bit_idx + 1) % 256 := by
  unfold search_update
  dsimp only
  split <;> rfl

theorem search_update_rom_byte_idx (pd : Nat) (v : SearchVars) (bit com : Bool) :
    (search_update pd v bit com).rom_byte_idx =
      if (v.rom_byte_mask <<< 1) % 256 = 0 then (v.rom_byte_idx + 1) % 256
      else v.rom_byte_idx := by
  unfold search_update
  dsimp only
  split <;> rfl

theorem search_update_rom_byte_mask (pd : Nat) (v : SearchVars) (bit com : Bool) :
    (search_update pd v bit com).rom_byte_mask =
      if (v.rom_byte_mask <<< 1) % 256 = 0 then 1 else (v.rom_byte_mask <<< 1) % 256 := by
  unfold search_update
  dsimp only
  split <;> rfl

theorem search_update_crc (pd : Nat) (v : SearchVars) (bit com : Bool) :
    (search_update pd v bit com).crc =
      if (v.rom_byte_mask <<< 1) % 256 = 0 then
        esp_ow_crc8 v.crc ((search_update pd v bit com).prev_adr.getD v.rom_byte_idx 0)
      else v.crc := by
  unfold search_update
  dsimp only
  split <;> rfl

theorem search_update_found_dis (pd : Nat) (v : SearchVars) (bit com : Bool) :
    (search_update pd v bit com).found_dis =
      if (bit = false ∧ com = false) ∧ search_dir pd v bit com = false then v.rom_bit_idx
      else v.found_dis := by
  unfold search_update
  dsimp only
  split <;> rfl

theorem search_update_one_count (pd : Nat) (v : SearchVars) (bit com : Bool) :
    (search_update pd v bit com).one_count =
      if search_dir pd v bit com then (v.one_count + 1) % 256 else v.one_count := by
  unfold search_update
  dsimp only
  split <;> rfl

/-- Shifting the byte mask: it leaves the byte exactly at bit 7. -/
theorem mask_shift (r : Nat) (hr : r < 8) :
    ((2 ^ r) <<< 1) % 256 = if r = 7 then 0 else 2 ^ (r + 1) := by
  interval_cases r <;> decide

theorem set_byte_lt {l : List Nat} (hl : ∀ b ∈ l, b < 256) (i x : Nat) (hx : x < 256) :
    ∀ b ∈ l.set i x, b < 256 := by
  intro b hb
  rcases List.mem_or_eq_of_mem_set hb with h | h
  · exact hl b h
  · exact h ▸ hx

theorem getD_lt {l : List Nat} (hl : ∀ b ∈ l, b < 256) (i : Nat) : l.getD i 0 < 256 := by
  by_cases hi : i < l.length
  · rw [List.getD_eq_getElem _ _ hi]
    exact hl _ (List.getElem_mem _)
  · rw [List.getD_eq_default _ _ (by omega)]
    norm_num

theorem stored_byte_lt (b m : Nat) (d : Bool) (hb : b < 256) (hm : m < 256) :
    (if d then b ||| m else b &&& (255 ^^^ m)) < 256 := by
  split
  · exact Nat.or_lt_two_pow (n := 8) hb hm
  · exact lt_of_le_of_lt Nat.and_le_left hb

/-- The ROM bits after one iteration of `search`: bit `k` holds the direction, the
other bits are untouched. -/
theorem search_update_rom_bit {k : Nat} {v : SearchVars} (pd : Nat) (bit com : Bool)
    (h : SearchInv k v) (hk : k < 64) (j : Nat) :
    rom_bit (search_update pd v bit com).prev_adr j =
      if j = k then search_dir pd v bit com else rom_bit v.prev_adr j := by
  rw [search_update_prev_adr, h.byte_idx, h.mask]
  exact rom_bit_store _ h.len k j hk _

/-- One iteration of `search` keeps the loop invariant. -/
theorem SearchInv.update {k : Nat} {v : SearchVars} (pd : Nat) (bit com : Bool)
    (h : SearchInv k v) (hk : k < 64) : SearchInv (k + 1) (search_update pd v bit com) := by
  have hbits := search_update_rom_bit pd bit com h hk
  obtain ⟨hbi, hbit, hmask, hlen, hbytes, hcrc, hole, hoz⟩ := h
  have hr : k % 8 < 8 := Nat.mod_lt _ (by norm_num)
  have hmlt : v.rom_byte_mask < 256 := by
    rw [hmask]
    calc 2 ^ (k % 8) ≤ 2 ^ 7 := Nat.pow_le_pow_right (by norm_num) (by omega)
      _ < 256 := by norm_num
  have hshift := mask_shift (k % 8) hr
  rw [← hmask] at hshift
  have hlen' : (search_update pd v bit com).prev_adr.length = 8 := by
    rw [search_update_prev_adr, List.length_set, hlen]
  have htake : (search_update pd v bit com).prev_adr.take (k / 8) = v.prev_adr.take (k / 8) := by
    rw [search_update_prev_adr, hbi, List.set_take,
      List.set_eq_of_length_le (List.length_take_le _ _)]
  refine ⟨?_, ?_, ?_, hlen', ?_, ?_, ?_, ?_⟩
  · rw [search_update_rom_byte_idx, hshift, hbi]
    by_cases h7 : k % 8 = 7
    · have hne : (2 : Nat) ^ (k % 8 + 1) ≠ 0 := by positivity
      simp only [h7, if_true]
      omega
    · have hne : (2 : Nat) ^ (k % 8 + 1) ≠ 0 := by positivity
      simp only [h7, if_false, hne]
      omega
  · rw [search_update_rom_bit_idx, hbit]
    omega
  · rw [search_update_rom_byte_mask, hshift]
    by_cases h7 : k % 8 = 7
    · have : (k + 1) % 8 = 0 := by omega
      simp [h7, this]
    · have : (k + 1) % 8 = k % 8 + 1 := by omega
      simp only [h7, if_false, this]
      split
      · rename_i h0
        exact absurd h0 (by positivity)
      · rfl
  · rw [search_update_prev_adr]
    exact set_byte_lt hbytes _ _ (stored_byte_lt _ _ _ (getD_lt hbytes _) hmlt)
  · rw [search_update_crc, hshift]
    by_cases h7 : k % 8 = 7
    · have hdiv : (k + 1) / 8 = k / 8 + 1 := by omega
      have hlt : k / 8 < (search_update pd v bit com).prev_adr.length := by
        rw [hlen']
        omega
      simp only [h7, if_true, hdiv]
      rw [List.take_succ, List.getElem?_eq_getElem hlt, Option.toList_some,
        crc_fold_append_singleton, htake, ← hcrc, hbi, List.getD_eq_getElem _ _ hlt]
    · have hdiv : (k + 1) / 8 = k / 8 := by omega
      simp only [h7, if_false, hdiv]
      rw [htake, hcrc]
      split
      · rename_i h0
        exact absurd h0 (by positivity)
      · rfl
  · rw [search_update_one_count]
    split
    · omega
    · omega
  · rw [search_update_one_count]
    constructor
    · intro h0 j hj
      rw [hbits]
      cases hd : search_dir pd v bit com
      · rw [hd] at h0
        simp only [Bool.false_eq_true, if_false] at h0
        split
        · rfl
        · exact hoz.mp h0 j (by omega)
      · rw [hd] at h0
        simp only [if_true] at h0
        omega
    · intro hall
      have hk0 := hall k (by omega)
      rw [hbits, if_pos rfl] at hk0
      rw [hk0]
      simp only [Bool.false_eq_true, if_false]
      apply hoz.mpr
      intro j hj
      have := hall j (by omega)
      rw [hbits, if_neg (by omega)] at this
      exact this

end generic

end OW

namespace OW

open esp_ow_err

section generic
variable {σ : Type}

theorem search_vars0_inv {rom : List Nat} (hl : rom.length = 8) (hb : ∀ b ∈ rom, b < 256) :
    SearchInv 0 (search_vars0 rom) :=
  ⟨rfl, rfl, rfl, hl, hb, rfl, Nat.le_refl _, by simp [search_vars0]⟩

/-- What one iteration of `search` returns, by the two bits read. -/
theorem search_body_eq (H : Hw σ) (gpio_num pd : Nat) (v : SearchVars) (w : World σ) :
    search_body H gpio_num pd v w =
      if (esp_ow_read_bit H gpio_num w).1 = true ∧
          (esp_ow_read_bit H gpio_num (esp_ow_read_bit H gpio_num w).2).1 = true then
        (none, (esp_ow_read_bit H gpio_num (esp_ow_read_bit H gpio_num w).2).2)
      else
        (some (search_update pd v (esp_ow_read_bit H gpio_num w).1
            (esp_ow_read_bit H gpio_num (esp_ow_read_bit H gpio_num w).2).1),
          esp_ow_write_bit H gpio_num
            (search_dir pd v (esp_ow_read_bit H gpio_num w).1
              (esp_ow_read_bit H gpio_num (esp_ow_read_bit H gpio_num w).2).1)
            (esp_ow_read_bit H gpio_num (esp_ow_read_bit H gpio_num w).2).2) :=
  rfl

/-- Every iteration of `search` either leaves by the early return or yields the
updated variables. -/
theorem search_body_cases (H : Hw σ) (gpio_num pd : Nat) (v : SearchVars) (w : World σ) :
    (∃ w1, search_body H gpio_num pd v w = (none, w1)) ∨
    (∃ bit com w1, search_body H gpio_num pd v w = (some (search_update pd v bit com), w1)) := by
  rw [search_body_eq]
  split
  · exact Or.inl ⟨_, rfl⟩
  · exact Or.inr ⟨_, _, _, rfl⟩

/-- The loop of `search` on any bus: the ROM keeps its 8 bytes, and when the loop
runs to its end the invariant holds at bit 64. -/
theorem search_loop_inv (H : Hw σ) (gpio_num pd : Nat) :
    ∀ (n k : Nat) (v : SearchVars) (w : World σ) (b : Bool) (v1 : SearchVars) (w1 : World σ),
      SearchInv k v → k < 64 →
      search_loop H gpio_num pd n v w = some (b, v1, w1) →
      (v1.prev_adr.length = 8 ∧ ∀ x ∈ v1.prev_adr, x < 256) ∧ (b = true → SearchInv 64 v1) := by
  intro n
  induction n with
  | zero =>
    intro k v w b v1 w1 _ _ h
    simp [search_loop] at h
  | succ n ih =>
    intro k v w b v1 w1 hinv hk h
    rw [search_loop] at h
    rcases search_body_cases H gpio_num pd v w with ⟨w2, hb⟩ | ⟨bit, com, w2, hb⟩
    · rw [hb] at h
      simp only [Option.some.injEq, Prod.mk.injEq] at h
      obtain ⟨rfl, rfl, rfl⟩ := h
      exact ⟨⟨hinv.len, hinv.bytes⟩, by simp⟩
    · rw [hb] at h
      have hinv1 := hinv.update pd bit com hk
      dsimp only at h
      split at h
      · rename_i hlt
        rw [hinv1.byte_idx] at hlt
        exact ih (k + 1) _ _ _ _ _ hinv1 (by omega) h
      · rename_i hge
        rw [hinv1.byte_idx] at hge
        have hk1 : k + 1 = 64 := by omega
        simp only [Option.some.injEq, Prod.mk.injEq] at h
        obtain ⟨rfl, rfl, rfl⟩ := h
        rw [hk1] at hinv1
        exact ⟨⟨hinv1.len, hinv1.bytes⟩, fun _ => hinv1⟩

/-- The loop of `search` ends within `64 - k` iterations. -/
theorem search_loop_isSome (H : Hw σ) (gpio_num pd : Nat) :
    ∀ (n k : Nat) (v : SearchVars) (w : World σ),
      SearchInv k v → k < 64 → 64 ≤ k + n →
      (search_loop H gpio_num pd n v w).isSome = true := by
  intro n
  induction n with
  | zero =>
    intro k v w _ hk hn
    omega
  | succ n ih =>
    intro k v w hinv hk hn
    rw [search_loop]
    rcases search_body_cases H gpio_num pd v w with ⟨w2, hb⟩ | ⟨bit, com, w2, hb⟩
    · rw [hb]
      rfl
    · rw [hb]
      have hinv1 := hinv.update pd bit com hk
      dsimp only
      split
      · rename_i hlt
        rw [hinv1.byte_idx] at hlt
        exact ih (k + 1) _ _ hinv1 (by omega) (by omega)
      · rfl

/-- The static function `search` always returns: its loop never exhausts the bound. -/
theorem search_returns (H : Hw σ) (gpio_num sch_type : Nat) (dev : esp_ow_device)
    (pd : Nat) (il : Bool) (w : World σ)
    (hl : dev.rom.length = 8) (hb : ∀ b ∈ dev.rom, b < 256) :
    (search H gpio_num sch_type dev pd il w).isSome = true := by
  unfold search
  dsimp only
  split
  · rfl
  · have hs := search_loop_isSome H gpio_num pd 64 0 (search_vars0 dev.rom)
      (esp_ow_write H gpio_num sch_type (esp_ow_reset H gpio_num w).2)
      (search_vars0_inv hl hb) (by norm_num) (by norm_num)
    change (search_loop H gpio_num pd 64 (search_vars0 dev.rom) _).isSome = true at hs
    split
    · rename_i hnone
      rw [search_vars0] at hs
      rw [hnone] at hs
      exact absurd hs (by simp)
    · rfl
    · split
      · split <;> rfl
      · split <;> rfl

/-- A ROM whose running CRC over all 8 bytes is 0 is CRC-valid. -/
theorem rom_crc_ok_of_fold {rom : List Nat} (hl : rom.length = 8) (hb : ∀ b ∈ rom, b < 256)
    (h : crc_fold (rom.take 8) = 0) : rom_crc_ok rom := by
  have h7 : 7 < rom.length := by omega
  rw [List.take_succ, List.getElem?_eq_getElem h7, Option.toList_some,
    crc_fold_append_singleton] at h
  have := esp_ow_crc8_eq_zero (crc_fold_lt _) (hb _ (List.getElem_mem h7)) h
  unfold rom_crc_ok
  rw [List.getD_eq_getElem _ _ h7]
  exact this.symm

/-- One pass of `search` on any bus keeps the ROM well formed, and a pass that
returns `ESP_OW_OK` leaves a CRC-valid ROM in the node. -/
theorem search_ok_crc (H : Hw σ) (gpio_num sch_type : Nat) (dev : esp_ow_device)
    (pd : Nat) (il : Bool) (w : World σ) (o : SearchOut σ)
    (hl : dev.rom.length = 8) (hb : ∀ b ∈ dev.rom, b < 256)
    (h : search H gpio_num sch_type dev pd il w = some o) :
    (o.dev.rom.length = 8 ∧ ∀ b ∈ o.dev.rom, b < 256) ∧
      (o.err = ESP_OW_OK → rom_crc_ok o.dev.rom) := by
  unfold search at h
  dsimp only at h
  split at h
  · simp only [Option.some.injEq] at h
    subst h
    exact ⟨⟨hl, hb⟩, by simp⟩
  · split at h
    · exact absurd h (by simp)
    · rename_i v w2 hloop
      have hi := search_loop_inv H gpio_num pd 64 0 _ _ _ _ _ (search_vars0_inv hl hb)
        (by norm_num) hloop
      simp only [Option.some.injEq] at h
      subst h
      exact ⟨hi.1, by simp⟩
    · rename_i v w2 hloop
      have hi := search_loop_inv H gpio_num pd 64 0 _ _ _ _ _ (search_vars0_inv hl hb)
        (by norm_num) hloop
      have h64 := hi.2 rfl
      split at h
      · rename_i hc
        split at h
        · simp only [Option.some.injEq] at h
          subst h
          exact ⟨hi.1, by simp⟩
        · simp only [Option.some.injEq] at h
          subst h
          refine ⟨hi.1, fun _ => rom_crc_ok_of_fold hi.1.1 hi.1.2 ?_⟩
          have := h64.crc
          rw [hc.2] at this
          exact this.symm
      · split at h
        · simp only [Option.some.injEq] at h
          subst h
          exact ⟨hi.1, by simp⟩
        · simp only [Option.some.injEq] at h
          subst h
          exact ⟨hi.1, by simp⟩

/-- The pass loop of `esp_ow_search` on any bus: when it ends with `ESP_OW_OK`,
every node of the list holds a CRC-valid ROM. -/
theorem esp_ow_search_loop_crc (H : Hw σ) (gpio_num sch_type : Nat) :
    ∀ (n : Nat) (nodes : List esp_ow_device) (dev : esp_ow_device) (pd : Nat) (il : Bool)
      (w : World σ) (out : List esp_ow_device) (w1 : World σ),
      (∀ d ∈ nodes, rom_crc_ok d.rom) →
      dev.rom.length = 8 → (∀ b ∈ dev.rom, b < 256) →
      esp_ow_search_loop H gpio_num sch_type n nodes dev pd il w = some (ESP_OW_OK, out, w1) →
      ∀ d ∈ out, rom_crc_ok d.rom := by
  intro n
  induction n with
  | zero =>
    intro nodes dev pd il w out w1 _ _ _ h
    simp [esp_ow_search_loop] at h
  | succ n ih =>
    intro nodes dev pd il w out w1 hnodes hl hb h
    rw [esp_ow_search_loop] at h
    split at h
    · exact absurd h (by simp)
    · rename_i o hs
      have ho := search_ok_crc H gpio_num sch_type dev pd il w o hl hb hs
      split at h
      · rename_i hc
        have hnodes1 : ∀ d ∈ nodes ++ [o.dev], rom_crc_ok d.rom := by
          intro d hd
          rcases List.mem_append.mp hd with hd | hd
          · exact hnodes d hd
          · rw [List.mem_singleton.mp hd]
            exact ho.2 hc.1
        split at h
        · simp at h
        · rename_i new_node w2 hadd
          have hrom : new_node.rom = o.dev.rom := by
            unfold add_device at hadd
            dsimp only at hadd
            split at hadd
            · simp at hadd
            · simp only [Prod.mk.injEq, Option.some.injEq] at hadd
              rw [← hadd.1]
          exact ih _ _ _ _ _ _ _ hnodes1 (hrom ▸ ho.1.1) (hrom ▸ ho.1.2) h
      · simp only [Option.some.injEq, Prod.mk.injEq] at h
        obtain ⟨he, rfl, rfl⟩ := h
        intro d hd
        rcases List.mem_append.mp hd with hd | hd
        · exact hnodes d hd
        · rw [List.mem_singleton.mp hd]
          exact ho.2 he

end generic

end OW

/-! ## The single-wire code on the simulated bus -/

namespace OW

open esp_ow_err

/-- A reset on the simulated bus with at least one device sees the presence pulse;
afterwards all devices are active and expect a command. -/
theorem sim_reset (g : Nat) (w : World Sim) (hd : w.env.devices ≠ []) :
    (esp_ow_reset sim_hw g w).1 = true ∧
    (esp_ow_reset sim_hw g w).2.env.devices = w.env.devices ∧
    (esp_ow_reset sim_hw g w).2.env.active = w.env.devices ∧
    (esp_ow_reset sim_hw g w).2.env.phase = SimPhase.cmd 0 0 ∧
    (esp_ow_reset sim_hw g w).2.heap = w.heap := by
  obtain ⟨⟨devices, active, phase, ml, lf, out⟩, log, heap⟩ := w
  cases devices with
  | nil => exact absurd rfl hd
  | cons d ds => exact ⟨rfl, rfl, rfl, rfl, rfl⟩

/-- A write slot while the devices receive command bit `n`. -/
theorem sim_write_bit_cmd (g : Nat) (b : Bool) (w : World Sim) (n acc : Nat)
    (hp : w.env.phase = SimPhase.cmd n acc) :
    (esp_ow_write_bit sim_hw g b w).env.devices = w.env.devices ∧
    (esp_ow_write_bit sim_hw g b w).env.active = w.env.active ∧
    (esp_ow_write_bit sim_hw g b w).heap = w.heap ∧
    (esp_ow_write_bit sim_hw g b w).env.phase =
      if n < 7 then SimPhase.cmd (n + 1) (if b then acc + 2 ^ n else acc)
      else if (if b then acc + 2 ^ n else acc) = ESP_OW_CMD_SEARCH_ROM then SimPhase.bit 0
      else if (if b then acc + 2 ^ n else acc) = ESP_OW_CMD_READ_ROM then SimPhase.rom 0
      else SimPhase.idle := by
  obtain ⟨⟨devices, active, phase, ml, lf, out⟩, log, heap⟩ := w
  simp only at hp
  subst hp
  cases b <;>
    simp only [esp_ow_write_bit, OW_LOW, OW_RELEASE, os_delay_us, emit, sim_hw, sim_step,
      sim_release, if_true, Bool.false_eq_true, if_false] <;>
    split_ifs <;> simp_all

/-- The eight write slots of a byte, least significant bit first, on any bus. -/
theorem esp_ow_write_eq {σ : Type} (H : Hw σ) (g byte : Nat) (w : World σ) :
    esp_ow_write H g byte w =
      esp_ow_write_bit H g ((byte &&& 128) != 0)
      (esp_ow_write_bit H g ((byte &&& 64) != 0)
      (esp_ow_write_bit H g ((byte &&& 32) != 0)
      (esp_ow_write_bit H g ((byte &&& 16) != 0)
      (esp_ow_write_bit H g ((byte &&& 8) != 0)
      (esp_ow_write_bit H g ((byte &&& 4) != 0)
      (esp_ow_write_bit H g ((byte &&& 2) != 0)
      (esp_ow_write_bit H g ((byte &&& 1) != 0) w))))))) :=
  rfl

/-- The search command, sent after a reset, starts the search at bit 0. -/
theorem sim_write_search (g : Nat) (w : World Sim) (hp : w.env.phase = SimPhase.cmd 0 0) :
    (esp_ow_write sim_hw g ESP_OW_CMD_SEARCH_ROM w).env.devices = w.env.devices ∧
    (esp_ow_write sim_hw g ESP_OW_CMD_SEARCH_ROM w).env.active = w.env.active ∧
    (esp_ow_write sim_hw g ESP_OW_CMD_SEARCH_ROM w).env.phase = SimPhase.bit 0 ∧
    (esp_ow_write sim_hw g ESP_OW_CMD_SEARCH_ROM w).heap = w.heap := by
  rw [esp_ow_write_eq]
  have h1 := sim_write_bit_cmd g ((ESP_OW_CMD_SEARCH_ROM &&& 1) != 0) w 0 0 hp
  have h2 := sim_write_bit_cmd g ((ESP_OW_CMD_SEARCH_ROM &&& 2) != 0) _ _ _ h1.2.2.2
  have h3 := sim_write_bit_cmd g ((ESP_OW_CMD_SEARCH_ROM &&& 4) != 0) _ _ _ h2.2.2.2
  have h4 := sim_write_bit_cmd g ((ESP_OW_CMD_SEARCH_ROM &&& 8) != 0) _ _ _ h3.2.2.2
  have h5 := sim_write_bit_cmd g ((ESP_OW_CMD_SEARCH_ROM &&& 16) != 0) _ _ _ h4.2.2.2
  have h6 := sim_write_bit_cmd g ((ESP_OW_CMD_SEARCH_ROM &&& 32) != 0) _ _ _ h5.2.2.2
  have h7 := sim_write_bit_cmd g ((ESP_OW_CMD_SEARCH_ROM &&& 64) != 0) _ _ _ h6.2.2.2
  have h8 := sim_write_bit_cmd g ((ESP_OW_CMD_SEARCH_ROM &&& 128) != 0) _ _ _ h7.2.2.2
  refine ⟨?_, ?_, ?_, ?_⟩
  · rw [h8.1, h7.1, h6.1, h5.1, h4.1, h3.1, h2.1, h1.1]
  · rw [h8.2.1, h7.2.1, h6.2.1, h5.2.1, h4.2.1, h3.2.1, h2.2.1, h1.2.1]
  · rw [h8.2.2.2]
    decide
  · rw [h8.2.2.1, h7.2.2.1, h6.2.2.1, h5.2.2.1, h4.2.2.1, h3.2.2.1, h2.2.2.1, h1.2.2.1]

/-- The read-ROM command, sent after a reset, starts the ROM transfer at bit 0. -/
theorem sim_write_read_rom (g : Nat) (w : World Sim) (hp : w.env.phase = SimPhase.cmd 0 0) :
    (esp_ow_write sim_hw g ESP_OW_CMD_READ_ROM w).env.active = w.env.active ∧
    (esp_ow_write sim_hw g ESP_OW_CMD_READ_ROM w).env.phase = SimPhase.rom 0 := by
  rw [esp_ow_write_eq]
  have h1 := sim_write_bit_cmd g ((ESP_OW_CMD_READ_ROM &&& 1) != 0) w 0 0 hp
  have h2 := sim_write_bit_cmd g ((ESP_OW_CMD_READ_ROM &&& 2) != 0) _ _ _ h1.2.2.2
  have h3 := sim_write_bit_cmd g ((ESP_OW_CMD_READ_ROM &&& 4) != 0) _ _ _ h2.2.2.2
  have h4 := sim_write_bit_cmd g ((ESP_OW_CMD_READ_ROM &&& 8) != 0) _ _ _ h3.2.2.2
  have h5 := sim_write_bit_cmd g ((ESP_OW_CMD_READ_ROM &&& 16) != 0) _ _ _ h4.2.2.2
  have h6 := sim_write_bit_cmd g ((ESP_OW_CMD_READ_ROM &&& 32) != 0) _ _ _ h5.2.2.2
  have h7 := sim_write_bit_cmd g ((ESP_OW_CMD_READ_ROM &&& 64) != 0) _ _ _ h6.2.2.2
  have h8 := sim_write_bit_cmd g ((ESP_OW_CMD_READ_ROM &&& 128) != 0) _ _ _ h7.2.2.2
  refine ⟨?_, ?_⟩
  · rw [h8.2.1, h7.2.1, h6.2.1, h5.2.1, h4.2.1, h3.2.1, h2.2.1, h1.2.1]
  · rw [h8.2.2.2]
    decide

/-- One iteration of `search` on the simulated bus at bit `k`, when the two bits read
are not both 1: the devices whose bit `k` differs from the direction drop out. -/
theorem sim_search_body (g pd : Nat) (v : SearchVars) (w : World Sim) (k : Nat)
    (hp : w.env.phase = SimPhase.bit k)
    (hnot : ¬ ((w.env.active.all (fun r => rom_bit r k)) = true ∧
               (w.env.active.all (fun r => !rom_bit r k)) = true)) :
    ∃ w1 : World Sim,
      search_body sim_hw g pd v w =
        (some (search_update pd v (w.env.active.all (fun r => rom_bit r k))
          (w.env.active.all (fun r => !rom_bit r k))), w1) ∧
      w1.heap = w.heap ∧ w1.env.devices = w.env.devices ∧
      w1.env.active = w.env.active.filter (fun r => rom_bit r k ==
        search_dir pd v (w.env.active.all (fun r => rom_bit r k))
          (w.env.active.all (fun r => !rom_bit r k))) ∧
      w1.env.phase = if k + 1 < 64 then SimPhase.bit (k + 1) else SimPhase.idle := by
  obtain ⟨⟨devices, active, phase, ml, lf, out⟩, log, heap⟩ := w
  simp only at hp hnot
  subst hp
  have key : ∀ d : Bool, ∀ w0 : World Sim,
      w0 = ⟨⟨devices, active, SimPhase.bit k, ml, lf, out⟩, log, heap⟩ →
      (esp_ow_write_bit sim_hw g d
        (esp_ow_read_bit sim_hw g (esp_ow_read_bit sim_hw g w0).2).2).heap = heap ∧
      (esp_ow_write_bit sim_hw g d
        (esp_ow_read_bit sim_hw g (esp_ow_read_bit sim_hw g w0).2).2).env.devices = devices ∧
      (esp_ow_write_bit sim_hw g d
        (esp_ow_read_bit sim_hw g (esp_ow_read_bit sim_hw g w0).2).2).env.active =
          active.filter (fun r => rom_bit r k == d) ∧
      (esp_ow_write_bit sim_hw g d
        (esp_ow_read_bit sim_hw g (esp_ow_read_bit sim_hw g w0).2).2).env.phase =
          if k + 1 < 64 then SimPhase.bit (k + 1) else SimPhase.idle := by
    intro d w0 hw0
    subst hw0
    cases d
    · exact ⟨rfl, rfl, rfl, rfl⟩
    · exact ⟨rfl, rfl, rfl, rfl⟩
  exact ⟨_, (search_body_eq sim_hw g pd v _).trans (if_neg hnot), key _ _ rfl⟩

/-- One iteration of `search` on the simulated bus when no device is active: both
bits read 1 and the pass is abandoned. -/
theorem sim_search_body_none (g pd : Nat) (v : SearchVars) (w : World Sim) (k : Nat)
    (hp : w.env.phase = SimPhase.bit k) (ha : w.env.active = []) :
    ∃ w1 : World Sim, search_body sim_hw g pd v w = (none, w1) := by
  obtain ⟨⟨devices, active, phase, ml, lf, out⟩, log, heap⟩ := w
  simp only at hp ha
  subst hp ha
  exact ⟨_, rfl⟩

end OW

namespace OW

open esp_ow_err

theorem all_agree {α : Type} (f : α → Bool) (act : List α) (hne : act ≠ []) (b : Bool)
    (h : ∀ r ∈ act, f r = b) : act.all f = b := by
  cases b with
  | true => exact List.all_eq_true.mpr h
  | false =>
    cases act with
    | nil => exact absurd rfl hne
    | cons r rest => simp [List.all_cons, h r (List.mem_cons_self _ _)]

theorem search_dir_agree (pd : Nat) (v : SearchVars) (b : Bool) :
    search_dir pd v b (!b) = b := by
  cases b <;> simp [search_dir]

theorem search_update_agree_found (pd : Nat) (v : SearchVars) (b : Bool) :
    (search_update pd v b (!b)).found_dis = v.found_dis := by
  rw [search_update_found_dis]
  cases b <;> simp

theorem Stored.refl (r : List Nat) {k : Nat} {v : SearchVars} (h : SearchInv k v) :
    Stored r k k v v :=
  ⟨h, fun j h1 h2 => absurd h1 (by omega), fun _ _ => rfl⟩

theorem Stored.trans {r : List Nat} {k k1 k2 : Nat} {v v1 v2 : SearchVars}
    (h1 : Stored r k k1 v v1) (h2 : Stored r k1 k2 v1 v2) (hk : k ≤ k1) (hk1 : k1 ≤ k2) :
    Stored r k k2 v v2 := by
  refine ⟨h2.inv, ?_, ?_⟩
  · intro j hj1 hj2
    by_cases hj : j < k1
    · rw [h2.bits_out j (Or.inl hj)]
      exact h1.bits_in j hj1 hj
    · exact h2.bits_in j (by omega) hj2
  · intro j hj
    rw [h2.bits_out j (by omega), h1.bits_out j (by omega)]

/-- One iteration of `search` that stores the bit of the ROM `r`. -/
theorem Stored.step {r : List Nat} {k : Nat} {v : SearchVars} (pd : Nat) (bit com : Bool)
    (h : SearchInv k v) (hk : k < 64) (hd : search_dir pd v bit com = rom_bit r k) :
    Stored r k (k + 1) v (search_update pd v bit com) := by
  refine ⟨h.update pd bit com hk, ?_, ?_⟩
  · intro j hj1 hj2
    have : j = k := by omega
    rw [search_update_rom_bit pd bit com h hk, if_pos this, hd, this]
  · intro j hj
    rw [search_update_rom_bit pd bit com h hk, if_neg (by omega)]

/-- Unfolding the loop of `search` by one iteration that does not return early. -/
theorem search_loop_step {σ : Type} (H : Hw σ) (g pd n : Nat) (v v1 : SearchVars)
    (w w1 : World σ) (k : Nat) (hinv1 : SearchInv (k + 1) v1)
    (hb : search_body H g pd v w = (some v1, w1)) :
    search_loop H g pd (n + 1) v w =
      if k + 1 < 64 then search_loop H g pd n v1 w1 else some (true, v1, w1) := by
  rw [search_loop, hb]
  dsimp only
  rw [hinv1.byte_idx]
  by_cases h : k + 1 < 64
  · rw [if_pos h, if_pos (by omega)]
  · rw [if_neg h, if_neg (by omega)]

/-- One iteration of `search` on the simulated bus when all active devices have the
same bit `k`: no conflict, the bit is stored, nobody drops out. -/
theorem sim_step_agree (g pd : Nat) (v : SearchVars) (w : World Sim) (k : Nat)
    (act : List (List Nat)) (b : Bool)
    (hp : w.env.phase = SimPhase.bit k) (ha : w.env.active = act) (hne : act ≠ [])
    (hag : ∀ r ∈ act, rom_bit r k = b) :
    ∃ w1 : World Sim,
      search_body sim_hw g pd v w = (some (search_update pd v b (!b)), w1) ∧
      w1.heap = w.heap ∧ w1.env.devices = w.env.devices ∧ w1.env.active = act ∧
      w1.env.phase = if k + 1 < 64 then SimPhase.bit (k + 1) else SimPhase.idle := by
  have hb : w.env.active.all (fun r => rom_bit r k) = b := by
    rw [ha]
    exact all_agree _ act hne b hag
  have hc : w.env.active.all (fun r => !rom_bit r k) = !b := by
    rw [ha]
    exact all_agree _ act hne (!b) (fun r hr => by rw [hag r hr])
  have hnot : ¬ ((w.env.active.all (fun r => rom_bit r k)) = true ∧
               (w.env.active.all (fun r => !rom_bit r k)) = true) := by
    rw [hb, hc]
    cases b <;> simp
  obtain ⟨w1, h1, h2, h3, h4, h5⟩ := sim_search_body g pd v w k hp hnot
  rw [hb, hc] at h1 h4
  refine ⟨w1, h1, h2, h3, ?_, h5⟩
  rw [h4, ha, search_dir_agree]
  exact List.filter_eq_self.mpr (fun r hr => by simp [hag r hr])

/-- The loop of `search` on the simulated bus over a stretch of bits on which all
active devices agree with the ROM `r`: `c` iterations store these bits of `r`. -/
theorem sim_loop_agree (g pd : Nat) (r : List Nat) (act : List (List Nat)) (hne : act ≠ []) :
    ∀ (c k : Nat) (v : SearchVars) (w : World Sim),
      SearchInv k v → k + c < 64 →
      w.env.phase = SimPhase.bit k → w.env.active = act →
      (∀ j, k ≤ j → j < k + c → ∀ a ∈ act, rom_bit a j = rom_bit r j) →
      ∃ (v1 : SearchVars) (w1 : World Sim),
        (∀ n, search_loop sim_hw g pd (c + n) v w = search_loop sim_hw g pd n v1 w1) ∧
        Stored r k (k + c) v v1 ∧ v1.found_dis = v.found_dis ∧
        w1.heap = w.heap ∧ w1.env.devices = w.env.devices ∧ w1.env.active = act ∧
        w1.env.phase = SimPhase.bit (k + c) := by
  intro c
  induction c with
  | zero =>
    intro k v w hinv _ hp ha _
    exact ⟨v, w, fun n => by rw [Nat.zero_add], Stored.refl r hinv, rfl, rfl, rfl, ha, hp⟩
  | succ c ih =>
    intro k v w hinv hk hp ha hag
    obtain ⟨w1, hb, hh, hd, ha1, hp1⟩ :=
      sim_step_agree g pd v w k act (rom_bit r k) hp ha hne
        (fun a hm => hag k (le_refl _) (by omega) a hm)
    have hst : Stored r k (k + 1) v (search_update pd v (rom_bit r k) (!rom_bit r k)) :=
      Stored.step pd _ _ hinv (by omega) (search_dir_agree pd v _)
    rw [if_pos (by omega)] at hp1
    obtain ⟨v2, w2, hl, hst2, hf2, hh2, hd2, ha2, hp2⟩ :=
      ih (k + 1) _ w1 hst.inv (by omega) hp1 ha1
        (fun j hj1 hj2 a hm => hag j (by omega) (by omega) a hm)
    refine ⟨v2, w2, ?_, ?_, ?_, ?_, ?_, ha2, ?_⟩
    · intro n
      have : c + 1 + n = (c + n) + 1 := by omega
      rw [this, search_loop_step sim_hw g pd (c + n) v _ w w1 k hst.inv hb, if_pos (by omega)]
      exact hl n
    · have := Stored.trans hst hst2 (by omega) (by omega)
      rw [show k + (c + 1) = k + 1 + c by omega]
      exact this
    · rw [hf2, search_update_agree_found]
    · rw [hh2, hh]
    · rw [hd2, hd]
    · rw [hp2]
      congr 1
      omega

/-- The loop of `search` on the simulated bus from bit `k` to the end, when all
active devices agree with the ROM `r` from bit `k` on: the loop runs to its end
and has stored these bits of `r`. -/
theorem sim_loop_tail (g pd : Nat) (r : List Nat) (act : List (List Nat)) (hne : act ≠ [])
    (k : Nat) (v : SearchVars) (w : World Sim)
    (hinv : SearchInv k v) (hk : k < 64)
    (hp : w.env.phase = SimPhase.bit k) (ha : w.env.active = act)
    (hag : ∀ j, k ≤ j → j < 64 → ∀ a ∈ act, rom_bit a j = rom_bit r j) :
    ∃ (v1 : SearchVars) (w1 : World Sim),
      (∀ n, search_loop sim_hw g pd (64 - k + n) v w = some (true, v1, w1)) ∧
      Stored r k 64 v v1 ∧ v1.found_dis = v.found_dis ∧
      w1.heap = w.heap ∧ w1.env.devices = w.env.devices := by
  obtain ⟨v1, w1, hl, hst, hf, hh, hd, ha1, hp1⟩ :=
    sim_loop_agree g pd r act hne (63 - k) k v w hinv (by omega) hp ha
      (fun j hj1 hj2 a hm => hag j hj1 (by omega) a hm)
  have h63 : k + (63 - k) = 63 := by omega
  rw [h63] at hst hp1
  obtain ⟨w2, hb, hh2, hd2, _, _⟩ :=
    sim_step_agree g pd v1 w1 63 act (rom_bit r 63) hp1 ha1 hne
      (fun a hm => hag 63 (by omega) (by omega) a hm)
  have hst2 : Stored r 63 64 v1 (search_update pd v1 (rom_bit r 63) (!rom_bit r 63)) :=
    Stored.step pd _ _ hst.inv (by omega) (search_dir_agree pd v1 _)
  refine ⟨_, w2, ?_, Stored.trans hst hst2 (by omega) (by omega), ?_, ?_, ?_⟩
  · intro n
    have : 64 - k + n = (63 - k) + (n + 1) := by omega
    rw [this, hl (n + 1), search_loop_step sim_hw g pd n v1 _ w1 w2 63 hst2.inv hb,
      if_neg (by omega)]
  · rw [search_update_agree_found, hf]
  · rw [hh2, hh]
  · rw [hd2, hd]

end OW

namespace OW

open esp_ow_err

/-- A CRC-valid ROM has running CRC 0 over its 8 bytes. -/
theorem crc_fold_of_rom_crc_ok {rom : List Nat} (hl : rom.length = 8)
    (h : rom_crc_ok rom) : crc_fold (rom.take 8) = 0 := by
  have h7 : 7 < rom.length := by omega
  unfold rom_crc_ok at h
  rw [List.getD_eq_getElem _ _ h7] at h
  rw [List.take_succ, List.getElem?_eq_getElem h7, Option.toList_some,
    crc_fold_append_singleton, h]
  unfold esp_ow_crc8
  rw [Nat.xor_self]
  rfl

/-- A well-formed ROM whose 64 bits are 0 is the all-zero ROM. -/
theorem rom_eq_zero_of_bits {rom : List Nat} (hw : rom_wf rom)
    (h : ∀ j, j < 64 → rom_bit rom j = false) : rom = List.replicate 8 0 := by
  apply rom_ext hw.1 (by simp) hw.2
  · intro x hx
    rw [List.eq_of_mem_replicate hx]
    norm_num
  · intro j hj
    rw [h j hj, rom_bit_zero]

/-- After a loop of `search` that stored all 64 bits of a well-formed ROM, the node
holds exactly this ROM. -/
theorem Stored.rom_eq {r : List Nat} {v v1 : SearchVars} (h : Stored r 0 64 v v1)
    (hw : rom_wf r) : v1.prev_adr = r :=
  rom_ext h.inv.len hw.1 h.inv.bytes hw.2 (fun j hj => h.bits_in j (Nat.zero_le _) hj)

/-- The outcome of `search` on any bus once its loop has run to the end. -/
theorem search_of_loop {σ : Type} (H : Hw σ) (g cmd : Nat) (dev : esp_ow_device)
    (pd : Nat) (il : Bool) (w : World σ) (v : SearchVars) (w2 : World σ)
    (hr : (esp_ow_reset H g w).1 = true)
    (hl : search_loop H g pd 64 (search_vars0 dev.rom)
      (esp_ow_write H g cmd (esp_ow_reset H g w).2) = some (true, v, w2))
    (h64 : SearchInv 64 v) :
    search H g cmd dev pd il w =
      some (if v.crc = 0 then
        (if v.one_count = 0 then
          ⟨ESP_OW_ERR_PIN_FLAPPING, { dev with rom := v.prev_adr }, pd, il, w2⟩
         else ⟨ESP_OW_OK, { dev with rom := v.prev_adr }, v.found_dis,
            if v.found_dis = 0 then true else il, w2⟩)
       else ⟨ESP_OW_ERR_BAD_CRC, { dev with rom := v.prev_adr }, pd, il, w2⟩) := by
  unfold search
  dsimp only
  rw [if_neg (by rw [hr]; simp)]
  change (match search_loop H g pd 64 (search_vars0 dev.rom) _ with
    | none => _ | some (false, v, w2) => _ | some (true, v, w2) => _) = _
  rw [hl]
  dsimp only
  have hb : v.rom_bit_idx = 65 := h64.bit_idx
  by_cases hc : v.crc = 0
  · rw [if_pos ⟨hb, hc⟩, if_pos hc]
    split <;> rfl
  · rw [if_neg (fun h => hc h.2), if_pos hc, if_neg hc]

/-- One pass of `search` on the simulated bus, given what its loop does from the
state right after the reset and the search command: the loop runs to its end and
stores the well-formed ROM `r`, leaving `fd` as last discrepancy. -/
theorem sim_search_pass (g : Nat) (dev : esp_ow_device) (pd : Nat) (il : Bool)
    (w : World Sim) (r : List Nat) (fd : Nat) (hw : rom_wf r)
    (hd : w.env.devices ≠ [])
    (hloop : ∀ w0 : World Sim, w0.env.devices = w.env.devices →
      w0.env.active = w.env.devices → w0.env.phase = SimPhase.bit 0 → w0.heap = w.heap →
      ∃ (v1 : SearchVars) (w1 : World Sim),
        search_loop sim_hw g pd 64 (search_vars0 dev.rom) w0 = some (true, v1, w1) ∧
        Stored r 0 64 (search_vars0 dev.rom) v1 ∧ v1.found_dis = fd ∧
        w1.heap = w.heap ∧ w1.env.devices = w.env.devices) :
    ∃ w1 : World Sim, w1.heap = w.heap ∧ w1.env.devices = w.env.devices ∧
      search sim_hw g ESP_OW_CMD_SEARCH_ROM dev pd il w =
        some (if crc_fold (r.take 8) = 0 then
          (if r = List.replicate 8 0 then
            ⟨ESP_OW_ERR_PIN_FLAPPING, { dev with rom := r }, pd, il, w1⟩
           else ⟨ESP_OW_OK, { dev with rom := r }, fd, if fd = 0 then true else il, w1⟩)
         else ⟨ESP_OW_ERR_BAD_CRC, { dev with rom := r }, pd, il, w1⟩) := by
  obtain ⟨hr1, hr2, hr3, hr4, hr5⟩ := sim_reset g w hd
  obtain ⟨hc1, hc2, hc3, hc4⟩ := sim_write_search g (esp_ow_reset sim_hw g w).2 hr4
  obtain ⟨v1, w1, hl, hst, hf, hh, hdv⟩ :=
    hloop (esp_ow_write sim_hw g ESP_OW_CMD_SEARCH_ROM (esp_ow_reset sim_hw g w).2)
      (by rw [hc1, hr2]) (by rw [hc2, hr3]) hc3 (by rw [hc4, hr5])
  refine ⟨w1, hh, hdv, ?_⟩
  rw [search_of_loop sim_hw g _ dev pd il w v1 w1 hr1 hl hst.inv]
  have hrom := hst.rom_eq hw
  have hcrc : v1.crc = crc_fold (r.take 8) := by
    rw [hst.inv.crc, hrom]
  have hones : v1.one_count = 0 ↔ r = List.replicate 8 0 := by
    rw [hst.inv.ones_zero, hrom]
    constructor
    · exact rom_eq_zero_of_bits hw
    · intro h j _
      rw [h, rom_bit_zero]
  rw [hcrc, hrom, hf]
  by_cases h0 : r = List.replicate 8 0
  · rw [if_pos (hones.mpr h0), if_pos h0]
  · rw [if_neg (fun h => h0 (hones.mp h)), if_neg h0]

/-- The loop of `search` on the simulated bus with one device. -/
theorem sim_loop_one (g pd : Nat) (r : List Nat) (v : SearchVars) (w : World Sim)
    (hinv : SearchInv 0 v) (hp : w.env.phase = SimPhase.bit 0) (ha : w.env.active = [r]) :
    ∃ (v1 : SearchVars) (w1 : World Sim),
      search_loop sim_hw g pd 64 v w = some (true, v1, w1) ∧
      Stored r 0 64 v v1 ∧ v1.found_dis = v.found_dis ∧
      w1.heap = w.heap ∧ w1.env.devices = w.env.devices := by
  obtain ⟨v1, w1, hl, hrest⟩ := sim_loop_tail g pd r [r] (by simp) 0 v w hinv (by norm_num)
    hp ha (fun j _ _ a hm => by rw [List.mem_singleton.mp hm])
  exact ⟨v1, w1, hl 0, hrest⟩

/-- The loop of `search` on the simulated bus from a conflict at bit `k` on, when
exactly the device `r` stays active after the direction bit: the loop runs to its
end and stores the bits of `r` from `k` on; the conflict is recorded as the last
discrepancy exactly when direction 0 was taken. -/
theorem sim_loop_conflict (g pd : Nat) (r : List Nat) (k : Nat) (v : SearchVars)
    (w : World Sim) (hinv : SearchInv k v) (hk : k < 64)
    (hp : w.env.phase = SimPhase.bit k)
    (h0 : w.env.active.all (fun a => rom_bit a k) = false)
    (h1 : w.env.active.all (fun a => !rom_bit a k) = false)
    (hr : rom_bit r k = search_dir pd v false false)
    (hf : w.env.active.filter (fun a => rom_bit a k == search_dir pd v false false) = [r]) :
    ∃ (v1 : SearchVars) (w1 : World Sim),
      (∀ n, search_loop sim_hw g pd (64 - k + n) v w = some (true, v1, w1)) ∧
      Stored r k 64 v v1 ∧
      v1.found_dis = (if search_dir pd v false false = false then k + 1 else v.found_dis) ∧
      w1.heap = w.heap ∧ w1.env.devices = w.env.devices := by
  have hnot : ¬ ((w.env.active.all (fun r => rom_bit r k)) = true ∧
               (w.env.active.all (fun r => !rom_bit r k)) = true) := by
    rw [h0]
    simp
  obtain ⟨w1, hb, hh, hd, ha1, hp1⟩ := sim_search_body g pd v w k hp hnot
  rw [h0, h1] at hb ha1
  rw [hf] at ha1
  have hst : Stored r k (k + 1) v (search_update pd v false false) :=
    Stored.step pd _ _ hinv hk hr.symm
  have hfd : (search_update pd v false false).found_dis =
      (if search_dir pd v false false = false then k + 1 else v.found_dis) := by
    rw [search_update_found_dis, hinv.bit_idx]
    simp
  by_cases hlast : k + 1 < 64
  · rw [if_pos hlast] at hp1
    obtain ⟨v2, w2, hl, hst2, hf2, hh2, hd2⟩ :=
      sim_loop_tail g pd r [r] (by simp) (k + 1) _ w1 hst.inv hlast hp1 ha1
        (fun j _ _ a hm => by rw [List.mem_singleton.mp hm])
    refine ⟨v2, w2, ?_, Stored.trans hst hst2 (by omega) (by omega), ?_, ?_, ?_⟩
    · intro n
      have : 64 - k + n = (64 - (k + 1) + n) + 1 := by omega
      rw [this, search_loop_step sim_hw g pd _ v _ w w1 k hst.inv hb, if_pos hlast]
      exact hl n
    · rw [hf2, hfd]
    · rw [hh2, hh]
    · rw [hd2, hd]
  · have hk63 : k + 1 = 64 := by omega
    refine ⟨_, w1, ?_, hk63 ▸ hst, hfd, hh, hd⟩
    intro n
    have : 64 - k + n = n + 1 := by omega
    rw [this, search_loop_step sim_hw g pd _ v _ w w1 k hst.inv hb, if_neg hlast]

end OW

namespace OW

open esp_ow_err

section generic
variable {σ : Type}

/-- The function `esp_ow_search` with an empty root, the standard search command and a free node
for the root: the pass loop starts on a zeroed node. -/
theorem esp_ow_search_eq (H : Hw σ) (passes g : Nat) (w : World σ) (hh : 0 < w.heap) :
    esp_ow_search H passes g ESP_OW_CMD_SEARCH_ROM [] w =
      match esp_ow_search_loop H g ESP_OW_CMD_SEARCH_ROM passes []
          { rom := List.replicate 8 0, gpio_num := g } 0 false
          { w with heap := w.heap - 1 } with
      | none => none
      | some (err, nodes, w1) =>
        if err ≠ ESP_OW_OK then some (err, [], os_free nodes.length w1)
        else some (err, nodes, w1) := by
  unfold esp_ow_search
  rw [if_neg (by simp), if_neg (by simp)]
  have hz : os_zalloc w = (true, { w with heap := w.heap - 1 }) := by
    unfold os_zalloc
    rw [if_neg (by omega)]
  dsimp only
  rw [hz]
  rfl

/-- The pass loop of `esp_ow_search` stops after a pass that failed or found the
last device. -/
theorem esp_ow_search_loop_last (H : Hw σ) (g cmd n : Nat) (nodes : List esp_ow_device)
    (dev : esp_ow_device) (pd : Nat) (il : Bool) (w : World σ) (o : SearchOut σ)
    (hs : search H g cmd dev pd il w = some o)
    (h : ¬ (o.err = ESP_OW_OK ∧ o.is_last = false)) :
    esp_ow_search_loop H g cmd (n + 1) nodes dev pd il w =
      some (o.err, nodes ++ [o.dev], o.w) := by
  rw [esp_ow_search_loop, hs]
  dsimp only
  rw [if_neg h]

/-- The pass loop of `esp_ow_search` goes on, with a new node holding a copy of the
ROM just found, after a successful pass that did not find the last device. -/
theorem esp_ow_search_loop_more (H : Hw σ) (g cmd n : Nat) (nodes : List esp_ow_device)
    (dev : esp_ow_device) (pd : Nat) (il : Bool) (w : World σ) (o : SearchOut σ)
    (hs : search H g cmd dev pd il w = some o)
    (h : o.err = ESP_OW_OK ∧ o.is_last = false) (hh : 0 < o.w.heap) :
    esp_ow_search_loop H g cmd (n + 1) nodes dev pd il w =
      esp_ow_search_loop H g cmd n (nodes ++ [o.dev])
        { rom := o.dev.rom, gpio_num := o.dev.gpio_num } o.prev_dis o.is_last
        { o.w with heap := o.w.heap - 1 } := by
  rw [esp_ow_search_loop, hs]
  dsimp only
  rw [if_pos h]
  have hz : add_device o.dev o.w =
      (some { rom := o.dev.rom, gpio_num := o.dev.gpio_num }, { o.w with heap := o.w.heap - 1 }) := by
    have hz0 : os_zalloc o.w = (true, { o.w with heap := o.w.heap - 1 }) := by
      unfold os_zalloc
      rw [if_neg (by omega)]
    unfold add_device
    dsimp only
    rw [hz0]
    rfl
  rw [hz]

end generic

end OW

namespace OW

open esp_ow_err

/-- The loop of `search` on the simulated bus with two devices `r` and `o` that
agree below bit `d` and differ at bit `d`, when the direction taken at the conflict
is the bit of `r`: the loop stores the ROM `r`, and the conflict is recorded as last
discrepancy exactly when the direction is 0. -/
theorem sim_loop_two (g pd : Nat) (r o : List Nat) (devs : List (List Nat))
    (hdevs : devs = [r, o] ∨ devs = [o, r]) (d : Nat) (hd : d < 64)
    (hpre : ∀ j, j < d → rom_bit o j = rom_bit r j)
    (hdiff : rom_bit o d = !rom_bit r d)
    (hdir : ∀ v : SearchVars, v.rom_bit_idx = d + 1 →
      search_dir pd v false false = rom_bit r d)
    (v : SearchVars) (hinv : SearchInv 0 v) (w : World Sim)
    (hp : w.env.phase = SimPhase.bit 0) (ha : w.env.active = devs) :
    ∃ (v1 : SearchVars) (w1 : World Sim),
      search_loop sim_hw g pd 64 v w = some (true, v1, w1) ∧
      Stored r 0 64 v v1 ∧
      v1.found_dis = (if rom_bit r d = false then d + 1 else v.found_dis) ∧
      w1.heap = w.heap ∧ w1.env.devices = w.env.devices := by
  have hne : devs ≠ [] := by
    rcases hdevs with h | h <;> rw [h] <;> simp
  have hmem : ∀ a ∈ devs, a = r ∨ a = o := by
    intro a hm
    rcases hdevs with h | h <;> rw [h] at hm <;> simp at hm <;> tauto
  obtain ⟨v1, w1, hl, hst, hf, hh, hdv, ha1, hp1⟩ :=
    sim_loop_agree g pd r devs hne d 0 v w hinv (by omega) hp ha
      (fun j _ hj a hm => by
        rcases hmem a hm with h | h
        · rw [h]
        · rw [h]
          exact hpre j (by omega))
  rw [Nat.zero_add] at hst hp1
  have hdir1 := hdir v1 hst.inv.bit_idx
  have h0 : w1.env.active.all (fun a => rom_bit a d) = false := by
    rw [ha1]
    rcases hdevs with h | h <;> rw [h] <;> simp [hdiff]
  have h1 : w1.env.active.all (fun a => !rom_bit a d) = false := by
    rw [ha1]
    rcases hdevs with h | h <;> rw [h] <;> simp [hdiff]
  have hfil : w1.env.active.filter (fun a => rom_bit a d == search_dir pd v1 false false)
      = [r] := by
    rw [ha1, hdir1]
    rcases hdevs with h | h <;> rw [h] <;> simp [List.filter_cons, hdiff]
  obtain ⟨v2, w2, hl2, hst2, hf2, hh2, hdv2⟩ :=
    sim_loop_conflict g pd r d v1 w1 hst.inv hd hp1 h0 h1 hdir1.symm hfil
  refine ⟨v2, w2, ?_, Stored.trans hst hst2 (by omega) (by omega), ?_, ?_, ?_⟩
  · have := hl (64 - d)
    rw [show d + (64 - d) = 64 by omega] at this
    rw [this]
    have h2 := hl2 0
    rw [Nat.add_zero] at h2
    exact h2
  · rw [hf2, hdir1, hf]
  · rw [hh2, hh]
  · rw [hdv2, hdv]

/-- The direction `search` takes at a conflict in a first pass: 0. -/
theorem search_dir_first (v : SearchVars) (hb : 0 < v.rom_bit_idx) :
    search_dir 0 v false false = false := by
  unfold search_dir
  rw [if_pos ⟨rfl, rfl⟩, if_neg (by omega)]
  simp
  omega

/-- The direction `search` takes at a conflict at the previous discrepancy: 1. -/
theorem search_dir_at (v : SearchVars) : search_dir v.rom_bit_idx v false false = true := by
  unfold search_dir
  rw [if_pos ⟨rfl, rfl⟩, if_neg (by omega)]
  simp

/-- One pass of `search` on the simulated bus with two devices `r` and `o` as in
`sim_loop_two`, from any seed ROM with 8 bytes. -/
theorem sim_search_two (g pd : Nat) (il : Bool) (r o : List Nat) (dev : esp_ow_device)
    (w : World Sim) (hdevs : w.env.devices = [r, o] ∨ w.env.devices = [o, r])
    (hw : rom_wf r) (d : Nat) (hd : d < 64)
    (hpre : ∀ j, j < d → rom_bit o j = rom_bit r j)
    (hdiff : rom_bit o d = !rom_bit r d)
    (hdir : ∀ v : SearchVars, v.rom_bit_idx = d + 1 →
      search_dir pd v false false = rom_bit r d)
    (hdl : dev.rom.length = 8) (hdb : ∀ b ∈ dev.rom, b < 256) :
    ∃ w1 : World Sim, w1.heap = w.heap ∧ w1.env.devices = w.env.devices ∧
      search sim_hw g ESP_OW_CMD_SEARCH_ROM dev pd il w =
        some (if crc_fold (r.take 8) = 0 then
          (if r = List.replicate 8 0 then
            ⟨ESP_OW_ERR_PIN_FLAPPING, { dev with rom := r }, pd, il, w1⟩
           else ⟨ESP_OW_OK, { dev with rom := r },
              if rom_bit r d = false then d + 1 else 0,
              if (if rom_bit r d = false then d + 1 else 0) = 0 then true else il, w1⟩)
         else ⟨ESP_OW_ERR_BAD_CRC, { dev with rom := r }, pd, il, w1⟩) := by
  apply sim_search_pass g dev pd il w r _ hw
  · rcases hdevs with h | h <;> rw [h] <;> simp
  · intro w0 hd0 ha0 hp0 hh0
    obtain ⟨v1, w1, hl, hst, hf, hh1, hd1⟩ :=
      sim_loop_two g pd r o w.env.devices hdevs d hd hpre hdiff hdir
        (search_vars0 dev.rom) (search_vars0_inv hdl hdb) w0 hp0 ha0
    exact ⟨v1, w1, hl, hst, hf, by rw [hh1, hh0], by rw [hd1, hd0]⟩

/-- Byte `i` of a ROM is determined by its bits `8 i` to `8 i + 7`. -/
theorem rom_byte_ext {a b : List Nat} (hab : ∀ x ∈ a, x < 256) (hbb : ∀ x ∈ b, x < 256)
    (i : Nat) (h1 : i < a.length) (h2 : i < b.length)
    (h : ∀ t, t < 8 → rom_bit a (8 * i + t) = rom_bit b (8 * i + t)) : a[i] = b[i] := by
  apply Nat.eq_of_testBit_eq
  intro t
  by_cases ht : t < 8
  · have := h t ht
    unfold rom_bit at this
    have hd : (8 * i + t) / 8 = i := by omega
    have hm : (8 * i + t) % 8 = t := by omega
    rw [hd, hm, List.getD_eq_getElem _ _ h1, List.getD_eq_getElem _ _ h2] at this
    exact this
  · have hp : (2 : Nat) ^ 8 ≤ 2 ^ t := Nat.pow_le_pow_right (by norm_num) (by omega)
    have h256 : (2 : Nat) ^ 8 = 256 := by norm_num
    have e1 : a[i] < 2 ^ t := by
      have := hab _ (List.getElem_mem h1)
      omega
    have e2 : b[i] < 2 ^ t := by
      have := hbb _ (List.getElem_mem h2)
      omega
    rw [Nat.testBit_lt_two_pow e1, Nat.testBit_lt_two_pow e2]

/-- Two distinct well-formed ROMs have a first bit at which they differ. -/
theorem first_diff {a b : List Nat} (ha : rom_wf a) (hb : rom_wf b) (hab : a ≠ b) :
    ∃ d, d < 64 ∧ (∀ j, j < d → rom_bit a j = rom_bit b j) ∧ rom_bit a d ≠ rom_bit b d := by
  classical
  have hex : ∃ j, j < 64 ∧ rom_bit a j ≠ rom_bit b j := by
    by_contra h
    push_neg at h
    exact hab (rom_ext ha.1 hb.1 ha.2 hb.2 h)
  refine ⟨Nat.find hex, (Nat.find_spec hex).1, ?_, (Nat.find_spec hex).2⟩
  intro j hj
  by_contra hne
  exact Nat.find_min hex hj ⟨by have := (Nat.find_spec hex).1; omega, hne⟩

/-- Two CRC-valid well-formed ROMs that agree on their first 56 bits are equal in
their last byte too. -/
theorem crc_byte_eq {a b : List Nat} (ha : rom_wf a) (hb : rom_wf b)
    (hca : rom_crc_ok a) (hcb : rom_crc_ok b)
    (h : ∀ j, j < 56 → rom_bit a j = rom_bit b j) : a.getD 7 0 = b.getD 7 0 := by
  have ht : a.take 7 = b.take 7 := by
    apply List.ext_getElem
    · rw [List.length_take, List.length_take, ha.1, hb.1]
    · intro i h1 h2
      rw [List.getElem_take, List.getElem_take]
      have hi : i < 7 := by
        rw [List.length_take, ha.1] at h1
        omega
      exact rom_byte_ext ha.2 hb.2 i (by rw [ha.1]; omega) (by rw [hb.1]; omega)
        (fun t ht => h _ (by omega))
  unfold rom_crc_ok at hca hcb
  rw [hca, hcb, ht]

end OW

namespace OW

open esp_ow_err

/-- First pass on the simulated bus with two devices: `a`, the one with bit `d` = 0,
is found when it is CRC-valid and non-zero; the discrepancy recorded is the
position `d + 1` and `is_last` keeps its value `false`. -/
theorem sim_pass_first (g : Nat) (a b : List Nat) (w : World Sim)
    (hdevs : w.env.devices = [a, b] ∨ w.env.devices = [b, a])
    (hwa : rom_wf a) (hca : rom_crc_ok a) (hza : a ≠ List.replicate 8 0)
    (d : Nat) (hd : d < 64) (hpre : ∀ j, j < d → rom_bit a j = rom_bit b j)
    (ha : rom_bit a d = false) (hb : rom_bit b d = true) :
    ∃ w1 : World Sim, w1.heap = w.heap ∧ w1.env.devices = w.env.devices ∧
      search sim_hw g ESP_OW_CMD_SEARCH_ROM { rom := List.replicate 8 0, gpio_num := g }
        0 false w = some ⟨ESP_OW_OK, { rom := a, gpio_num := g }, d + 1, false, w1⟩ := by
  obtain ⟨w1, hh, hdv, hs⟩ := sim_search_two g 0 false a b
    { rom := List.replicate 8 0, gpio_num := g } w hdevs hwa d hd
    (fun j hj => (hpre j hj).symm) (by rw [ha, hb]; rfl)
    (fun v hv => by rw [ha]; exact search_dir_first v (by omega))
    (by simp) (by simp)
  refine ⟨w1, hh, hdv, ?_⟩
  rw [hs, if_pos (crc_fold_of_rom_crc_ok hwa.1 hca), if_neg hza, if_pos ha,
    if_neg (by omega)]

/-- Second pass on the simulated bus with two devices, seeded with the ROM `a` and
the discrepancy `d + 1`: the loop stores the ROM `b` of the device with bit `d` = 1.
The pass returns `ESP_OW_OK` with discrepancy 0 and `is_last` set when `b` is
CRC-valid, and `ESP_OW_ERR_BAD_CRC` (discrepancy and `is_last` untouched) when not. -/
theorem sim_pass_second (g : Nat) (a b : List Nat) (w : World Sim)
    (hdevs : w.env.devices = [a, b] ∨ w.env.devices = [b, a])
    (hwa : rom_wf a) (hwb : rom_wf b)
    (d : Nat) (hd : d < 64) (hpre : ∀ j, j < d → rom_bit a j = rom_bit b j)
    (ha : rom_bit a d = false) (hb : rom_bit b d = true) :
    ∃ w1 : World Sim, w1.heap = w.heap ∧ w1.env.devices = w.env.devices ∧
      search sim_hw g ESP_OW_CMD_SEARCH_ROM { rom := a, gpio_num := g } (d + 1) false w =
        some (if rom_crc_ok b then
            ⟨ESP_OW_OK, { rom := b, gpio_num := g }, 0, true, w1⟩
          else ⟨ESP_OW_ERR_BAD_CRC, { rom := b, gpio_num := g }, d + 1, false, w1⟩) := by
  obtain ⟨w1, hh, hdv, hs⟩ := sim_search_two g (d + 1) false b a
    { rom := a, gpio_num := g } w hdevs.symm hwb d hd hpre (by rw [ha, hb]; rfl)
    (fun v hv => by rw [hb, ← hv]; exact search_dir_at v)
    hwa.1 hwa.2
  refine ⟨w1, hh, hdv, ?_⟩
  have hzb : b ≠ List.replicate 8 0 := by
    intro h
    rw [h, rom_bit_zero] at hb
    exact absurd hb (by simp)
  rw [hs]
  by_cases hcb : rom_crc_ok b
  · rw [if_pos (crc_fold_of_rom_crc_ok hwb.1 hcb), if_neg hzb, if_pos hcb,
      if_neg (by rw [hb]; simp)]
    rfl
  · rw [if_neg (fun h => hcb (rom_crc_ok_of_fold hwb.1 hwb.2 h)), if_neg hcb]

/-- The function `esp_ow_search` on the simulated bus with two devices as in `sim_pass_first`: two
passes; the result is the sequence `a`, `b` when `b` is CRC-valid, and
`ESP_OW_ERR_BAD_CRC` with an empty sequence when not. -/
theorem sim_search_two_devices (g passes : Nat) (a b : List Nat) (w : World Sim)
    (hdevs : w.env.devices = [a, b] ∨ w.env.devices = [b, a])
    (hwa : rom_wf a) (hwb : rom_wf b) (hca : rom_crc_ok a) (hza : a ≠ List.replicate 8 0)
    (d : Nat) (hd : d < 64) (hpre : ∀ j, j < d → rom_bit a j = rom_bit b j)
    (ha : rom_bit a d = false) (hb : rom_bit b d = true)
    (hp : 2 ≤ passes) (hh : 2 ≤ w.heap) :
    ∃ w1 : World Sim,
      esp_ow_search sim_hw passes g ESP_OW_CMD_SEARCH_ROM [] w =
        some (if rom_crc_ok b then
            (ESP_OW_OK, [{ rom := a, gpio_num := g }, { rom := b, gpio_num := g }], w1)
          else (ESP_OW_ERR_BAD_CRC, [], w1)) := by
  obtain ⟨n, rfl⟩ : ∃ n, passes = n + 2 := ⟨passes - 2, by omega⟩
  obtain ⟨w1, hh1, hd1, hs1⟩ := sim_pass_first g a b { w with heap := w.heap - 1 }
    hdevs hwa hca hza d hd hpre ha hb
  obtain ⟨w2, hh2, hd2, hs2⟩ := sim_pass_second g a b { w1 with heap := w1.heap - 1 }
    (by rw [hd1]; exact hdevs) hwa hwb d hd hpre ha hb
  rw [esp_ow_search_eq sim_hw _ g w (by omega),
    esp_ow_search_loop_more sim_hw g _ (n + 1) [] _ 0 false _ _ hs1 ⟨rfl, rfl⟩
      (by rw [hh1]; simp only; omega),
    esp_ow_search_loop_last sim_hw g _ n _ _ _ _ _ _ hs2
      (by by_cases hcb : rom_crc_ok b <;> simp [hcb])]
  by_cases hcb : rom_crc_ok b
  · simp only [if_pos hcb]
    exact ⟨w2, rfl⟩
  · simp only [if_neg hcb]
    exact ⟨_, rfl⟩

end OW

namespace OW

open esp_ow_err

theorem esp_ow_write_bit_heap {σ : Type} (H : Hw σ) (g : Nat) (b : Bool) (w : World σ) :
    (esp_ow_write_bit H g b w).heap = w.heap := by
  cases b <;> rfl

/-- Writing a byte does not allocate. -/
theorem esp_ow_write_heap {σ : Type} (H : Hw σ) (g byte : Nat) (w : World σ) :
    (esp_ow_write H g byte w).heap = w.heap := by
  rw [esp_ow_write_eq]
  simp only [esp_ow_write_bit_heap]

/-- A read slot while the simulated devices send ROM bit `k` after the read-ROM
command: the line carries the AND of the bits of the active devices. -/
theorem sim_read_bit_rom (g : Nat) (w : World Sim) (k : Nat)
    (hp : w.env.phase = SimPhase.rom k) :
    (esp_ow_read_bit sim_hw g w).1 = w.env.active.all (fun r => rom_bit r k) ∧
    (esp_ow_read_bit sim_hw g w).2.env.active = w.env.active ∧
    (esp_ow_read_bit sim_hw g w).2.env.phase =
      (if k + 1 < 64 then SimPhase.rom (k + 1) else SimPhase.idle) ∧
    (esp_ow_read_bit sim_hw g w).2.heap = w.heap := by
  obtain ⟨⟨devices, active, phase, ml, lf, out⟩, log, heap⟩ := w
  simp only at hp
  subst hp
  exact ⟨rfl, rfl, rfl, rfl⟩

/-- The bit loop of `esp_ow_read` on the simulated bus with the single device `r`,
entered at bit `t` of ROM byte `i`: the bits `t` to 7 of that byte are ORed into
`byte`. -/
theorem sim_read_loop (g : Nat) (r : List Nat) (i : Nat) (hi : i < 8) :
    ∀ (m t byte : Nat) (w : World Sim) (n : Nat), t + m = 8 → m < n →
      (t < 8 → w.env.phase = SimPhase.rom (8 * i + t)) →
      (t = 8 → w.env.phase = if 8 * i + 8 < 64 then SimPhase.rom (8 * i + 8)
        else SimPhase.idle) →
      w.env.active = [r] →
      (∀ j, (esp_ow_read_loop sim_hw g n ((2 ^ t) % 256) byte w).1.testBit j =
        (byte.testBit j ||
          (decide (t ≤ j) && (decide (j < 8) && (r.getD i 0).testBit j)))) ∧
      (esp_ow_read_loop sim_hw g n ((2 ^ t) % 256) byte w).2.env.active = [r] ∧
      (esp_ow_read_loop sim_hw g n ((2 ^ t) % 256) byte w).2.env.phase =
        (if 8 * i + 8 < 64 then SimPhase.rom (8 * i + 8) else SimPhase.idle) ∧
      (esp_ow_read_loop sim_hw g n ((2 ^ t) % 256) byte w).2.heap = w.heap := by
  intro m
  induction m with
  | zero =>
    intro t byte w n ht hn _ hp8 ha
    obtain ⟨n, rfl⟩ : ∃ n1, n = n1 + 1 := ⟨n - 1, by omega⟩
    have h8 : t = 8 := by omega
    subst h8
    rw [esp_ow_read_loop, if_pos (by norm_num)]
    refine ⟨?_, ha, hp8 rfl, rfl⟩
    intro j
    have : (decide (8 ≤ j) && (decide (j < 8) && (r.getD i 0).testBit j)) = false := by
      by_cases h : 8 ≤ j
      · have : ¬ j < 8 := by omega
        simp [this]
      · simp [h]
    rw [this, Bool.or_false]
  | succ m ih =>
    intro t byte w n ht hn hp _ ha
    obtain ⟨n, rfl⟩ : ∃ n1, n = n1 + 1 := ⟨n - 1, by omega⟩
    have ht8 : t < 8 := by omega
    have hmask : (2 ^ t) % 256 = 2 ^ t := by
      apply Nat.mod_eq_of_lt
      calc 2 ^ t ≤ 2 ^ 7 := Nat.pow_le_pow_right (by norm_num) (by omega)
        _ < 256 := by norm_num
    have hne : (2 : Nat) ^ t ≠ 0 := by positivity
    have hshift : ((2 ^ t) <<< 1) % 256 = (2 ^ (t + 1)) % 256 := by
      rw [Nat.shiftLeft_eq, pow_one, pow_succ]
    obtain ⟨hb, hact, hph, hhp⟩ := sim_read_bit_rom g w (8 * i + t) (hp ht8)
    rw [ha] at hb hact
    have hbit : (esp_ow_read_bit sim_hw g w).1 = (r.getD i 0).testBit t := by
      rw [hb]
      simp only [List.all_cons, List.all_nil, Bool.and_true]
      unfold rom_bit
      rw [show (8 * i + t) / 8 = i by omega, show (8 * i + t) % 8 = t by omega]
    rw [esp_ow_read_loop, hmask, if_neg hne, hshift]
    have hrec := ih (t + 1)
      (if (esp_ow_read_bit sim_hw g w).1 = true then byte ||| 2 ^ t else byte)
      (esp_ow_read_bit sim_hw g w).2 n (by omega) (by omega)
      (fun h => by rw [hph, if_pos (by omega)]; rfl)
      (fun h => by
        rw [hph]
        have e : 8 * i + t + 1 = 8 * i + 8 := by omega
        rw [e])
      hact
    refine ⟨?_, hrec.2.1, hrec.2.2.1, by rw [hrec.2.2.2, hhp]⟩
    intro j
    rw [hrec.1 j, hbit]
    by_cases hjt : j = t
    · subst hjt
      cases hx : (r.getD i 0).testBit j <;> simp [Nat.testBit_two_pow, ht8]
    · have h2 : (2 ^ t).testBit j = false := by
        rw [Nat.testBit_two_pow]
        simp
        omega
      have h3 : (if (r.getD i 0).testBit t = true then byte ||| 2 ^ t else byte).testBit j
          = byte.testBit j := by
        split
        · rw [Nat.testBit_or, h2, Bool.or_false]
        · rfl
      rw [h3]
      have h4 : decide (t + 1 ≤ j) = decide (t ≤ j) := by
        apply decide_eq_decide.mpr
        omega
      rw [h4]

/-- The function `esp_ow_read` on the simulated bus with the single device `r`, at ROM byte `i`:
the byte read is that byte of the ROM. -/
theorem sim_read_byte (g : Nat) (r : List Nat) (hb : ∀ b ∈ r, b < 256) (i : Nat) (hi : i < 8)
    (w : World Sim) (hp : w.env.phase = SimPhase.rom (8 * i)) (ha : w.env.active = [r]) :
    (esp_ow_read sim_hw g w).1 = r.getD i 0 ∧
    (esp_ow_read sim_hw g w).2.env.active = [r] ∧
    (esp_ow_read sim_hw g w).2.env.phase =
      (if 8 * i + 8 < 64 then SimPhase.rom (8 * i + 8) else SimPhase.idle) ∧
    (esp_ow_read sim_hw g w).2.heap = w.heap := by
  have h := sim_read_loop g r i hi 8 0 0 w 9 (by norm_num) (by norm_num)
    (fun _ => hp) (fun h => absurd h (by norm_num)) ha
  have e : esp_ow_read sim_hw g w = esp_ow_read_loop sim_hw g 9 ((2 ^ 0) % 256) 0 w := rfl
  rw [e]
  refine ⟨?_, h.2⟩
  apply Nat.eq_of_testBit_eq
  intro j
  rw [h.1 j]
  by_cases hj : j < 8
  · simp [hj]
  · have hlt : r.getD i 0 < 2 ^ j := by
      have h1 := getD_lt hb i
      have h2 : (2 : Nat) ^ 8 ≤ 2 ^ j := Nat.pow_le_pow_right (by norm_num) (by omega)
      have h3 : (2 : Nat) ^ 8 = 256 := by norm_num
      omega
    rw [Nat.testBit_lt_two_pow hlt]
    simp [hj]

/-- The byte loop of `esp_ow_read_bytes` on the simulated bus with the single device
`r`, entered at ROM byte `idx`: the bytes from `idx` on are those of the ROM. -/
theorem sim_read_bytes_loop (g : Nat) (r : List Nat) (hb : ∀ b ∈ r, b < 256) :
    ∀ (n idx : Nat) (buf : List Nat) (w : World Sim), idx + n = 8 → buf.length = 8 →
      (idx < 8 → w.env.phase = SimPhase.rom (8 * idx)) → w.env.active = [r] →
      (esp_ow_read_bytes_loop sim_hw g n idx buf w).1.length = 8 ∧
      (∀ i, (esp_ow_read_bytes_loop sim_hw g n idx buf w).1.getD i 0 =
        if idx ≤ i ∧ i < 8 then r.getD i 0 else buf.getD i 0) ∧
      (esp_ow_read_bytes_loop sim_hw g n idx buf w).2.heap = w.heap := by
  intro n
  induction n with
  | zero =>
    intro idx buf w hn hl _ _
    rw [esp_ow_read_bytes_loop]
    refine ⟨hl, ?_, rfl⟩
    intro i
    rw [if_neg (by omega)]
  | succ n ih =>
    intro idx buf w hn hl hp ha
    have hidx : idx < 8 := by omega
    obtain ⟨h1, h2, h3, h4⟩ := sim_read_byte g r hb idx hidx w (hp hidx) ha
    rw [esp_ow_read_bytes_loop]
    have hrec := ih (idx + 1) (buf.set idx (esp_ow_read sim_hw g w).1)
      (esp_ow_read sim_hw g w).2 (by omega) (by rw [List.length_set, hl])
      (fun h => by rw [h3, if_pos (by omega)]; rfl) h2
    refine ⟨hrec.1, ?_, by rw [hrec.2.2, h4]⟩
    intro i
    rw [hrec.2.1 i, h1]
    by_cases hi : i = idx
    · subst hi
      rw [if_neg (by omega), if_pos ⟨le_refl _, hidx⟩, List.getD_eq_getElem?_getD,
        List.getElem?_set_self (by rw [hl]; exact hidx), Option.getD_some]
    · have hset : (buf.set idx (r.getD idx 0)).getD i 0 = buf.getD i 0 := by
        rw [List.getD_eq_getElem?_getD, List.getElem?_set_ne (Ne.symm hi),
          ← List.getD_eq_getElem?_getD]
      rw [hset]
      by_cases h5 : idx + 1 ≤ i ∧ i < 8
      · rw [if_pos h5, if_pos ⟨by omega, h5.2⟩]
      · rw [if_neg h5, if_neg (by omega)]

/-- The function `esp_ow_read_rom` on the simulated bus with exactly one device returns the ROM
of that device. -/
theorem sim_read_rom (g : Nat) (r buf : List Nat) (hw : rom_wf r) (hl : buf.length = 8)
    (w : World Sim) (hd : w.env.devices = [r]) :
    (esp_ow_read_rom sim_hw g buf w).1 = r ∧ (esp_ow_read_rom sim_hw g buf w).2.heap = w.heap := by
  obtain ⟨_, _, hr3, hr4, hr5⟩ := sim_reset g w (by rw [hd]; simp)
  obtain ⟨hc1, hc2⟩ := sim_write_read_rom g (esp_ow_reset sim_hw g w).2 hr4
  have hheap : (esp_ow_write sim_hw g ESP_OW_CMD_READ_ROM (esp_ow_reset sim_hw g w).2).heap
      = w.heap := by
    rw [esp_ow_write_heap, hr5]
  have h := sim_read_bytes_loop g r hw.2 8 0 buf
    (esp_ow_write sim_hw g ESP_OW_CMD_READ_ROM (esp_ow_reset sim_hw g w).2)
    (by norm_num) hl (fun _ => hc2) (by rw [hc1, hr3, hd])
  unfold esp_ow_read_rom esp_ow_read_bytes
  dsimp only
  refine ⟨?_, by rw [h.2.2, hheap]⟩
  apply List.ext_getElem (by rw [h.1, hw.1])
  intro i h1 h2
  have := h.2.1 i
  rw [if_pos ⟨Nat.zero_le _, by rw [h.1] at h1; exact h1⟩, List.getD_eq_getElem _ _ h1,
    List.getD_eq_getElem _ _ h2] at this
  exact this

end OW

namespace OW

open esp_ow_err

/-- C5: on every bus, whenever `esp_ow_search` returns `ESP_OW_OK`, every record of
the returned sequence has `rom[7]` equal to the CRC8 of `rom[0..6]` (the table
lookup folded over bytes 0 to 6, starting from 0). -/
theorem c5_search_ok_records_crc_valid {σ : Type} (H : Hw σ)
    (passes gpio_num sch_type : Nat) (root : List esp_ow_device) (w : World σ)
    (out : List esp_ow_device) (w1 : World σ)
    (h : esp_ow_search H passes gpio_num sch_type root w = some (ESP_OW_OK, out, w1)) :
    ∀ d ∈ out, d.rom.getD 7 0 = crc_fold (d.rom.take 7) := by
  unfold esp_ow_search at h
  dsimp only at h
  split at h
  · simp at h
  · split at h
    · simp at h
    · split at h
      · simp at h
      · split at h
        · simp at h
        · rename_i err nodes w2 hloop
          split at h
          · rename_i hne
            simp only [Option.some.injEq, Prod.mk.injEq] at h
            exact absurd h.1 hne
          · rename_i he
            simp only [Option.some.injEq, Prod.mk.injEq] at h
            obtain ⟨rfl, rfl, rfl⟩ := h
            exact esp_ow_search_loop_crc H gpio_num sch_type passes [] _ 0 false _ _ _
              (by simp) (by simp) (by simp) hloop

/-- C5 at work: on the simulated bus with the single device 01 00 00 00 00 00 00 3D the
search returns `ESP_OW_OK` with one record, and that record is CRC-valid. -/
theorem c5_search_ok_records_crc_valid_witness :
    (∃ w1, esp_ow_search sim_hw 1 2 0xF0 [] (sim_world [[1, 0, 0, 0, 0, 0, 0, 61]] 1) =
      some (ESP_OW_OK, [{ rom := [1, 0, 0, 0, 0, 0, 0, 61], gpio_num := 2 }], w1)) ∧
    ({ rom := [1, 0, 0, 0, 0, 0, 0, 61], gpio_num := 2 } : esp_ow_device).rom.getD 7 0 =
      crc_fold (({ rom := [1, 0, 0, 0, 0, 0, 0, 61], gpio_num := 2 } : esp_ow_device).rom.take 7) :=
  ⟨⟨_, rfl⟩,
    c5_search_ok_records_crc_valid sim_hw 1 2 0xF0 [] (sim_world [[1, 0, 0, 0, 0, 0, 0, 61]] 1)
      [{ rom := [1, 0, 0, 0, 0, 0, 0, 61], gpio_num := 2 }] _ rfl _ (List.mem_singleton_self _)⟩

end OW

namespace OW

open esp_ow_err

/-- C8: on a simulated bus with exactly one device, whose ROM is well formed,
non-zero and CRC-valid, the first search pass (seed ROM all zero, previous
discrepancy 0) returns `ESP_OW_OK` with exactly that ROM, records discrepancy 0 and
sets `is_last`; and `esp_ow_search`, given a free node and at least one pass,
returns `ESP_OW_OK` with the one-record sequence holding that ROM. -/
theorem c8_single_device_search (rom : List Nat) (g passes : Nat) (w : World Sim)
    (hw : rom_wf rom) (hc : rom_crc_ok rom) (hz : rom ≠ List.replicate 8 0)
    (hd : w.env.devices = [rom]) (hp : 0 < passes) (hh : 0 < w.heap) :
    (∃ w1, search sim_hw g ESP_OW_CMD_SEARCH_ROM { rom := List.replicate 8 0, gpio_num := g }
        0 false w = some ⟨ESP_OW_OK, { rom := rom, gpio_num := g }, 0, true, w1⟩) ∧
    (∃ w1, esp_ow_search sim_hw passes g ESP_OW_CMD_SEARCH_ROM [] w =
        some (ESP_OW_OK, [{ rom := rom, gpio_num := g }], w1)) := by
  have pass : ∀ w0 : World Sim, w0.env.devices = [rom] →
      ∃ w1, search sim_hw g ESP_OW_CMD_SEARCH_ROM { rom := List.replicate 8 0, gpio_num := g }
        0 false w0 = some ⟨ESP_OW_OK, { rom := rom, gpio_num := g }, 0, true, w1⟩ := by
    intro w0 hd0
    obtain ⟨w1, _, _, hs⟩ := sim_search_pass g { rom := List.replicate 8 0, gpio_num := g }
      0 false w0 rom 0 hw (by rw [hd0]; simp)
      (fun wa hda ha hph hha => by
        rw [hd0] at ha
        obtain ⟨v1, w1, hl, hst, hf, hh1, hd1⟩ :=
          sim_loop_one g 0 rom (search_vars0 (List.replicate 8 0)) wa
            (search_vars0_inv (by simp) (by simp)) hph ha
        exact ⟨v1, w1, hl, hst, hf, by rw [hh1, hha], by rw [hd1, hda]⟩)
    rw [if_pos (crc_fold_of_rom_crc_ok hw.1 hc), if_neg hz] at hs
    exact ⟨w1, hs⟩
  refine ⟨pass w hd, ?_⟩
  obtain ⟨n, rfl⟩ : ∃ n, passes = n + 1 := ⟨passes - 1, by omega⟩
  obtain ⟨w1, hs⟩ := pass { w with heap := w.heap - 1 } hd
  rw [esp_ow_search_eq sim_hw _ g w hh,
    esp_ow_search_loop_last sim_hw g _ n [] _ 0 false _ _ hs (by simp)]
  exact ⟨w1, rfl⟩

/-- C8 at work: the single device 01 02 03 04 05 06 07 0F. -/
theorem c8_single_device_search_witness :
    (rom_wf [1, 2, 3, 4, 5, 6, 7, 15] ∧ rom_crc_ok [1, 2, 3, 4, 5, 6, 7, 15]) ∧
    ((∃ w1, search sim_hw 2 ESP_OW_CMD_SEARCH_ROM { rom := List.replicate 8 0, gpio_num := 2 }
        0 false (sim_world [[1, 2, 3, 4, 5, 6, 7, 15]] 1) =
          some ⟨ESP_OW_OK, { rom := [1, 2, 3, 4, 5, 6, 7, 15], gpio_num := 2 }, 0, true, w1⟩) ∧
     (∃ w1, esp_ow_search sim_hw 1 2 ESP_OW_CMD_SEARCH_ROM []
        (sim_world [[1, 2, 3, 4, 5, 6, 7, 15]] 1) =
          some (ESP_OW_OK, [{ rom := [1, 2, 3, 4, 5, 6, 7, 15], gpio_num := 2 }], w1))) :=
  ⟨⟨by decide, by decide⟩,
    c8_single_device_search [1, 2, 3, 4, 5, 6, 7, 15] 2 1 (sim_world [[1, 2, 3, 4, 5, 6, 7, 15]] 1)
      (by decide) (by decide) (by decide) rfl (by decide) (by decide)⟩

end OW

namespace OW

open esp_ow_err

/-- C9: on a simulated bus with exactly two devices whose ROMs are well formed,
distinct, non-zero and CRC-valid, there is a first bit position `p` (1 to 64) at
which the ROMs differ; with `A` the device whose bit `p` is 0 and `B` the one whose
bit `p` is 1, the first pass returns `ESP_OW_OK` with `A`, records discrepancy `p`
and does not set `is_last`; the second pass, seeded from `A` and `p`, returns
`ESP_OW_OK` with `B` and sets `is_last`; and `esp_ow_search` (two free nodes, at
least two passes) returns `ESP_OW_OK` with exactly the two records `A`, `B`. -/
theorem c9_two_devices_search (a b : List Nat) (g passes : Nat) (w : World Sim)
    (hwa : rom_wf a) (hwb : rom_wf b) (hca : rom_crc_ok a) (hcb : rom_crc_ok b)
    (hza : a ≠ List.replicate 8 0) (hzb : b ≠ List.replicate 8 0) (hab : a ≠ b)
    (hd : w.env.devices = [a, b]) (hp : 2 ≤ passes) (hh : 2 ≤ w.heap) :
    ∃ (p : Nat) (A B : List Nat),
      (1 ≤ p ∧ p ≤ 64) ∧ ((A = a ∧ B = b) ∨ (A = b ∧ B = a)) ∧
      (∀ j, j + 1 < p → rom_bit A j = rom_bit B j) ∧
      rom_bit A (p - 1) = false ∧ rom_bit B (p - 1) = true ∧
      (∃ w1, search sim_hw g ESP_OW_CMD_SEARCH_ROM
          { rom := List.replicate 8 0, gpio_num := g } 0 false w =
        some ⟨ESP_OW_OK, { rom := A, gpio_num := g }, p, false, w1⟩) ∧
      (∀ w2 : World Sim, w2.env.devices = w.env.devices →
        ∃ w3, search sim_hw g ESP_OW_CMD_SEARCH_ROM { rom := A, gpio_num := g } p false w2 =
          some ⟨ESP_OW_OK, { rom := B, gpio_num := g }, 0, true, w3⟩) ∧
      (∃ w1, esp_ow_search sim_hw passes g ESP_OW_CMD_SEARCH_ROM [] w =
        some (ESP_OW_OK, [{ rom := A, gpio_num := g }, { rom := B, gpio_num := g }], w1)) := by
  obtain ⟨d, hd64, hpre, hne⟩ := first_diff hwa hwb hab
  have main : ∀ A B : List Nat, ((A = a ∧ B = b) ∨ (A = b ∧ B = a)) →
      rom_wf A → rom_wf B → rom_crc_ok A → rom_crc_ok B → A ≠ List.replicate 8 0 →
      (∀ j, j < d → rom_bit A j = rom_bit B j) →
      rom_bit A d = false → rom_bit B d = true →
      (∃ w1, search sim_hw g ESP_OW_CMD_SEARCH_ROM
          { rom := List.replicate 8 0, gpio_num := g } 0 false w =
        some ⟨ESP_OW_OK, { rom := A, gpio_num := g }, d + 1, false, w1⟩) ∧
      (∀ w2 : World Sim, w2.env.devices = w.env.devices →
        ∃ w3, search sim_hw g ESP_OW_CMD_SEARCH_ROM { rom := A, gpio_num := g } (d + 1)
          false w2 = some ⟨ESP_OW_OK, { rom := B, gpio_num := g }, 0, true, w3⟩) ∧
      (∃ w1, esp_ow_search sim_hw passes g ESP_OW_CMD_SEARCH_ROM [] w =
        some (ESP_OW_OK, [{ rom := A, gpio_num := g }, { rom := B, gpio_num := g }], w1)) := by
    intro A B hAB hwA hwB hcA hcB hzA hpreA hA hB
    have hdevs : w.env.devices = [A, B] ∨ w.env.devices = [B, A] := by
      rcases hAB with ⟨h1, h2⟩ | ⟨h1, h2⟩
      · exact Or.inl (by rw [hd, h1, h2])
      · exact Or.inr (by rw [hd, h1, h2])
    refine ⟨?_, ?_, ?_⟩
    · obtain ⟨w1, _, _, hs⟩ := sim_pass_first g A B w hdevs hwA hcA hzA d hd64 hpreA hA hB
      exact ⟨w1, hs⟩
    · intro w2 hw2
      obtain ⟨w3, _, _, hs⟩ := sim_pass_second g A B w2 (by rw [hw2]; exact hdevs)
        hwA hwB d hd64 hpreA hA hB
      rw [if_pos hcB] at hs
      exact ⟨w3, hs⟩
    · obtain ⟨w1, hs⟩ := sim_search_two_devices g passes A B w hdevs hwA hwB hcA hzA
        d hd64 hpreA hA hB hp hh
      rw [if_pos hcB] at hs
      exact ⟨w1, hs⟩
  cases hbit : rom_bit a d with
  | false =>
    have hbd : rom_bit b d = true := by
      cases hb2 : rom_bit b d with
      | false => exact absurd (hbit.trans hb2.symm) hne
      | true => rfl
    exact ⟨d + 1, a, b, ⟨by omega, by omega⟩, Or.inl ⟨rfl, rfl⟩,
      fun j hj => hpre j (by omega), hbit, hbd,
      main a b (Or.inl ⟨rfl, rfl⟩) hwa hwb hca hcb hza hpre hbit hbd⟩
  | true =>
    have hbd : rom_bit b d = false := by
      cases hb2 : rom_bit b d with
      | false => rfl
      | true => exact absurd (hbit.trans hb2.symm) hne
    exact ⟨d + 1, b, a, ⟨by omega, by omega⟩, Or.inr ⟨rfl, rfl⟩,
      fun j hj => (hpre j (by omega)).symm, hbd, hbit,
      main b a (Or.inr ⟨rfl, rfl⟩) hwb hwa hcb hca hzb (fun j hj => (hpre j hj).symm) hbd hbit⟩

/-- C9 at work: the devices 01 00 00 00 00 00 00 3D and 01 01 00 00 00 00 00 0A, which
first differ at bit position 9. -/
theorem c9_two_devices_search_witness :
    (rom_wf [1, 0, 0, 0, 0, 0, 0, 61] ∧ rom_wf [1, 1, 0, 0, 0, 0, 0, 10] ∧
      rom_crc_ok [1, 0, 0, 0, 0, 0, 0, 61] ∧ rom_crc_ok [1, 1, 0, 0, 0, 0, 0, 10]) ∧
    ∃ (p : Nat) (A B : List Nat),
      (1 ≤ p ∧ p ≤ 64) ∧
      ((A = [1, 0, 0, 0, 0, 0, 0, 61] ∧ B = [1, 1, 0, 0, 0, 0, 0, 10]) ∨
        (A = [1, 1, 0, 0, 0, 0, 0, 10] ∧ B = [1, 0, 0, 0, 0, 0, 0, 61])) ∧
      (∀ j, j + 1 < p → rom_bit A j = rom_bit B j) ∧
      rom_bit A (p - 1) = false ∧ rom_bit B (p - 1) = true ∧
      (∃ w1, search sim_hw 2 ESP_OW_CMD_SEARCH_ROM
          { rom := List.replicate 8 0, gpio_num := 2 } 0 false
          (sim_world [[1, 0, 0, 0, 0, 0, 0, 61], [1, 1, 0, 0, 0, 0, 0, 10]] 2) =
        some ⟨ESP_OW_OK, { rom := A, gpio_num := 2 }, p, false, w1⟩) ∧
      (∀ w2 : World Sim,
        w2.env.devices =
          (sim_world [[1, 0, 0, 0, 0, 0, 0, 61], [1, 1, 0, 0, 0, 0, 0, 10]] 2).env.devices →
        ∃ w3, search sim_hw 2 ESP_OW_CMD_SEARCH_ROM { rom := A, gpio_num := 2 } p false w2 =
          some ⟨ESP_OW_OK, { rom := B, gpio_num := 2 }, 0, true, w3⟩) ∧
      (∃ w1, esp_ow_search sim_hw 2 2 ESP_OW_CMD_SEARCH_ROM []
          (sim_world [[1, 0, 0, 0, 0, 0, 0, 61], [1, 1, 0, 0, 0, 0, 0, 10]] 2) =
        some (ESP_OW_OK, [{ rom := A, gpio_num := 2 }, { rom := B, gpio_num := 2 }], w1)) :=
  ⟨by decide,
    c9_two_devices_search [1, 0, 0, 0, 0, 0, 0, 61] [1, 1, 0, 0, 0, 0, 0, 10] 2 2
      (sim_world [[1, 0, 0, 0, 0, 0, 0, 61], [1, 1, 0, 0, 0, 0, 0, 10]] 2)
      (by decide) (by decide) (by decide) (by decide) (by decide) (by decide) (by decide)
      rfl (by decide) (by decide)⟩

end OW

namespace OW

open esp_ow_err

/-- C10 as stated fails on the code: on the simulated bus with the devices
01 02 03 04 05 06 07 0F and 01 02 03 04 05 06 07 8F, which differ only in the top
bit, it is not the case that the first pass returns `ESP_OW_OK` with the first
device and discrepancy 64 and the second pass, seeded from it, returns `ESP_OW_OK`
with the second device: the second pass returns `ESP_OW_ERR_BAD_CRC`. -/
theorem c10_top_bit_counterexample :
    ¬ ∃ (o1 o2 : SearchOut Sim),
      search sim_hw 2 ESP_OW_CMD_SEARCH_ROM { rom := List.replicate 8 0, gpio_num := 2 }
        0 false (sim_world [[1, 2, 3, 4, 5, 6, 7, 15], [1, 2, 3, 4, 5, 6, 7, 143]] 2) = some o1 ∧
      o1.err = ESP_OW_OK ∧ o1.dev.rom = [1, 2, 3, 4, 5, 6, 7, 15] ∧ o1.prev_dis = 64 ∧
      search sim_hw 2 ESP_OW_CMD_SEARCH_ROM o1.dev o1.prev_dis o1.is_last o1.w = some o2 ∧
      o2.err = ESP_OW_OK ∧ o2.dev.rom = [1, 2, 3, 4, 5, 6, 7, 143] ∧ o2.is_last = true := by
  rintro ⟨o1, o2, h1, _, _, _, h2, he, _⟩
  have e : ((search sim_hw 2 ESP_OW_CMD_SEARCH_ROM
      { rom := List.replicate 8 0, gpio_num := 2 } 0 false
      (sim_world [[1, 2, 3, 4, 5, 6, 7, 15], [1, 2, 3, 4, 5, 6, 7, 143]] 2)).bind
        (fun o => search sim_hw 2 ESP_OW_CMD_SEARCH_ROM o.dev o.prev_dis o.is_last o.w)).map
          (fun o => o.err) = some ESP_OW_ERR_BAD_CRC := by
    decide
  rw [h1, Option.some_bind, h2, Option.map_some', he] at e
  exact absurd e (by decide)

/-- C10, amended: on a simulated bus with two devices whose well-formed ROMs differ
only in the top bit (bit 64), the device `a` with top bit 0 being non-zero and
CRC-valid: the first pass returns `ESP_OW_OK` with `a`, records discrepancy 64 and
does not set `is_last`; the second pass, seeded from `a` and 64, leaves the ROM of
`b` in the node but returns `ESP_OW_ERR_BAD_CRC` without setting `is_last`; and
`esp_ow_search` returns `ESP_OW_ERR_BAD_CRC` with an empty sequence. -/
theorem c10_top_bit_devices (a b : List Nat) (g passes : Nat) (w : World Sim)
    (hwa : rom_wf a) (hwb : rom_wf b) (hca : rom_crc_ok a)
    (hza : a ≠ List.replicate 8 0)
    (hsame : ∀ j, j < 63 → rom_bit a j = rom_bit b j)
    (ha : rom_bit a 63 = false) (hb : rom_bit b 63 = true)
    (hd : w.env.devices = [a, b]) (hp : 2 ≤ passes) (hh : 2 ≤ w.heap) :
    (∃ w1, search sim_hw g ESP_OW_CMD_SEARCH_ROM
        { rom := List.replicate 8 0, gpio_num := g } 0 false w =
      some ⟨ESP_OW_OK, { rom := a, gpio_num := g }, 64, false, w1⟩) ∧
    (∀ w2 : World Sim, w2.env.devices = w.env.devices →
      ∃ w3, search sim_hw g ESP_OW_CMD_SEARCH_ROM { rom := a, gpio_num := g } 64 false w2 =
        some ⟨ESP_OW_ERR_BAD_CRC, { rom := b, gpio_num := g }, 64, false, w3⟩) ∧
    (∃ w1, esp_ow_search sim_hw passes g ESP_OW_CMD_SEARCH_ROM [] w =
      some (ESP_OW_ERR_BAD_CRC, [], w1)) := by
  have hcb : ¬ rom_crc_ok b := by
    intro hcb
    have h7 := crc_byte_eq hwa hwb hca hcb (fun j hj => hsame j (by omega))
    have : rom_bit a 63 = rom_bit b 63 := by
      unfold rom_bit
      rw [show 63 / 8 = 7 by norm_num, h7]
    rw [ha, hb] at this
    exact absurd this (by simp)
  refine ⟨?_, ?_, ?_⟩
  · obtain ⟨w1, _, _, hs⟩ := sim_pass_first g a b w (Or.inl hd) hwa hca hza 63 (by norm_num)
      hsame ha hb
    exact ⟨w1, hs⟩
  · intro w2 hw2
    obtain ⟨w3, _, _, hs⟩ := sim_pass_second g a b w2 (Or.inl (by rw [hw2, hd]))
      hwa hwb 63 (by norm_num) hsame ha hb
    rw [if_neg hcb] at hs
    exact ⟨w3, hs⟩
  · obtain ⟨w1, hs⟩ := sim_search_two_devices g passes a b w (Or.inl hd) hwa hwb hca hza
      63 (by norm_num) hsame ha hb hp hh
    rw [if_neg hcb] at hs
    exact ⟨w1, hs⟩

/-- C10, amended, at work: the devices 01 02 03 04 05 06 07 0F and
01 02 03 04 05 06 07 8F. -/
theorem c10_top_bit_devices_witness :
    (rom_wf [1, 2, 3, 4, 5, 6, 7, 15] ∧ rom_wf [1, 2, 3, 4, 5, 6, 7, 143] ∧
      rom_crc_ok [1, 2, 3, 4, 5, 6, 7, 15] ∧
      (∀ j, j < 63 → rom_bit [1, 2, 3, 4, 5, 6, 7, 15] j = rom_bit [1, 2, 3, 4, 5, 6, 7, 143] j) ∧
      rom_bit [1, 2, 3, 4, 5, 6, 7, 15] 63 = false ∧
      rom_bit [1, 2, 3, 4, 5, 6, 7, 143] 63 = true) ∧
    ((∃ w1, search sim_hw 2 ESP_OW_CMD_SEARCH_ROM
        { rom := List.replicate 8 0, gpio_num := 2 } 0 false
        (sim_world [[1, 2, 3, 4, 5, 6, 7, 15], [1, 2, 3, 4, 5, 6, 7, 143]] 2) =
      some ⟨ESP_OW_OK, { rom := [1, 2, 3, 4, 5, 6, 7, 15], gpio_num := 2 }, 64, false, w1⟩) ∧
    (∀ w2 : World Sim,
      w2.env.devices =
        (sim_world [[1, 2, 3, 4, 5, 6, 7, 15], [1, 2, 3, 4, 5, 6, 7, 143]] 2).env.devices →
      ∃ w3, search sim_hw 2 ESP_OW_CMD_SEARCH_ROM
          { rom := [1, 2, 3, 4, 5, 6, 7, 15], gpio_num := 2 } 64 false w2 =
        some ⟨ESP_OW_ERR_BAD_CRC, { rom := [1, 2, 3, 4, 5, 6, 7, 143], gpio_num := 2 },
          64, false, w3⟩) ∧
    (∃ w1, esp_ow_search sim_hw 2 2 ESP_OW_CMD_SEARCH_ROM []
        (sim_world [[1, 2, 3, 4, 5, 6, 7, 15], [1, 2, 3, 4, 5, 6, 7, 143]] 2) =
      some (ESP_OW_ERR_BAD_CRC, [], w1))) :=
  ⟨by decide,
    c10_top_bit_devices [1, 2, 3, 4, 5, 6, 7, 15] [1, 2, 3, 4, 5, 6, 7, 143] 2 2
      (sim_world [[1, 2, 3, 4, 5, 6, 7, 15], [1, 2, 3, 4, 5, 6, 7, 143]] 2)
      (by decide) (by decide) (by decide) (by decide) (by decide) (by decide) (by decide)
      rfl (by decide) (by decide)⟩

end OW

namespace OW

open esp_ow_err

/-- C1 fails on the code. The simulated bus holds the three devices
01 00 00 00 00 00 00 3D, 01 01 00 00 00 00 00 0A and 05 00 00 00 00 00 00 C9: well
formed, CRC-valid, non-zero, pairwise distinct. `esp_ow_search` returns
`ESP_OW_OK` with two records only, the second device is missing. In the second pass
(previous discrepancy 9) the conflict at bit position 3 is replayed with
`prev_adr[0] & rom_bit_idx`, that is `0x01 & 3`, which gives direction 1 although
bit 3 of the previous ROM is 0. -/
theorem c1_three_devices_one_missed :
    (rom_wf [1, 0, 0, 0, 0, 0, 0, 61] ∧ rom_wf [1, 1, 0, 0, 0, 0, 0, 10] ∧
      rom_wf [5, 0, 0, 0, 0, 0, 0, 201] ∧
      rom_crc_ok [1, 0, 0, 0, 0, 0, 0, 61] ∧ rom_crc_ok [1, 1, 0, 0, 0, 0, 0, 10] ∧
      rom_crc_ok [5, 0, 0, 0, 0, 0, 0, 201]) ∧
    (esp_ow_search sim_hw 3 2 ESP_OW_CMD_SEARCH_ROM []
      (sim_world [[1, 0, 0, 0, 0, 0, 0, 61], [1, 1, 0, 0, 0, 0, 0, 10],
        [5, 0, 0, 0, 0, 0, 0, 201]] 3)).map (fun r => (r.1, r.2.1)) =
      some (ESP_OW_OK, [{ rom := [1, 0, 0, 0, 0, 0, 0, 61], gpio_num := 2 },
        { rom := [5, 0, 0, 0, 0, 0, 0, 201], gpio_num := 2 }]) ∧
    search_dir 9
      { prev_adr := [1, 0, 0, 0, 0, 0, 0, 61], rom_byte_idx := 0, rom_bit_idx := 3,
        rom_byte_mask := 4, found_dis := 0, crc := 0, one_count := 1 } false false = true ∧
    rom_bit [1, 0, 0, 0, 0, 0, 0, 61] 2 = false := by
  decide

end OW

namespace OW

open esp_ow_err

/-- C6 as stated fails on the code: `esp_ow_read_rom` and `esp_ow_read_rom_dev` store
the 64 bits sampled from the line without any CRC check. On the simulated bus with
the two devices 01 00 00 00 00 00 00 3D and 05 00 00 00 00 00 00 C9 the wired AND of
the two ROMs is read, 01 00 00 00 00 00 00 09, and on the bus without devices eight
bytes FF are read; neither has `rom[7]` equal to the CRC8 of `rom[0..6]`. -/
theorem c6_read_rom_counterexample :
    ((esp_ow_read_rom sim_hw 2 (List.replicate 8 0)
        (sim_world [[1, 0, 0, 0, 0, 0, 0, 61], [5, 0, 0, 0, 0, 0, 0, 201]] 1)).1 =
          [1, 0, 0, 0, 0, 0, 0, 9] ∧
      ¬ rom_crc_ok [1, 0, 0, 0, 0, 0, 0, 9]) ∧
    ((esp_ow_read_rom_dev sim_hw 2 (sim_world [] 1)).map (fun r => r.1.rom) =
        some [255, 255, 255, 255, 255, 255, 255, 255] ∧
      ¬ rom_crc_ok [255, 255, 255, 255, 255, 255, 255, 255]) := by
  decide

/-- C6, amended: on a simulated bus with exactly one device, whose ROM is well
formed and CRC-valid, `esp_ow_read_rom` stores exactly the ROM of that device in the
8-byte array, so that `rom[7]` is the CRC8 of `rom[0..6]`, and `esp_ow_read_rom_dev`
(given a free node) returns a record holding that ROM. -/
theorem c6_read_rom_single_device (g : Nat) (r buf : List Nat) (w : World Sim)
    (hw : rom_wf r) (hc : rom_crc_ok r) (hl : buf.length = 8)
    (hd : w.env.devices = [r]) (hh : 0 < w.heap) :
    (esp_ow_read_rom sim_hw g buf w).1 = r ∧
    (esp_ow_read_rom sim_hw g buf w).1.getD 7 0 =
      crc_fold ((esp_ow_read_rom sim_hw g buf w).1.take 7) ∧
    (esp_ow_read_rom_dev sim_hw g w).map (fun x => x.1.rom) = some r ∧
    ∀ x ∈ esp_ow_read_rom_dev sim_hw g w, x.1.rom.getD 7 0 = crc_fold (x.1.rom.take 7) := by
  have h1 := (sim_read_rom g r buf hw hl w hd).1
  have hz : os_zalloc w = (true, { w with heap := w.heap - 1 }) := by
    unfold os_zalloc
    rw [if_neg (by omega)]
  have h2 := (sim_read_rom g r (List.replicate 8 0) hw (by simp)
    { w with heap := w.heap - 1 } hd).1
  have hdev : esp_ow_read_rom_dev sim_hw g w =
      some ({ rom := r, gpio_num := 0 },
        (esp_ow_read_rom sim_hw g (List.replicate 8 0) { w with heap := w.heap - 1 }).2) := by
    unfold esp_ow_read_rom_dev
    dsimp only
    rw [hz]
    dsimp only
    rw [if_neg (by simp), h2]
  refine ⟨h1, ?_, ?_, ?_⟩
  · rw [h1]
    exact hc
  · rw [hdev]
    rfl
  · intro x hx
    rw [hdev] at hx
    rw [← Option.mem_some_iff.mp hx]
    exact hc

/-- C6, amended, at work: the single device 28 00 00 00 00 00 00 1E. -/
theorem c6_read_rom_single_device_witness :
    (rom_wf [40, 0, 0, 0, 0, 0, 0, 30] ∧ rom_crc_ok [40, 0, 0, 0, 0, 0, 0, 30]) ∧
    ((esp_ow_read_rom sim_hw 2 [9, 9, 9, 9, 9, 9, 9, 9]
        (sim_world [[40, 0, 0, 0, 0, 0, 0, 30]] 1)).1 = [40, 0, 0, 0, 0, 0, 0, 30] ∧
    (esp_ow_read_rom sim_hw 2 [9, 9, 9, 9, 9, 9, 9, 9]
        (sim_world [[40, 0, 0, 0, 0, 0, 0, 30]] 1)).1.getD 7 0 =
      crc_fold ((esp_ow_read_rom sim_hw 2 [9, 9, 9, 9, 9, 9, 9, 9]
        (sim_world [[40, 0, 0, 0, 0, 0, 0, 30]] 1)).1.take 7) ∧
    (esp_ow_read_rom_dev sim_hw 2 (sim_world [[40, 0, 0, 0, 0, 0, 0, 30]] 1)).map
        (fun x => x.1.rom) = some [40, 0, 0, 0, 0, 0, 0, 30] ∧
    ∀ x ∈ esp_ow_read_rom_dev sim_hw 2 (sim_world [[40, 0, 0, 0, 0, 0, 0, 30]] 1),
      x.1.rom.getD 7 0 = crc_fold (x.1.rom.take 7)) :=
  ⟨by decide,
    c6_read_rom_single_device 2 [40, 0, 0, 0, 0, 0, 0, 30] [9, 9, 9, 9, 9, 9, 9, 9]
      (sim_world [[40, 0, 0, 0, 0, 0, 0, 30]] 1) (by decide) (by decide) rfl rfl (by decide)⟩

end OW

/-! ## The two-wire code on the simulated bus -/

namespace I2C

open esp_i2c_err

/-- A state wired to the simulated bus is made of its parts. -/
theorem On.eq_on_sim {acks : Nat → Bool} {it : Bool} {l : Lines} {s : State Sim}
    (h : On acks it l s) :
    ∃ (ini : Bool) (scl sda ds dl : Nat) (log : List Ev), sda ≠ scl ∧
      s = on_sim ini scl sda it ds dl acks l log s.w.heap := by
  obtain ⟨⟨h1, h2, h3, h4, h5⟩, h6, h7⟩ := h
  obtain ⟨ini, scl, sda, it0, mcs, ds, dl, ⟨⟨sclp, sdap, ak, l0⟩, log, heap⟩⟩ := s
  simp only at h1 h2 h3 h4 h5 h6 h7
  subst h1 h2 h4 h5 h6 h7
  exact ⟨ini, scl, sda, ds, dl, log, h3, rfl⟩

theorem on_sim_on (ini : Bool) (scl sda : Nat) (it : Bool) (ds dl : Nat) (acks : Nat → Bool)
    (l : Lines) (log : List Ev) (heap : Nat) (hne : sda ≠ scl) :
    On acks it l (on_sim ini scl sda it ds dl acks l log heap) :=
  ⟨⟨rfl, rfl, hne, rfl, rfl⟩, rfl, rfl⟩

section prims
variable (ini : Bool) (scl sda : Nat) (it : Bool) (ds dl : Nat) (ak : Nat → Bool)
  (l : Lines) (log : List Ev) (heap : Nat)

theorem SCL_LOW_sim :
    SCL_LOW sim_hw (on_sim ini scl sda it ds dl ak l log heap) =
      on_sim ini scl sda it ds dl ak (line_step l LineOp.scl_low)
        (Ev.out_en_s scl :: log) heap := by
  simp only [SCL_LOW, emit, sim_hw, sim_step, on_sim, if_true]

theorem SCL_RELEASE_sim :
    SCL_RELEASE sim_hw (on_sim ini scl sda it ds dl ak l log heap) =
      on_sim ini scl sda it ds dl ak (line_step l LineOp.scl_release)
        (Ev.out_en_c scl :: log) heap := by
  simp only [SCL_RELEASE, emit, sim_hw, sim_step, on_sim, if_true]

theorem SDA_LOW_sim (hne : sda ≠ scl) :
    SDA_LOW sim_hw (on_sim ini scl sda it ds dl ak l log heap) =
      on_sim ini scl sda it ds dl ak (line_step l LineOp.sda_low)
        (Ev.out_en_s sda :: log) heap := by
  simp only [SDA_LOW, emit, sim_hw, sim_step, on_sim, if_true, if_neg hne]

theorem SDA_RELEASE_sim (hne : sda ≠ scl) :
    SDA_RELEASE sim_hw (on_sim ini scl sda it ds dl ak l log heap) =
      on_sim ini scl sda it ds dl ak (line_step l LineOp.sda_release)
        (Ev.out_en_c sda :: log) heap := by
  simp only [SDA_RELEASE, emit, sim_hw, sim_step, on_sim, if_true, if_neg hne]

theorem delay_sim (count : Nat) :
    delay sim_hw count (on_sim ini scl sda it ds dl ak l log heap) =
      on_sim ini scl sda it ds dl ak l (Ev.delay count :: log) heap := by
  simp only [delay, emit, sim_hw, sim_step, on_sim]

theorem SCL_READ_sim :
    SCL_READ sim_hw (on_sim ini scl sda it ds dl ak l log heap) =
      (l.scl_m, on_sim ini scl sda it ds dl ak l (Ev.gpio_in scl l.scl_m :: log) heap) := by
  simp only [SCL_READ, gpio_read, emit, sim_hw, sim_step, sim_level, on_sim, if_true]

theorem SDA_READ_sim (hne : sda ≠ scl) :
    SDA_READ sim_hw (on_sim ini scl sda it ds dl ak l log heap) =
      (l.sda_m && !pulls ak l.phase,
        on_sim ini scl sda it ds dl ak l
          (Ev.gpio_in sda (l.sda_m && !pulls ak l.phase) :: log) heap) := by
  simp only [SDA_READ, gpio_read, emit, sim_hw, sim_step, sim_level, on_sim, if_true,
    if_neg hne]

theorem on_sim_set_in_trans (b : Bool) :
    { on_sim ini scl sda it ds dl ak l log heap with in_trans := b } =
      on_sim ini scl sda b ds dl ak l log heap :=
  rfl

theorem fail_fast_sim (hne : sda ≠ scl) (err : esp_i2c_err) :
    esp_i2c_fail_fast sim_hw err (on_sim ini scl sda it ds dl ak l log heap) =
      (err, on_sim ini scl sda false ds dl ak (lines_fail_fast l)
        (Ev.out_en_c sda :: Ev.out_en_c scl :: log) heap) := by
  unfold esp_i2c_fail_fast
  rw [SCL_RELEASE_sim, SDA_RELEASE_sim _ _ _ _ _ _ _ _ _ _ hne]
  rfl

theorem on_sim_max_cs : (on_sim ini scl sda it ds dl ak l log heap).max_cs = 690 := rfl

theorem on_sim_short : (on_sim ini scl sda it ds dl ak l log heap).i2c_delay_short = ds := rfl

theorem on_sim_long : (on_sim ini scl sda it ds dl ak l log heap).i2c_delay_long = dl := rfl

theorem on_sim_in_trans : (on_sim ini scl sda it ds dl ak l log heap).in_trans = it := rfl

theorem on_sim_heap : (on_sim ini scl sda it ds dl ak l log heap).w.heap = heap := rfl

/-- The clock-stretch wait on the simulated bus with the clock released: one poll. -/
theorem chk_cs_sim (fuel : Nat) (hs : l.scl_m = true) :
    chk_cs sim_hw (fuel + 1) 0 (on_sim ini scl sda it ds dl ak l log heap) =
      some (0, on_sim ini scl sda it ds dl ak l (Ev.gpio_in scl true :: log) heap) := by
  rw [chk_cs, SCL_READ_sim, hs]
  rfl

end prims

/-- After the clock is released the master sees it high. -/
theorem scl_release_scl_m (l : Lines) : (line_step l LineOp.scl_release).scl_m = true := by
  obtain ⟨sm, dm, ph⟩ := l
  cases sm <;> cases ph <;> simp only [line_step] <;> split_ifs <;> rfl

theorem sda_release_sda_m (l : Lines) : (line_step l LineOp.sda_release).sda_m = true := by
  obtain ⟨sm, dm, ph⟩ := l
  simp only [line_step]
  split_ifs <;> rfl

theorem sda_step_scl_m (l : Lines) (op : LineOp)
    (h : op = LineOp.sda_low ∨ op = LineOp.sda_release) :
    (line_step l op).scl_m = l.scl_m := by
  obtain ⟨sm, dm, ph⟩ := l
  rcases h with h | h
  · subst h
    simp only [line_step]
    split_ifs <;> rfl
  · subst h
    simp only [line_step]
    split_ifs <;> rfl

/-- One clock cycle on the simulated bus. -/
theorem sim_tick (acks : Nat → Bool) (it : Bool) (l : Lines) (fuel : Nat) (s : State Sim)
    (hq : On acks it l s) (hf : 0 < fuel) :
    ∃ s1, tick sim_hw fuel s = some (ESP_I2C_OK, s1) ∧
      On acks it (lines_tick l) s1 ∧ s1.w.heap = s.w.heap := by
  obtain ⟨ini, scl, sda, ds, dl, log, hne, hs⟩ := hq.eq_on_sim
  obtain ⟨f, rfl⟩ : ∃ f, fuel = f + 1 := ⟨fuel - 1, by omega⟩
  rw [hs]
  unfold tick
  simp only [on_sim_short, delay_sim, SCL_RELEASE_sim,
    chk_cs_sim _ _ _ _ _ _ _ _ _ _ _ (scl_release_scl_m l), on_sim_max_cs,
    OfNat.zero_ne_ofNat, if_false, on_sim_long, SCL_LOW_sim, on_sim_heap]
  exact ⟨_, rfl, on_sim_on _ _ _ _ _ _ _ _ _ _ hne, rfl⟩

/-- One bit written on the simulated bus. -/
theorem sim_write_bit (acks : Nat → Bool) (it : Bool) (l : Lines) (fuel : Nat) (bit : Bool)
    (s : State Sim) (hq : On acks it l s) (hf : 0 < fuel) :
    ∃ s1, write_bit sim_hw fuel bit s = some (ESP_I2C_OK, s1) ∧
      On acks it (lines_write_bit bit l) s1 ∧ s1.w.heap = s.w.heap := by
  obtain ⟨ini, scl, sda, ds, dl, log, hne, hs⟩ := hq.eq_on_sim
  obtain ⟨f, rfl⟩ : ∃ f, fuel = f + 1 := ⟨fuel - 1, by omega⟩
  rw [hs]
  unfold write_bit tick
  cases bit
  · simp only [Bool.false_eq_true, if_false, SDA_LOW_sim _ _ _ _ _ _ _ _ _ _ hne,
      on_sim_short, delay_sim, SCL_RELEASE_sim,
      chk_cs_sim _ _ _ _ _ _ _ _ _ _ _ (scl_release_scl_m _), on_sim_max_cs,
      OfNat.zero_ne_ofNat, on_sim_long, SCL_LOW_sim, on_sim_heap, ne_eq, not_true_eq_false,
      if_true, SDA_RELEASE_sim _ _ _ _ _ _ _ _ _ _ hne]
    exact ⟨_, rfl, on_sim_on _ _ _ _ _ _ _ _ _ _ hne, rfl⟩
  · simp only [if_true, SDA_RELEASE_sim _ _ _ _ _ _ _ _ _ _ hne,
      on_sim_short, delay_sim, SCL_RELEASE_sim,
      chk_cs_sim _ _ _ _ _ _ _ _ _ _ _ (scl_release_scl_m _), on_sim_max_cs,
      OfNat.zero_ne_ofNat, on_sim_long, SCL_LOW_sim, on_sim_heap, ne_eq, not_true_eq_false,
      if_false, Bool.true_eq_false]
    exact ⟨_, rfl, on_sim_on _ _ _ _ _ _ _ _ _ _ hne, rfl⟩

/-- One bit read on the simulated bus: the data line is sampled while the clock is
high. -/
theorem sim_read_bit (acks : Nat → Bool) (it : Bool) (l : Lines) (fuel : Nat) (bit : Bool)
    (s : State Sim) (hq : On acks it l s) (hf : 0 < fuel) :
    ∃ s1, read_bit sim_hw fuel bit s =
        some (ESP_I2C_OK,
          (line_step l LineOp.scl_release).sda_m &&
            !pulls acks (line_step l LineOp.scl_release).phase, s1) ∧
      On acks it (lines_tick l) s1 ∧ s1.w.heap = s.w.heap := by
  obtain ⟨ini, scl, sda, ds, dl, log, hne, hs⟩ := hq.eq_on_sim
  obtain ⟨f, rfl⟩ : ∃ f, fuel = f + 1 := ⟨fuel - 1, by omega⟩
  rw [hs]
  unfold read_bit
  simp only [on_sim_short, delay_sim, SCL_RELEASE_sim,
    chk_cs_sim _ _ _ _ _ _ _ _ _ _ _ (scl_release_scl_m _), on_sim_max_cs,
    OfNat.zero_ne_ofNat, if_false, SDA_READ_sim _ _ _ _ _ _ _ _ _ _ hne, SCL_LOW_sim,
    on_sim_heap]
  exact ⟨_, rfl, on_sim_on _ _ _ _ _ _ _ _ _ _ hne, rfl⟩

/-- A start condition sent from outside a transaction on the idle simulated bus. -/
theorem sim_start (acks : Nat → Bool) (l : Lines) (fuel : Nat) (s : State Sim)
    (hq : On acks false l s) (hp : l.phase = SimPhase.idle) (hf : 0 < fuel) :
    ∃ s1, esp_i2c_start sim_hw fuel s = some (ESP_I2C_OK, s1) ∧
      On acks true ⟨false, true, SimPhase.addr 0 0⟩ s1 ∧ s1.w.heap = s.w.heap := by
  obtain ⟨ini, scl, sda, ds, dl, log, hne, hs⟩ := hq.eq_on_sim
  obtain ⟨f, rfl⟩ : ∃ f, fuel = f + 1 := ⟨fuel - 1, by omega⟩
  rw [hs]
  obtain ⟨sm, dm, ph⟩ := l
  simp only at hp
  subst hp
  have h1 : (line_step (line_step ⟨sm, dm, SimPhase.idle⟩ LineOp.scl_release)
      LineOp.sda_release) = ⟨true, true, SimPhase.idle⟩ := by
    cases sm <;> cases dm <;> rfl
  unfold esp_i2c_start
  simp only [on_sim_in_trans, Bool.false_eq_true, if_false, SCL_RELEASE_sim,
    SDA_RELEASE_sim _ _ _ _ _ _ _ _ _ _ hne, SDA_READ_sim _ _ _ _ _ _ _ _ _ _ hne, h1,
    pulls, ESP_I2C_LO, Bool.not_false, Bool.and_true, Bool.true_eq_false,
    chk_cs_sim _ _ _ _ _ _ _ ⟨true, true, SimPhase.idle⟩ _ _ _ rfl, on_sim_max_cs,
    on_sim_short,
    OfNat.zero_ne_ofNat, SDA_LOW_sim _ _ _ _ _ _ _ _ _ _ hne, SCL_LOW_sim, delay_sim,
    on_sim_set_in_trans, on_sim_heap]
  exact ⟨_, rfl, on_sim_on _ _ _ _ _ _ _ _ _ _ hne, rfl⟩

/-- A stop condition sent from inside a transaction on the simulated bus. -/
theorem sim_stop (acks : Nat → Bool) (l : Lines) (fuel : Nat) (s : State Sim)
    (hq : On acks true l s) (hf : 0 < fuel) :
    ∃ s1, esp_i2c_stop sim_hw fuel s = some (ESP_I2C_OK, s1) ∧
      On acks false (lines_stop l) s1 ∧ s1.w.heap = s.w.heap := by
  obtain ⟨ini, scl, sda, ds, dl, log, hne, hs⟩ := hq.eq_on_sim
  obtain ⟨f, rfl⟩ : ∃ f, fuel = f + 1 := ⟨fuel - 1, by omega⟩
  rw [hs]
  unfold esp_i2c_stop
  simp only [on_sim_in_trans, Bool.true_eq_false, if_false,
    SDA_LOW_sim _ _ _ _ _ _ _ _ _ _ hne, on_sim_short, delay_sim, SCL_RELEASE_sim,
    chk_cs_sim _ _ _ _ _ _ _ _ _ _ _ (scl_release_scl_m _), on_sim_max_cs,
    OfNat.zero_ne_ofNat, SDA_RELEASE_sim _ _ _ _ _ _ _ _ _ _ hne, SCL_LOW_sim,
    on_sim_set_in_trans, on_sim_heap]
  exact ⟨_, rfl, on_sim_on _ _ _ _ _ _ _ _ _ _ hne, rfl⟩

/-- Fail-fast on the simulated bus. -/
theorem sim_fail_fast (acks : Nat → Bool) (it : Bool) (l : Lines) (err : esp_i2c_err)
    (s : State Sim) (hq : On acks it l s) :
    (esp_i2c_fail_fast sim_hw err s).1 = err ∧
    On acks false (lines_fail_fast l) (esp_i2c_fail_fast sim_hw err s).2 ∧
    (esp_i2c_fail_fast sim_hw err s).2.w.heap = s.w.heap := by
  obtain ⟨ini, scl, sda, ds, dl, log, hne, hs⟩ := hq.eq_on_sim
  rw [hs, fail_fast_sim _ _ _ _ _ _ _ _ _ _ hne]
  exact ⟨rfl, on_sim_on _ _ _ _ _ _ _ _ _ _ hne, rfl⟩

end I2C

namespace I2C

open esp_i2c_err

/-- Unfolding the bit loop of `esp_i2c_write_byte` by one bit that was written. -/
theorem write_byte_loop_step {σ : Type} (H : Hw σ) (fuel byte n mask : Nat) (s s1 : State σ)
    (hm : mask ≠ 0)
    (hw : write_bit H fuel ((byte &&& mask) != 0) s = some (ESP_I2C_OK, s1)) :
    esp_i2c_write_byte_loop H fuel byte (n + 1) mask s =
      esp_i2c_write_byte_loop H fuel byte n (mask >>> 1) s1 := by
  rw [esp_i2c_write_byte_loop, if_neg hm, hw]
  simp only [ne_eq, not_true_eq_false, if_false]

/-- The eight bits of a byte written on the simulated bus. -/
theorem sim_write_bits (acks : Nat → Bool) (it : Bool) (l : Lines) (fuel byte : Nat)
    (s : State Sim) (hq : On acks it l s) (hf : 0 < fuel) :
    ∃ s1, esp_i2c_write_byte_loop sim_hw fuel byte 9 0x80 s = some (none, s1) ∧
      On acks it (lines_write_bits byte l) s1 ∧ s1.w.heap = s.w.heap := by
  obtain ⟨s7, e7, q7, h7⟩ := sim_write_bit acks it l fuel ((byte &&& 128) != 0) s hq hf
  obtain ⟨s6, e6, q6, h6⟩ := sim_write_bit acks it _ fuel ((byte &&& 64) != 0) s7 q7 hf
  obtain ⟨s5, e5, q5, h5⟩ := sim_write_bit acks it _ fuel ((byte &&& 32) != 0) s6 q6 hf
  obtain ⟨s4, e4, q4, h4⟩ := sim_write_bit acks it _ fuel ((byte &&& 16) != 0) s5 q5 hf
  obtain ⟨s3, e3, q3, h3⟩ := sim_write_bit acks it _ fuel ((byte &&& 8) != 0) s4 q4 hf
  obtain ⟨s2, e2, q2, h2⟩ := sim_write_bit acks it _ fuel ((byte &&& 4) != 0) s3 q3 hf
  obtain ⟨s1, e1, q1, h1⟩ := sim_write_bit acks it _ fuel ((byte &&& 2) != 0) s2 q2 hf
  obtain ⟨s0, e0, q0, h0⟩ := sim_write_bit acks it _ fuel ((byte &&& 1) != 0) s1 q1 hf
  refine ⟨s0, ?_, q0, by rw [h0, h1, h2, h3, h4, h5, h6, h7]⟩
  have c7 := write_byte_loop_step sim_hw fuel byte 8 0x80 s s7 (by decide) e7
  have c6 := write_byte_loop_step sim_hw fuel byte 7 64 s7 s6 (by decide) e6
  have c5 := write_byte_loop_step sim_hw fuel byte 6 32 s6 s5 (by decide) e5
  have c4 := write_byte_loop_step sim_hw fuel byte 5 16 s5 s4 (by decide) e4
  have c3 := write_byte_loop_step sim_hw fuel byte 4 8 s4 s3 (by decide) e3
  have c2 := write_byte_loop_step sim_hw fuel byte 3 4 s3 s2 (by decide) e2
  have c1 := write_byte_loop_step sim_hw fuel byte 2 2 s2 s1 (by decide) e1
  have c0 := write_byte_loop_step sim_hw fuel byte 1 1 s1 s0 (by decide) e0
  exact c7.trans (c6.trans (c5.trans (c4.trans (c3.trans (c2.trans (c1.trans
    (c0.trans rfl)))))))

/-- The slaves of the simulated bus have received the byte the master wrote after a
start condition, and are in the acknowledge slot. -/
theorem lines_write_bits_addr :
    ∀ byte, byte < 256 →
      lines_write_bits byte ⟨false, true, SimPhase.addr 0 0⟩ =
        ⟨false, true, SimPhase.ack byte⟩ := by
  decide

/-- A byte written on the simulated bus right after a start condition: the byte is
acknowledged exactly when `acks` tells so. -/
theorem sim_write_byte_addr (acks : Nat → Bool) (it : Bool) (fuel byte : Nat) (ack : Bool)
    (s : State Sim) (hq : On acks it ⟨false, true, SimPhase.addr 0 0⟩ s) (hf : 0 < fuel)
    (hb : byte < 256) :
    ∃ s1, esp_i2c_write_byte sim_hw fuel byte ack s = some (ESP_I2C_OK, !acks byte, s1) ∧
      On acks it ⟨false, true, SimPhase.rest⟩ s1 ∧ s1.w.heap = s.w.heap := by
  obtain ⟨s1, e1, q1, h1⟩ := sim_write_bits acks it _ fuel byte s hq hf
  rw [lines_write_bits_addr byte hb] at q1
  obtain ⟨s2, e2, q2, h2⟩ := sim_read_bit acks it _ fuel ack s1 q1 hf
  refine ⟨s2, ?_, q2, by rw [h2, h1]⟩
  unfold esp_i2c_write_byte
  rw [e1]
  simp only
  rw [e2]
  rfl

/-- Probing an address byte on the idle simulated bus: `esp_i2c_start_read_write`
returns `ESP_I2C_OK`, staying in the transaction, when the byte is acknowledged,
and `ESP_I2C_ERR_NO_ACK`, leaving the bus idle, when not. -/
theorem sim_probe (acks : Nat → Bool) (l : Lines) (fuel byte : Nat) (s : State Sim)
    (hq : On acks false l s) (hp : l.phase = SimPhase.idle) (hf : 0 < fuel)
    (hb : byte < 256) :
    ∃ s1, s1.w.heap = s.w.heap ∧
      esp_i2c_start_read_write sim_hw fuel byte true s =
        some (if acks byte then ESP_I2C_OK else ESP_I2C_ERR_NO_ACK, s1) ∧
      (acks byte = true → On acks true ⟨false, true, SimPhase.rest⟩ s1) ∧
      (acks byte = false → On acks false ⟨true, true, SimPhase.idle⟩ s1) := by
  obtain ⟨s1, e1, q1, h1⟩ := sim_start acks l fuel s hq hp hf
  obtain ⟨s2, e2, q2, h2⟩ := sim_write_byte_addr acks true fuel byte false s1 q1 hf hb
  unfold esp_i2c_start_read_write
  rw [e1]
  simp only [ne_eq, not_true_eq_false, if_false]
  rw [e2]
  simp only [ne_eq, not_true_eq_false, if_false, ESP_I2C_ACK, if_true]
  cases ha : acks byte
  · obtain ⟨s3, e3, q3, h3⟩ := sim_stop acks _ fuel s2 q2 hf
    obtain ⟨f1, f2, f3⟩ := sim_fail_fast acks false _ ESP_I2C_ERR_NO_ACK s3 q3
    rw [e3]
    refine ⟨(esp_i2c_fail_fast sim_hw ESP_I2C_ERR_NO_ACK s3).2, by rw [f3, h3, h2, h1], ?_,
      by simp, fun _ => f2⟩
    simp
    exact Prod.ext f1 rfl
  · exact ⟨s2, by rw [h2, h1], by simp, fun _ => q2, by simp⟩

end I2C

namespace I2C

open esp_i2c_err

theorem lines_stop_rest : lines_stop ⟨false, true, SimPhase.rest⟩ = ⟨false, true, SimPhase.idle⟩ :=
  rfl

theorem ESP_I2C_ADDR_WRITE_lt (a : Nat) : ESP_I2C_ADDR_WRITE a < 256 :=
  Nat.mod_lt _ (by norm_num)

/-- Recording a found address on the simulated bus. -/
theorem sim_scan_record (acks : Nat → Bool) (it : Bool) (l : Lines) (address : Nat)
    (nodes : List Nat) (s : State Sim) (hq : On acks it l s)
    (hh : nodes.getLastD 0 ≠ 0 → 0 < s.w.heap) :
    ∃ s1, scan_record address nodes s = some (record nodes address, s1) ∧ On acks it l s1 ∧
      s1.w.heap + (if nodes.getLastD 0 = 0 then 0 else 1) = s.w.heap := by
  unfold scan_record record
  by_cases h0 : nodes.getLastD 0 = 0
  · rw [if_pos h0, if_pos h0, if_pos h0]
    exact ⟨s, rfl, hq, rfl⟩
  · have hpos := hh h0
    have hz : os_zalloc s.w = (true, { s.w with heap := s.w.heap - 1 }) := by
      unfold os_zalloc
      rw [if_neg (by omega)]
    rw [if_neg h0, if_neg h0, if_neg h0, hz]
    simp only [Bool.true_eq_false, if_false]
    refine ⟨_, rfl, ?_, ?_⟩
    · obtain ⟨⟨h1, h2, h3, h4, h5⟩, h6, h7⟩ := hq
      exact ⟨⟨h1, h2, h3, h4, h5⟩, h6, h7⟩
    · simp only
      omega

/-- The address loop of `esp_i2c_scan` on the idle simulated bus, `k` addresses from
`address` on being left: the acknowledged addresses among those probed are recorded
in ascending order. -/
theorem sim_scan_loop (acks : Nat → Bool) (fuel : Nat) (hf : 0 < fuel) :
    ∀ (k address : Nat) (nodes : List Nat) (l : Lines) (s : State Sim),
      address + k = 128 → On acks false l s → l.phase = SimPhase.idle →
      (∀ x ∈ nodes, x ≠ 0 ∨ nodes = [0]) → nodes ≠ [] → 0 < address →
      (scan_expect acks address k).length ≤
        s.w.heap + (if nodes.getLastD 0 = 0 then 1 else 0) →
      ∃ s1, esp_i2c_scan_loop sim_hw fuel (k + 1) address nodes s =
        some ((scan_expect acks address k).foldl record nodes, s1) := by
  intro k
  induction k with
  | zero =>
    intro address nodes l s ha _ _ _ _ _ _
    rw [esp_i2c_scan_loop, if_pos (by omega)]
    exact ⟨s, rfl⟩
  | succ k ih =>
    intro address nodes l s ha hq hp hn hne hpos hh
    have hlt : address < 128 := by omega
    have hnext : (address + 1) % 256 = address + 1 := Nat.mod_eq_of_lt (by omega)
    have hexp : scan_expect acks address (k + 1) =
        if (!scan_skip address && acks (ESP_I2C_ADDR_WRITE address)) = true then
          address :: scan_expect acks (address + 1) k
        else scan_expect acks (address + 1) k := by
      unfold scan_expect
      rw [List.range'_succ, List.filter_cons]
    rw [esp_i2c_scan_loop, if_neg (by omega), hnext]
    by_cases hskip : scan_skip address = true
    · rw [if_pos hskip]
      rw [hexp, hskip] at hh ⊢
      simp only [Bool.not_true, Bool.false_and, Bool.false_eq_true, if_false] at hh ⊢
      exact ih (address + 1) nodes l s (by omega) hq hp hn hne (by omega) hh
    · rw [if_neg hskip]
      have hskip' : scan_skip address = false := by
        cases h : scan_skip address
        · rfl
        · exact absurd h hskip
      obtain ⟨s1, h1, e1, qa, qn⟩ := sim_probe acks l fuel (ESP_I2C_ADDR_WRITE address) s hq hp
        hf (ESP_I2C_ADDR_WRITE_lt address)
      rw [e1]
      rw [hexp, hskip'] at hh ⊢
      simp only [Bool.not_false, Bool.true_and] at hh ⊢
      cases hack : acks (ESP_I2C_ADDR_WRITE address)
      · rw [hack] at hh
        simp only [Bool.false_eq_true, if_false, ne_eq, not_false_eq_true,
          reduceCtorEq, if_true] at hh ⊢
        exact ih (address + 1) nodes _ s1 (by omega) (qn hack) rfl hn hne (by omega)
          (by rw [h1]; exact hh)
      · rw [hack] at hh
        simp only [if_true, ne_eq, not_true_eq_false, if_false, List.length_cons,
          List.foldl_cons] at hh ⊢
        obtain ⟨s2, e2, q2, h2⟩ := sim_scan_record acks true _ address nodes s1 (qa hack)
          (fun h0 => by
            rw [if_neg h0] at hh
            omega)
        obtain ⟨s3, e3, q3, h3⟩ := sim_stop acks _ fuel s2 q2 hf
        rw [e2]
        simp only
        rw [e3]
        simp only
        have hrec : (record nodes address).getLastD 0 ≠ 0 := by
          unfold record
          split <;> simp <;> omega
        apply ih (address + 1) (record nodes address) _ s3 (by omega) q3 rfl
        · intro x hx
          left
          unfold record at hx
          split at hx
          · rename_i h0
            rcases List.mem_append.mp hx with hx | hx
            · have hx' := List.mem_of_mem_dropLast hx
              rcases hn x hx' with h | h
              · exact h
              · rw [h] at hx
                simp at hx
            · rw [List.mem_singleton.mp hx]
              omega
          · rename_i h0
            rcases List.mem_append.mp hx with hx | hx
            · rcases hn x hx with h | h
              · exact h
              · rw [h] at h0
                simp at h0
            · rw [List.mem_singleton.mp hx]
              omega
        · unfold record
          split <;> simp
        · omega
        · rw [if_neg hrec, h3]
          split at h2 <;> split at hh <;> omega

/-- Once an address is recorded, every further address goes to a new node. -/
theorem foldl_record_append (xs : List Nat) (hx : ∀ x ∈ xs, x ≠ 0) :
    ∀ nodes : List Nat, nodes.getLastD 0 ≠ 0 → xs.foldl record nodes = nodes ++ xs := by
  induction xs with
  | nil =>
    intro nodes _
    simp
  | cons x xs ih =>
    intro nodes hl
    have hr : record nodes x = nodes ++ [x] := by
      unfold record
      rw [if_neg hl]
    rw [List.foldl_cons, hr, ih (fun y hy => hx y (List.mem_cons_of_mem _ hy)) (nodes ++ [x])
      (by simpa using hx x (List.mem_cons_self _ _))]
    simp

/-- The list built by `esp_i2c_scan` from the zeroed root node. -/
theorem foldl_record_root (xs : List Nat) (hx : ∀ x ∈ xs, x ≠ 0) :
    xs.foldl record [0] = if xs = [] then [0] else xs := by
  cases xs with
  | nil => rfl
  | cons x xs =>
    have hr : record [0] x = [x] := rfl
    rw [List.foldl_cons, hr, foldl_record_append xs
      (fun y hy => hx y (List.mem_cons_of_mem _ hy)) [x]
      (by simpa using hx x (List.mem_cons_self _ _))]
    simp

theorem scan_expect_ne_zero (acks : Nat → Bool) (a n : Nat) (ha : 0 < a) :
    ∀ x ∈ scan_expect acks a n, x ≠ 0 := by
  intro x hx
  unfold scan_expect at hx
  have := (List.mem_range'_1.mp (List.mem_filter.mp hx).1).1
  omega

/-- The function `esp_i2c_scan` on the idle simulated bus, with a free node for the root and for
every further device found: it returns `ESP_I2C_OK` with the acknowledged addresses
among those it probes, in ascending order. -/
theorem sim_scan (acks : Nat → Bool) (fuel : Nat) (hf : 0 < fuel) (l : Lines) (s : State Sim)
    (hq : On acks false l s) (hp : l.phase = SimPhase.idle) (hh : 0 < s.w.heap)
    (hn : (scan_expect acks 1 127).length ≤ s.w.heap) :
    ∃ s1, esp_i2c_scan sim_hw fuel [] s = some (ESP_I2C_OK, scan_expect acks 1 127, s1) := by
  have hz : os_zalloc s.w = (true, { s.w with heap := s.w.heap - 1 }) := by
    unfold os_zalloc
    rw [if_neg (by omega)]
  have hq1 : On acks false l { s with w := { s.w with heap := s.w.heap - 1 } } := by
    obtain ⟨⟨h1, h2, h3, h4, h5⟩, h6, h7⟩ := hq
    exact ⟨⟨h1, h2, h3, h4, h5⟩, h6, h7⟩
  obtain ⟨s1, e1⟩ := sim_scan_loop acks fuel hf 127 1 [0] l
    { s with w := { s.w with heap := s.w.heap - 1 } } (by norm_num) hq1 hp
    (fun x _ => Or.inr rfl) (by simp) (by norm_num)
    (by
      simp only [List.getLastD_cons, List.getLastD_nil, if_true]
      omega)
  unfold esp_i2c_scan
  rw [if_neg (by simp), hz]
  simp only [Bool.true_eq_false, if_false]
  rw [e1, foldl_record_root _ (scan_expect_ne_zero acks 1 127 (by norm_num))]
  simp only
  cases hx : scan_expect acks 1 127 with
  | nil =>
    simp only [if_true, List.headD_cons]
    exact ⟨_, rfl⟩
  | cons x xs =>
    have hx0 : x ≠ 0 := scan_expect_ne_zero acks 1 127 (by norm_num) x (by rw [hx]; simp)
    simp only [reduceCtorEq, if_false, List.headD_cons, hx0]
    exact ⟨_, rfl⟩

theorem ESP_I2C_ADDR_WRITE_eq : ∀ x, x < 128 → ESP_I2C_ADDR_WRITE x = 2 * x := by
  decide

theorem scan_skip_of_range : ∀ x, x < 128 → 8 ≤ x → x ≤ 0x77 → scan_skip x = false := by
  decide

/-- On the bus that acknowledges the write-mode address bytes of the addresses in
`S`, all within 0x08..0x77, the addresses that `esp_i2c_scan` probes and that are
acknowledged are the addresses of `S`, in ascending order. -/
theorem scan_expect_addrs (S : List Nat) (hS : ∀ a ∈ S, 8 ≤ a ∧ a ≤ 0x77) :
    scan_expect (fun b => decide (b % 2 = 0 ∧ b / 2 ∈ S)) 1 127 =
      (List.range 128).filter (fun a => decide (a ∈ S)) := by
  have h0 : (0 : Nat) ∉ S := fun h => by
    have := (hS 0 h).1
    omega
  have hr : List.range 128 = 0 :: List.range' 1 127 := by
    rw [List.range_eq_range', List.range'_succ]
  rw [hr, List.filter_cons, if_neg (by simpa using h0)]
  unfold scan_expect
  apply List.filter_congr
  intro x hx
  have hx1 := List.mem_range'_1.mp hx
  have hlt : x < 128 := by omega
  rw [ESP_I2C_ADDR_WRITE_eq x hlt]
  have e1 : (2 * x) % 2 = 0 := by omega
  have e2 : (2 * x) / 2 = x := by omega
  by_cases hm : x ∈ S
  · have := hS x hm
    rw [scan_skip_of_range x hlt this.1 this.2]
    simp [e1, e2, hm]
  · simp [e1, e2, hm]

end I2C

/-! ## The two-wire code on an arbitrary bus -/

namespace I2C

open esp_i2c_err

section generic
variable {σ : Type}

/-- The clock-stretch counter is a `uint8_t`: what `chk_cs` returns is below 256. -/
theorem chk_cs_lt (H : Hw σ) :
    ∀ (fuel idx : Nat) (s : State σ) (r : Nat) (s1 : State σ), idx < 256 →
      chk_cs H fuel idx s = some (r, s1) → r < 256 ∧ s1.max_cs = s.max_cs := by
  intro fuel
  induction fuel with
  | zero =>
    intro idx s r s1 _ h
    simp [chk_cs] at h
  | succ n ih =>
    intro idx s r s1 hi h
    rw [chk_cs] at h
    split at h
    · split at h
      · have := ih _ _ _ _ (Nat.mod_lt _ (by norm_num)) h
        exact ⟨this.1, this.2⟩
      · simp only [Option.some.injEq, Prod.mk.injEq] at h
        obtain ⟨rfl, rfl⟩ := h
        exact ⟨Nat.mod_lt _ (by norm_num), rfl⟩
    · simp only [Option.some.injEq, Prod.mk.injEq] at h
      obtain ⟨rfl, rfl⟩ := h
      exact ⟨hi, rfl⟩

/-- With the clock-stretch bound at its value 690, `esp_i2c_start` returns
`ESP_I2C_ERR_LONG_STRETCH` on no bus: the counter of `chk_cs` never reaches it. -/
theorem esp_i2c_start_no_long_stretch (H : Hw σ) (fuel : Nat) (s s1 : State σ)
    (e : esp_i2c_err) (hm : s.max_cs = 690) (h : esp_i2c_start H fuel s = some (e, s1)) :
    e ≠ ESP_I2C_ERR_LONG_STRETCH := by
  unfold esp_i2c_start at h
  dsimp only at h
  split at h
  · split at h
    · simp at h
    · rename_i idx s2 hc
      have := chk_cs_lt H fuel 0 _ idx s2 (by norm_num) hc
      have hm2 : s2.max_cs = 690 := by rw [this.2]; exact hm
      rw [if_neg (by rw [hm2]; omega)] at h
      simp only [Option.some.injEq, Prod.mk.injEq] at h
      rw [← h.1]
      simp
  · split at h
    · simp only [Option.some.injEq, Prod.mk.injEq] at h
      rw [← h.1]
      simp
    · split at h
      · simp at h
      · rename_i idx s2 hc
        have := chk_cs_lt H fuel 0 _ idx s2 (by norm_num) hc
        have hm2 : s2.max_cs = 690 := by rw [this.2]; exact hm
        rw [if_neg (by rw [hm2]; omega)] at h
        simp only [Option.some.injEq, Prod.mk.injEq] at h
        rw [← h.1]
        simp

/-- The function `tick` returns `ESP_I2C_OK` or `ESP_I2C_ERR_LONG_STRETCH`. -/
theorem tick_err (H : Hw σ) (fuel : Nat) (s s1 : State σ) (e : esp_i2c_err)
    (h : tick H fuel s = some (e, s1)) : e = ESP_I2C_OK ∨ e = ESP_I2C_ERR_LONG_STRETCH := by
  unfold tick at h
  dsimp only at h
  split at h
  · simp at h
  · split at h
    · simp only [esp_i2c_fail_fast, Option.some.injEq, Prod.mk.injEq] at h
      exact Or.inr h.1.symm
    · simp only [Option.some.injEq, Prod.mk.injEq] at h
      exact Or.inl h.1.symm

/-- The function `write_bit` returns `ESP_I2C_OK` or `ESP_I2C_ERR_LONG_STRETCH`. -/
theorem write_bit_err (H : Hw σ) (fuel : Nat) (bit : Bool) (s s1 : State σ) (e : esp_i2c_err)
    (h : write_bit H fuel bit s = some (e, s1)) :
    e = ESP_I2C_OK ∨ e = ESP_I2C_ERR_LONG_STRETCH := by
  unfold write_bit at h
  dsimp only at h
  split at h
  · simp at h
  · rename_i err s2 ht
    have := tick_err H fuel _ s2 err ht
    split at h
    · simp only [esp_i2c_fail_fast, Option.some.injEq, Prod.mk.injEq] at h
      rw [← h.1]
      exact this
    · simp only [Option.some.injEq, Prod.mk.injEq] at h
      exact Or.inl h.1.symm

/-- The function `read_bit` returns `ESP_I2C_OK` or `ESP_I2C_ERR_LONG_STRETCH`. -/
theorem read_bit_err (H : Hw σ) (fuel : Nat) (bit b1 : Bool) (s s1 : State σ)
    (e : esp_i2c_err) (h : read_bit H fuel bit s = some (e, b1, s1)) :
    e = ESP_I2C_OK ∨ e = ESP_I2C_ERR_LONG_STRETCH := by
  unfold read_bit at h
  dsimp only at h
  split at h
  · simp at h
  · split at h
    · simp only [esp_i2c_fail_fast, Option.some.injEq, Prod.mk.injEq] at h
      exact Or.inr h.1.symm
    · simp only [Option.some.injEq, Prod.mk.injEq] at h
      exact Or.inl h.1.symm

/-- The bit loop of `esp_i2c_write_byte` is left early only with
`ESP_I2C_ERR_LONG_STRETCH`. -/
theorem write_byte_loop_err (H : Hw σ) (fuel byte : Nat) :
    ∀ (n mask : Nat) (s s1 : State σ) (e : esp_i2c_err),
      esp_i2c_write_byte_loop H fuel byte n mask s = some (some e, s1) →
      e = ESP_I2C_ERR_LONG_STRETCH := by
  intro n
  induction n with
  | zero =>
    intro mask s s1 e h
    simp [esp_i2c_write_byte_loop] at h
  | succ n ih =>
    intro mask s s1 e h
    rw [esp_i2c_write_byte_loop] at h
    split at h
    · simp at h
    · split at h
      · simp at h
      · rename_i err s2 hw
        have := write_bit_err H fuel _ s s2 err hw
        split at h
        · rename_i hne
          simp only [Option.some.injEq, Prod.mk.injEq] at h
          rw [← h.1]
          rcases this with h1 | h1
          · exact absurd h1 hne
          · exact h1
        · exact ih _ _ _ _ h

/-- The function `esp_i2c_write_byte` returns `ESP_I2C_OK` or `ESP_I2C_ERR_LONG_STRETCH`. -/
theorem esp_i2c_write_byte_err (H : Hw σ) (fuel byte : Nat) (ack a1 : Bool) (s s1 : State σ)
    (e : esp_i2c_err) (h : esp_i2c_write_byte H fuel byte ack s = some (e, a1, s1)) :
    e = ESP_I2C_OK ∨ e = ESP_I2C_ERR_LONG_STRETCH := by
  unfold esp_i2c_write_byte at h
  split at h
  · simp at h
  · rename_i err s2 hl
    simp only [Option.some.injEq, Prod.mk.injEq] at h
    rw [← h.1]
    exact Or.inr (write_byte_loop_err H fuel byte _ _ _ _ _ hl)
  · exact read_bit_err H fuel _ _ _ _ _ h

/-- On every bus, `esp_i2c_write_bytes` returns `ESP_I2C_OK` or
`ESP_I2C_ERR_LONG_STRETCH`, never `ESP_I2C_ERR_NO_ACK`: the result of the
`esp_i2c_fail_fast` called after a NACK is dropped. -/
theorem esp_i2c_write_bytes_err (H : Hw σ) (fuel : Nat) :
    ∀ (buf : List Nat) (ack : Bool) (s s1 : State σ) (e : esp_i2c_err),
      esp_i2c_write_bytes_loop H fuel buf ack s = some (e, s1) →
      e = ESP_I2C_OK ∨ e = ESP_I2C_ERR_LONG_STRETCH := by
  intro buf
  induction buf with
  | nil =>
    intro ack s s1 e h
    simp only [esp_i2c_write_bytes_loop, Option.some.injEq, Prod.mk.injEq] at h
    exact Or.inl h.1.symm
  | cons b buf ih =>
    intro ack s s1 e h
    rw [esp_i2c_write_bytes_loop] at h
    split at h
    · simp at h
    · rename_i err a1 s2 hw
      have := esp_i2c_write_byte_err H fuel b ack a1 s s2 err hw
      split at h
      · simp only [esp_i2c_fail_fast, Option.some.injEq, Prod.mk.injEq] at h
        rw [← h.1]
        exact this
      · exact ih _ _ _ _ h

/-- On a clock line held low forever the clock-stretch wait never ends, whatever
the bound on the number of polls. -/
theorem chk_cs_stuck (scl : Nat) :
    ∀ (fuel idx : Nat) (s : State Unit), s.gpio_scl = scl → s.max_cs = 690 → idx < 256 →
      chk_cs (stuck_hw scl) fuel idx s = none := by
  intro fuel
  induction fuel with
  | zero =>
    intro idx s _ _ _
    rfl
  | succ n ih =>
    intro idx s hs hm hi
    have hr : (SCL_READ (stuck_hw scl) s).1 = false := by
      simp [SCL_READ, gpio_read, stuck_hw, hs]
    rw [chk_cs, if_pos (by rw [hr]; rfl), if_pos (by omega)]
    exact ih _ _ hs hm (Nat.mod_lt _ (by norm_num))

end generic

end I2C

namespace I2C

open esp_i2c_err

/-- C7: for every set `S` of addresses within 0x08..0x77, on the simulated bus (data
line idle high, no clock stretching) on which a write-mode address byte is
acknowledged exactly when its address is in `S`, `esp_i2c_scan` called outside a
transaction with an empty root, a free node for the root and for every further
device, returns `ESP_I2C_OK`, and the resulting sequence holds exactly the
addresses of `S`, in strictly ascending order. -/
theorem c7_scan_finds_exactly (S : List Nat) (fuel : Nat) (l : Lines) (s : State Sim)
    (hS : ∀ a ∈ S, 8 ≤ a ∧ a ≤ 0x77) (hf : 0 < fuel)
    (hq : On (fun b => decide (b % 2 = 0 ∧ b / 2 ∈ S)) false l s)
    (hp : l.phase = SimPhase.idle) (hh : 0 < s.w.heap)
    (hn : ((List.range 128).filter (fun a => decide (a ∈ S))).length ≤ s.w.heap) :
    ∃ (out : List Nat) (s1 : State Sim),
      esp_i2c_scan sim_hw fuel [] s = some (ESP_I2C_OK, out, s1) ∧
      out = (List.range 128).filter (fun a => decide (a ∈ S)) ∧
      (∀ a, a ∈ out ↔ a ∈ S) ∧ out.Pairwise (fun a b => a < b) := by
  have he := scan_expect_addrs S hS
  obtain ⟨s1, e1⟩ := sim_scan _ fuel hf l s hq hp hh (by rw [he]; exact hn)
  rw [he] at e1
  refine ⟨_, s1, e1, rfl, ?_, ?_⟩
  · intro a
    rw [List.mem_filter, List.mem_range]
    constructor
    · intro h
      simpa using h.2
    · intro h
      have := hS a h
      exact ⟨by omega, by simpa using h⟩
  · exact List.Pairwise.filter _ (List.pairwise_lt_range 128)

/-- C7 at work: the simulated bus acknowledging the addresses 0x20 and 0x50, the
engine initialised on pins 0 and 2 with two free nodes: the scan returns exactly
0x20, 0x50. -/
theorem c7_scan_finds_exactly_witness :
    (∀ a ∈ [0x20, 0x50], 8 ≤ a ∧ a ≤ 0x77) ∧
    (List.range 128).filter (fun a => decide (a ∈ [0x20, 0x50])) = [0x20, 0x50] ∧
    ∃ (out : List Nat) (s1 : State Sim),
      esp_i2c_scan sim_hw 1 [] (sim_state 0 2 [0x20, 0x50] 2) = some (ESP_I2C_OK, out, s1) ∧
      out = (List.range 128).filter (fun a => decide (a ∈ [0x20, 0x50])) ∧
      (∀ a, a ∈ out ↔ a ∈ [0x20, 0x50]) ∧ out.Pairwise (fun a b => a < b) :=
  ⟨by decide, by decide,
    c7_scan_finds_exactly [0x20, 0x50] 1 ⟨true, true, SimPhase.idle⟩
      (sim_state 0 2 [0x20, 0x50] 2) (by decide) (by decide)
      ⟨⟨rfl, rfl, by decide, rfl, rfl⟩, rfl, rfl⟩ rfl (by decide) (by decide)⟩

end I2C

namespace I2C

open esp_i2c_err

/-- C4 fails on the code. The engine is initialised on pins 0 (clock) and 2 (data),
not in a transaction. When the clock line is held low forever while the data line
reads high, `esp_i2c_start` returns nothing, whatever the bound on the polls: the
clock-stretch wait never ends. When the clock line reads low on the first 690
polls (the value of `max_cs`), or on the first 2000, and high afterwards,
`esp_i2c_start` returns `ESP_I2C_OK` and enters the transaction. Neither run ends in
`ESP_I2C_ERR_LONG_STRETCH`: the counter of `chk_cs` is a `uint8_t` and stays below
`max_cs`. -/
theorem c4_start_clock_held_low :
    (∀ fuel, esp_i2c_start (stuck_hw 0) fuel
      (esp_i2c_init (stuck_hw 0) 0 2 (State.boot { env := (), log := [], heap := 0 })).2 =
        none) ∧
    (esp_i2c_start (stretch_hw 0 690) 691
      (esp_i2c_init (stretch_hw 0 690) 0 2
        (State.boot { env := 0, log := [], heap := 0 })).2).map
        (fun r => (r.1, r.2.in_trans, r.2.max_cs)) = some (ESP_I2C_OK, true, 690) ∧
    (esp_i2c_start (stretch_hw 0 2000) 2001
      (esp_i2c_init (stretch_hw 0 2000) 0 2
        (State.boot { env := 0, log := [], heap := 0 })).2).map
        (fun r => (r.1, r.2.in_trans, r.2.max_cs)) = some (ESP_I2C_OK, true, 690) := by
  refine ⟨?_, by decide, by decide⟩
  intro fuel
  have h := chk_cs_stuck 0 fuel 0
    (SDA_READ (stuck_hw 0) (SDA_RELEASE (stuck_hw 0) (SCL_RELEASE (stuck_hw 0)
      (esp_i2c_init (stuck_hw 0) 0 2
        (State.boot { env := (), log := [], heap := 0 })).2))).2 rfl rfl (by norm_num)
  unfold esp_i2c_start
  rw [if_neg (by decide)]
  dsimp only
  rw [if_neg (by decide), h]

end I2C

namespace I2C

open esp_i2c_err

/-- C2 fails on the code. The engine is initialised on pins 0 and 2 of the simulated
bus without any slave, so that every byte is answered with NACK, and a start
condition is sent. The first byte is answered with NACK (`ack_resp` is
`ESP_I2C_NACK`), yet `esp_i2c_write_bytes` returns `ESP_I2C_OK` for one byte as for
three bytes, and with three bytes it clocks out all three: the clock is driven low
28 times, once in the start condition and nine times per byte, against 10 times for
a single byte. -/
theorem c2_write_bytes_goes_on_after_nack :
    ((esp_i2c_start sim_hw 1 (sim_state 0 2 [] 0)).bind
        (fun r => esp_i2c_write_byte sim_hw 1 0xAA false r.2)).map
      (fun r => (r.1, r.2.1)) = some (ESP_I2C_OK, ESP_I2C_NACK) ∧
    ((esp_i2c_start sim_hw 1 (sim_state 0 2 [] 0)).bind
        (fun r => esp_i2c_write_bytes sim_hw 1 [0xAA] r.2)).map
      (fun r => (r.1, (r.2.w.log.filter (fun e => decide (e = Ev.out_en_s 0))).length)) =
        some (ESP_I2C_OK, 10) ∧
    ((esp_i2c_start sim_hw 1 (sim_state 0 2 [] 0)).bind
        (fun r => esp_i2c_write_bytes sim_hw 1 [0xAA, 0x55, 0x01] r.2)).map
      (fun r => (r.1, (r.2.w.log.filter (fun e => decide (e = Ev.out_en_s 0))).length)) =
        some (ESP_I2C_OK, 28) := by
  decide

/-- C3 fails on the code. The second test of `esp_i2c_scan`,
`(address & 0x78) == 0 && (address & 0x3) > 0`, does not skip address 4: the
addresses probed are 4 and 0x08..0x77. On the simulated bus with a slave at the
reserved address 4 the scan returns that address. -/
theorem c3_scan_probes_reserved_address :
    scan_skip 4 = false ∧
    (List.range' 1 127).filter (fun a => !scan_skip a) = 4 :: List.range' 8 112 ∧
    ∃ s1, esp_i2c_scan sim_hw 1 [] (sim_state 0 2 [4] 1) = some (ESP_I2C_OK, [4], s1) := by
  refine ⟨by decide, by decide, ?_⟩
  have he : scan_expect (fun b => decide (b % 2 = 0 ∧ b / 2 ∈ [4])) 1 127 = [4] := by
    decide
  have h := sim_scan (fun b => decide (b % 2 = 0 ∧ b / 2 ∈ [4])) 1 (by decide)
    ⟨true, true, SimPhase.idle⟩ (sim_state 0 2 [4] 1)
    ⟨⟨rfl, rfl, by decide, rfl, rfl⟩, rfl, rfl⟩ rfl (by decide) (by rw [he]; decide)
  rw [he] at h
  exact h

end I2C

/-! ## The single-wire code on a bus without devices -/

namespace OW

open esp_ow_err

section nodev
variable {σ : Type}

/-- The presence poll of `esp_ow_reset` does not allocate. -/
theorem esp_ow_reset_poll_heap (H : Hw σ) (g : Nat) :
    ∀ (n retries : Nat) (w : World σ), (esp_ow_reset_poll H g n retries w).2.2.heap = w.heap := by
  intro n
  induction n with
  | zero =>
    intro retries w
    rfl
  | succ n ih =>
    intro retries w
    rw [esp_ow_reset_poll]
    split
    · rfl
    · split
      · rw [ih]
        rfl
      · rfl

/-- The function `esp_ow_reset` does not allocate. -/
theorem esp_ow_reset_heap (H : Hw σ) (g : Nat) (w : World σ) :
    (esp_ow_reset H g w).2.heap = w.heap := by
  unfold esp_ow_reset
  dsimp only
  change (esp_ow_reset_poll H g 48 0 _).2.2.heap = w.heap
  rw [esp_ow_reset_poll_heap]
  rfl

/-- On a released line that reads high the presence poll of `esp_ow_reset` sees no
presence pulse. -/
theorem esp_ow_reset_poll_quiet (H : Hw σ) (g : Nat) (idle released : σ → Prop)
    (hq : Quiet H g idle released) :
    ∀ (n retries : Nat) (w : World σ), released w.env →
      (esp_ow_reset_poll H g n retries w).1 = false := by
  intro n
  induction n with
  | zero =>
    intro retries w _
    rfl
  | succ n ih =>
    intro retries w hr
    have h1 : released (os_delay_us H 5 w).env := hq.wait _ _ hr
    have hv : (OW_READ H g (os_delay_us H 5 w)).1 = true := hq.high _ h1
    have h2 : released (OW_READ H g (os_delay_us H 5 w)).2.env := hq.sample _ _ h1
    rw [esp_ow_reset_poll]
    rw [if_neg (by rw [hv]; simp)]
    split
    · exact ih _ _ h2
    · rfl

/-- On a bus without devices `esp_ow_reset` returns false. -/
theorem esp_ow_reset_quiet (H : Hw σ) (g : Nat) (idle released : σ → Prop)
    (hq : Quiet H g idle released) (w : World σ) (h0 : idle w.env) :
    (esp_ow_reset H g w).1 = false := by
  unfold esp_ow_reset
  dsimp only
  apply esp_ow_reset_poll_quiet H g idle released hq
  exact hq.release _ (hq.step_idle _ _ (hq.step_idle _ _ h0))

/-- The simulated bus without devices is a bus on which only the master pulls the
line low. -/
theorem sim_quiet (g : Nat) :
    Quiet sim_hw g (fun x => x.devices = [] ∧ x.active = [] ∧ x.out = true)
      (fun x => (x.devices = [] ∧ x.active = [] ∧ x.out = true) ∧ x.master_low = false) where
  step_idle := by
    rintro ⟨devices, active, phase, ml, lf, out⟩ e ⟨hd, ha, ho⟩
    dsimp only at hd ha ho
    subst hd ha ho
    cases e <;> cases phase <;> simp only [sim_hw, sim_step, sim_release] <;>
      (try split_ifs) <;> simp
  release := by
    rintro ⟨devices, active, phase, ml, lf, out⟩ ⟨hd, ha, ho⟩
    dsimp only at hd ha ho
    subst hd ha ho
    cases phase <;> simp only [sim_hw, sim_step, sim_release] <;>
      (try split_ifs) <;> simp
  released_idle := fun _ h => h.1
  wait := by
    rintro ⟨devices, active, phase, ml, lf, out⟩ us ⟨⟨hd, ha, ho⟩, hm⟩
    dsimp only at hd ha ho hm
    subst hd ha ho hm
    simp [sim_hw, sim_step]
  sample := by
    rintro ⟨devices, active, phase, ml, lf, out⟩ v ⟨⟨hd, ha, ho⟩, hm⟩
    dsimp only at hd ha ho hm
    subst hd ha ho hm
    simp [sim_hw, sim_step]
  high := by
    rintro ⟨devices, active, phase, ml, lf, out⟩ ⟨⟨hd, ha, ho⟩, hm⟩
    dsimp only at hd ha ho hm
    subst hd ha ho hm
    simp [sim_hw]

end nodev

end OW

/-! ## C11: a bus without devices -/

namespace OW

open esp_ow_err

/-- C11. On a single-wire bus without devices, where the released line reads high at
every sample, `esp_ow_reset` returns false, and `esp_ow_search`, called with an empty
root, a search command and a free node for the root, returns
`ESP_OW_ERR_NO_DEV` with an empty list; the node of the root is given back to the
allocator. -/
theorem c11_no_device_on_bus {σ : Type} (H : Hw σ) (passes gpio_num sch_type : Nat)
    (idle released : σ → Prop) (w : World σ)
    (hq : Quiet H gpio_num idle released) (h0 : idle w.env)
    (hcmd : sch_type = ESP_OW_CMD_SEARCH_ROM ∨ sch_type = ESP_OW_CMD_SEARCH_ROM_ALERT)
    (hheap : 0 < w.heap) (hp : 0 < passes) :
    (esp_ow_reset H gpio_num w).1 = false ∧
    ∃ w1, esp_ow_search H passes gpio_num sch_type [] w = some (ESP_OW_ERR_NO_DEV, [], w1) ∧
      w1.heap = w.heap := by
  refine ⟨esp_ow_reset_quiet H gpio_num idle released hq w h0, ?_⟩
  obtain ⟨n, rfl⟩ : ∃ n, passes = n + 1 := ⟨passes - 1, by omega⟩
  have hz : os_zalloc w = (true, { w with heap := w.heap - 1 }) := by
    unfold os_zalloc
    rw [if_neg (by omega)]
  have hr : (esp_ow_reset H gpio_num { w with heap := w.heap - 1 }).1 = false :=
    esp_ow_reset_quiet H gpio_num idle released hq _ h0
  have hs : ∀ dev pd il, search H gpio_num sch_type dev pd il { w with heap := w.heap - 1 } =
      some ⟨ESP_OW_ERR_NO_DEV, dev, pd, il,
        (esp_ow_reset H gpio_num { w with heap := w.heap - 1 }).2⟩ := by
    intro dev pd il
    unfold search
    dsimp only
    rw [if_pos hr]
  refine ⟨os_free 1 (esp_ow_reset H gpio_num { w with heap := w.heap - 1 }).2, ?_, ?_⟩
  · unfold esp_ow_search
    rw [if_neg (by simp), if_neg (by simp [hcmd]), hz]
    dsimp only
    rw [if_neg (by simp), esp_ow_search_loop, hs]
    simp
  · show (esp_ow_reset H gpio_num { w with heap := w.heap - 1 }).2.heap + 1 = w.heap
    rw [esp_ow_reset_heap]
    show w.heap - 1 + 1 = w.heap
    omega

/-- C11 on the simulated bus without devices, pin 5, with two free nodes. -/
theorem c11_no_device_on_bus_witness :
    (esp_ow_reset sim_hw 5 (sim_world [] 2)).1 = false ∧
    ∃ w1, esp_ow_search sim_hw 1 5 ESP_OW_CMD_SEARCH_ROM [] (sim_world [] 2) =
        some (ESP_OW_ERR_NO_DEV, [], w1) ∧ w1.heap = (sim_world [] 2).heap :=
  c11_no_device_on_bus sim_hw 1 5 ESP_OW_CMD_SEARCH_ROM _ _ (sim_world [] 2) (sim_quiet 5)
    ⟨rfl, rfl, rfl⟩ (Or.inl rfl) (by decide) (by decide)

end OW

/-! ## C12, C13: the CRC -/

namespace OW

/-- Every entry of the CRC lookup table is the result of the eight bitwise steps on
its index. -/
theorem crc_lookup_bitwise :
    ∀ x, x < 256 → crc_lookup.getD x 0 = Nat.iterate crc8_bitwise_step 8 x := by
  decide

/-- The CRC of a running value with itself is 0. -/
theorem esp_ow_crc8_self (c : Nat) : esp_ow_crc8 c c = 0 := by
  unfold esp_ow_crc8
  rw [Nat.xor_self]
  rfl

/-- C12. For every sequence of bytes `b`, of 7 bytes or of any other length, with
`c` the running CRC over `b` from 0: the running CRC over `b` followed by `c` is 0,
and the running CRC over `b` followed by any other byte is not 0. -/
theorem c12_crc_of_appended_byte (b : List Nat) (x : Nat) (hx : x < 256) :
    crc_fold (b ++ [crc_fold b]) = 0 ∧ (x ≠ crc_fold b → crc_fold (b ++ [x]) ≠ 0) := by
  constructor
  · rw [crc_fold_append_singleton]
    exact esp_ow_crc8_self _
  · intro hne h0
    rw [crc_fold_append_singleton] at h0
    exact hne (esp_ow_crc8_eq_zero (crc_fold_lt b) hx h0).symm

/-- C12 on the test bytes `28 00 00 00 00 00 00`, whose CRC is `0x1E`, with `0x1F`
as another eighth byte. -/
theorem c12_crc_of_appended_byte_witness :
    crc_fold [0x28, 0, 0, 0, 0, 0, 0] = 0x1E ∧
    crc_fold ([0x28, 0, 0, 0, 0, 0, 0] ++ [crc_fold [0x28, 0, 0, 0, 0, 0, 0]]) = 0 ∧
    (0x1F ≠ crc_fold [0x28, 0, 0, 0, 0, 0, 0] →
      crc_fold ([0x28, 0, 0, 0, 0, 0, 0] ++ [0x1F]) ≠ 0) :=
  ⟨by decide, c12_crc_of_appended_byte [0x28, 0, 0, 0, 0, 0, 0] 0x1F (by decide)⟩

/-- C13. For every running CRC `c` and every byte `v`, the table lookup of
`esp_ow_crc8` equals the bitwise Dallas/Maxim CRC8 update: eight times, the value,
which starts as `c XOR v`, is shifted right and XORed with `0x8C` when its low bit
was 1. -/
theorem c13_crc8_table_is_bitwise (c v : Nat) (hc : c < 256) (hv : v < 256) :
    esp_ow_crc8 c v = crc8_bitwise c v := by
  have hx : c ^^^ v < 2 ^ 8 := Nat.xor_lt_two_pow hc hv
  exact crc_lookup_bitwise _ hx

/-- C13 at the running CRC `0x5E` and the byte `0x28`. -/
theorem c13_crc8_table_is_bitwise_witness :
    esp_ow_crc8 0x5E 0x28 = crc8_bitwise 0x5E 0x28 ∧ crc8_bitwise 0x5E 0x28 = 0x25 :=
  ⟨c13_crc8_table_is_bitwise 0x5E 0x28 (by decide) (by decide), by decide⟩

end OW

/-! ## `esp_ow_search` on an arbitrary bus: it returns, and what it does to the heap -/

namespace OW

open esp_ow_err

section total
variable {σ : Type}

/-- One iteration of `search` does not allocate. -/
theorem search_body_heap (H : Hw σ) (g pd : Nat) (v : SearchVars) (w : World σ) :
    (search_body H g pd v w).2.heap = w.heap := by
  rw [search_body_eq]
  split
  · rfl
  · exact esp_ow_write_bit_heap H g _ _

/-- The loop of `search` does not allocate. -/
theorem search_loop_heap (H : Hw σ) (g pd : Nat) :
    ∀ (n : Nat) (v : SearchVars) (w : World σ) (b : Bool) (v1 : SearchVars) (w1 : World σ),
      search_loop H g pd n v w = some (b, v1, w1) → w1.heap = w.heap := by
  intro n
  induction n with
  | zero =>
    intro v w b v1 w1 h
    simp [search_loop] at h
  | succ n ih =>
    intro v w b v1 w1 h
    rw [search_loop] at h
    have hb := search_body_heap H g pd v w
    split at h
    · rename_i w2 he
      rw [he] at hb
      simp only [Option.some.injEq, Prod.mk.injEq] at h
      obtain ⟨_, _, rfl⟩ := h
      exact hb
    · rename_i v2 w2 he
      rw [he] at hb
      split at h
      · rw [ih _ _ _ _ _ h]
        exact hb
      · simp only [Option.some.injEq, Prod.mk.injEq] at h
        obtain ⟨_, _, rfl⟩ := h
        exact hb

/-- A pass of the search does not allocate. -/
theorem search_heap (H : Hw σ) (g cmd : Nat) (dev : esp_ow_device) (pd : Nat) (il : Bool)
    (w : World σ) (o : SearchOut σ) (h : search H g cmd dev pd il w = some o) :
    o.w.heap = w.heap := by
  have hr := esp_ow_reset_heap H g w
  have hw := esp_ow_write_heap H g cmd (esp_ow_reset H g w).2
  unfold search at h
  dsimp only at h
  split at h
  · simp only [Option.some.injEq] at h
    subst h
    exact hr
  · split at h
    · simp at h
    · rename_i v w2 hl
      have := search_loop_heap H g pd _ _ _ _ _ _ hl
      simp only [Option.some.injEq] at h
      subst h
      rw [← hr, ← hw]
      exact this
    · rename_i v w2 hl
      have := search_loop_heap H g pd _ _ _ _ _ _ hl
      have hh : w2.heap = w.heap := by
        rw [← hr, ← hw]
        exact this
      split at h
      · split at h <;>
        · simp only [Option.some.injEq] at h
          subst h
          exact hh
      · split at h <;>
        · simp only [Option.some.injEq] at h
          subst h
          exact hh

/-- The pass loop of `esp_ow_search` returns when the number of passes allowed exceeds
the number of free nodes: every pass but the last takes a node. -/
theorem esp_ow_search_loop_returns (H : Hw σ) (g cmd : Nat) :
    ∀ (n : Nat) (nodes : List esp_ow_device) (dev : esp_ow_device) (pd : Nat) (il : Bool)
      (w : World σ), dev.rom.length = 8 → (∀ b ∈ dev.rom, b < 256) → w.heap < n →
      (esp_ow_search_loop H g cmd n nodes dev pd il w).isSome = true := by
  intro n
  induction n with
  | zero =>
    intro nodes dev pd il w _ _ hh
    omega
  | succ n ih =>
    intro nodes dev pd il w hl hb hh
    have hs := search_returns H g cmd dev pd il w hl hb
    obtain ⟨o, ho⟩ := Option.isSome_iff_exists.mp hs
    have hrom := (search_ok_crc H g cmd dev pd il w o hl hb ho).1
    have hheap := search_heap H g cmd dev pd il w o ho
    by_cases hc : o.err = ESP_OW_OK ∧ o.is_last = false
    · by_cases hz : 0 < o.w.heap
      · rw [esp_ow_search_loop_more H g cmd n nodes dev pd il w o ho hc hz]
        exact ih _ _ _ _ _ hrom.1 hrom.2 (by show o.w.heap - 1 < n; omega)
      · rw [esp_ow_search_loop, ho]
        dsimp only
        rw [if_pos hc]
        have hz0 : os_zalloc o.w = (false, o.w) := by
          unfold os_zalloc
          rw [if_pos (by omega)]
        have ha : add_device o.dev o.w = (none, o.w) := by
          unfold add_device
          rw [hz0]
          rfl
        rw [ha]
        rfl
    · rw [esp_ow_search_loop_last H g cmd n nodes dev pd il w o ho hc]
      rfl

/-- The function `esp_ow_search` returns when the number of passes allowed is at least the
number of free nodes. -/
theorem esp_ow_search_returns (H : Hw σ) (passes g cmd : Nat) (root : List esp_ow_device)
    (w : World σ) (hp : w.heap ≤ passes) :
    (esp_ow_search H passes g cmd root w).isSome = true := by
  unfold esp_ow_search
  split
  · rfl
  · split
    · rfl
    · by_cases hz : w.heap = 0
      · have ha : os_zalloc w = (false, w) := by
          unfold os_zalloc
          rw [if_pos hz]
        rw [ha]
        rfl
      · have ha : os_zalloc w = (true, { w with heap := w.heap - 1 }) := by
          unfold os_zalloc
          rw [if_neg hz]
        rw [ha]
        dsimp only
        rw [if_neg (by simp)]
        have hl := esp_ow_search_loop_returns H g cmd passes []
          { rom := List.replicate 8 0, gpio_num := g } 0 false { w with heap := w.heap - 1 }
          (by simp) (by simp) (by show w.heap - 1 < passes; omega)
        obtain ⟨r, hr⟩ := Option.isSome_iff_exists.mp hl
        rw [hr]
        obtain ⟨err, nodes, w1⟩ := r
        dsimp only
        split <;> rfl

/-- The nodes the pass loop of `esp_ow_search` took from the allocator are the nodes
of the list it built, apart from the root. -/
theorem esp_ow_search_loop_heap (H : Hw σ) (g cmd : Nat) :
    ∀ (n : Nat) (nodes : List esp_ow_device) (dev : esp_ow_device) (pd : Nat) (il : Bool)
      (w : World σ) (err : esp_ow_err) (out : List esp_ow_device) (w1 : World σ),
      esp_ow_search_loop H g cmd n nodes dev pd il w = some (err, out, w1) →
      w1.heap + out.length = w.heap + nodes.length + 1 := by
  intro n
  induction n with
  | zero =>
    intro nodes dev pd il w err out w1 h
    simp [esp_ow_search_loop] at h
  | succ n ih =>
    intro nodes dev pd il w err out w1 h
    rw [esp_ow_search_loop] at h
    split at h
    · simp at h
    · rename_i o ho
      have hheap := search_heap H g cmd dev pd il w o ho
      split at h
      · unfold add_device os_zalloc at h
        by_cases hz : o.w.heap = 0
        · rw [if_pos hz] at h
          simp only [↓reduceIte, Option.some.injEq, Prod.mk.injEq] at h
          obtain ⟨_, rfl, rfl⟩ := h
          simp only [List.length_append, List.length_singleton]
          omega
        · rw [if_neg hz] at h
          simp only [Bool.true_eq_false, ↓reduceIte] at h
          have := ih _ _ _ _ _ _ _ _ h
          simp only [List.length_append, List.length_singleton] at this
          omega
      · simp only [Option.some.injEq, Prod.mk.injEq] at h
        obtain ⟨_, rfl, rfl⟩ := h
        simp only [List.length_append, List.length_singleton]
        omega

/-- The filter loop of `esp_ow_search_family` keeps the nodes whose family code is
`family_code`, in their order, and frees the others. -/
theorem esp_ow_search_family_loop_eq (family_code : Nat) :
    ∀ (rest kept : List esp_ow_device) (w : World σ),
      esp_ow_search_family_loop family_code kept rest w =
        (kept ++ rest.filter (fun d => decide (d.rom.getD 0 0 = family_code)),
          os_free (rest.length -
            (rest.filter (fun d => decide (d.rom.getD 0 0 = family_code))).length) w) := by
  intro rest
  induction rest with
  | nil =>
    intro kept w
    simp [esp_ow_search_family_loop, os_free]
  | cons curr rest ih =>
    intro kept w
    have hle := List.length_filter_le (fun d : esp_ow_device =>
      decide (d.rom.getD 0 0 = family_code)) rest
    rw [esp_ow_search_family_loop]
    by_cases hf : curr.rom.getD 0 0 = family_code
    · rw [if_neg (by simpa using hf), ih, List.filter_cons_of_pos (by simpa using hf)]
      simp only [List.append_assoc, List.singleton_append, List.length_cons]
      congr 2
      omega
    · rw [if_pos hf, List.filter_cons_of_neg (by simpa using hf)]
      have key : esp_ow_search_family_loop family_code kept rest (os_free 1 w) =
          (kept ++ rest.filter (fun d => decide (d.rom.getD 0 0 = family_code)),
            os_free ((curr :: rest).length -
              (rest.filter (fun d => decide (d.rom.getD 0 0 = family_code))).length) w) := by
        rw [ih]
        simp only [os_free, List.length_cons, Prod.mk.injEq, true_and]
        congr 1
        omega
      split
      · rename_i hk
        subst hk
        exact key
      · exact key

end total

end OW

/-! ## C14, C15: the family filter, and the list after a failed search -/

namespace OW

open esp_ow_err

/-- After a failed `esp_ow_search` on an empty root the list is empty and all nodes
are back with the allocator. -/
theorem esp_ow_search_error {σ : Type} (H : Hw σ) (passes g cmd : Nat) (w : World σ)
    (err : esp_ow_err) (out : List esp_ow_device) (w1 : World σ)
    (h : esp_ow_search H passes g cmd [] w = some (err, out, w1)) (he : err ≠ ESP_OW_OK) :
    out = [] ∧ w1.heap = w.heap := by
  unfold esp_ow_search at h
  rw [if_neg (by simp)] at h
  split at h
  · simp only [Option.some.injEq, Prod.mk.injEq] at h
    obtain ⟨_, rfl, rfl⟩ := h
    exact ⟨rfl, rfl⟩
  · by_cases hz : w.heap = 0
    · have ha : os_zalloc w = (false, w) := by
        unfold os_zalloc
        rw [if_pos hz]
      rw [ha] at h
      simp only [↓reduceIte, Option.some.injEq, Prod.mk.injEq] at h
      obtain ⟨_, rfl, rfl⟩ := h
      exact ⟨rfl, rfl⟩
    · have ha : os_zalloc w = (true, { w with heap := w.heap - 1 }) := by
        unfold os_zalloc
        rw [if_neg hz]
      rw [ha] at h
      dsimp only at h
      rw [if_neg (by simp)] at h
      split at h
      · simp at h
      · rename_i e nodes w2 hl
        have hh := esp_ow_search_loop_heap H g cmd passes [] _ 0 false _ e nodes w2 hl
        split at h
        · simp only [Option.some.injEq, Prod.mk.injEq] at h
          obtain ⟨_, rfl, rfl⟩ := h
          refine ⟨rfl, ?_⟩
          show w2.heap + nodes.length = w.heap
          have : w2.heap + nodes.length = w.heap - 1 + 0 + 1 := hh
          omega
        · rename_i hne
          simp only [Option.some.injEq, Prod.mk.injEq] at h
          have he1 : e = ESP_OW_OK := Decidable.not_not.mp hne
          rw [h.1] at he1
          exact absurd he1 he

/-- C14. On every bus, for every command and family code and an empty root: when
`esp_ow_search` returns `ESP_OW_OK` with the list `out`, `esp_ow_search_family` leaves
exactly the records of `out` whose `rom[0]` is the family code, in their order,
returns `ESP_OW_OK` when there is one and `ESP_OW_ERR_NO_DEV` when there is none, and
frees the nodes it dropped; when `esp_ow_search` returns an error,
`esp_ow_search_family` returns the same error, with the empty list. -/
theorem c14_search_family_filters {σ : Type} (H : Hw σ)
    (passes gpio_num sch_type family_code : Nat) (w : World σ)
    (err : esp_ow_err) (out : List esp_ow_device) (w1 : World σ)
    (h : esp_ow_search H passes gpio_num sch_type [] w = some (err, out, w1)) :
    (err = ESP_OW_OK →
      ∃ w2, esp_ow_search_family H passes gpio_num sch_type family_code [] w =
          some (if out.filter (fun d => decide (d.rom.getD 0 0 = family_code)) = []
                then ESP_OW_ERR_NO_DEV else ESP_OW_OK,
            out.filter (fun d => decide (d.rom.getD 0 0 = family_code)), w2) ∧
        w2.heap + (out.filter (fun d => decide (d.rom.getD 0 0 = family_code))).length =
          w1.heap + out.length) ∧
    (err ≠ ESP_OW_OK →
      esp_ow_search_family H passes gpio_num sch_type family_code [] w = some (err, out, w1) ∧
        out = []) := by
  constructor
  · intro he
    subst he
    have hle := List.length_filter_le
      (fun d : esp_ow_device => decide (d.rom.getD 0 0 = family_code)) out
    refine ⟨os_free (out.length -
      (out.filter (fun d => decide (d.rom.getD 0 0 = family_code))).length) w1, ?_, ?_⟩
    · unfold esp_ow_search_family
      rw [h]
      dsimp only
      rw [if_neg (by simp), esp_ow_search_family_loop_eq]
      dsimp only [List.nil_append]
      split <;> rfl
    · show w1.heap + _ + _ = _
      omega
  · intro he
    refine ⟨?_, (esp_ow_search_error H passes gpio_num sch_type w err out w1 h he).1⟩
    unfold esp_ow_search_family
    rw [h]
    dsimp only
    rw [if_pos he]

/-- C14 on the simulated bus with the devices 01 00 00 00 00 00 00 3D and
05 00 00 00 00 00 00 C9: the search finds both, the search for family 5 leaves the
second one. -/
theorem c14_search_family_filters_witness :
    (∃ w1, esp_ow_search sim_hw 2 2 ESP_OW_CMD_SEARCH_ROM []
        (sim_world [[1, 0, 0, 0, 0, 0, 0, 61], [5, 0, 0, 0, 0, 0, 0, 201]] 2) =
      some (ESP_OW_OK, [{ rom := [1, 0, 0, 0, 0, 0, 0, 61], gpio_num := 2 },
        { rom := [5, 0, 0, 0, 0, 0, 0, 201], gpio_num := 2 }], w1)) ∧
    (∃ w2, esp_ow_search_family sim_hw 2 2 ESP_OW_CMD_SEARCH_ROM 5 []
        (sim_world [[1, 0, 0, 0, 0, 0, 0, 61], [5, 0, 0, 0, 0, 0, 0, 201]] 2) =
      some (ESP_OW_OK, [{ rom := [5, 0, 0, 0, 0, 0, 0, 201], gpio_num := 2 }], w2)) :=
  ⟨⟨_, rfl⟩,
    ((c14_search_family_filters sim_hw 2 2 ESP_OW_CMD_SEARCH_ROM 5
      (sim_world [[1, 0, 0, 0, 0, 0, 0, 61], [5, 0, 0, 0, 0, 0, 0, 201]] 2) ESP_OW_OK
      [{ rom := [1, 0, 0, 0, 0, 0, 0, 61], gpio_num := 2 },
        { rom := [5, 0, 0, 0, 0, 0, 0, 201], gpio_num := 2 }] _ rfl).1 rfl).imp
      (fun _ hw => hw.1)⟩

/-- C15. On every bus and for every command, `esp_ow_search` called with an empty
root returns, given enough passes for the free nodes; and whenever it returns an
error, whichever it is and in whichever pass it arose, the list it leaves is empty
and every node it had taken is back with the allocator. -/
theorem c15_search_error_leaves_no_list {σ : Type} (H : Hw σ)
    (passes gpio_num sch_type : Nat) (w : World σ) :
    (w.heap ≤ passes → (esp_ow_search H passes gpio_num sch_type [] w).isSome = true) ∧
    ∀ (err : esp_ow_err) (out : List esp_ow_device) (w1 : World σ),
      esp_ow_search H passes gpio_num sch_type [] w = some (err, out, w1) →
      err ≠ ESP_OW_OK → out = [] ∧ w1.heap = w.heap :=
  ⟨esp_ow_search_returns H passes gpio_num sch_type [] w,
    esp_ow_search_error H passes gpio_num sch_type w⟩

/-- C15 on the simulated bus with the devices 01 02 03 04 05 06 07 0F and
01 02 03 04 05 06 07 8F: the first pass finds a device, the second pass fails with
`ESP_OW_ERR_BAD_CRC`, and the list is empty afterwards. -/
theorem c15_search_error_leaves_no_list_witness :
    ∃ w1, esp_ow_search sim_hw 2 2 ESP_OW_CMD_SEARCH_ROM []
        (sim_world [[1, 2, 3, 4, 5, 6, 7, 15], [1, 2, 3, 4, 5, 6, 7, 143]] 2) =
      some (ESP_OW_ERR_BAD_CRC, [], w1) ∧
      (([] : List esp_ow_device) = [] ∧
        w1.heap = (sim_world [[1, 2, 3, 4, 5, 6, 7, 15], [1, 2, 3, 4, 5, 6, 7, 143]] 2).heap) :=
  ⟨_, rfl, (c15_search_error_leaves_no_list sim_hw 2 2 ESP_OW_CMD_SEARCH_ROM
    (sim_world [[1, 2, 3, 4, 5, 6, 7, 15], [1, 2, 3, 4, 5, 6, 7, 143]] 2)).2
      ESP_OW_ERR_BAD_CRC [] _ rfl (by decide)⟩

end OW

/-! ## C16, C17: second initialisation, and a stop outside a transaction -/

namespace I2C

open esp_i2c_err

/-- C16. After a first `esp_i2c_init (scl, sda)` that returned `ESP_I2C_OK`, in every
bus state `s` that still is initialised on these pins, whatever became of the
transaction flag, the delays, the clock-stretch bound and the world:
`esp_i2c_init (scl, sda)` returns `ESP_I2C_OK` and leaves the state as it is, and
`esp_i2c_init (scl2, sda2)` with another pair of pins returns
`ESP_I2C_ERR_INIT_CONFLICT` and leaves the state as it is. The state right after the
first call is such a state. -/
theorem c16_init_again {σ : Type} (H : Hw σ) (scl sda scl2 sda2 : Nat) (s0 s : State σ)
    (h1 : (esp_i2c_init H scl sda s0).1 = ESP_I2C_OK)
    (hi : s.initialized = (esp_i2c_init H scl sda s0).2.initialized)
    (hscl : s.gpio_scl = (esp_i2c_init H scl sda s0).2.gpio_scl)
    (hsda : s.gpio_sda = (esp_i2c_init H scl sda s0).2.gpio_sda) :
    esp_i2c_init H scl sda (esp_i2c_init H scl sda s0).2 =
      (ESP_I2C_OK, (esp_i2c_init H scl sda s0).2) ∧
    esp_i2c_init H scl sda s = (ESP_I2C_OK, s) ∧
    ((scl2, sda2) ≠ (scl, sda) →
      esp_i2c_init H scl2 sda2 s = (ESP_I2C_ERR_INIT_CONFLICT, s)) := by
  have key : (esp_i2c_init H scl sda s0).2.initialized = true ∧
      (esp_i2c_init H scl sda s0).2.gpio_scl = scl ∧
      (esp_i2c_init H scl sda s0).2.gpio_sda = sda := by
    unfold esp_i2c_init at h1 ⊢
    by_cases hini : s0.initialized = true
    · rw [if_pos hini] at h1 ⊢
      by_cases hp : s0.gpio_scl = scl ∧ s0.gpio_sda = sda
      · rw [if_pos hp]
        exact ⟨hini, hp.1, hp.2⟩
      · rw [if_neg hp] at h1
        exact absurd h1 (by simp)
    · rw [if_neg hini]
      exact ⟨rfl, rfl, rfl⟩
  have again : ∀ t : State σ, t.initialized = true → t.gpio_scl = scl → t.gpio_sda = sda →
      esp_i2c_init H scl sda t = (ESP_I2C_OK, t) := by
    intro t ht h2 h3
    unfold esp_i2c_init
    rw [if_pos ht, if_pos ⟨h2, h3⟩]
  rw [key.1] at hi
  rw [key.2.1] at hscl
  rw [key.2.2] at hsda
  refine ⟨again _ key.1 key.2.1 key.2.2, again s hi hscl hsda, ?_⟩
  intro hne
  unfold esp_i2c_init
  rw [if_pos hi, if_neg]
  rintro ⟨h2, h3⟩
  apply hne
  rw [← h2, ← h3, hscl, hsda]

/-- C16 from the state at program start, with pins 4 and 5, the speed changed and
the transaction flag set after the first call, on a bus with the clock held low. -/
theorem c16_init_again_witness :
    esp_i2c_init (stuck_hw 4) 4 5
        (esp_i2c_init (stuck_hw 4) 4 5 (State.boot ⟨(), [], 0⟩)).2 =
      (ESP_I2C_OK, (esp_i2c_init (stuck_hw 4) 4 5 (State.boot ⟨(), [], 0⟩)).2) ∧
    esp_i2c_init (stuck_hw 4) 4 5
        { esp_i2c_set_speed ESP_I2C_SPEED_400
            (esp_i2c_init (stuck_hw 4) 4 5 (State.boot ⟨(), [], 0⟩)).2 with in_trans := true } =
      (ESP_I2C_OK,
        { esp_i2c_set_speed ESP_I2C_SPEED_400
            (esp_i2c_init (stuck_hw 4) 4 5 (State.boot ⟨(), [], 0⟩)).2 with in_trans := true }) ∧
    ((5, 4) ≠ (4, 5) →
      esp_i2c_init (stuck_hw 4) 5 4
        { esp_i2c_set_speed ESP_I2C_SPEED_400
            (esp_i2c_init (stuck_hw 4) 4 5 (State.boot ⟨(), [], 0⟩)).2 with in_trans := true } =
      (ESP_I2C_ERR_INIT_CONFLICT,
        { esp_i2c_set_speed ESP_I2C_SPEED_400
            (esp_i2c_init (stuck_hw 4) 4 5 (State.boot ⟨(), [], 0⟩)).2 with in_trans := true })) :=
  c16_init_again (stuck_hw 4) 4 5 5 4 (State.boot ⟨(), [], 0⟩)
    { esp_i2c_set_speed ESP_I2C_SPEED_400
        (esp_i2c_init (stuck_hw 4) 4 5 (State.boot ⟨(), [], 0⟩)).2 with in_trans := true }
    rfl rfl rfl rfl

/-- C17. In every bus state outside a transaction, on every bus, `esp_i2c_stop` returns
`ESP_I2C_ERR_STOP_OUTSIDE_TRANS` and leaves the engine outside a transaction; all it
does to the pins is to release the clock line and then the data line. -/
theorem c17_stop_outside_transaction {σ : Type} (H : Hw σ) (fuel : Nat) (s : State σ)
    (h : s.in_trans = false) :
    ∃ s1, esp_i2c_stop H fuel s = some (ESP_I2C_ERR_STOP_OUTSIDE_TRANS, s1) ∧
      s1.in_trans = false ∧
      s1.w.log = Ev.out_en_c s.gpio_sda :: Ev.out_en_c s.gpio_scl :: s.w.log := by
  refine ⟨(esp_i2c_fail_fast H ESP_I2C_ERR_STOP_OUTSIDE_TRANS s).2, ?_, rfl, rfl⟩
  unfold esp_i2c_stop
  rw [if_pos h]
  rfl

/-- C17 in the state at program start, before any `esp_i2c_init`. -/
theorem c17_stop_outside_transaction_witness :
    ∃ s1, esp_i2c_stop (stuck_hw 0) 0 (State.boot ⟨(), [], 0⟩) =
        some (ESP_I2C_ERR_STOP_OUTSIDE_TRANS, s1) ∧
      s1.in_trans = false ∧
      s1.w.log = Ev.out_en_c (State.boot (⟨(), [], 0⟩ : World Unit)).gpio_sda ::
        Ev.out_en_c (State.boot (⟨(), [], 0⟩ : World Unit)).gpio_scl ::
        (State.boot (⟨(), [], 0⟩ : World Unit)).w.log :=
  c17_stop_outside_transaction (stuck_hw 0) 0 (State.boot ⟨(), [], 0⟩) rfl

end I2C

/-! ## The two-wire code on an arbitrary bus: what it leaves behind -/

namespace I2C

open esp_i2c_err

section ext
variable {σ : Type}

theorem SDA_LOW_in_trans (H : Hw σ) (s : State σ) : (SDA_LOW H s).in_trans = s.in_trans := rfl

theorem SCL_LOW_in_trans (H : Hw σ) (s : State σ) : (SCL_LOW H s).in_trans = s.in_trans := rfl

theorem SDA_RELEASE_in_trans (H : Hw σ) (s : State σ) :
    (SDA_RELEASE H s).in_trans = s.in_trans := rfl

theorem SCL_RELEASE_in_trans (H : Hw σ) (s : State σ) :
    (SCL_RELEASE H s).in_trans = s.in_trans := rfl

theorem delay_in_trans (H : Hw σ) (n : Nat) (s : State σ) :
    (delay H n s).in_trans = s.in_trans := rfl

theorem SDA_READ_in_trans (H : Hw σ) (s : State σ) :
    (SDA_READ H s).2.in_trans = s.in_trans := rfl

theorem Ext.nil (s : State σ) : Ext s s [] :=
  ⟨rfl, rfl, rfl, rfl, rfl, rfl, rfl, rfl⟩

theorem Ext.append {s s1 s2 : State σ} {n1 n2 : List Ev} (h1 : Ext s s1 n1)
    (h2 : Ext s1 s2 n2) : Ext s s2 (n2 ++ n1) :=
  ⟨h2.initialized.trans h1.initialized, h2.gpio_scl.trans h1.gpio_scl,
    h2.gpio_sda.trans h1.gpio_sda, h2.max_cs.trans h1.max_cs,
    h2.i2c_delay_short.trans h1.i2c_delay_short, h2.i2c_delay_long.trans h1.i2c_delay_long,
    h2.heap.trans h1.heap, by rw [h2.log, h1.log, List.append_assoc]⟩

theorem bus_trace_append (sda : Nat) (a b : List Ev) :
    bus_trace sda (a ++ b) = bus_trace sda a ++ bus_trace sda b :=
  List.filter_append _ _

/-- Samples of the clock line do not show in the trace of the lines. -/
theorem bus_trace_clock_reads (scl sda : Nat) (hne : scl ≠ sda) (l : List Ev)
    (h : ∀ e ∈ l, ∃ v, e = Ev.gpio_in scl v) : bus_trace sda l = [] := by
  unfold bus_trace
  rw [List.filter_eq_nil_iff]
  intro e he
  obtain ⟨v, rfl⟩ := h e he
  simpa using hne

/-- After `esp_i2c_fail_fast` the bus is idle. -/
theorem fail_fast_idle (H : Hw σ) (e : esp_i2c_err) (s : State σ) :
    Idle (esp_i2c_fail_fast H e s).2 := by
  refine ⟨rfl, ?_, ?_⟩
  · show last_pin_action s.gpio_scl
      (Ev.out_en_c s.gpio_sda :: Ev.out_en_c s.gpio_scl :: s.w.log) = some true
    simp only [last_pin_action]
    split_ifs <;> rfl
  · show last_pin_action s.gpio_sda
      (Ev.out_en_c s.gpio_sda :: Ev.out_en_c s.gpio_scl :: s.w.log) = some true
    simp [last_pin_action]

/-- The clock-stretch wait changes no static variable; all it adds to the log are
samples of the clock line. -/
theorem chk_cs_ext (H : Hw σ) :
    ∀ (fuel idx : Nat) (s : State σ) (r : Nat) (s1 : State σ),
      chk_cs H fuel idx s = some (r, s1) →
      s1.in_trans = s.in_trans ∧
        ∃ new, Ext s s1 new ∧ ∀ e ∈ new, ∃ v, e = Ev.gpio_in s.gpio_scl v := by
  intro fuel
  induction fuel with
  | zero =>
    intro idx s r s1 h
    simp [chk_cs] at h
  | succ n ih =>
    intro idx s r s1 h
    have hr : Ext s (SCL_READ H s).2 [Ev.gpio_in s.gpio_scl (SCL_READ H s).1] :=
      ⟨rfl, rfl, rfl, rfl, rfl, rfl, rfl, rfl⟩
    have one : (SCL_READ H s).2.in_trans = s.in_trans ∧
        ∃ new, Ext s (SCL_READ H s).2 new ∧ ∀ e ∈ new, ∃ v, e = Ev.gpio_in s.gpio_scl v :=
      ⟨rfl, _, hr, by simp⟩
    rw [chk_cs] at h
    split at h
    · split at h
      · obtain ⟨hit, new, hx, hnew⟩ := ih _ _ _ _ h
        refine ⟨hit, _, hr.append hx, ?_⟩
        intro e he
        rw [List.mem_append] at he
        rcases he with he | he
        · exact hnew e he
        · exact ⟨_, List.mem_singleton.mp he⟩
      · simp only [Option.some.injEq, Prod.mk.injEq] at h
        obtain ⟨_, rfl⟩ := h
        exact one
    · simp only [Option.some.injEq, Prod.mk.injEq] at h
      obtain ⟨_, rfl⟩ := h
      exact one

/-- What `tick` leaves: on `ESP_I2C_OK` one clock pulse on the lines, the static
variables as they were; otherwise an idle bus. -/
theorem tick_cases (H : Hw σ) (fuel : Nat) (s s1 : State σ) (e : esp_i2c_err)
    (h : tick H fuel s = some (e, s1)) :
    (e = ESP_I2C_OK ∧ s1.in_trans = s.in_trans ∧
      ∃ new, Ext s s1 new ∧ (s.gpio_scl ≠ s.gpio_sda →
        bus_trace s.gpio_sda new = [Ev.out_en_s s.gpio_scl, Ev.out_en_c s.gpio_scl])) ∨
    (e ≠ ESP_I2C_OK ∧ Idle s1) := by
  unfold tick at h
  dsimp only at h
  split at h
  · simp at h
  · rename_i idx s2 hc
    obtain ⟨hit, new, hx, hnew⟩ := chk_cs_ext H _ _ _ _ _ hc
    split at h
    · simp only [Option.some.injEq, Prod.mk.injEq] at h
      obtain ⟨rfl, rfl⟩ := h
      exact Or.inr ⟨by simp [esp_i2c_fail_fast], fail_fast_idle H ESP_I2C_ERR_LONG_STRETCH _⟩
    · simp only [Option.some.injEq, Prod.mk.injEq] at h
      obtain ⟨rfl, rfl⟩ := h
      have h0 : Ext s (SCL_RELEASE H (delay H s.i2c_delay_short s))
          [Ev.out_en_c s.gpio_scl, Ev.delay s.i2c_delay_short] :=
        ⟨rfl, rfl, rfl, rfl, rfl, rfl, rfl, rfl⟩
      have h2 : Ext s2 (delay H s2.i2c_delay_short (SCL_LOW H (delay H s2.i2c_delay_long s2)))
          [Ev.delay s2.i2c_delay_short, Ev.out_en_s s2.gpio_scl, Ev.delay s2.i2c_delay_long] :=
        ⟨rfl, rfl, rfl, rfl, rfl, rfl, rfl, rfl⟩
      refine Or.inl ⟨rfl, hit, _, (h0.append hx).append h2, ?_⟩
      intro hne
      have hgs : s2.gpio_scl = s.gpio_scl := hx.gpio_scl
      rw [bus_trace_append, bus_trace_append,
        bus_trace_clock_reads s.gpio_scl s.gpio_sda hne new hnew, hgs]
      rfl

/-- What `write_bit` leaves: on `ESP_I2C_OK` the bit on the lines, the static variables
as they were; otherwise an idle bus. -/
theorem write_bit_cases (H : Hw σ) (fuel : Nat) (bit : Bool) (s s1 : State σ)
    (e : esp_i2c_err) (h : write_bit H fuel bit s = some (e, s1)) :
    (e = ESP_I2C_OK ∧ s1.in_trans = s.in_trans ∧
      ∃ new, Ext s s1 new ∧ (s.gpio_scl ≠ s.gpio_sda →
        bus_trace s.gpio_sda new = (bit_frame s.gpio_scl s.gpio_sda bit).reverse)) ∨
    (e ≠ ESP_I2C_OK ∧ Idle s1) := by
  unfold write_bit at h
  cases bit
  · simp only [Bool.false_eq_true, ↓reduceIte] at h
    split at h
    · simp at h
    · rename_i err s2 ht
      rcases tick_cases H fuel _ s2 err ht with ⟨rfl, hit, new, hx, htr⟩ | ⟨hne, _⟩
      · rw [if_neg (by simp)] at h
        simp only [Option.some.injEq, Prod.mk.injEq] at h
        obtain ⟨rfl, rfl⟩ := h
        have h0 : Ext s (SDA_LOW H s) [Ev.out_en_s s.gpio_sda] :=
          ⟨rfl, rfl, rfl, rfl, rfl, rfl, rfl, rfl⟩
        have h2 : Ext s2 (SDA_RELEASE H s2) [Ev.out_en_c s2.gpio_sda] :=
          ⟨rfl, rfl, rfl, rfl, rfl, rfl, rfl, rfl⟩
        refine Or.inl ⟨rfl, hit, _, (h0.append hx).append h2, ?_⟩
        intro hp
        have hgs : s2.gpio_sda = s.gpio_sda := hx.gpio_sda
        have htr1 : bus_trace s.gpio_sda new = [Ev.out_en_s s.gpio_scl, Ev.out_en_c s.gpio_scl] :=
          htr hp
        rw [bus_trace_append, bus_trace_append, htr1, hgs]
        rfl
      · rw [if_pos hne] at h
        simp only [Option.some.injEq, Prod.mk.injEq] at h
        obtain ⟨rfl, rfl⟩ := h
        exact Or.inr ⟨by simpa [esp_i2c_fail_fast] using hne, fail_fast_idle H e _⟩
  · simp only [↓reduceIte] at h
    split at h
    · simp at h
    · rename_i err s2 ht
      rcases tick_cases H fuel _ s2 err ht with ⟨rfl, hit, new, hx, htr⟩ | ⟨hne, _⟩
      · rw [if_neg (by simp)] at h
        simp only [Option.some.injEq, Prod.mk.injEq] at h
        obtain ⟨rfl, rfl⟩ := h
        have h0 : Ext s (SDA_RELEASE H s) [Ev.out_en_c s.gpio_sda] :=
          ⟨rfl, rfl, rfl, rfl, rfl, rfl, rfl, rfl⟩
        refine Or.inl ⟨rfl, hit, _, h0.append hx, ?_⟩
        intro hp
        have htr1 : bus_trace s.gpio_sda new = [Ev.out_en_s s.gpio_scl, Ev.out_en_c s.gpio_scl] :=
          htr hp
        rw [bus_trace_append, htr1]
        rfl
      · rw [if_pos hne] at h
        simp only [Option.some.injEq, Prod.mk.injEq] at h
        obtain ⟨rfl, rfl⟩ := h
        exact Or.inr ⟨by simpa [esp_i2c_fail_fast] using hne, fail_fast_idle H e _⟩

/-- What `read_bit` leaves: on `ESP_I2C_OK` one clock pulse with a sample of the data
line, which is the bit returned, and the static variables as they were; otherwise an
idle bus. -/
theorem read_bit_cases (H : Hw σ) (fuel : Nat) (bit b1 : Bool) (s s1 : State σ)
    (e : esp_i2c_err) (h : read_bit H fuel bit s = some (e, b1, s1)) :
    (e = ESP_I2C_OK ∧ s1.in_trans = s.in_trans ∧
      ∃ new, Ext s s1 new ∧ (s.gpio_scl ≠ s.gpio_sda →
        bus_trace s.gpio_sda new =
          [Ev.out_en_s s.gpio_scl, Ev.gpio_in s.gpio_sda b1, Ev.out_en_c s.gpio_scl])) ∨
    (e ≠ ESP_I2C_OK ∧ Idle s1) := by
  unfold read_bit at h
  dsimp only at h
  split at h
  · simp at h
  · rename_i idx s2 hc
    obtain ⟨hit, new, hx, hnew⟩ := chk_cs_ext H _ _ _ _ _ hc
    split at h
    · simp only [Option.some.injEq, Prod.mk.injEq] at h
      obtain ⟨rfl, _, rfl⟩ := h
      exact Or.inr ⟨by simp [esp_i2c_fail_fast], fail_fast_idle H ESP_I2C_ERR_LONG_STRETCH _⟩
    · simp only [Option.some.injEq, Prod.mk.injEq] at h
      obtain ⟨rfl, rfl, rfl⟩ := h
      have h0 : Ext s (SCL_RELEASE H (delay H s.i2c_delay_short s))
          [Ev.out_en_c s.gpio_scl, Ev.delay s.i2c_delay_short] :=
        ⟨rfl, rfl, rfl, rfl, rfl, rfl, rfl, rfl⟩
      have h2 : Ext s2
          (delay H s2.i2c_delay_short (SCL_LOW H (delay H s2.i2c_delay_short
            (SDA_READ H (delay H s2.i2c_delay_short s2)).2)))
          [Ev.delay s2.i2c_delay_short, Ev.out_en_s s2.gpio_scl, Ev.delay s2.i2c_delay_short,
            Ev.gpio_in s2.gpio_sda (SDA_READ H (delay H s2.i2c_delay_short s2)).1,
            Ev.delay s2.i2c_delay_short] :=
        ⟨rfl, rfl, rfl, rfl, rfl, rfl, rfl, rfl⟩
      refine Or.inl ⟨rfl, hit, _, (h0.append hx).append h2, ?_⟩
      intro hne
      have hgs : s2.gpio_scl = s.gpio_scl := hx.gpio_scl
      have hgd : s2.gpio_sda = s.gpio_sda := hx.gpio_sda
      rw [bus_trace_append, bus_trace_append,
        bus_trace_clock_reads s.gpio_scl s.gpio_sda hne new hnew, hgs, hgd]
      simp [bus_trace]

end ext

end I2C

/-! ## The public functions of the two-wire engine on an arbitrary bus -/

namespace I2C

open esp_i2c_err

section ops
variable {σ : Type}

/-- The bit loop of `esp_i2c_write_byte` either runs to its end, the static variables
being as they were, or is left with an error and an idle bus. -/
theorem write_byte_loop_cases (H : Hw σ) (fuel byte : Nat) :
    ∀ (n mask : Nat) (s : State σ) (r : Option esp_i2c_err) (s1 : State σ),
      esp_i2c_write_byte_loop H fuel byte n mask s = some (r, s1) →
      (r = none ∧ s1.in_trans = s.in_trans ∧ ∃ new, Ext s s1 new) ∨
      (∃ e, r = some e ∧ e ≠ ESP_I2C_OK ∧ Idle s1) := by
  intro n
  induction n with
  | zero =>
    intro mask s r s1 h
    simp [esp_i2c_write_byte_loop] at h
  | succ n ih =>
    intro mask s r s1 h
    rw [esp_i2c_write_byte_loop] at h
    split at h
    · simp only [Option.some.injEq, Prod.mk.injEq] at h
      obtain ⟨rfl, rfl⟩ := h
      exact Or.inl ⟨rfl, rfl, _, Ext.nil _⟩
    · split at h
      · simp at h
      · rename_i err s2 hw
        rcases write_bit_cases H fuel _ s s2 err hw with ⟨rfl, hit, new, hx, _⟩ | ⟨hne, hid⟩
        · rw [if_neg (by simp)] at h
          rcases ih _ _ _ _ h with ⟨rfl, hit2, new2, hx2⟩ | hbad
          · exact Or.inl ⟨rfl, hit2.trans hit, _, hx.append hx2⟩
          · exact Or.inr hbad
        · rw [if_pos hne] at h
          simp only [Option.some.injEq, Prod.mk.injEq] at h
          obtain ⟨rfl, rfl⟩ := h
          exact Or.inr ⟨_, rfl, hne, hid⟩

/-- The function `esp_i2c_write_byte` returns `ESP_I2C_OK`, the static variables being as they
were, or an error with the bus idle. -/
theorem esp_i2c_write_byte_cases (H : Hw σ) (fuel byte : Nat) (ack a1 : Bool) (s s1 : State σ)
    (e : esp_i2c_err) (h : esp_i2c_write_byte H fuel byte ack s = some (e, a1, s1)) :
    (e = ESP_I2C_OK ∧ s1.in_trans = s.in_trans ∧ ∃ new, Ext s s1 new) ∨
    (e ≠ ESP_I2C_OK ∧ Idle s1) := by
  unfold esp_i2c_write_byte at h
  split at h
  · simp at h
  · rename_i err s2 hl
    simp only [Option.some.injEq, Prod.mk.injEq] at h
    obtain ⟨rfl, _, rfl⟩ := h
    rcases write_byte_loop_cases H fuel byte _ _ _ _ _ hl with ⟨hn, _⟩ | ⟨e, he, hne, hid⟩
    · simp at hn
    · simp only [Option.some.injEq] at he
      subst he
      exact Or.inr ⟨hne, hid⟩
  · rename_i s2 hl
    rcases write_byte_loop_cases H fuel byte _ _ _ _ _ hl with ⟨_, hit, new, hx⟩ | ⟨e, he, _⟩
    · rcases read_bit_cases H fuel _ _ _ _ _ h with ⟨rfl, hit2, new2, hx2, _⟩ | hbad
      · exact Or.inl ⟨rfl, hit2.trans hit, _, hx.append hx2⟩
      · exact Or.inr hbad
    · simp at he

/-- The bit loop of `esp_i2c_read_byte` either runs to its end, the static variables
being as they were, or is left with an error and an idle bus. -/
theorem read_byte_loop_cases (H : Hw σ) (fuel : Nat) :
    ∀ (n : Nat) (bit : Bool) (dst : Nat) (s : State σ) (r : Option esp_i2c_err) (d1 : Nat)
      (s1 : State σ),
      esp_i2c_read_byte_loop H fuel n bit dst s = some (r, d1, s1) →
      (r = none ∧ s1.in_trans = s.in_trans ∧ ∃ new, Ext s s1 new) ∨
      (∃ e, r = some e ∧ e ≠ ESP_I2C_OK ∧ Idle s1) := by
  intro n
  induction n with
  | zero =>
    intro bit dst s r d1 s1 h
    simp only [esp_i2c_read_byte_loop, Option.some.injEq, Prod.mk.injEq] at h
    obtain ⟨rfl, _, rfl⟩ := h
    exact Or.inl ⟨rfl, rfl, _, Ext.nil _⟩
  | succ n ih =>
    intro bit dst s r d1 s1 h
    rw [esp_i2c_read_byte_loop] at h
    split at h
    · simp at h
    · rename_i err b1 s2 hr
      rcases read_bit_cases H fuel _ _ _ _ _ hr with ⟨rfl, hit, new, hx, _⟩ | ⟨hne, hid⟩
      · rw [if_neg (by simp)] at h
        rcases ih _ _ _ _ _ _ h with ⟨rfl, hit2, new2, hx2⟩ | hbad
        · exact Or.inl ⟨rfl, hit2.trans hit, _, hx.append hx2⟩
        · exact Or.inr hbad
      · rw [if_pos hne] at h
        simp only [Option.some.injEq, Prod.mk.injEq] at h
        obtain ⟨rfl, _, rfl⟩ := h
        exact Or.inr ⟨_, rfl, hne, hid⟩

/-- The function `esp_i2c_read_byte` returns `ESP_I2C_OK`, the static variables being as they
were, or an error with the bus idle. -/
theorem esp_i2c_read_byte_cases (H : Hw σ) (fuel dst : Nat) (ack : Bool) (d1 : Nat)
    (s s1 : State σ) (e : esp_i2c_err)
    (h : esp_i2c_read_byte H fuel dst ack s = some (e, d1, s1)) :
    (e = ESP_I2C_OK ∧ s1.in_trans = s.in_trans ∧ ∃ new, Ext s s1 new) ∨
    (e ≠ ESP_I2C_OK ∧ Idle s1) := by
  unfold esp_i2c_read_byte at h
  split at h
  · simp at h
  · rename_i err d2 s2 hl
    simp only [Option.some.injEq, Prod.mk.injEq] at h
    obtain ⟨rfl, _, rfl⟩ := h
    rcases read_byte_loop_cases H fuel _ _ _ _ _ _ _ hl with ⟨hn, _⟩ | ⟨e, he, hne, hid⟩
    · simp at hn
    · simp only [Option.some.injEq] at he
      subst he
      exact Or.inr ⟨hne, hid⟩
  · rename_i d2 s2 hl
    rcases read_byte_loop_cases H fuel _ _ _ _ _ _ _ hl with ⟨_, hit, new, hx⟩ | ⟨e, he, _⟩
    · split at h
      · simp at h
      · rename_i err s3 hw
        simp only [Option.some.injEq, Prod.mk.injEq] at h
        obtain ⟨rfl, _, rfl⟩ := h
        rcases write_bit_cases H fuel _ _ _ _ hw with ⟨rfl, hit2, new2, hx2, _⟩ | hbad
        · exact Or.inl ⟨rfl, hit2.trans hit, _, hx.append hx2⟩
        · exact Or.inr hbad
    · simp at he

/-- The function `esp_i2c_write_bytes` returns `ESP_I2C_OK`, not inside a transaction unless it
was called inside one, or an error with the bus idle. -/
theorem esp_i2c_write_bytes_cases (H : Hw σ) (fuel : Nat) :
    ∀ (buf : List Nat) (ack : Bool) (s s1 : State σ) (e : esp_i2c_err),
      esp_i2c_write_bytes_loop H fuel buf ack s = some (e, s1) →
      (e = ESP_I2C_OK ∧ (s1.in_trans = true → s.in_trans = true)) ∨
      (e ≠ ESP_I2C_OK ∧ Idle s1) := by
  intro buf
  induction buf with
  | nil =>
    intro ack s s1 e h
    simp only [esp_i2c_write_bytes_loop, Option.some.injEq, Prod.mk.injEq] at h
    obtain ⟨rfl, rfl⟩ := h
    exact Or.inl ⟨rfl, id⟩
  | cons b buf ih =>
    intro ack s s1 e h
    rw [esp_i2c_write_bytes_loop] at h
    split at h
    · simp at h
    · rename_i err a1 s2 hw
      rcases esp_i2c_write_byte_cases H fuel b ack a1 s s2 err hw with
        ⟨rfl, hit, _⟩ | ⟨hne, _⟩
      · rw [if_neg (by simp)] at h
        rcases ih _ _ _ _ h with ⟨rfl, hit2⟩ | hbad
        · refine Or.inl ⟨rfl, fun h1 => ?_⟩
          have h2 := hit2 h1
          split at h2
          · simp [esp_i2c_fail_fast] at h2
          · rw [← hit]
            exact h2
        · exact Or.inr hbad
      · rw [if_pos hne] at h
        simp only [Option.some.injEq, Prod.mk.injEq] at h
        obtain ⟨rfl, rfl⟩ := h
        exact Or.inr ⟨by simpa [esp_i2c_fail_fast] using hne, fail_fast_idle H e _⟩

/-- The function `esp_i2c_read_bytes` returns `ESP_I2C_OK`, the transaction flag being as it
was, or an error with the bus idle. -/
theorem esp_i2c_read_bytes_cases (H : Hw σ) (fuel len : Nat) :
    ∀ (n idx : Nat) (ack : Bool) (buf : List Nat) (s : State σ) (e : esp_i2c_err)
      (b1 : List Nat) (s1 : State σ),
      esp_i2c_read_bytes_loop H fuel len n idx ack buf s = some (e, b1, s1) →
      (e = ESP_I2C_OK ∧ s1.in_trans = s.in_trans) ∨ (e ≠ ESP_I2C_OK ∧ Idle s1) := by
  intro n
  induction n with
  | zero =>
    intro idx ack buf s e b1 s1 h
    simp only [esp_i2c_read_bytes_loop, Option.some.injEq, Prod.mk.injEq] at h
    obtain ⟨rfl, _, rfl⟩ := h
    exact Or.inl ⟨rfl, rfl⟩
  | succ n ih =>
    intro idx ack buf s e b1 s1 h
    rw [esp_i2c_read_bytes_loop] at h
    split at h
    · simp at h
    · rename_i err d1 s2 hr
      rcases esp_i2c_read_byte_cases H fuel _ _ _ _ _ _ hr with ⟨rfl, hit, _⟩ | ⟨hne, _⟩
      · rw [if_neg (by simp)] at h
        rcases ih _ _ _ _ _ _ _ h with ⟨rfl, hit2⟩ | hbad
        · exact Or.inl ⟨rfl, hit2.trans hit⟩
        · exact Or.inr hbad
      · rw [if_pos hne] at h
        simp only [Option.some.injEq, Prod.mk.injEq] at h
        obtain ⟨rfl, _, rfl⟩ := h
        exact Or.inr ⟨by simpa [esp_i2c_fail_fast] using hne, fail_fast_idle H err _⟩

/-- The function `esp_i2c_start` returns `ESP_I2C_OK` inside a transaction, or an error with
the bus idle. -/
theorem esp_i2c_start_cases (H : Hw σ) (fuel : Nat) (s s1 : State σ) (e : esp_i2c_err)
    (h : esp_i2c_start H fuel s = some (e, s1)) :
    (e = ESP_I2C_OK ∧ s1.in_trans = true) ∨ (e ≠ ESP_I2C_OK ∧ Idle s1) := by
  unfold esp_i2c_start at h
  dsimp only at h
  split at h
  · rename_i hin
    split at h
    · simp at h
    · rename_i idx s2 hc
      obtain ⟨hit, _⟩ := chk_cs_ext H _ _ _ _ _ hc
      split at h
      · simp only [Option.some.injEq, Prod.mk.injEq] at h
        obtain ⟨rfl, rfl⟩ := h
        exact Or.inr ⟨by simp [esp_i2c_fail_fast],
          fail_fast_idle H ESP_I2C_ERR_LONG_STRETCH _⟩
      · have h2 : s2.in_trans = true := hit.trans hin
        by_cases h0 : 0 < idx
        · rw [if_pos h0] at h
          simp only [Option.some.injEq, Prod.mk.injEq] at h
          obtain ⟨rfl, rfl⟩ := h
          refine Or.inl ⟨rfl, ?_⟩
          simp only [SDA_RELEASE_in_trans, delay_in_trans, SCL_LOW_in_trans, SDA_LOW_in_trans]
          exact h2
        · rw [if_neg h0] at h
          simp only [Option.some.injEq, Prod.mk.injEq] at h
          obtain ⟨rfl, rfl⟩ := h
          refine Or.inl ⟨rfl, ?_⟩
          simp only [SDA_RELEASE_in_trans, delay_in_trans, SCL_LOW_in_trans, SDA_LOW_in_trans]
          exact h2
  · rename_i hin
    have hin' : s.in_trans = false := by simpa using hin
    split at h
    · simp only [Option.some.injEq, Prod.mk.injEq] at h
      obtain ⟨rfl, rfl⟩ := h
      refine Or.inr ⟨by simp, hin', ?_, ?_⟩
      · show last_pin_action s.gpio_scl
          (Ev.gpio_in s.gpio_sda _ :: Ev.out_en_c s.gpio_sda :: Ev.out_en_c s.gpio_scl ::
            s.w.log) = some true
        simp only [last_pin_action]
        split_ifs <;> rfl
      · show last_pin_action s.gpio_sda
          (Ev.gpio_in s.gpio_sda _ :: Ev.out_en_c s.gpio_sda :: Ev.out_en_c s.gpio_scl ::
            s.w.log) = some true
        simp [last_pin_action]
    · split at h
      · simp at h
      · split at h
        · simp only [Option.some.injEq, Prod.mk.injEq] at h
          obtain ⟨rfl, rfl⟩ := h
          exact Or.inr ⟨by simp [esp_i2c_fail_fast],
            fail_fast_idle H ESP_I2C_ERR_LONG_STRETCH _⟩
        · simp only [Option.some.injEq, Prod.mk.injEq] at h
          obtain ⟨rfl, rfl⟩ := h
          exact Or.inl ⟨rfl, rfl⟩

/-- The function `esp_i2c_stop` returns `ESP_I2C_OK` outside a transaction, or an error with
the bus idle. -/
theorem esp_i2c_stop_cases (H : Hw σ) (fuel : Nat) (s s1 : State σ) (e : esp_i2c_err)
    (h : esp_i2c_stop H fuel s = some (e, s1)) :
    (e = ESP_I2C_OK ∧ s1.in_trans = false) ∨ (e ≠ ESP_I2C_OK ∧ Idle s1) := by
  unfold esp_i2c_stop at h
  dsimp only at h
  split at h
  · simp only [Option.some.injEq, Prod.mk.injEq] at h
    obtain ⟨rfl, rfl⟩ := h
    exact Or.inr ⟨by simp [esp_i2c_fail_fast],
      fail_fast_idle H ESP_I2C_ERR_STOP_OUTSIDE_TRANS _⟩
  · split at h
    · simp at h
    · split at h
      · simp only [Option.some.injEq, Prod.mk.injEq] at h
        obtain ⟨rfl, rfl⟩ := h
        exact Or.inr ⟨by simp [esp_i2c_fail_fast],
          fail_fast_idle H ESP_I2C_ERR_LONG_STRETCH _⟩
      · simp only [Option.some.injEq, Prod.mk.injEq] at h
        obtain ⟨rfl, rfl⟩ := h
        exact Or.inl ⟨rfl, rfl⟩

/-- The function `esp_i2c_start_read_write` returns `ESP_I2C_OK` inside a transaction, or an
error with the bus idle. -/
theorem esp_i2c_start_read_write_cases (H : Hw σ) (fuel address : Nat) (stop_on_nack : Bool)
    (s s1 : State σ) (e : esp_i2c_err)
    (h : esp_i2c_start_read_write H fuel address stop_on_nack s = some (e, s1)) :
    (e = ESP_I2C_OK ∧ s1.in_trans = true) ∨ (e ≠ ESP_I2C_OK ∧ Idle s1) := by
  unfold esp_i2c_start_read_write at h
  split at h
  · simp at h
  · rename_i err s2 hst
    rcases esp_i2c_start_cases H fuel s s2 err hst with ⟨rfl, hin⟩ | ⟨hne, hid⟩
    · rw [if_neg (by simp)] at h
      split at h
      · simp at h
      · rename_i err1 a1 s3 hw
        rcases esp_i2c_write_byte_cases H fuel _ _ _ _ _ _ hw with ⟨rfl, hit, _⟩ | ⟨hne, hid⟩
        · rw [if_neg (by simp)] at h
          split at h
          · split at h
            · split at h
              · simp at h
              · simp only [Option.some.injEq, Prod.mk.injEq] at h
                obtain ⟨rfl, rfl⟩ := h
                exact Or.inr ⟨by simp [esp_i2c_fail_fast],
                  fail_fast_idle H ESP_I2C_ERR_NO_ACK _⟩
            · simp only [Option.some.injEq, Prod.mk.injEq] at h
              obtain ⟨rfl, rfl⟩ := h
              exact Or.inr ⟨by simp [esp_i2c_fail_fast],
                fail_fast_idle H ESP_I2C_ERR_NO_ACK _⟩
          · simp only [Option.some.injEq, Prod.mk.injEq] at h
            obtain ⟨rfl, rfl⟩ := h
            exact Or.inl ⟨rfl, hit.trans hin⟩
        · rw [if_pos hne] at h
          simp only [Option.some.injEq, Prod.mk.injEq] at h
          obtain ⟨rfl, rfl⟩ := h
          exact Or.inr ⟨hne, hid⟩
    · rw [if_pos hne] at h
      simp only [Option.some.injEq, Prod.mk.injEq] at h
      obtain ⟨rfl, rfl⟩ := h
      exact Or.inr ⟨hne, hid⟩

/-- The function `esp_i2c_start_write` returns `ESP_I2C_OK` inside a transaction, or an error
with the bus idle. -/
theorem esp_i2c_start_write_cases (H : Hw σ) (fuel address reg : Nat)
    (s s1 : State σ) (e : esp_i2c_err)
    (h : esp_i2c_start_write H fuel address reg s = some (e, s1)) :
    (e = ESP_I2C_OK ∧ s1.in_trans = true) ∨ (e ≠ ESP_I2C_OK ∧ Idle s1) := by
  unfold esp_i2c_start_write at h
  split at h
  · simp at h
  · rename_i err s2 hst
    rcases esp_i2c_start_read_write_cases H fuel _ _ s s2 err hst with ⟨rfl, hin⟩ | ⟨hne, hid⟩
    · rw [if_neg (by simp)] at h
      split at h
      · simp at h
      · rename_i err1 a1 s3 hw
        rcases esp_i2c_write_byte_cases H fuel _ _ _ _ _ _ hw with ⟨rfl, hit, _⟩ | ⟨hne, hid⟩
        · rw [if_neg (by simp)] at h
          split at h
          · simp only [Option.some.injEq, Prod.mk.injEq] at h
            obtain ⟨rfl, rfl⟩ := h
            exact Or.inr ⟨by simp [esp_i2c_fail_fast],
              fail_fast_idle H ESP_I2C_ERR_NO_ACK _⟩
          · simp only [Option.some.injEq, Prod.mk.injEq] at h
            obtain ⟨rfl, rfl⟩ := h
            exact Or.inl ⟨rfl, hit.trans hin⟩
        · rw [if_pos hne] at h
          simp only [Option.some.injEq, Prod.mk.injEq] at h
          obtain ⟨rfl, rfl⟩ := h
          exact Or.inr ⟨hne, hid⟩
    · rw [if_pos hne] at h
      simp only [Option.some.injEq, Prod.mk.injEq] at h
      obtain ⟨rfl, rfl⟩ := h
      exact Or.inr ⟨hne, hid⟩

/-- The function `esp_i2c_start_read` returns `ESP_I2C_OK` inside a transaction, or an error
with the bus idle. -/
theorem esp_i2c_start_read_cases (H : Hw σ) (fuel address reg : Nat)
    (s s1 : State σ) (e : esp_i2c_err)
    (h : esp_i2c_start_read H fuel address reg s = some (e, s1)) :
    (e = ESP_I2C_OK ∧ s1.in_trans = true) ∨ (e ≠ ESP_I2C_OK ∧ Idle s1) := by
  unfold esp_i2c_start_read at h
  split at h
  · simp at h
  · rename_i err s2 hst
    rcases esp_i2c_start_write_cases H fuel _ _ s s2 err hst with ⟨rfl, _⟩ | ⟨hne, hid⟩
    · rw [if_neg (by simp)] at h
      exact esp_i2c_start_read_write_cases H fuel _ _ _ _ _ h
    · rw [if_pos hne] at h
      simp only [Option.some.injEq, Prod.mk.injEq] at h
      obtain ⟨rfl, rfl⟩ := h
      exact Or.inr ⟨hne, hid⟩

/-- The probe loop of `esp_i2c_scan`, entered outside a transaction, ends outside a
transaction. -/
theorem esp_i2c_scan_loop_in_trans (H : Hw σ) (fuel : Nat) :
    ∀ (n address : Nat) (nodes : List Nat) (s : State σ) (nodes1 : List Nat) (s1 : State σ),
      esp_i2c_scan_loop H fuel n address nodes s = some (nodes1, s1) →
      s.in_trans = false → s1.in_trans = false := by
  intro n
  induction n with
  | zero =>
    intro address nodes s nodes1 s1 h _
    simp [esp_i2c_scan_loop] at h
  | succ n ih =>
    intro address nodes s nodes1 s1 h hin
    rw [esp_i2c_scan_loop] at h
    split at h
    · simp only [Option.some.injEq, Prod.mk.injEq] at h
      obtain ⟨_, rfl⟩ := h
      exact hin
    · split at h
      · exact ih _ _ _ _ _ h hin
      · split at h
        · simp at h
        · rename_i err s2 hst
          rcases esp_i2c_start_read_write_cases H fuel _ _ s s2 err hst with
            ⟨rfl, _⟩ | ⟨hne, hid⟩
          · rw [if_neg (by simp)] at h
            split at h
            · simp at h
            · split at h
              · simp at h
              · rename_i e3 s4 hsp
                have h4 : s4.in_trans = false := by
                  rcases esp_i2c_stop_cases H fuel _ _ _ hsp with ⟨_, h4⟩ | ⟨_, h4⟩
                  · exact h4
                  · exact h4.1
                exact ih _ _ _ _ _ h h4
          · rw [if_pos hne] at h
            exact ih _ _ _ _ _ h hid.1

/-- The function `esp_i2c_scan`, called outside a transaction, returns outside a
transaction. -/
theorem esp_i2c_scan_in_trans (H : Hw σ) (fuel : Nat) (root : List Nat) (s : State σ)
    (e : esp_i2c_err) (out : List Nat) (s1 : State σ)
    (h : esp_i2c_scan H fuel root s = some (e, out, s1)) (hin : s.in_trans = false) :
    s1.in_trans = false := by
  unfold esp_i2c_scan at h
  split at h
  · simp only [Option.some.injEq, Prod.mk.injEq] at h
    obtain ⟨_, _, rfl⟩ := h
    exact hin
  · split at h
    · simp at h
    · split at h
      · simp at h
      · rename_i nodes s2 hl
        have h2 := esp_i2c_scan_loop_in_trans H fuel _ _ _ _ _ _ hl hin
        split at h
        · simp only [Option.some.injEq, Prod.mk.injEq] at h
          obtain ⟨_, _, rfl⟩ := h
          exact h2
        · simp only [Option.some.injEq, Prod.mk.injEq] at h
          obtain ⟨_, _, rfl⟩ := h
          exact h2

/-- The function `esp_i2c_scan` returns `ESP_I2C_OK` or `ESP_I2C_ERR_ROOT_NOT_NULL`. -/
theorem esp_i2c_scan_err (H : Hw σ) (fuel : Nat) (root : List Nat) (s : State σ)
    (e : esp_i2c_err) (out : List Nat) (s1 : State σ)
    (h : esp_i2c_scan H fuel root s = some (e, out, s1)) :
    e = ESP_I2C_OK ∨ e = ESP_I2C_ERR_ROOT_NOT_NULL := by
  unfold esp_i2c_scan at h
  split at h
  · simp only [Option.some.injEq, Prod.mk.injEq] at h
    exact Or.inr h.1.symm
  · split at h
    · simp at h
    · split at h
      · simp at h
      · split at h <;>
        · simp only [Option.some.injEq, Prod.mk.injEq] at h
          exact Or.inl h.1.symm

end ops

end I2C

/-! ## C18, C19: errors leave the bus idle, and the transaction flag -/

namespace I2C

open esp_i2c_err

section flag
variable {σ : Type}

/-- The function `esp_i2c_init` returns `ESP_I2C_OK` or `ESP_I2C_ERR_INIT_CONFLICT`, and leaves the
engine outside a transaction when it was outside one. -/
theorem esp_i2c_init_cases (H : Hw σ) (scl sda : Nat) (s : State σ) :
    ((esp_i2c_init H scl sda s).1 = ESP_I2C_OK ∨
      (esp_i2c_init H scl sda s).1 = ESP_I2C_ERR_INIT_CONFLICT) ∧
    (s.in_trans = false → (esp_i2c_init H scl sda s).2.in_trans = false) := by
  unfold esp_i2c_init
  by_cases hini : s.initialized = true
  · rw [if_pos hini]
    by_cases hp : s.gpio_scl = scl ∧ s.gpio_sda = sda
    · rw [if_pos hp]
      exact ⟨Or.inl rfl, id⟩
    · rw [if_neg hp]
      exact ⟨Or.inr rfl, id⟩
  · rw [if_neg hini]
    exact ⟨Or.inl rfl, fun _ => rfl⟩

/-- What a call of a public function that returns an error code other than
`ESP_I2C_OK`, `ESP_I2C_ERR_INIT_CONFLICT` and `ESP_I2C_ERR_ROOT_NOT_NULL` leaves: an idle bus. -/
theorem run_error_idle (H : Hw σ) (fuel : Nat) (op : Op) (s s1 : State σ) (err : esp_i2c_err)
    (h : Op.run H fuel op s = some (some err, s1)) (h1 : err ≠ ESP_I2C_OK)
    (h2 : err ≠ ESP_I2C_ERR_INIT_CONFLICT) (h3 : err ≠ ESP_I2C_ERR_ROOT_NOT_NULL) :
    Idle s1 := by
  cases op with
  | init scl sda =>
    simp only [Op.run, Option.some.injEq, Prod.mk.injEq] at h
    obtain ⟨he, _⟩ := h
    rcases (esp_i2c_init_cases H scl sda s).1 with hc | hc
    · rw [hc] at he
      exact absurd he.symm h1
    · rw [hc] at he
      exact absurd he.symm h2
  | set_speed speed =>
    simp [Op.run] at h
  | start =>
    simp only [Op.run, Option.map_eq_some', Prod.mk.injEq, Option.some.injEq] at h
    obtain ⟨⟨e, t⟩, hr, rfl, rfl⟩ := h
    rcases esp_i2c_start_cases H fuel s _ _ hr with ⟨he, _⟩ | ⟨_, hi⟩
    · exact absurd he h1
    · exact hi
  | stop =>
    simp only [Op.run, Option.map_eq_some', Prod.mk.injEq, Option.some.injEq] at h
    obtain ⟨⟨e, t⟩, hr, rfl, rfl⟩ := h
    rcases esp_i2c_stop_cases H fuel s _ _ hr with ⟨he, _⟩ | ⟨_, hi⟩
    · exact absurd he h1
    · exact hi
  | fail_fast e =>
    simp only [Op.run, Option.some.injEq, Prod.mk.injEq] at h
    obtain ⟨_, rfl⟩ := h
    exact fail_fast_idle H e s
  | write_byte byte ack =>
    simp only [Op.run, Option.map_eq_some', Prod.mk.injEq, Option.some.injEq] at h
    obtain ⟨⟨e, a1, t⟩, hr, rfl, rfl⟩ := h
    rcases esp_i2c_write_byte_cases H fuel byte ack _ s _ _ hr with ⟨he, _⟩ | ⟨_, hi⟩
    · exact absurd he h1
    · exact hi
  | read_byte dst ack =>
    simp only [Op.run, Option.map_eq_some', Prod.mk.injEq, Option.some.injEq] at h
    obtain ⟨⟨e, d1, t⟩, hr, rfl, rfl⟩ := h
    rcases esp_i2c_read_byte_cases H fuel dst ack _ s _ _ hr with ⟨he, _⟩ | ⟨_, hi⟩
    · exact absurd he h1
    · exact hi
  | write_bytes buf =>
    simp only [Op.run, Option.map_eq_some', Prod.mk.injEq, Option.some.injEq] at h
    obtain ⟨⟨e, t⟩, hr, rfl, rfl⟩ := h
    rcases esp_i2c_write_bytes_cases H fuel buf false s _ _ hr with ⟨he, _⟩ | ⟨_, hi⟩
    · exact absurd he h1
    · exact hi
  | read_bytes buf len =>
    simp only [Op.run, Option.map_eq_some', Prod.mk.injEq, Option.some.injEq] at h
    obtain ⟨⟨e, b1, t⟩, hr, rfl, rfl⟩ := h
    rcases esp_i2c_read_bytes_cases H fuel len len 0 ESP_I2C_ACK buf s _ _ _ hr with
      ⟨he, _⟩ | ⟨_, hi⟩
    · exact absurd he h1
    · exact hi
  | start_read_write address stop_on_nack =>
    simp only [Op.run, Option.map_eq_some', Prod.mk.injEq, Option.some.injEq] at h
    obtain ⟨⟨e, t⟩, hr, rfl, rfl⟩ := h
    rcases esp_i2c_start_read_write_cases H fuel address stop_on_nack s _ _ hr with
      ⟨he, _⟩ | ⟨_, hi⟩
    · exact absurd he h1
    · exact hi
  | start_write address reg =>
    simp only [Op.run, Option.map_eq_some', Prod.mk.injEq, Option.some.injEq] at h
    obtain ⟨⟨e, t⟩, hr, rfl, rfl⟩ := h
    rcases esp_i2c_start_write_cases H fuel address reg s _ _ hr with ⟨he, _⟩ | ⟨_, hi⟩
    · exact absurd he h1
    · exact hi
  | start_read address reg =>
    simp only [Op.run, Option.map_eq_some', Prod.mk.injEq, Option.some.injEq] at h
    obtain ⟨⟨e, t⟩, hr, rfl, rfl⟩ := h
    rcases esp_i2c_start_read_cases H fuel address reg s _ _ hr with ⟨he, _⟩ | ⟨_, hi⟩
    · exact absurd he h1
    · exact hi
  | scan root =>
    simp only [Op.run, Option.map_eq_some', Prod.mk.injEq, Option.some.injEq] at h
    obtain ⟨⟨e, out, t⟩, hr, rfl, rfl⟩ := h
    rcases esp_i2c_scan_err H fuel root s _ _ _ hr with he | he
    · exact absurd he h1
    · exact absurd he h3

/-- A call of a public function that sends no start condition leaves the engine
outside a transaction when it was outside one. -/
theorem run_keeps_outside (H : Hw σ) (fuel : Nat) (op : Op) (s s1 : State σ)
    (r : Option esp_i2c_err) (h : Op.run H fuel op s = some (r, s1))
    (hop : op.starts = false) (hin : s.in_trans = false) : s1.in_trans = false := by
  cases op with
  | init scl sda =>
    simp only [Op.run, Option.some.injEq, Prod.mk.injEq] at h
    obtain ⟨_, rfl⟩ := h
    exact (esp_i2c_init_cases H scl sda s).2 hin
  | set_speed speed =>
    simp only [Op.run, Option.some.injEq, Prod.mk.injEq] at h
    obtain ⟨_, rfl⟩ := h
    exact hin
  | start => simp [Op.starts] at hop
  | stop =>
    simp only [Op.run, Option.map_eq_some', Prod.mk.injEq] at h
    obtain ⟨⟨e, t⟩, hr, _, rfl⟩ := h
    rcases esp_i2c_stop_cases H fuel s _ _ hr with ⟨_, hi⟩ | ⟨_, hi⟩
    · exact hi
    · exact hi.1
  | fail_fast e =>
    simp only [Op.run, Option.some.injEq, Prod.mk.injEq] at h
    obtain ⟨_, rfl⟩ := h
    rfl
  | write_byte byte ack =>
    simp only [Op.run, Option.map_eq_some', Prod.mk.injEq] at h
    obtain ⟨⟨e, a1, t⟩, hr, _, rfl⟩ := h
    rcases esp_i2c_write_byte_cases H fuel byte ack _ s _ _ hr with ⟨_, hi, _⟩ | ⟨_, hi⟩
    · exact hi.trans hin
    · exact hi.1
  | read_byte dst ack =>
    simp only [Op.run, Option.map_eq_some', Prod.mk.injEq] at h
    obtain ⟨⟨e, d1, t⟩, hr, _, rfl⟩ := h
    rcases esp_i2c_read_byte_cases H fuel dst ack _ s _ _ hr with ⟨_, hi, _⟩ | ⟨_, hi⟩
    · exact hi.trans hin
    · exact hi.1
  | write_bytes buf =>
    simp only [Op.run, Option.map_eq_some', Prod.mk.injEq] at h
    obtain ⟨⟨e, t⟩, hr, _, rfl⟩ := h
    rcases esp_i2c_write_bytes_cases H fuel buf false s _ _ hr with ⟨_, hi⟩ | ⟨_, hi⟩
    · cases ht : t.in_trans
      · rfl
      · rw [hi ht] at hin
        exact absurd hin (by simp)
    · exact hi.1
  | read_bytes buf len =>
    simp only [Op.run, Option.map_eq_some', Prod.mk.injEq] at h
    obtain ⟨⟨e, b1, t⟩, hr, _, rfl⟩ := h
    rcases esp_i2c_read_bytes_cases H fuel len len 0 ESP_I2C_ACK buf s _ _ _ hr with
      ⟨_, hi⟩ | ⟨_, hi⟩
    · exact hi.trans hin
    · exact hi.1
  | start_read_write address stop_on_nack => simp [Op.starts] at hop
  | start_write address reg => simp [Op.starts] at hop
  | start_read address reg => simp [Op.starts] at hop
  | scan root =>
    simp only [Op.run, Option.map_eq_some', Prod.mk.injEq] at h
    obtain ⟨⟨e, out, t⟩, hr, _, rfl⟩ := h
    exact esp_i2c_scan_in_trans H fuel root s _ _ _ hr hin

/-- A call of a public function that sends a start condition and returns leaves the
engine inside a transaction exactly when it returns `ESP_I2C_OK`. -/
theorem run_starts (H : Hw σ) (fuel : Nat) (op : Op) (s s1 : State σ)
    (r : Option esp_i2c_err) (h : Op.run H fuel op s = some (r, s1))
    (hop : op.starts = true) : s1.in_trans = true ↔ r = some ESP_I2C_OK := by
  have key : ∀ (e : esp_i2c_err) (t : State σ),
      ((e = ESP_I2C_OK ∧ t.in_trans = true) ∨ (e ≠ ESP_I2C_OK ∧ Idle t)) →
      (t.in_trans = true ↔ some e = some ESP_I2C_OK) := by
    intro e t hc
    rcases hc with ⟨rfl, hi⟩ | ⟨hne, hi⟩
    · simp [hi]
    · simp [hi.1, hne]
  cases op with
  | start =>
    simp only [Op.run, Option.map_eq_some', Prod.mk.injEq] at h
    obtain ⟨⟨e, t⟩, hr, rfl, rfl⟩ := h
    exact key _ _ (esp_i2c_start_cases H fuel s _ _ hr)
  | start_read_write address stop_on_nack =>
    simp only [Op.run, Option.map_eq_some', Prod.mk.injEq] at h
    obtain ⟨⟨e, t⟩, hr, rfl, rfl⟩ := h
    exact key _ _ (esp_i2c_start_read_write_cases H fuel address stop_on_nack s _ _ hr)
  | start_write address reg =>
    simp only [Op.run, Option.map_eq_some', Prod.mk.injEq] at h
    obtain ⟨⟨e, t⟩, hr, rfl, rfl⟩ := h
    exact key _ _ (esp_i2c_start_write_cases H fuel address reg s _ _ hr)
  | start_read address reg =>
    simp only [Op.run, Option.map_eq_some', Prod.mk.injEq] at h
    obtain ⟨⟨e, t⟩, hr, rfl, rfl⟩ := h
    exact key _ _ (esp_i2c_start_read_cases H fuel address reg s _ _ hr)
  | init _ _ => simp [Op.starts] at hop
  | set_speed _ => simp [Op.starts] at hop
  | stop => simp [Op.starts] at hop
  | fail_fast _ => simp [Op.starts] at hop
  | write_byte _ _ => simp [Op.starts] at hop
  | read_byte _ _ => simp [Op.starts] at hop
  | write_bytes _ => simp [Op.starts] at hop
  | read_bytes _ _ => simp [Op.starts] at hop
  | scan _ => simp [Op.starts] at hop

end flag

/-- C18. For every public function of the two-wire engine, with any arguments, from
every bus state and on every bus: when the call returns `ESP_I2C_ERR_ARB_LOST`,
`ESP_I2C_ERR_LONG_STRETCH`, `ESP_I2C_ERR_NO_ACK` or `ESP_I2C_ERR_STOP_OUTSIDE_TRANS`, the engine is
outside a transaction afterwards, and the last thing it did to the clock line and
to the data line was to release it. -/
theorem c18_error_leaves_bus_idle {σ : Type} (H : Hw σ) (fuel : Nat) (op : Op)
    (s s1 : State σ) (err : esp_i2c_err)
    (h : Op.run H fuel op s = some (some err, s1))
    (he : err = ESP_I2C_ERR_ARB_LOST ∨ err = ESP_I2C_ERR_LONG_STRETCH ∨
      err = ESP_I2C_ERR_NO_ACK ∨ err = ESP_I2C_ERR_STOP_OUTSIDE_TRANS) :
    s1.in_trans = false ∧ last_pin_action s1.gpio_scl s1.w.log = some true ∧
      last_pin_action s1.gpio_sda s1.w.log = some true := by
  have hi : Idle s1 := by
    apply run_error_idle H fuel op s s1 err h
    · rcases he with rfl | rfl | rfl | rfl <;> simp
    · rcases he with rfl | rfl | rfl | rfl <;> simp
    · rcases he with rfl | rfl | rfl | rfl <;> simp
  exact hi

/-- C18 on the simulated bus without any slave, the engine on pins 0 and 2:
`esp_i2c_start_write` for address `0x48` gets no acknowledge and returns `ESP_I2C_ERR_NO_ACK`. -/
theorem c18_error_leaves_bus_idle_witness :
    ∃ s1, Op.run sim_hw 1 (Op.start_write 0x48 0) (sim_state 0 2 [] 0) =
        some (some ESP_I2C_ERR_NO_ACK, s1) ∧
      s1.in_trans = false ∧ last_pin_action s1.gpio_scl s1.w.log = some true ∧
      last_pin_action s1.gpio_sda s1.w.log = some true :=
  ⟨_, rfl, c18_error_leaves_bus_idle sim_hw 1 (Op.start_write 0x48 0) (sim_state 0 2 [] 0) _
    ESP_I2C_ERR_NO_ACK rfl (Or.inr (Or.inr (Or.inl rfl)))⟩

/-- C19. For every call of a public function that returns, from every bus state and on
every bus: `esp_i2c_start` returning `ESP_I2C_OK` leaves the engine inside a transaction;
`esp_i2c_stop` returning `ESP_I2C_OK` leaves it outside; a function that sends no start
condition (`esp_i2c_init`, `esp_i2c_set_speed`, `esp_i2c_stop`, `esp_i2c_fail_fast`,
`esp_i2c_write_byte`, `esp_i2c_read_byte`, `esp_i2c_write_bytes`, `esp_i2c_read_bytes`,
`esp_i2c_scan`) leaves the engine outside a transaction when it was outside one; and
the engine gets from outside to inside a transaction only in a call that sends a
start condition and returns `ESP_I2C_OK`. -/
theorem c19_in_transaction_flag {σ : Type} (H : Hw σ) (fuel : Nat) (op : Op)
    (s s1 : State σ) (r : Option esp_i2c_err) (h : Op.run H fuel op s = some (r, s1)) :
    (op = Op.start → r = some ESP_I2C_OK → s1.in_trans = true) ∧
    (op = Op.stop → r = some ESP_I2C_OK → s1.in_trans = false) ∧
    (op.starts = false → s.in_trans = false → s1.in_trans = false) ∧
    (s.in_trans = false → s1.in_trans = true → op.starts = true ∧ r = some ESP_I2C_OK) := by
  refine ⟨?_, ?_, ?_, ?_⟩
  · intro hop hr
    subst hop
    exact (run_starts H fuel Op.start s s1 r h rfl).mpr hr
  · intro hop hr
    subst hop
    subst hr
    simp only [Op.run, Option.map_eq_some', Prod.mk.injEq, Option.some.injEq] at h
    obtain ⟨⟨e, t⟩, hr, rfl, rfl⟩ := h
    rcases esp_i2c_stop_cases H fuel s _ _ hr with ⟨_, hi⟩ | ⟨hne, _⟩
    · exact hi
    · exact absurd rfl hne
  · exact run_keeps_outside H fuel op s s1 r h
  · intro hin h1
    cases hs : op.starts
    · rw [run_keeps_outside H fuel op s s1 r h hs hin] at h1
      exact absurd h1 (by simp)
    · exact ⟨rfl, (run_starts H fuel op s s1 r h hs).mp h1⟩

/-- C19 on the simulated bus with a slave at address `0x48`, the engine on pins 0 and 2
and outside a transaction: `esp_i2c_start_read_write` for the write address of the slave
returns `ESP_I2C_OK` and leaves the engine inside a transaction. -/
theorem c19_in_transaction_flag_witness :
    ∃ s1, Op.run sim_hw 1 (Op.start_read_write 0x90 true) (sim_state 0 2 [0x48] 0) =
        some (some ESP_I2C_OK, s1) ∧
      (sim_state 0 2 [0x48] 0).in_trans = false ∧ s1.in_trans = true ∧
      (Op.start_read_write 0x90 true).starts = true :=
  ⟨_, rfl, rfl, rfl,
    ((c19_in_transaction_flag sim_hw 1 (Op.start_read_write 0x90 true) (sim_state 0 2 [0x48] 0)
      _ (some ESP_I2C_OK) rfl).2.2.2 rfl rfl).1⟩

end I2C

/-! ## Bytes on the two lines -/

namespace I2C

open esp_i2c_err

section frames
variable {σ : Type}

theorem and_two_pow_ne (byte k : Nat) : ((byte &&& 2 ^ k) != 0) = byte.testBit k := by
  rw [Nat.and_two_pow]
  cases byte.testBit k <;> simp

/-- The trace of the lines tells the last thing the master did to a pin. -/
theorem last_pin_action_bus_trace (pin sda : Nat) (log : List Ev) :
    last_pin_action pin (bus_trace sda log) = last_pin_action pin log := by
  induction log with
  | nil => rfl
  | cons e log ih =>
    cases e with
    | out_en_s p =>
      show last_pin_action pin (Ev.out_en_s p :: bus_trace sda log) = _
      simp only [last_pin_action, ih]
    | out_en_c p =>
      show last_pin_action pin (Ev.out_en_c p :: bus_trace sda log) = _
      simp only [last_pin_action, ih]
    | gpio_in p v =>
      by_cases hp : p = sda
      · have : bus_trace sda (Ev.gpio_in p v :: log) = Ev.gpio_in p v :: bus_trace sda log := by
          simp [bus_trace, hp]
        rw [this]
        simp only [last_pin_action, ih]
      · have : bus_trace sda (Ev.gpio_in p v :: log) = bus_trace sda log := by
          simp [bus_trace, hp]
        rw [this]
        simp only [last_pin_action, ih]
    | os_delay_us us =>
      show last_pin_action pin (bus_trace sda log) = _
      simp only [last_pin_action, ih]
    | delay c =>
      show last_pin_action pin (bus_trace sda log) = _
      simp only [last_pin_action, ih]
    | gpio_setup p u =>
      show last_pin_action pin (bus_trace sda log) = _
      simp only [last_pin_action, ih]

/-- The bits the loop of `esp_i2c_write_byte` puts on the lines from mask `2 ^ k` on: bit `k`
of the byte down to bit 0. -/
theorem write_byte_loop_trace (H : Hw σ) (fuel byte : Nat) :
    ∀ (k n : Nat) (s s1 : State σ),
      esp_i2c_write_byte_loop H fuel byte n (2 ^ k) s = some (none, s1) →
      s1.in_trans = s.in_trans ∧ ∃ new, Ext s s1 new ∧ (s.gpio_scl ≠ s.gpio_sda →
        bus_trace s.gpio_sda new =
          (((List.range (k + 1)).map (fun i => byte.testBit (k - i))).flatMap
            (bit_frame s.gpio_scl s.gpio_sda)).reverse) := by
  intro k
  induction k with
  | zero =>
    intro n s s1 h
    cases n with
    | zero => simp [esp_i2c_write_byte_loop] at h
    | succ n =>
      rw [esp_i2c_write_byte_loop, if_neg (by norm_num)] at h
      split at h
      · simp at h
      · rename_i err t hw
        rcases write_bit_cases H fuel _ s t err hw with ⟨rfl, hit, new, hx, htr⟩ | ⟨hne, _⟩
        · rw [if_neg (by simp)] at h
          cases n with
          | zero => simp [esp_i2c_write_byte_loop] at h
          | succ n =>
            rw [esp_i2c_write_byte_loop, if_pos (by decide)] at h
            simp only [Option.some.injEq, Prod.mk.injEq, true_and] at h
            subst h
            refine ⟨hit, new, hx, ?_⟩
            intro hp
            rw [htr hp, and_two_pow_ne]
            simp
        · rw [if_pos hne] at h
          simp at h
  | succ k ih =>
    intro n s s1 h
    cases n with
    | zero => simp [esp_i2c_write_byte_loop] at h
    | succ n =>
      rw [esp_i2c_write_byte_loop, if_neg (by positivity)] at h
      split at h
      · simp at h
      · rename_i err t hw
        rcases write_bit_cases H fuel _ s t err hw with ⟨rfl, hit, new, hx, htr⟩ | ⟨hne, _⟩
        · rw [if_neg (by simp)] at h
          have hm : (2 ^ (k + 1)) >>> 1 = 2 ^ k := by
            rw [Nat.shiftRight_eq_div_pow, pow_succ]
            simp
          rw [hm] at h
          obtain ⟨hit2, new2, hx2, htr2⟩ := ih n t s1 h
          refine ⟨hit2.trans hit, _, hx.append hx2, ?_⟩
          intro hp
          have hp2 : t.gpio_scl ≠ t.gpio_sda := by
            rw [hx.gpio_scl, hx.gpio_sda]
            exact hp
          rw [bus_trace_append, htr hp, ← hx.gpio_sda, htr2 hp2, hx.gpio_scl, hx.gpio_sda,
            and_two_pow_ne, List.range_succ_eq_map (k + 1), List.map_cons, List.flatMap_cons,
            List.reverse_append, List.map_map]
          simp only [Nat.sub_zero]
          congr 3
          apply List.map_congr_left
          intro i _
          simp
        · rw [if_pos hne] at h
          simp at h

/-- What `esp_i2c_write_byte` returning `ESP_I2C_OK` has done to the lines: the byte frame,
with the sampled level as the acknowledge bit. -/
theorem esp_i2c_write_byte_trace (H : Hw σ) (fuel byte : Nat) (ack a1 : Bool) (s s1 : State σ)
    (h : esp_i2c_write_byte H fuel byte ack s = some (ESP_I2C_OK, a1, s1)) :
    s1.in_trans = s.in_trans ∧ ∃ new, Ext s s1 new ∧ (s.gpio_scl ≠ s.gpio_sda →
      bus_trace s.gpio_sda new = (byte_frame s.gpio_scl s.gpio_sda byte a1).reverse) := by
  unfold esp_i2c_write_byte at h
  have h80 : (0x80 : Nat) = 2 ^ 7 := by norm_num
  rw [h80] at h
  split at h
  · simp at h
  · rename_i err t hl
    rcases write_byte_loop_cases H fuel byte _ _ s _ _ hl with ⟨hr, _⟩ | ⟨e, hre, hne, _⟩
    · simp at hr
    · simp only [Option.some.injEq, Prod.mk.injEq] at h hre
      subst hre
      exact absurd h.1 hne
  · rename_i t hl
    obtain ⟨hit, new, hx, htr⟩ := write_byte_loop_trace H fuel byte 7 9 s t hl
    rcases read_bit_cases H fuel ack a1 t s1 _ h with ⟨_, hit2, new2, hx2, htr2⟩ | ⟨hne, _⟩
    · refine ⟨hit2.trans hit, _, hx.append hx2, ?_⟩
      intro hp
      have hp2 : t.gpio_scl ≠ t.gpio_sda := by
        rw [hx.gpio_scl, hx.gpio_sda]
        exact hp
      rw [bus_trace_append, ← hx.gpio_sda, htr2 hp2, hx.gpio_sda, htr hp, hx.gpio_scl]
      unfold byte_frame
      rw [List.reverse_append]
      rfl
    · exact absurd rfl hne

/-- The value in the destination after the bits `bits` have been shifted in. -/
theorem shift_in_bits (bits : List Bool) (dst : Nat) :
    bits.foldl (fun acc (b : Bool) => ((acc <<< 1) ||| (if b then 1 else 0)) % 256) dst % 256 =
      (dst * 2 ^ bits.length + byte_of_bits bits) % 256 := by
  have hor : ∀ (a : Nat) (b : Bool),
      ((a <<< 1) ||| (if b then 1 else 0)) = 2 * a + (if b then 1 else 0) := by
    intro a b
    have h1 : (if b then 1 else 0) < 2 ^ 1 := by cases b <;> simp
    rw [Nat.shiftLeft_eq, Nat.mul_comm, ← Nat.mul_add_lt_is_or h1]
  have hA : ∀ (bits : List Bool) (a a1 : Nat), a % 256 = a1 % 256 →
      bits.foldl (fun acc (b : Bool) => ((acc <<< 1) ||| (if b then 1 else 0)) % 256) a % 256 =
        bits.foldl (fun acc (b : Bool) => 2 * acc + (if b then 1 else 0)) a1 % 256 := by
    intro bits
    induction bits with
    | nil => intro a a1 h; exact h
    | cons b bs ih =>
      intro a a1 h
      rw [List.foldl_cons, List.foldl_cons]
      apply ih
      rw [hor]
      omega
  have hB : ∀ (bits : List Bool) (a : Nat),
      bits.foldl (fun acc (b : Bool) => 2 * acc + (if b then 1 else 0)) a =
        a * 2 ^ bits.length +
          bits.foldl (fun acc (b : Bool) => 2 * acc + (if b then 1 else 0)) 0 := by
    intro bits
    induction bits with
    | nil => intro a; simp
    | cons b bs ih =>
      intro a
      rw [List.foldl_cons, List.foldl_cons, ih, ih (2 * 0 + _), List.length_cons, pow_succ]
      ring
  rw [hA bits dst dst rfl, hB]
  rfl

theorem byte_of_bits_lt (bits : List Bool) : byte_of_bits bits < 2 ^ bits.length := by
  induction bits using List.reverseRecOn with
  | nil => simp [byte_of_bits]
  | append_singleton bs b ih =>
    unfold byte_of_bits at ih ⊢
    rw [List.foldl_append, List.length_append, List.length_singleton, pow_succ]
    simp only [List.foldl_cons, List.foldl_nil]
    cases b <;> simp only [Bool.false_eq_true, ↓reduceIte] <;> omega

/-- The digits of `byte_of_bits`: the last of the bits is bit 0. -/
theorem byte_of_bits_testBit (bits : List Bool) (i : Nat) (hi : i < bits.length) :
    (byte_of_bits bits).testBit i = bits.getD (bits.length - 1 - i) false := by
  induction bits using List.reverseRecOn generalizing i with
  | nil => simp at hi
  | append_singleton bs b ih =>
    have hv : byte_of_bits (bs ++ [b]) = 2 * byte_of_bits bs + (if b then 1 else 0) := by
      unfold byte_of_bits
      rw [List.foldl_append]
      rfl
    rw [hv, List.length_append, List.length_singleton]
    cases i with
    | zero =>
      rw [Nat.testBit_zero, List.getD_eq_getElem?_getD]
      simp only [Nat.add_sub_cancel, Nat.sub_zero]
      rw [List.getElem?_append_right (le_refl _)]
      cases b <;> simp <;> omega
    | succ i =>
      rw [List.length_append, List.length_singleton] at hi
      rw [Nat.testBit_succ]
      have hd : (2 * byte_of_bits bs + (if b then 1 else 0)) / 2 = byte_of_bits bs := by
        cases b <;> simp <;> omega
      rw [hd, ih i (by omega), List.getD_eq_getElem?_getD, List.getD_eq_getElem?_getD,
        List.getElem?_append_left (by omega)]
      congr 2
      omega

/-- The samples the loop of `esp_i2c_read_byte` takes, and the value it leaves in the
destination. -/
theorem read_byte_loop_trace (H : Hw σ) (fuel : Nat) :
    ∀ (n : Nat) (bit : Bool) (dst : Nat) (s : State σ) (d1 : Nat) (s1 : State σ),
      esp_i2c_read_byte_loop H fuel n bit dst s = some (none, d1, s1) →
      s1.in_trans = s.in_trans ∧ ∃ (bits : List Bool) (new : List Ev), bits.length = n ∧
        d1 = bits.foldl
          (fun acc (b : Bool) => ((acc <<< 1) ||| (if b then 1 else 0)) % 256) dst ∧
        Ext s s1 new ∧ (s.gpio_scl ≠ s.gpio_sda →
          bus_trace s.gpio_sda new =
            (bits.flatMap (read_frame s.gpio_scl s.gpio_sda)).reverse) := by
  intro n
  induction n with
  | zero =>
    intro bit dst s d1 s1 h
    simp only [esp_i2c_read_byte_loop, Option.some.injEq, Prod.mk.injEq, true_and] at h
    obtain ⟨rfl, rfl⟩ := h
    exact ⟨rfl, [], [], rfl, rfl, Ext.nil _, fun _ => rfl⟩
  | succ n ih =>
    intro bit dst s d1 s1 h
    rw [esp_i2c_read_byte_loop] at h
    split at h
    · simp at h
    · rename_i err b1 t hr
      rcases read_bit_cases H fuel bit b1 s t err hr with ⟨rfl, hit, new, hx, htr⟩ | ⟨hne, _⟩
      · rw [if_neg (by simp)] at h
        obtain ⟨hit2, bits, new2, hlen, hd, hx2, htr2⟩ := ih _ _ _ _ _ h
        refine ⟨hit2.trans hit, b1 :: bits, _, by rw [List.length_cons, hlen], ?_,
          hx.append hx2, ?_⟩
        · rw [hd, List.foldl_cons]
        · intro hp
          have hp2 : t.gpio_scl ≠ t.gpio_sda := by
            rw [hx.gpio_scl, hx.gpio_sda]
            exact hp
          rw [bus_trace_append, htr hp, ← hx.gpio_sda, htr2 hp2, hx.gpio_scl, hx.gpio_sda,
            List.flatMap_cons, List.reverse_append]
          rfl
      · rw [if_pos hne] at h
        simp at h

/-- What `esp_i2c_read_byte` returning `ESP_I2C_OK` has done: eight samples of the data line,
which make the byte stored, most significant bit first, then the acknowledge bit
written. -/
theorem esp_i2c_read_byte_trace (H : Hw σ) (fuel dst : Nat) (ack : Bool) (d1 : Nat)
    (s s1 : State σ) (h : esp_i2c_read_byte H fuel dst ack s = some (ESP_I2C_OK, d1, s1)) :
    s1.in_trans = s.in_trans ∧ ∃ (bits : List Bool) (new : List Ev), bits.length = 8 ∧ d1 = byte_of_bits bits ∧
      Ext s s1 new ∧ (s.gpio_scl ≠ s.gpio_sda →
        bus_trace s.gpio_sda new =
          (read_byte_frame s.gpio_scl s.gpio_sda bits ack).reverse) := by
  unfold esp_i2c_read_byte at h
  split at h
  · simp at h
  · rename_i err d t hl
    rcases read_byte_loop_cases H fuel _ _ _ s _ _ _ hl with ⟨hr, _⟩ | ⟨e, hre, hne, _⟩
    · simp at hr
    · simp only [Option.some.injEq, Prod.mk.injEq] at h hre
      subst hre
      exact absurd h.1 hne
  · rename_i d t hl
    obtain ⟨hit, bits, new, hlen, hd, hx, htr⟩ := read_byte_loop_trace H fuel 8 false dst s d t hl
    split at h
    · simp at h
    · rename_i err t2 hw
      simp only [Option.some.injEq, Prod.mk.injEq] at h
      obtain ⟨rfl, rfl, rfl⟩ := h
      rcases write_bit_cases H fuel ack t _ _ hw with ⟨_, hit2, new2, hx2, htr2⟩ | ⟨hne, _⟩
      · refine ⟨hit2.trans hit, bits, _, hlen, ?_, hx.append hx2, ?_⟩
        · have h1 := shift_in_bits bits dst
          rw [← hd, hlen] at h1
          have h2 := byte_of_bits_lt bits
          rw [hlen] at h2
          have h3 : d % 256 = d := by
            rw [hd]
            obtain ⟨b, bs, rfl⟩ : ∃ b bs, bits = bs ++ [b] := by
              rcases List.eq_nil_or_concat bits with h0 | ⟨bs, b, h0⟩
              · rw [h0] at hlen
                simp at hlen
              · exact ⟨b, bs, by rw [h0, List.concat_eq_append]⟩
            rw [List.foldl_append]
            simp only [List.foldl_cons, List.foldl_nil]
            exact Nat.mod_mod _ _
          rw [h3] at h1
          rw [h1]
          norm_num at h2 ⊢
          omega
        · intro hp
          have hp2 : t.gpio_scl ≠ t.gpio_sda := by
            rw [hx.gpio_scl, hx.gpio_sda]
            exact hp
          rw [bus_trace_append, ← hx.gpio_sda, htr2 hp2, hx.gpio_sda, htr hp, hx.gpio_scl]
          unfold read_byte_frame
          rw [List.reverse_append]
      · exact absurd rfl hne

end frames

end I2C

/-! ## The two-wire code on a bus without clock-stretch timeout -/

namespace I2C

open esp_i2c_err

section total
variable {σ : Type}

/-- The clock-stretch wait keeps what every event keeps. -/
theorem chk_cs_inv (H : Hw σ) (inv : σ → Prop) (hstep : ∀ x e, inv x → inv (H.step x e)) :
    ∀ (fuel idx : Nat) (s : State σ) (r : Nat) (s1 : State σ),
      chk_cs H fuel idx s = some (r, s1) → inv s.w.env → inv s1.w.env := by
  intro fuel
  induction fuel with
  | zero =>
    intro idx s r s1 h
    simp [chk_cs] at h
  | succ n ih =>
    intro idx s r s1 h hi
    have h1 : inv (SCL_READ H s).2.w.env := hstep _ _ hi
    rw [chk_cs] at h
    split at h
    · split at h
      · exact ih _ _ _ _ h h1
      · simp only [Option.some.injEq, Prod.mk.injEq] at h
        obtain ⟨_, rfl⟩ := h
        exact h1
    · simp only [Option.some.injEq, Prod.mk.injEq] at h
      obtain ⟨_, rfl⟩ := h
      exact h1

variable {H : Hw σ} {fuel scl mcs : Nat} {inv rel : σ → Prop}

/-- After a change that leaves the static variables, a good state is good when
`inv` holds. -/
theorem Good.ext {s s1 : State σ} {new : List Ev} (hg : Good inv scl mcs s) (hx : Ext s s1 new)
    (hi : inv s1.w.env) : Good inv scl mcs s1 :=
  ⟨hi, hx.gpio_scl.trans hg.2.1, hx.max_cs.trans hg.2.2⟩

/-- The clock-stretch wait after the clock was released ends without timeout. -/
theorem chk_cs_ok (nt : NoTimeout H fuel scl mcs inv rel) (s : State σ)
    (hrel : rel s.w.env) (hscl : s.gpio_scl = scl) (hcs : s.max_cs = mcs) :
    ∃ idx s1, chk_cs H fuel 0 s = some (idx, s1) ∧ idx ≠ s1.max_cs ∧ Good inv scl mcs s1 := by
  obtain ⟨idx, t1, hc, hidx⟩ := nt.wait s hrel hscl hcs
  obtain ⟨-, new, hx, -⟩ := chk_cs_ext H _ _ _ _ _ hc
  have hm : t1.max_cs = mcs := hx.max_cs.trans hcs
  refine ⟨idx, t1, hc, by rw [hm]; exact hidx, ?_, hx.gpio_scl.trans hscl, hm⟩
  exact chk_cs_inv H inv nt.step _ _ _ _ _ hc (nt.rel_inv _ hrel)

theorem tick_ok (nt : NoTimeout H fuel scl mcs inv rel) (s : State σ)
    (hg : Good inv scl mcs s) :
    ∃ s1, tick H fuel s = some (ESP_I2C_OK, s1) ∧ Good inv scl mcs s1 := by
  obtain ⟨hinv, hscl, hcs⟩ := hg
  have hrel : rel (SCL_RELEASE H (delay H s.i2c_delay_short s)).w.env := by
    have := nt.release _ (nt.step _ (Ev.delay s.i2c_delay_short) hinv)
    rw [← hscl] at this
    exact this
  obtain ⟨idx, t1, hc, hidx, hi1, hs1, hm⟩ := chk_cs_ok nt _ hrel hscl hcs
  refine ⟨delay H t1.i2c_delay_short (SCL_LOW H (delay H t1.i2c_delay_long t1)), ?_, ?_,
    hs1, hm⟩
  · unfold tick
    dsimp only
    rw [hc]
    dsimp only
    rw [if_neg hidx]
  · exact nt.step _ _ (nt.step _ _ (nt.step _ _ hi1))

theorem write_bit_ok (nt : NoTimeout H fuel scl mcs inv rel) (bit : Bool) (s : State σ)
    (hg : Good inv scl mcs s) :
    ∃ s1, write_bit H fuel bit s = some (ESP_I2C_OK, s1) ∧ Good inv scl mcs s1 := by
  have hg1 : Good inv scl mcs (if bit then SDA_RELEASE H s else SDA_LOW H s) := by
    cases bit
    · exact ⟨nt.step _ _ hg.1, hg.2.1, hg.2.2⟩
    · exact ⟨nt.step _ _ hg.1, hg.2.1, hg.2.2⟩
  obtain ⟨t, ht, hgt⟩ := tick_ok nt _ hg1
  refine ⟨if bit = false then SDA_RELEASE H t else t, ?_, ?_⟩
  · unfold write_bit
    dsimp only
    rw [ht]
    dsimp only
    rw [if_neg (by simp)]
  · cases bit
    · exact ⟨nt.step _ _ hgt.1, hgt.2.1, hgt.2.2⟩
    · exact hgt

theorem read_bit_ok (nt : NoTimeout H fuel scl mcs inv rel) (bit : Bool) (s : State σ)
    (hg : Good inv scl mcs s) :
    ∃ b1 s1, read_bit H fuel bit s = some (ESP_I2C_OK, b1, s1) ∧ Good inv scl mcs s1 := by
  obtain ⟨hinv, hscl, hcs⟩ := hg
  have hrel : rel (SCL_RELEASE H (delay H s.i2c_delay_short s)).w.env := by
    have := nt.release _ (nt.step _ (Ev.delay s.i2c_delay_short) hinv)
    rw [← hscl] at this
    exact this
  obtain ⟨idx, t1, hc, hidx, hi1, hs1, hm⟩ := chk_cs_ok nt _ hrel hscl hcs
  refine ⟨(SDA_READ H (delay H t1.i2c_delay_short t1)).1,
    delay H t1.i2c_delay_short (SCL_LOW H (delay H t1.i2c_delay_short
      (SDA_READ H (delay H t1.i2c_delay_short t1)).2)), ?_, ?_, hs1, hm⟩
  · unfold read_bit
    dsimp only
    rw [hc]
    dsimp only
    rw [if_neg hidx]
    rfl
  · exact nt.step _ _ (nt.step _ _ (nt.step _ _ (nt.step _ _ (nt.step _ _ hi1))))

theorem write_byte_loop_ok (nt : NoTimeout H fuel scl mcs inv rel) (byte : Nat) :
    ∀ (k n : Nat) (s : State σ), k + 2 ≤ n → Good inv scl mcs s →
      ∃ s1, esp_i2c_write_byte_loop H fuel byte n (2 ^ k) s = some (none, s1) ∧
        Good inv scl mcs s1 := by
  intro k
  induction k with
  | zero =>
    intro n s hn hg
    obtain ⟨m, rfl⟩ : ∃ m, n = m + 2 := ⟨n - 2, by omega⟩
    obtain ⟨t, ht, hgt⟩ := write_bit_ok nt ((byte &&& 2 ^ 0) != 0) s hg
    refine ⟨t, ?_, hgt⟩
    rw [esp_i2c_write_byte_loop, if_neg (by norm_num), ht]
    dsimp only
    rw [if_neg (by simp), esp_i2c_write_byte_loop, if_pos (by decide)]
  | succ k ih =>
    intro n s hn hg
    obtain ⟨m, rfl⟩ : ∃ m, n = m + 1 := ⟨n - 1, by omega⟩
    obtain ⟨t, ht, hgt⟩ := write_bit_ok nt ((byte &&& 2 ^ (k + 1)) != 0) s hg
    obtain ⟨s1, hs1, hg1⟩ := ih m t (by omega) hgt
    refine ⟨s1, ?_, hg1⟩
    have hm : (2 ^ (k + 1)) >>> 1 = 2 ^ k := by
      rw [Nat.shiftRight_eq_div_pow, pow_succ]
      simp
    rw [esp_i2c_write_byte_loop, if_neg (by positivity), ht]
    dsimp only
    rw [if_neg (by simp), hm, hs1]

theorem esp_i2c_write_byte_ok (nt : NoTimeout H fuel scl mcs inv rel) (byte : Nat) (ack : Bool)
    (s : State σ) (hg : Good inv scl mcs s) :
    ∃ a1 s1, esp_i2c_write_byte H fuel byte ack s = some (ESP_I2C_OK, a1, s1) ∧
      Good inv scl mcs s1 := by
  obtain ⟨t, ht, hgt⟩ := write_byte_loop_ok nt byte 7 9 s (by norm_num) hg
  obtain ⟨a1, s1, hs1, hg1⟩ := read_bit_ok nt ack t hgt
  refine ⟨a1, s1, ?_, hg1⟩
  unfold esp_i2c_write_byte
  have h80 : (0x80 : Nat) = 2 ^ 7 := by norm_num
  rw [h80, ht]
  exact hs1

theorem read_byte_loop_ok (nt : NoTimeout H fuel scl mcs inv rel) :
    ∀ (n : Nat) (bit : Bool) (dst : Nat) (s : State σ), Good inv scl mcs s →
      ∃ d1 s1, esp_i2c_read_byte_loop H fuel n bit dst s = some (none, d1, s1) ∧
        Good inv scl mcs s1 := by
  intro n
  induction n with
  | zero =>
    intro bit dst s hg
    exact ⟨dst, s, rfl, hg⟩
  | succ n ih =>
    intro bit dst s hg
    obtain ⟨b1, t, ht, hgt⟩ := read_bit_ok nt bit s hg
    obtain ⟨d1, s1, hs1, hg1⟩ :=
      ih b1 (((dst <<< 1) ||| (if b1 then 1 else 0)) % 256) t hgt
    refine ⟨d1, s1, ?_, hg1⟩
    rw [esp_i2c_read_byte_loop, ht]
    dsimp only
    rw [if_neg (by simp), hs1]

theorem esp_i2c_read_byte_ok (nt : NoTimeout H fuel scl mcs inv rel) (dst : Nat) (ack : Bool)
    (s : State σ) (hg : Good inv scl mcs s) :
    ∃ d1 s1, esp_i2c_read_byte H fuel dst ack s = some (ESP_I2C_OK, d1, s1) ∧
      Good inv scl mcs s1 := by
  obtain ⟨d1, t, ht, hgt⟩ := read_byte_loop_ok nt 8 false dst s hg
  obtain ⟨s1, hs1, hg1⟩ := write_bit_ok nt ack t hgt
  refine ⟨d1, s1, ?_, hg1⟩
  unfold esp_i2c_read_byte
  rw [ht]
  dsimp only
  rw [hs1]

end total

/-- On the simulated bus no clock-stretch wait times out: the slaves never hold the
clock, so that the clock reads high at the first poll after its release. -/
theorem sim_no_timeout (fuel scl : Nat) :
    NoTimeout sim_hw (fuel + 1) scl 690 (fun x => x.scl_pin = scl)
      (fun x => x.scl_pin = scl ∧ x.lines.scl_m = true) := by
  refine ⟨?_, ?_, ?_, fun _ h => h.1, ?_⟩
  · intro x e hx
    cases e <;> simp only [sim_hw, sim_step] <;> (try split_ifs) <;> exact hx
  · intro x hx
    simp only [sim_hw, sim_step, hx, if_true]
    exact ⟨trivial, scl_release_scl_m _⟩
  · intro x e hx hne
    obtain ⟨h1, h2⟩ := hx
    cases e with
    | out_en_s p =>
      have hp : p ≠ x.scl_pin := by
        intro hp
        apply hne
        rw [hp, h1]
      simp only [sim_hw, sim_step, if_neg hp]
      split_ifs
      · exact ⟨h1, by rw [sda_step_scl_m _ _ (Or.inl rfl)]; exact h2⟩
      · exact ⟨h1, h2⟩
    | out_en_c p =>
      simp only [sim_hw, sim_step]
      split_ifs
      · exact ⟨h1, scl_release_scl_m _⟩
      · exact ⟨h1, by rw [sda_step_scl_m _ _ (Or.inr rfl)]; exact h2⟩
      · exact ⟨h1, h2⟩
    | gpio_in p v => exact ⟨h1, h2⟩
    | os_delay_us us => exact ⟨h1, h2⟩
    | delay c => exact ⟨h1, h2⟩
    | gpio_setup p u => exact ⟨h1, h2⟩
  · intro t hrel hscl hcs
    have hl : (SCL_READ sim_hw t).1 = true := by
      show sim_level t.w.env t.gpio_scl = true
      unfold sim_level
      rw [hscl, if_pos hrel.1.symm]
      exact hrel.2
    refine ⟨0, (SCL_READ sim_hw t).2, ?_, by norm_num⟩
    rw [chk_cs, if_neg (by rw [hl]; simp [ESP_I2C_LO])]

end I2C

/-! ## Several bytes read from the two lines -/

namespace I2C

open esp_i2c_err

section readbytes
variable {σ : Type}

theorem take_succ_set (buf : List Nat) (idx d : Nat) (h : idx < buf.length) :
    (buf.set idx d).take (idx + 1) = buf.take idx ++ [d] := by
  rw [List.set_eq_take_append_cons_drop, if_pos h]
  have hl : (buf.take idx).length = idx := by
    simp
    omega
  rw [List.take_append_eq_append_take, hl]
  simp [List.take_of_length_le, hl]

/-- What the loop of `esp_i2c_read_bytes` returning `ESP_I2C_OK` has done from index `idx` on,
with `n` bytes left: `n` bytes read into the buffer, `ESP_I2C_NACK` written after the last
one and `ESP_I2C_ACK` after each of the others. -/
theorem read_bytes_loop_trace (H : Hw σ) (fuel len : Nat) :
    ∀ (n idx : Nat) (ack : Bool) (buf : List Nat) (s : State σ) (b1 : List Nat) (s1 : State σ),
      idx + n = len → (n ≠ 0 → ack = ESP_I2C_ACK) → idx + n ≤ buf.length →
      esp_i2c_read_bytes_loop H fuel len n idx ack buf s = some (ESP_I2C_OK, b1, s1) →
      s1.in_trans = s.in_trans ∧ ∃ (bytes : List (List Bool)) (new : List Ev),
        bytes.length = n ∧ (∀ bs ∈ bytes, bs.length = 8) ∧
        b1 = buf.take idx ++ bytes.map byte_of_bits ++ buf.drop (idx + n) ∧
        Ext s s1 new ∧ (s.gpio_scl ≠ s.gpio_sda →
          bus_trace s.gpio_sda new =
            (read_bytes_frame s.gpio_scl s.gpio_sda bytes).reverse) := by
  intro n
  induction n with
  | zero =>
    intro idx ack buf s b1 s1 _ _ _ h
    simp only [esp_i2c_read_bytes_loop, Option.some.injEq, Prod.mk.injEq, true_and] at h
    obtain ⟨rfl, rfl⟩ := h
    refine ⟨rfl, [], [], rfl, by simp, ?_, Ext.nil _, fun _ => rfl⟩
    simp
  | succ n ih =>
    intro idx ack buf s b1 s1 hlen hack hbuf h
    rw [esp_i2c_read_bytes_loop] at h
    split at h
    · simp at h
    · rename_i err dst t hr
      rcases esp_i2c_read_byte_cases H fuel _ _ _ s t err hr with ⟨rfl, _⟩ | ⟨hne, _⟩
      · rw [if_neg (by simp)] at h
        obtain ⟨hit, bits, new, hbl, hd, hx, htr⟩ := esp_i2c_read_byte_trace H fuel _ _ _ s t hr
        have hack1 : n ≠ 0 → (if idx + 1 = len then ESP_I2C_NACK else ack) = ESP_I2C_ACK := by
          intro hn
          rw [if_neg (by omega)]
          exact hack (by omega)
        obtain ⟨hit2, bytes, new2, hbl2, hb8, hb1, hx2, htr2⟩ :=
          ih (idx + 1) _ (buf.set idx dst) t b1 s1 (by omega) hack1
            (by rw [List.length_set]; omega) h
        refine ⟨hit2.trans hit, bits :: bytes, _, by rw [List.length_cons, hbl2], ?_, ?_,
          hx.append hx2, ?_⟩
        · intro bs hbs
          rcases List.mem_cons.mp hbs with rfl | hbs
          · exact hbl
          · exact hb8 bs hbs
        · rw [hb1, take_succ_set buf idx dst (by omega),
            List.drop_set_of_lt dst buf (by omega : idx < idx + 1 + n), hd, List.map_cons]
          have e : idx + 1 + n = idx + (n + 1) := by omega
          rw [e]
          simp
        · intro hp
          have hp2 : t.gpio_scl ≠ t.gpio_sda := by
            rw [hx.gpio_scl, hx.gpio_sda]
            exact hp
          have hack2 : (if idx + 1 = len then ESP_I2C_NACK else ack) =
              (if bytes.isEmpty then ESP_I2C_NACK else ESP_I2C_ACK) := by
            by_cases hn : n = 0
            · have hb0 : bytes = [] := List.length_eq_zero.mp (hbl2.trans hn)
              rw [if_pos (by omega), hb0]
              rfl
            · have hb0 : bytes.isEmpty = false := by
                cases bytes with
                | nil => exact absurd hbl2.symm hn
                | cons _ _ => rfl
              rw [hack1 hn, hb0]
              rfl
          rw [bus_trace_append, ← hx.gpio_sda, htr2 hp2, hx.gpio_sda, htr hp, hx.gpio_scl,
            hack2]
          show _ = (read_byte_frame s.gpio_scl s.gpio_sda bits
            (if bytes.isEmpty then ESP_I2C_NACK else ESP_I2C_ACK) ++
              read_bytes_frame s.gpio_scl s.gpio_sda bytes).reverse
          rw [List.reverse_append]
      · rw [if_pos hne] at h
        simp only [esp_i2c_fail_fast, Option.some.injEq, Prod.mk.injEq] at h
        exact absurd h.1 hne

variable {H : Hw σ} {fuel scl mcs : Nat} {inv rel : σ → Prop}

theorem read_bytes_loop_ok (nt : NoTimeout H fuel scl mcs inv rel) (len : Nat) :
    ∀ (n idx : Nat) (ack : Bool) (buf : List Nat) (s : State σ), Good inv scl mcs s →
      ∃ b1 s1, esp_i2c_read_bytes_loop H fuel len n idx ack buf s = some (ESP_I2C_OK, b1, s1) ∧
        Good inv scl mcs s1 := by
  intro n
  induction n with
  | zero =>
    intro idx ack buf s hg
    exact ⟨buf, s, rfl, hg⟩
  | succ n ih =>
    intro idx ack buf s hg
    obtain ⟨d1, t, ht, hgt⟩ :=
      esp_i2c_read_byte_ok nt (buf.getD idx 0) (if idx + 1 = len then ESP_I2C_NACK else ack) s hg
    obtain ⟨b1, s1, hs1, hg1⟩ :=
      ih (idx + 1) (if idx + 1 = len then ESP_I2C_NACK else ack) (buf.set idx d1) t hgt
    refine ⟨b1, s1, ?_, hg1⟩
    rw [esp_i2c_read_bytes_loop]
    rw [ht]
    dsimp only
    rw [if_neg (by simp), hs1]

end readbytes

end I2C

/-! ## C20, C21, C22: bytes written and read on the two lines -/

namespace I2C

open esp_i2c_err

/-- After a byte frame the last thing the master did to the data line was to release
it. -/
theorem byte_frame_released (scl sda byte : Nat) (ack : Bool) (rest : List Ev)
    (hne : scl ≠ sda) :
    last_pin_action sda ((byte_frame scl sda byte ack).reverse ++ rest) = some true := by
  have h8 : (List.range 8).map (fun i => byte.testBit (7 - i)) =
      (List.range 7).map (fun i => byte.testBit (7 - i)) ++ [byte.testBit 0] := by
    rw [List.range_succ, List.map_append]
    rfl
  unfold byte_frame
  rw [h8, List.flatMap_append]
  cases byte.testBit 0 <;>
    simp [bit_frame, last_pin_action, hne]

/-- C20. The engine has distinct pins for clock and data. On every bus, when
`esp_i2c_write_byte (byte)` returns `ESP_I2C_OK`, what it has done to the lines is, in the
order of time: for each of the bits 7, 6, .., 0 of the byte the data line released
for a 1 or driven low for a 0, one clock pulse, and the data line released after a
0; then a ninth clock pulse in which the data line is sampled, the sampled level
being the value left in `ack_resp`. The data line is released at the end, and no
static variable has changed. On a bus without clock-stretch timeout the call does
return `ESP_I2C_OK`. -/
theorem c20_write_byte_frame {σ : Type} (H : Hw σ) (fuel byte : Nat) (ack0 : Bool)
    (s : State σ) (hne : s.gpio_scl ≠ s.gpio_sda) :
    (∀ a1 s1, esp_i2c_write_byte H fuel byte ack0 s = some (ESP_I2C_OK, a1, s1) →
      s1.in_trans = s.in_trans ∧ last_pin_action s.gpio_sda s1.w.log = some true ∧
      ∃ new, Ext s s1 new ∧
        bus_trace s.gpio_sda new = (byte_frame s.gpio_scl s.gpio_sda byte a1).reverse) ∧
    (∀ inv rel : σ → Prop, NoTimeout H fuel s.gpio_scl s.max_cs inv rel → inv s.w.env →
      ∃ a1 s1, esp_i2c_write_byte H fuel byte ack0 s = some (ESP_I2C_OK, a1, s1)) := by
  constructor
  · intro a1 s1 h
    obtain ⟨hit, new, hx, htr⟩ := esp_i2c_write_byte_trace H fuel byte ack0 a1 s s1 h
    refine ⟨hit, ?_, new, hx, htr hne⟩
    rw [← last_pin_action_bus_trace s.gpio_sda s.gpio_sda, hx.log, bus_trace_append, htr hne]
    exact byte_frame_released _ _ _ _ _ hne
  · intro inv rel nt hinv
    obtain ⟨a1, s1, h, _⟩ := esp_i2c_write_byte_ok nt byte ack0 s ⟨hinv, rfl, rfl⟩
    exact ⟨a1, s1, h⟩

/-- C20 on the simulated bus without any slave, the engine on pins 0 and 2, for the
byte `0xA5`. -/
theorem c20_write_byte_frame_witness :
    ∃ a1 s1, esp_i2c_write_byte sim_hw 1 0xA5 false (sim_state 0 2 [] 0) =
        some (ESP_I2C_OK, a1, s1) ∧
      s1.in_trans = (sim_state 0 2 [] 0).in_trans ∧
      last_pin_action (sim_state 0 2 [] 0).gpio_sda s1.w.log = some true ∧
      ∃ new, Ext (sim_state 0 2 [] 0) s1 new ∧
        bus_trace (sim_state 0 2 [] 0).gpio_sda new =
          (byte_frame (sim_state 0 2 [] 0).gpio_scl (sim_state 0 2 [] 0).gpio_sda
            0xA5 a1).reverse :=
  have h := c20_write_byte_frame sim_hw 1 0xA5 false (sim_state 0 2 [] 0) (by decide)
  have h2 := h.2 _ _ (sim_no_timeout 0 0) rfl
  Exists.elim h2 (fun a1 h3 => Exists.elim h3 (fun s1 h4 => ⟨a1, s1, h4, h.1 a1 s1 h4⟩))

/-- C21. The engine has distinct pins for clock and data. On every bus and for every
prior content `dst` of the destination, when `esp_i2c_read_byte` returns `ESP_I2C_OK`, what it
has done to the lines is, in the order of time: eight clock pulses with a sample of
the data line in each, then the bit `ack_type` written in a ninth clock pulse. The
byte it stores is made of the eight samples, the first one as bit 7 and the last
one as bit 0, and of nothing else. On a bus without clock-stretch timeout the call
does return `ESP_I2C_OK`. -/
theorem c21_read_byte_msb_first {σ : Type} (H : Hw σ) (fuel dst : Nat) (ack_type : Bool)
    (s : State σ) (hne : s.gpio_scl ≠ s.gpio_sda) :
    (∀ d1 s1, esp_i2c_read_byte H fuel dst ack_type s = some (ESP_I2C_OK, d1, s1) →
      s1.in_trans = s.in_trans ∧
      ∃ (bits : List Bool) (new : List Ev), bits.length = 8 ∧ d1 = byte_of_bits bits ∧
        d1 < 256 ∧ (∀ i, i < 8 → d1.testBit (7 - i) = bits.getD i false) ∧
        Ext s s1 new ∧
        bus_trace s.gpio_sda new =
          (read_byte_frame s.gpio_scl s.gpio_sda bits ack_type).reverse) ∧
    (∀ inv rel : σ → Prop, NoTimeout H fuel s.gpio_scl s.max_cs inv rel → inv s.w.env →
      ∃ d1 s1, esp_i2c_read_byte H fuel dst ack_type s = some (ESP_I2C_OK, d1, s1)) := by
  constructor
  · intro d1 s1 h
    obtain ⟨hit, bits, new, hlen, hd, hx, htr⟩ :=
      esp_i2c_read_byte_trace H fuel dst ack_type d1 s s1 h
    refine ⟨hit, bits, new, hlen, hd, ?_, ?_, hx, htr hne⟩
    · have := byte_of_bits_lt bits
      rw [hlen] at this
      rw [hd]
      exact this
    · intro i hi
      rw [hd, byte_of_bits_testBit bits (7 - i) (by omega), hlen]
      congr 1
      omega
  · intro inv rel nt hinv
    obtain ⟨d1, s1, h, _⟩ := esp_i2c_read_byte_ok nt dst ack_type s ⟨hinv, rfl, rfl⟩
    exact ⟨d1, s1, h⟩

/-- C21 on the simulated bus without any slave, the engine on pins 0 and 2, the
destination holding `0x5A` before the call. -/
theorem c21_read_byte_msb_first_witness :
    ∃ d1 s1, esp_i2c_read_byte sim_hw 1 0x5A ESP_I2C_NACK (sim_state 0 2 [] 0) =
        some (ESP_I2C_OK, d1, s1) ∧
      s1.in_trans = (sim_state 0 2 [] 0).in_trans ∧
      ∃ (bits : List Bool) (new : List Ev), bits.length = 8 ∧ d1 = byte_of_bits bits ∧
        d1 < 256 ∧ (∀ i, i < 8 → d1.testBit (7 - i) = bits.getD i false) ∧
        Ext (sim_state 0 2 [] 0) s1 new ∧
        bus_trace (sim_state 0 2 [] 0).gpio_sda new =
          (read_byte_frame (sim_state 0 2 [] 0).gpio_scl (sim_state 0 2 [] 0).gpio_sda
            bits ESP_I2C_NACK).reverse :=
  have h := c21_read_byte_msb_first sim_hw 1 0x5A ESP_I2C_NACK (sim_state 0 2 [] 0) (by decide)
  have h2 := h.2 _ _ (sim_no_timeout 0 0) rfl
  Exists.elim h2 (fun d1 h3 => Exists.elim h3 (fun s1 h4 => ⟨d1, s1, h4, h.1 d1 s1 h4⟩))

/-- C22. The engine has distinct pins for clock and data, and the buffer has room for
`len` bytes. On every bus, when `esp_i2c_read_bytes (buf, len)` returns `ESP_I2C_OK`, it has
read `len` bytes, each as eight samples of the data line, most significant bit
first, and has written `ESP_I2C_NACK` after the last one and `ESP_I2C_ACK` after each of the
others; the bytes are in `buf[0 .. len - 1]` in the order read, and the rest of the
buffer is as it was. With `len = 0` the call returns `ESP_I2C_OK` and leaves the state as
it is. On a bus without clock-stretch timeout the call does return `ESP_I2C_OK`. -/
theorem c22_read_bytes_frames {σ : Type} (H : Hw σ) (fuel : Nat) (buf : List Nat) (len : Nat)
    (s : State σ) (hne : s.gpio_scl ≠ s.gpio_sda) (hlen : len ≤ buf.length) :
    (∀ b1 s1, esp_i2c_read_bytes H fuel buf len s = some (ESP_I2C_OK, b1, s1) →
      s1.in_trans = s.in_trans ∧
      ∃ (bytes : List (List Bool)) (new : List Ev), bytes.length = len ∧
        (∀ bs ∈ bytes, bs.length = 8) ∧
        b1 = bytes.map byte_of_bits ++ buf.drop len ∧
        Ext s s1 new ∧
        bus_trace s.gpio_sda new =
          (read_bytes_frame s.gpio_scl s.gpio_sda bytes).reverse) ∧
    (len = 0 → esp_i2c_read_bytes H fuel buf len s = some (ESP_I2C_OK, buf, s)) ∧
    (∀ inv rel : σ → Prop, NoTimeout H fuel s.gpio_scl s.max_cs inv rel → inv s.w.env →
      ∃ b1 s1, esp_i2c_read_bytes H fuel buf len s = some (ESP_I2C_OK, b1, s1)) := by
  refine ⟨?_, ?_, ?_⟩
  · intro b1 s1 h
    obtain ⟨hit, bytes, new, hbl, hb8, hb1, hx, htr⟩ :=
      read_bytes_loop_trace H fuel len len 0 ESP_I2C_ACK buf s b1 s1 (by omega)
        (fun _ => rfl) (by omega) h
    refine ⟨hit, bytes, new, hbl, hb8, ?_, hx, htr hne⟩
    rw [hb1]
    simp
  · intro h0
    subst h0
    rfl
  · intro inv rel nt hinv
    obtain ⟨b1, s1, h, _⟩ := read_bytes_loop_ok nt len len 0 ESP_I2C_ACK buf s ⟨hinv, rfl, rfl⟩
    exact ⟨b1, s1, h⟩

/-- C22 on the simulated bus without any slave, the engine on pins 0 and 2, for
three bytes read into a buffer of four. -/
theorem c22_read_bytes_frames_witness :
    ∃ b1 s1, esp_i2c_read_bytes sim_hw 1 [1, 2, 3, 4] 3 (sim_state 0 2 [] 0) =
        some (ESP_I2C_OK, b1, s1) ∧
      s1.in_trans = (sim_state 0 2 [] 0).in_trans ∧
      ∃ (bytes : List (List Bool)) (new : List Ev), bytes.length = 3 ∧
        (∀ bs ∈ bytes, bs.length = 8) ∧
        b1 = bytes.map byte_of_bits ++ [1, 2, 3, 4].drop 3 ∧
        Ext (sim_state 0 2 [] 0) s1 new ∧
        bus_trace (sim_state 0 2 [] 0).gpio_sda new =
          (read_bytes_frame (sim_state 0 2 [] 0).gpio_scl (sim_state 0 2 [] 0).gpio_sda
            bytes).reverse :=
  have h := c22_read_bytes_frames sim_hw 1 [1, 2, 3, 4] 3 (sim_state 0 2 [] 0) (by decide)
    (by decide)
  have h2 := h.2.2 _ _ (sim_no_timeout 0 0) rfl
  Exists.elim h2 (fun b1 h3 => Exists.elim h3 (fun s1 h4 => ⟨b1, s1, h4, h.1 b1 s1 h4⟩))

end I2C

/-! ## Slots on the single wire -/

namespace OW

open esp_ow_err

section owframes
variable {σ : Type}

theorem esp_ow_write_bit_log (H : Hw σ) (g : Nat) (b : Bool) (w : World σ) :
    (esp_ow_write_bit H g b w).log = (write_slot g b).reverse ++ w.log := by
  cases b <;> rfl

theorem esp_ow_read_bit_log (H : Hw σ) (g : Nat) (w : World σ) :
    (esp_ow_read_bit H g w).2.log = (read_slot g (esp_ow_read_bit H g w).1).reverse ++ w.log :=
  rfl

/-- The function `esp_ow_write` issues the eight write slots of the bits of the byte, bit 0
first. -/
theorem esp_ow_write_log (H : Hw σ) (g byte : Nat) (w : World σ) :
    (esp_ow_write H g byte w).log = ((bits_lsb byte).flatMap (write_slot g)).reverse ++ w.log := by
  have h0 : ((byte &&& 1) != 0) = byte.testBit 0 := I2C.and_two_pow_ne byte 0
  have h1 : ((byte &&& 2) != 0) = byte.testBit 1 := I2C.and_two_pow_ne byte 1
  have h2 : ((byte &&& 4) != 0) = byte.testBit 2 := I2C.and_two_pow_ne byte 2
  have h3 : ((byte &&& 8) != 0) = byte.testBit 3 := I2C.and_two_pow_ne byte 3
  have h4 : ((byte &&& 16) != 0) = byte.testBit 4 := I2C.and_two_pow_ne byte 4
  have h5 : ((byte &&& 32) != 0) = byte.testBit 5 := I2C.and_two_pow_ne byte 5
  have h6 : ((byte &&& 64) != 0) = byte.testBit 6 := I2C.and_two_pow_ne byte 6
  have h7 : ((byte &&& 128) != 0) = byte.testBit 7 := I2C.and_two_pow_ne byte 7
  rw [esp_ow_write_eq, h0, h1, h2, h3, h4, h5, h6, h7]
  simp only [esp_ow_write_bit_log]
  simp [bits_lsb, List.range_succ]

/-- The bit loop of `esp_ow_read`, entered at bit `t`: one read slot for each of the bits
`t` to 7, the samples being ORed into `byte` at their places. -/
theorem esp_ow_read_loop_trace (H : Hw σ) (g : Nat) :
    ∀ (m t byte : Nat) (w : World σ) (n : Nat), t + m = 8 → m < n →
      ∃ samples : List Bool, samples.length = m ∧
        (esp_ow_read_loop H g n ((2 ^ t) % 256) byte w).2.log =
          (samples.flatMap (read_slot g)).reverse ++ w.log ∧
        ∀ j, (esp_ow_read_loop H g n ((2 ^ t) % 256) byte w).1.testBit j =
          (byte.testBit j || (decide (t ≤ j) && samples.getD (j - t) false)) := by
  intro m
  induction m with
  | zero =>
    intro t byte w n ht hn
    obtain ⟨n, rfl⟩ : ∃ n1, n = n1 + 1 := ⟨n - 1, by omega⟩
    have h8 : t = 8 := by omega
    subst h8
    rw [esp_ow_read_loop, if_pos (by norm_num)]
    exact ⟨[], rfl, rfl, by simp⟩
  | succ m ih =>
    intro t byte w n ht hn
    obtain ⟨n, rfl⟩ : ∃ n1, n = n1 + 1 := ⟨n - 1, by omega⟩
    have ht8 : t < 8 := by omega
    have hmask : (2 ^ t) % 256 = 2 ^ t := by
      apply Nat.mod_eq_of_lt
      calc 2 ^ t ≤ 2 ^ 7 := Nat.pow_le_pow_right (by norm_num) (by omega)
        _ < 256 := by norm_num
    have hne : (2 : Nat) ^ t ≠ 0 := by positivity
    have hshift : ((2 ^ t) <<< 1) % 256 = (2 ^ (t + 1)) % 256 := by
      rw [Nat.shiftLeft_eq, pow_one, pow_succ]
    rw [esp_ow_read_loop, hmask, if_neg hne, hshift]
    obtain ⟨samples, hlen, hlog, hbits⟩ := ih (t + 1)
      (if (esp_ow_read_bit H g w).1 = true then byte ||| 2 ^ t else byte)
      (esp_ow_read_bit H g w).2 n (by omega) (by omega)
    refine ⟨(esp_ow_read_bit H g w).1 :: samples, by rw [List.length_cons, hlen], ?_, ?_⟩
    · dsimp only
      rw [hlog, esp_ow_read_bit_log, List.flatMap_cons, List.reverse_append,
        List.append_assoc]
    · intro j
      dsimp only
      rw [hbits j]
      by_cases hjt : j = t
      · subst hjt
        cases hx : (esp_ow_read_bit H g w).1 <;> simp [Nat.testBit_two_pow]
      · have h2 : (2 ^ t).testBit j = false := by
          rw [Nat.testBit_two_pow]
          simp
          omega
        have h3 : (if (esp_ow_read_bit H g w).1 = true then byte ||| 2 ^ t else byte).testBit j
            = byte.testBit j := by
          split
          · rw [Nat.testBit_or, h2, Bool.or_false]
          · rfl
        rw [h3]
        by_cases hle : t ≤ j
        · obtain ⟨d, rfl⟩ : ∃ d, j = t + 1 + d := ⟨j - t - 1, by omega⟩
          have e1 : t + 1 + d - (t + 1) = d := by omega
          have e2 : t + 1 + d - t = d + 1 := by omega
          rw [e1, e2, List.getD_cons_succ]
          simp [hle]
        · simp [hle]
          intro h
          omega

/-- The function `esp_ow_read` issues eight read slots and returns the byte whose bit `i` is
the sample of slot `i`. -/
theorem esp_ow_read_trace (H : Hw σ) (g : Nat) (w : World σ) :
    ∃ samples : List Bool, samples.length = 8 ∧
      (esp_ow_read H g w).2.log = (samples.flatMap (read_slot g)).reverse ++ w.log ∧
      ∀ j, (esp_ow_read H g w).1.testBit j = (decide (j < 8) && samples.getD j false) := by
  obtain ⟨samples, hlen, hlog, hbits⟩ := esp_ow_read_loop_trace H g 8 0 0 w 9 rfl (by norm_num)
  refine ⟨samples, hlen, hlog, ?_⟩
  intro j
  have := hbits j
  simp only [Nat.zero_testBit, Bool.false_or, Nat.zero_le, decide_True, Bool.true_and,
    Nat.sub_zero] at this
  have h2 : (esp_ow_read H g w).1.testBit j = samples.getD j false := this
  rw [h2]
  by_cases hj : j < 8
  · simp [hj]
  · rw [List.getD_eq_getElem?_getD, List.getElem?_eq_none (by omega)]
    simp

theorem total_delay_append (a b : List Ev) :
    total_delay (a ++ b) = total_delay a + total_delay b := by
  simp [total_delay]

theorem total_delay_polls (g : Nat) (samples : List Bool) :
    total_delay (samples.flatMap (poll_frame g)) = 5 * samples.length := by
  induction samples with
  | nil => rfl
  | cons v vs ih =>
    rw [List.flatMap_cons, total_delay_append, ih, List.length_cons]
    simp [total_delay, poll_frame]
    omega

/-- The polls of `esp_ow_reset`: the samples before the last one read high, the last one
is low exactly when the result is `true`, and a result `false` comes after all the
polls that were left. -/
theorem esp_ow_reset_poll_trace (H : Hw σ) (g : Nat) :
    ∀ (n retries : Nat) (w : World σ), 0 < n → retries + n = 48 →
      ∃ j, j < n ∧ (esp_ow_reset_poll H g n retries w).2.1 = retries + j + 1 ∧
        (esp_ow_reset_poll H g n retries w).2.2.log =
          ((List.replicate j true ++ [!(esp_ow_reset_poll H g n retries w).1]).flatMap
            (poll_frame g)).reverse ++ w.log ∧
        ((esp_ow_reset_poll H g n retries w).1 = false → j + 1 = n) := by
  intro n
  induction n with
  | zero =>
    intro retries w h0
    omega
  | succ n ih =>
    intro retries w _ hr
    rw [esp_ow_reset_poll]
    by_cases h1 : (OW_READ H g (os_delay_us H 5 w)).1 = false
    · rw [if_pos h1]
      refine ⟨0, by omega, rfl, ?_, by simp⟩
      show Ev.gpio_in g (OW_READ H g (os_delay_us H 5 w)).1 :: Ev.os_delay_us 5 :: w.log = _
      rw [h1]
      rfl
    · rw [if_neg h1]
      have h1t : (OW_READ H g (os_delay_us H 5 w)).1 = true := by
        cases hx : (OW_READ H g (os_delay_us H 5 w)).1
        · exact absurd hx h1
        · rfl
      by_cases h2 : retries + 1 < 48
      · rw [if_pos h2]
        obtain ⟨j, hj, hret, hlog, hfalse⟩ :=
          ih (retries + 1) (OW_READ H g (os_delay_us H 5 w)).2 (by omega) (by omega)
        refine ⟨j + 1, by omega, by rw [hret]; omega, ?_, fun h => by
          have := hfalse h
          omega⟩
        rw [hlog, List.replicate_succ, List.cons_append, List.flatMap_cons,
          List.reverse_append, List.append_assoc]
        congr 1
        show Ev.gpio_in g (OW_READ H g (os_delay_us H 5 w)).1 :: Ev.os_delay_us 5 :: w.log = _
        rw [h1t]
        rfl
      · rw [if_neg h2]
        refine ⟨0, by omega, rfl, ?_, fun _ => by omega⟩
        show Ev.gpio_in g (OW_READ H g (os_delay_us H 5 w)).1 :: Ev.os_delay_us 5 :: w.log = _
        rw [h1t]
        rfl

end owframes

end OW

/-! ## C23, C24: bytes on the single wire, and the reset -/

namespace OW

open esp_ow_err

theorem bits_lsb_getD (byte i : Nat) (hi : i < 8) :
    (bits_lsb byte).getD i false = byte.testBit i := by
  unfold bits_lsb
  interval_cases i <;> rfl

/-- A byte is told by its eight bits. -/
theorem bits_lsb_inj (a b : Nat) (ha : a < 256) (hb : b < 256) (h : bits_lsb a = bits_lsb b) :
    a = b := by
  apply Nat.eq_of_testBit_eq
  intro j
  by_cases hj : j < 8
  · rw [← bits_lsb_getD a j hj, ← bits_lsb_getD b j hj, h]
  · have hp : (2 : Nat) ^ 8 ≤ 2 ^ j := Nat.pow_le_pow_right (by norm_num) (by omega)
    have h256 : (2 : Nat) ^ 8 = 256 := by norm_num
    rw [Nat.testBit_lt_two_pow (by omega), Nat.testBit_lt_two_pow (by omega)]

/-- C23. On every bus, `esp_ow_write (byte)` issues exactly eight write slots, carrying
the bits 0, 1, .., 7 of the byte in that order, and `esp_ow_read` issues exactly eight
read slots and returns the byte below 256 whose bit `i` is the sample of slot `i`.
Hence a read whose samples are the bits that `esp_ow_write (byte)` puts in its slots
returns `byte`. -/
theorem c23_ow_byte_lsb_first {σ : Type} (H : Hw σ) (gpio_num byte : Nat) (w : World σ) :
    ((esp_ow_write H gpio_num byte w).log =
        ((bits_lsb byte).flatMap (write_slot gpio_num)).reverse ++ w.log ∧
      (bits_lsb byte).length = 8 ∧
      ∀ i, i < 8 → (bits_lsb byte).getD i false = byte.testBit i) ∧
    ∃ samples : List Bool, samples.length = 8 ∧
      (esp_ow_read H gpio_num w).2.log =
        (samples.flatMap (read_slot gpio_num)).reverse ++ w.log ∧
      (esp_ow_read H gpio_num w).1 < 256 ∧
      (∀ i, i < 8 → (esp_ow_read H gpio_num w).1.testBit i = samples.getD i false) ∧
      samples = bits_lsb (esp_ow_read H gpio_num w).1 ∧
      (byte < 256 → samples = bits_lsb byte → (esp_ow_read H gpio_num w).1 = byte) := by
  refine ⟨⟨esp_ow_write_log H gpio_num byte w, by simp [bits_lsb], bits_lsb_getD byte⟩, ?_⟩
  obtain ⟨samples, hlen, hlog, hbits⟩ := esp_ow_read_trace H gpio_num w
  have hlt : (esp_ow_read H gpio_num w).1 < 256 := by
    have : (esp_ow_read H gpio_num w).1 < 2 ^ 8 := by
      apply Nat.lt_pow_two_of_testBit
      intro i hi
      rw [hbits i]
      have : ¬ i < 8 := by omega
      simp [this]
    simpa using this
  have hi8 : ∀ i, i < 8 → (esp_ow_read H gpio_num w).1.testBit i = samples.getD i false := by
    intro i hi
    rw [hbits i]
    simp [hi]
  have hs : samples = bits_lsb (esp_ow_read H gpio_num w).1 := by
    apply List.ext_getElem
    · rw [hlen]
      simp [bits_lsb]
    · intro i h1 h2
      have hi : i < 8 := by omega
      have e1 := hi8 i hi
      have e2 := bits_lsb_getD (esp_ow_read H gpio_num w).1 i hi
      rw [List.getD_eq_getElem _ _ h1] at e1
      rw [List.getD_eq_getElem _ _ h2] at e2
      rw [e2, e1]
  refine ⟨samples, hlen, hlog, hlt, hi8, hs, ?_⟩
  intro hb h
  exact bits_lsb_inj _ _ hlt hb (by rw [← hs, h])

/-- C24. On every bus, `esp_ow_reset` drives the line low, waits 480 units and releases
the line; then it polls between 1 and 48 times, each poll a wait of 5 units and a
sample of the line; every sample but the last one read high, and the result is
`true` exactly when a sample (then the last one) read low, a result `false` coming
after 48 polls. The last wait is 480 minus 5 times the number of polls, which is
not negative, so that the waits after the release add up to 480 units. -/
theorem c24_reset_timing {σ : Type} (H : Hw σ) (gpio_num : Nat) (w : World σ) :
    ∃ samples : List Bool,
      (esp_ow_reset H gpio_num w).2.log =
        Ev.os_delay_us (480 - 5 * samples.length) ::
          ((samples.flatMap (poll_frame gpio_num)).reverse ++
            Ev.out_en_c gpio_num :: Ev.os_delay_us 480 :: Ev.out_en_s gpio_num :: w.log) ∧
      1 ≤ samples.length ∧ samples.length ≤ 48 ∧
      samples = List.replicate (samples.length - 1) true ++ [!(esp_ow_reset H gpio_num w).1] ∧
      ((esp_ow_reset H gpio_num w).1 = true ↔ false ∈ samples) ∧
      ((esp_ow_reset H gpio_num w).1 = false → samples.length = 48) ∧
      (0 : Int) ≤ 480 - 5 * (samples.length : Int) ∧
      total_delay (samples.flatMap (poll_frame gpio_num) ++
        [Ev.os_delay_us (480 - 5 * samples.length)]) = 480 := by
  obtain ⟨j, hj, hret, hlog, hfalse⟩ := esp_ow_reset_poll_trace H gpio_num 48 0
    (OW_RELEASE H gpio_num (os_delay_us H 480 (OW_LOW H gpio_num w))) (by norm_num) rfl
  have hlen : (List.replicate j true ++ [!(esp_ow_reset H gpio_num w).1]).length = j + 1 := by
    simp
  refine ⟨List.replicate j true ++ [!(esp_ow_reset H gpio_num w).1], ?_, ?_, ?_, ?_, ?_, ?_,
    ?_, ?_⟩
  · rw [hlen]
    show Ev.os_delay_us ((480 - (esp_ow_reset_poll H gpio_num 48 0 _).2.1 * 5) % 65536) ::
      (esp_ow_reset_poll H gpio_num 48 0 _).2.2.log = _
    rw [hret, hlog]
    have e : (480 - (0 + j + 1) * 5) % 65536 = 480 - 5 * (j + 1) := by omega
    rw [e]
    rfl
  · rw [hlen]
    omega
  · rw [hlen]
    omega
  · rw [hlen, Nat.add_sub_cancel]
  · have hm : false ∈ List.replicate j true ++ [!(esp_ow_reset H gpio_num w).1] ↔
        (esp_ow_reset H gpio_num w).1 = true := by
      simp [List.mem_append, List.mem_replicate]
    exact hm.symm
  · intro h
    rw [hlen]
    exact hfalse h
  · rw [hlen]
    push_cast
    omega
  · rw [total_delay_append, total_delay_polls, hlen]
    simp [total_delay]
    omega

end OW

/-! ## The record of a search pass -/

namespace OW

open esp_ow_err

section owsteps
variable {σ : Type}

/-- One iteration of `search` that does not leave by the early return: the record gets
one more entry, and the line one more step frame. -/
theorem search_steps_succ (H : Hw σ) (g pd n : Nat) (v v1 : SearchVars) (w w1 : World σ)
    (hb : search_body H g pd v w = (some v1, w1)) :
    search_steps H g pd (n + 1) v w =
      ((esp_ow_read_bit H g w).1, (esp_ow_read_bit H g (esp_ow_read_bit H g w).2).1,
        search_dir pd v (esp_ow_read_bit H g w).1
          (esp_ow_read_bit H g (esp_ow_read_bit H g w).2).1) ::
        (if v1.rom_byte_idx < 8 then search_steps H g pd n v1 w1 else []) := by
  rw [search_steps, hb]

/-- What an iteration of `search` that does not leave by the early return yields. -/
theorem search_body_some (H : Hw σ) (g pd : Nat) (v v1 : SearchVars) (w w1 : World σ)
    (hb : search_body H g pd v w = (some v1, w1)) :
    v1 = search_update pd v (esp_ow_read_bit H g w).1
      (esp_ow_read_bit H g (esp_ow_read_bit H g w).2).1 ∧
    w1.log = (step_frame g ((esp_ow_read_bit H g w).1,
      (esp_ow_read_bit H g (esp_ow_read_bit H g w).2).1,
      search_dir pd v (esp_ow_read_bit H g w).1
        (esp_ow_read_bit H g (esp_ow_read_bit H g w).2).1)).reverse ++ w.log := by
  rw [search_body_eq] at hb
  split at hb
  · simp at hb
  · simp only [Prod.mk.injEq, Option.some.injEq] at hb
    obtain ⟨rfl, rfl⟩ := hb
    refine ⟨rfl, ?_⟩
    rw [esp_ow_write_bit_log, esp_ow_read_bit_log, esp_ow_read_bit_log]
    simp [step_frame]

/-- The loop of `search` that runs to its end from bit `k`, against its record: the
record has an entry for each of the bits `k` to 63; the line has carried the step
frames of the record; the ROM holds the directions of the record at these bits and
is unchanged below; `found_dis` is the position of the last conflict answered with
direction 0, or unchanged when there is none; and with a previous discrepancy of 0
every conflict is answered with direction 0. -/
theorem search_loop_steps (H : Hw σ) (g pd : Nat) :
    ∀ (n k : Nat) (v : SearchVars) (w : World σ) (v1 : SearchVars) (w1 : World σ),
      SearchInv k v → k < 64 → search_loop H g pd n v w = some (true, v1, w1) →
      (search_steps H g pd n v w).length = 64 - k ∧
      w1.log = ((search_steps H g pd n v w).flatMap (step_frame g)).reverse ++ w.log ∧
      (∀ i, i < 64 - k → rom_bit v1.prev_adr (k + i) =
        ((search_steps H g pd n v w).getD i (true, true, true)).2.2) ∧
      (∀ j, j < k → rom_bit v1.prev_adr j = rom_bit v.prev_adr j) ∧
      ((v1.found_dis = v.found_dis ∧ ∀ i, i < 64 - k →
          (search_steps H g pd n v w).getD i (true, true, true) ≠ (false, false, false)) ∨
        (∃ i, i < 64 - k ∧ v1.found_dis = k + i + 1 ∧
          (search_steps H g pd n v w).getD i (true, true, true) = (false, false, false) ∧
          ∀ j, i < j → j < 64 - k →
            (search_steps H g pd n v w).getD j (true, true, true) ≠ (false, false, false))) ∧
      (pd = 0 → ∀ i, i < 64 - k →
        ((search_steps H g pd n v w).getD i (true, true, true)).1 = false →
        ((search_steps H g pd n v w).getD i (true, true, true)).2.1 = false →
        ((search_steps H g pd n v w).getD i (true, true, true)).2.2 = false) := by
  intro n
  induction n with
  | zero =>
    intro k v w v1 w1 _ _ h
    simp [search_loop] at h
  | succ n ih =>
    intro k v w v1 w1 hinv hk h
    rw [search_loop] at h
    rcases hbc : search_body H g pd v w with ⟨_ | v2, w2⟩
    · rw [hbc] at h
      simp at h
    · rw [hbc] at h
      dsimp only at h
      obtain ⟨hv2, hlog2⟩ := search_body_some H g pd v v2 w w2 hbc
      have hinv1 : SearchInv (k + 1) v2 := by
        rw [hv2]
        exact hinv.update pd _ _ hk
      have hbits2 : ∀ j, rom_bit v2.prev_adr j =
          if j = k then search_dir pd v (esp_ow_read_bit H g w).1
            (esp_ow_read_bit H g (esp_ow_read_bit H g w).2).1 else rom_bit v.prev_adr j := by
        intro j
        rw [hv2]
        exact search_update_rom_bit pd _ _ hinv hk j
      have hfd2 : v2.found_dis =
          if ((esp_ow_read_bit H g w).1 = false ∧
              (esp_ow_read_bit H g (esp_ow_read_bit H g w).2).1 = false) ∧
            search_dir pd v (esp_ow_read_bit H g w).1
              (esp_ow_read_bit H g (esp_ow_read_bit H g w).2).1 = false then k + 1
          else v.found_dis := by
        rw [hv2, search_update_found_dis, hinv.bit_idx]
      rw [search_steps_succ H g pd n v v2 w w2 hbc]
      generalize hs0 : ((esp_ow_read_bit H g w).1,
        (esp_ow_read_bit H g (esp_ow_read_bit H g w).2).1,
        search_dir pd v (esp_ow_read_bit H g w).1
          (esp_ow_read_bit H g (esp_ow_read_bit H g w).2).1) = s0 at hlog2 ⊢
      have hs0d : s0.2.2 = search_dir pd v (esp_ow_read_bit H g w).1
          (esp_ow_read_bit H g (esp_ow_read_bit H g w).2).1 := by
        rw [← hs0]
      have hs0f : s0 = (false, false, false) ↔
          ((esp_ow_read_bit H g w).1 = false ∧
              (esp_ow_read_bit H g (esp_ow_read_bit H g w).2).1 = false) ∧
            search_dir pd v (esp_ow_read_bit H g w).1
              (esp_ow_read_bit H g (esp_ow_read_bit H g w).2).1 = false := by
        rw [← hs0]
        simp only [Prod.mk.injEq]
        tauto
      have hfirst : pd = 0 → s0.1 = false → s0.2.1 = false → s0.2.2 = false := by
        intro hpd h1 h2
        rw [← hs0] at h1 h2 ⊢
        simp only at h1 h2 ⊢
        rw [h1, h2, hpd]
        exact search_dir_first v (by rw [hinv.bit_idx]; omega)
      -- the iterations that follow
      have tail : ∃ rest : List (Bool × Bool × Bool),
          (if v2.rom_byte_idx < 8 then search_steps H g pd n v2 w2 else []) = rest ∧
          rest.length = 64 - (k + 1) ∧
          w1.log = (rest.flatMap (step_frame g)).reverse ++ w2.log ∧
          (∀ i, i < 64 - (k + 1) → rom_bit v1.prev_adr (k + 1 + i) =
            (rest.getD i (true, true, true)).2.2) ∧
          (∀ j, j < k + 1 → rom_bit v1.prev_adr j = rom_bit v2.prev_adr j) ∧
          ((v1.found_dis = v2.found_dis ∧ ∀ i, i < 64 - (k + 1) →
              rest.getD i (true, true, true) ≠ (false, false, false)) ∨
            (∃ i, i < 64 - (k + 1) ∧ v1.found_dis = k + 1 + i + 1 ∧
              rest.getD i (true, true, true) = (false, false, false) ∧
              ∀ j, i < j → j < 64 - (k + 1) →
                rest.getD j (true, true, true) ≠ (false, false, false))) ∧
          (pd = 0 → ∀ i, i < 64 - (k + 1) →
            (rest.getD i (true, true, true)).1 = false →
            (rest.getD i (true, true, true)).2.1 = false →
            (rest.getD i (true, true, true)).2.2 = false) := by
        by_cases hlt : v2.rom_byte_idx < 8
        · rw [if_pos hlt] at h ⊢
          have hk1 : k + 1 < 64 := by
            rw [hinv1.byte_idx] at hlt
            omega
          exact ⟨_, rfl, ih (k + 1) v2 w2 v1 w1 hinv1 hk1 h⟩
        · rw [if_neg hlt] at h ⊢
          have hk1 : k + 1 = 64 := by
            rw [hinv1.byte_idx] at hlt
            omega
          simp only [Option.some.injEq, Prod.mk.injEq, true_and] at h
          obtain ⟨rfl, rfl⟩ := h
          refine ⟨[], rfl, by simp [hk1], rfl, ?_, fun _ _ => rfl, Or.inl ⟨rfl, ?_⟩, ?_⟩
          · intro i hi
            omega
          · intro i hi
            omega
          · intro _ i hi
            omega
      obtain ⟨rest, hrest, hlen, hlog, hbits, hbelow, hfound, hpd⟩ := tail
      rw [hrest]
      refine ⟨by rw [List.length_cons, hlen]; clear hfound; omega, ?_, ?_, ?_, ?_, ?_⟩
      · rw [hlog, hlog2, List.flatMap_cons, List.reverse_append, List.append_assoc]
      · intro i hi
        clear hfound
        cases i with
        | zero =>
          rw [List.getD_cons_zero, Nat.add_zero, hbelow k (by omega), hbits2 k, if_pos rfl, hs0d]
        | succ i =>
          rw [List.getD_cons_succ, ← hbits i (by omega)]
          congr 1
          omega
      · intro j hj
        clear hfound
        rw [hbelow j (by omega), hbits2 j, if_neg (by omega)]
      · rcases hfound with ⟨hfd, hno⟩ | ⟨i, hi, hfd, hat, hafter⟩
        · by_cases hz : s0 = (false, false, false)
          · refine Or.inr ⟨0, by omega, ?_, ?_, ?_⟩
            · rw [hfd, hfd2, if_pos (hs0f.mp hz)]
            · rw [List.getD_cons_zero]
              exact hz
            · intro j hj1 hj2
              cases j with
              | zero => exact absurd hj1 (Nat.lt_irrefl 0)
              | succ j =>
                rw [List.getD_cons_succ]
                exact hno j (by omega)
          · refine Or.inl ⟨?_, ?_⟩
            · rw [hfd, hfd2, if_neg (fun hc => hz (hs0f.mpr hc))]
            · intro i hi
              cases i with
              | zero =>
                rw [List.getD_cons_zero]
                exact hz
              | succ i =>
                rw [List.getD_cons_succ]
                exact hno i (by omega)
        · refine Or.inr ⟨i + 1, by omega, by rw [hfd]; omega, ?_, ?_⟩
          · rw [List.getD_cons_succ]
            exact hat
          · intro j hj1 hj2
            cases j with
            | zero => exact absurd hj1 (Nat.not_lt_zero _)
            | succ j =>
              rw [List.getD_cons_succ]
              exact hafter j (by omega) (by omega)
      · intro hp i hi
        clear hfound
        cases i with
        | zero =>
          rw [List.getD_cons_zero]
          exact hfirst hp
        | succ i =>
          rw [List.getD_cons_succ]
          exact hpd hp i (by omega)

/-- A pass of `search` that returns `ESP_OW_OK` went through its reset and ran its loop to
the end, and returns the discrepancy found by the loop. -/
theorem search_ok_loop (H : Hw σ) (g cmd : Nat) (dev : esp_ow_device) (pd : Nat) (il : Bool)
    (w : World σ) (o : SearchOut σ) (hwf : rom_wf dev.rom)
    (h : search H g cmd dev pd il w = some o) (hok : o.err = ESP_OW_OK) :
    (esp_ow_reset H g w).1 = true ∧
    ∃ v w2, search_loop H g pd 64 (search_vars0 dev.rom)
        (esp_ow_write H g cmd (esp_ow_reset H g w).2) = some (true, v, w2) ∧
      SearchInv 64 v ∧ v.one_count ≠ 0 ∧ o.prev_dis = v.found_dis ∧
      o.is_last = (if v.found_dis = 0 then true else il) ∧ o.dev.rom = v.prev_adr ∧
      o.w = w2 := by
  have hr : (esp_ow_reset H g w).1 = true := by
    cases hx : (esp_ow_reset H g w).1
    · unfold search at h
      dsimp only at h
      rw [if_pos hx] at h
      simp only [Option.some.injEq] at h
      rw [← h] at hok
      simp at hok
    · rfl
  refine ⟨hr, ?_⟩
  have hinv0 := search_vars0_inv hwf.1 hwf.2
  have hsome := search_loop_isSome H g pd 64 0 (search_vars0 dev.rom)
    (esp_ow_write H g cmd (esp_ow_reset H g w).2) hinv0 (by norm_num) (by norm_num)
  obtain ⟨⟨b, v, w2⟩, hl⟩ := Option.isSome_iff_exists.mp hsome
  cases b
  · unfold search at h
    dsimp only at h
    rw [if_neg (by rw [hr]; simp)] at h
    change (match search_loop H g pd 64 (search_vars0 dev.rom) _ with
      | none => _ | some (false, v, w2) => _ | some (true, v, w2) => _) = _ at h
    rw [hl] at h
    simp only [Option.some.injEq] at h
    rw [← h] at hok
    simp at hok
  · have h64 := (search_loop_inv H g pd 64 0 _ _ _ _ _ hinv0 (by norm_num) hl).2 rfl
    rw [search_of_loop H g cmd dev pd il w v w2 hr hl h64] at h
    simp only [Option.some.injEq] at h
    refine ⟨v, w2, hl, h64, ?_⟩
    by_cases hc : v.crc = 0
    · rw [if_pos hc] at h
      by_cases h1 : v.one_count = 0
      · rw [if_pos h1] at h
        rw [← h] at hok
        simp at hok
      · rw [if_neg h1] at h
        rw [← h]
        exact ⟨h1, rfl, rfl, rfl, rfl⟩
    · rw [if_neg hc] at h
      rw [← h] at hok
      simp at hok

end owsteps

end OW

/-! ## C25, C26, C27: the directions of a search pass -/

namespace OW

open esp_ow_err

section low
variable {σ : Type}

end low

/-- C25 fails on the code. In a conflict before the previous discrepancy `search` takes
the direction `prev_adr[rom_byte_idx] & rom_bit_idx`: the byte of the seed ROM is
masked with the bit position, not with the mask of the bit. On the simulated bus
with the devices 01 00 00 00 00 00 00 3D, 01 01 00 00 00 00 00 0A and
05 00 00 00 00 00 00 C9 the first pass leaves the ROM 01 00 00 00 00 00 00 3D and
the discrepancy 9. In the pass seeded with these, the third iteration reads a
conflict at bit position 3, before the discrepancy, and writes direction 1, although
bit 3 of the seed ROM (bit 2 of byte 0) is 0; the pass returns the ROM
05 00 00 00 00 00 00 C9, whose bit 3 is 1. -/
theorem c25_replay_masks_with_position :
    (∀ (pd : Nat) (v : SearchVars), v.rom_bit_idx < pd →
      search_dir pd v false false =
        ((v.prev_adr.getD v.rom_byte_idx 0 &&& v.rom_bit_idx) != 0)) ∧
    (search sim_hw 2 ESP_OW_CMD_SEARCH_ROM ⟨List.replicate 8 0, 2⟩ 0 false
      (sim_world [[1, 0, 0, 0, 0, 0, 0, 61], [1, 1, 0, 0, 0, 0, 0, 10],
        [5, 0, 0, 0, 0, 0, 0, 201]] 0)).map (fun o => (o.err, o.dev.rom, o.prev_dis)) =
      some (ESP_OW_OK, [1, 0, 0, 0, 0, 0, 0, 61], 9) ∧
    (search_pass_steps sim_hw 2 ESP_OW_CMD_SEARCH_ROM ⟨[1, 0, 0, 0, 0, 0, 0, 61], 2⟩ 9
      (sim_world [[1, 0, 0, 0, 0, 0, 0, 61], [1, 1, 0, 0, 0, 0, 0, 10],
        [5, 0, 0, 0, 0, 0, 0, 201]] 0)).getD 2 (true, true, true) = (false, false, true) ∧
    rom_bit [1, 0, 0, 0, 0, 0, 0, 61] 2 = false ∧
    (search sim_hw 2 ESP_OW_CMD_SEARCH_ROM ⟨[1, 0, 0, 0, 0, 0, 0, 61], 2⟩ 9 false
      (sim_world [[1, 0, 0, 0, 0, 0, 0, 61], [1, 1, 0, 0, 0, 0, 0, 10],
        [5, 0, 0, 0, 0, 0, 0, 201]] 0)).map (fun o => (o.err, o.dev.rom, o.prev_dis)) =
      some (ESP_OW_OK, [5, 0, 0, 0, 0, 0, 0, 201], 0) ∧
    rom_bit [5, 0, 0, 0, 0, 0, 0, 201] 2 = true := by
  refine ⟨?_, by decide, by decide, by decide, by decide, by decide⟩
  intro pd v h
  unfold search_dir
  rw [if_pos ⟨rfl, rfl⟩, if_pos h]

/-- C26. On every bus, for every pass of `search` on a well-formed seed ROM that returns
`ESP_OW_OK`: the pass has made 64 iterations, each a read slot for the bit, a read slot
for the complement and a write slot for the direction; the discrepancy it returns
is the highest bit position (1 to 64) at which a conflict was read and direction 0
written, and 0 when there is no such position; `*is_last` is set to `true` when this
value is 0 and left as it was otherwise; and when the previous discrepancy is 0,
every conflict is answered with direction 0. -/
theorem c26_discrepancy_recorded {σ : Type} (H : Hw σ) (gpio_num sch_type : Nat)
    (prev_search : esp_ow_device) (prev_dis : Nat) (is_last : Bool) (w : World σ)
    (o : SearchOut σ) (hwf : rom_wf prev_search.rom)
    (h : search H gpio_num sch_type prev_search prev_dis is_last w = some o)
    (hok : o.err = ESP_OW_OK) :
    (search_pass_steps H gpio_num sch_type prev_search prev_dis w).length = 64 ∧
    o.w.log =
      ((search_pass_steps H gpio_num sch_type prev_search prev_dis w).flatMap
        (step_frame gpio_num)).reverse ++
        (esp_ow_write H gpio_num sch_type (esp_ow_reset H gpio_num w).2).log ∧
    ((o.prev_dis = 0 ∧ ∀ p, 1 ≤ p → p ≤ 64 →
        (search_pass_steps H gpio_num sch_type prev_search prev_dis w).getD (p - 1)
          (true, true, true) ≠ (false, false, false)) ∨
      (1 ≤ o.prev_dis ∧ o.prev_dis ≤ 64 ∧
        (search_pass_steps H gpio_num sch_type prev_search prev_dis w).getD (o.prev_dis - 1)
          (true, true, true) = (false, false, false) ∧
        ∀ p, o.prev_dis < p → p ≤ 64 →
          (search_pass_steps H gpio_num sch_type prev_search prev_dis w).getD (p - 1)
            (true, true, true) ≠ (false, false, false))) ∧
    o.is_last = (if o.prev_dis = 0 then true else is_last) ∧
    (prev_dis = 0 → ∀ p, 1 ≤ p → p ≤ 64 →
      ((search_pass_steps H gpio_num sch_type prev_search prev_dis w).getD (p - 1)
        (true, true, true)).1 = false →
      ((search_pass_steps H gpio_num sch_type prev_search prev_dis w).getD (p - 1)
        (true, true, true)).2.1 = false →
      ((search_pass_steps H gpio_num sch_type prev_search prev_dis w).getD (p - 1)
        (true, true, true)).2.2 = false) := by
  obtain ⟨hr, v, w2, hl, hinv, _, hpd, hil, _, hw2⟩ :=
    search_ok_loop H gpio_num sch_type prev_search prev_dis is_last w o hwf h hok
  have hs : search_pass_steps H gpio_num sch_type prev_search prev_dis w =
      search_steps H gpio_num prev_dis 64 (search_vars0 prev_search.rom)
        (esp_ow_write H gpio_num sch_type (esp_ow_reset H gpio_num w).2) := by
    unfold search_pass_steps
    rw [if_neg (by rw [hr]; simp)]
  obtain ⟨hlen, hlog, _, _, hfound, hfirst⟩ := search_loop_steps H gpio_num prev_dis 64 0 _ _
    v w2 (search_vars0_inv hwf.1 hwf.2) (by norm_num) hl
  rw [hs, hpd, hil, hw2]
  refine ⟨hlen, hlog, ?_, rfl, ?_⟩
  · rcases hfound with ⟨hfd, hno⟩ | ⟨i, hi, hfd, hat, hafter⟩
    · refine Or.inl ⟨hfd, ?_⟩
      intro p hp1 hp2
      exact hno (p - 1) (by omega)
    · refine Or.inr ⟨by omega, by omega, ?_, ?_⟩
      · have e : v.found_dis - 1 = i := by omega
        rw [e]
        exact hat
      · intro p hp1 hp2
        exact hafter (p - 1) (by omega) (by omega)
  · intro h0 p hp1 hp2
    exact hfirst h0 (p - 1) (by omega)

/-- C26 on the simulated bus with the devices 01 00 00 00 00 00 00 3D and
05 00 00 00 00 00 00 C9, in the first pass: the conflict at bit position 3 is
answered with direction 0, and the pass returns the discrepancy 3. -/
theorem c26_discrepancy_recorded_witness :
    ∃ o, search sim_hw 2 ESP_OW_CMD_SEARCH_ROM ⟨List.replicate 8 0, 2⟩ 0 false
        (sim_world [[1, 0, 0, 0, 0, 0, 0, 61], [5, 0, 0, 0, 0, 0, 0, 201]] 0) = some o ∧
      o.err = ESP_OW_OK ∧ o.prev_dis = 3 ∧ o.is_last = false ∧
      (search_pass_steps sim_hw 2 ESP_OW_CMD_SEARCH_ROM ⟨List.replicate 8 0, 2⟩ 0
        (sim_world [[1, 0, 0, 0, 0, 0, 0, 61], [5, 0, 0, 0, 0, 0, 0, 201]] 0)).length = 64 ∧
      o.is_last = (if o.prev_dis = 0 then true else false) :=
  ⟨_, rfl, rfl, rfl, rfl,
    (c26_discrepancy_recorded sim_hw 2 ESP_OW_CMD_SEARCH_ROM ⟨List.replicate 8 0, 2⟩ 0 false
      (sim_world [[1, 0, 0, 0, 0, 0, 0, 61], [5, 0, 0, 0, 0, 0, 0, 201]] 0) _
      (by decide) rfl rfl).1,
    (c26_discrepancy_recorded sim_hw 2 ESP_OW_CMD_SEARCH_ROM ⟨List.replicate 8 0, 2⟩ 0 false
      (sim_world [[1, 0, 0, 0, 0, 0, 0, 61], [5, 0, 0, 0, 0, 0, 0, 201]] 0) _
      (by decide) rfl rfl).2.2.2.1⟩

end OW

/-! ## The scan on a bus without clock-stretch timeout -/

namespace I2C

open esp_i2c_err

section scantotal
variable {σ : Type} {H : Hw σ} {fuel scl mcs : Nat} {inv rel : σ → Prop}

theorem Good.SDA_LOW (nt : NoTimeout H fuel scl mcs inv rel) {s : State σ}
    (hg : Good inv scl mcs s) : Good inv scl mcs (SDA_LOW H s) :=
  ⟨nt.step _ _ hg.1, hg.2.1, hg.2.2⟩

theorem Good.SCL_LOW (nt : NoTimeout H fuel scl mcs inv rel) {s : State σ}
    (hg : Good inv scl mcs s) : Good inv scl mcs (SCL_LOW H s) :=
  ⟨nt.step _ _ hg.1, hg.2.1, hg.2.2⟩

theorem Good.SDA_RELEASE (nt : NoTimeout H fuel scl mcs inv rel) {s : State σ}
    (hg : Good inv scl mcs s) : Good inv scl mcs (SDA_RELEASE H s) :=
  ⟨nt.step _ _ hg.1, hg.2.1, hg.2.2⟩

theorem Good.SCL_RELEASE (nt : NoTimeout H fuel scl mcs inv rel) {s : State σ}
    (hg : Good inv scl mcs s) : Good inv scl mcs (SCL_RELEASE H s) :=
  ⟨nt.step _ _ hg.1, hg.2.1, hg.2.2⟩

theorem Good.delay (nt : NoTimeout H fuel scl mcs inv rel) (n : Nat) {s : State σ}
    (hg : Good inv scl mcs s) : Good inv scl mcs (delay H n s) :=
  ⟨nt.step _ _ hg.1, hg.2.1, hg.2.2⟩

theorem Good.SDA_READ (nt : NoTimeout H fuel scl mcs inv rel) {s : State σ}
    (hg : Good inv scl mcs s) : Good inv scl mcs (SDA_READ H s).2 :=
  ⟨nt.step _ _ hg.1, hg.2.1, hg.2.2⟩

theorem SDA_LOW_heap (H : Hw σ) (s : State σ) : (SDA_LOW H s).w.heap = s.w.heap := rfl

theorem SCL_LOW_heap (H : Hw σ) (s : State σ) : (SCL_LOW H s).w.heap = s.w.heap := rfl

theorem SDA_RELEASE_heap (H : Hw σ) (s : State σ) : (SDA_RELEASE H s).w.heap = s.w.heap := rfl

theorem SCL_RELEASE_heap (H : Hw σ) (s : State σ) : (SCL_RELEASE H s).w.heap = s.w.heap := rfl

theorem delay_heap (H : Hw σ) (n : Nat) (s : State σ) : (delay H n s).w.heap = s.w.heap := rfl

theorem SDA_READ_heap (H : Hw σ) (s : State σ) : (SDA_READ H s).2.w.heap = s.w.heap := rfl

theorem fail_fast_good (nt : NoTimeout H fuel scl mcs inv rel) (e : esp_i2c_err) (s : State σ)
    (hg : Good inv scl mcs s) :
    Good inv scl mcs (esp_i2c_fail_fast H e s).2 ∧ (esp_i2c_fail_fast H e s).2.w.heap = s.w.heap :=
  ⟨⟨nt.step _ _ (nt.step _ _ hg.1), hg.2.1, hg.2.2⟩, rfl⟩

/-- On a bus without clock-stretch timeout `esp_i2c_start` returns. -/
theorem esp_i2c_start_ok (nt : NoTimeout H fuel scl mcs inv rel) (s : State σ)
    (hg : Good inv scl mcs s) :
    ∃ e s1, esp_i2c_start H fuel s = some (e, s1) ∧ Good inv scl mcs s1 ∧
      s1.w.heap = s.w.heap := by
  have hscl := hg.2.1
  have hcs := hg.2.2
  unfold esp_i2c_start
  by_cases hin : s.in_trans = true
  · rw [if_pos hin]
    dsimp only
    have hrel : rel (delay H s.i2c_delay_short
        (SCL_RELEASE H (delay H s.i2c_delay_short s))).w.env := by
      have h1 := nt.release _ (nt.step _ (Ev.delay s.i2c_delay_short) hg.1)
      rw [← hscl] at h1
      exact nt.keep _ (Ev.delay s.i2c_delay_short) h1 (by simp)
    obtain ⟨idx, t1, hc, hidx, hg1⟩ := chk_cs_ok nt _ hrel hscl hcs
    obtain ⟨-, new, hx, -⟩ := chk_cs_ext H _ _ _ _ _ hc
    have hh : t1.w.heap = s.w.heap := hx.heap
    rw [hc]
    dsimp only
    rw [if_neg hidx]
    by_cases h0 : 0 < idx
    · simp only [if_pos h0]
      refine ⟨_, _, rfl, ?_, ?_⟩
      · exact (((((hg1.delay nt _).SDA_LOW nt).delay nt _).SCL_LOW nt).delay nt _).SDA_RELEASE nt
      · simp only [SDA_RELEASE_heap, delay_heap, SCL_LOW_heap, SDA_LOW_heap]
        exact hh
    · simp only [if_neg h0]
      refine ⟨_, _, rfl, ?_, ?_⟩
      · exact ((((hg1.SDA_LOW nt).delay nt _).SCL_LOW nt).delay nt _).SDA_RELEASE nt
      · simp only [SDA_RELEASE_heap, delay_heap, SCL_LOW_heap, SDA_LOW_heap]
        exact hh
  · rw [if_neg hin]
    dsimp only
    by_cases hlo : (SDA_READ H (SDA_RELEASE H (SCL_RELEASE H s))).1 = ESP_I2C_LO
    · rw [if_pos hlo]
      exact ⟨_, _, rfl, ((hg.SCL_RELEASE nt).SDA_RELEASE nt).SDA_READ nt, rfl⟩
    · rw [if_neg hlo]
      have hrel : rel (SDA_READ H (SDA_RELEASE H (SCL_RELEASE H s))).2.w.env := by
        have h1 := nt.release _ hg.1
        rw [← hscl] at h1
        exact nt.keep _ (Ev.gpio_in s.gpio_sda _) (nt.keep _ (Ev.out_en_c s.gpio_sda) h1
          (by simp)) (by simp)
      obtain ⟨idx, t1, hc, hidx, hg1⟩ := chk_cs_ok nt _ hrel hscl hcs
      obtain ⟨-, new, hx, -⟩ := chk_cs_ext H _ _ _ _ _ hc
      have hh : t1.w.heap = s.w.heap := hx.heap
      rw [hc]
      dsimp only
      rw [if_neg hidx]
      refine ⟨_, _, rfl, ?_, ?_⟩
      · have hg5 := (((((hg1.delay nt t1.i2c_delay_short).SDA_LOW nt).delay nt
          t1.i2c_delay_short).SCL_LOW nt).delay nt t1.i2c_delay_short).SDA_RELEASE nt
        exact ⟨hg5.1, hg5.2.1, hg5.2.2⟩
      · exact hh

/-- On a bus without clock-stretch timeout `esp_i2c_stop` returns. -/
theorem esp_i2c_stop_ok (nt : NoTimeout H fuel scl mcs inv rel) (s : State σ)
    (hg : Good inv scl mcs s) :
    ∃ e s1, esp_i2c_stop H fuel s = some (e, s1) ∧ Good inv scl mcs s1 ∧
      s1.w.heap = s.w.heap := by
  unfold esp_i2c_stop
  by_cases hin : s.in_trans = false
  · rw [if_pos hin]
    exact ⟨_, _, rfl, (fail_fast_good nt ESP_I2C_ERR_STOP_OUTSIDE_TRANS s hg).1, rfl⟩
  · rw [if_neg hin]
    dsimp only
    have hscl := hg.2.1
    have hcs := hg.2.2
    have hrel : rel (SCL_RELEASE H (delay H s.i2c_delay_short (SDA_LOW H s))).w.env := by
      have h1 := nt.release _ (nt.step _ (Ev.delay s.i2c_delay_short)
        (nt.step _ (Ev.out_en_s s.gpio_sda) hg.1))
      rw [← hscl] at h1
      exact h1
    obtain ⟨idx, t1, hc, hidx, hg1⟩ := chk_cs_ok nt _ hrel hscl hcs
    obtain ⟨-, new, hx, -⟩ := chk_cs_ext H _ _ _ _ _ hc
    have hh : t1.w.heap = s.w.heap := hx.heap
    rw [hc]
    dsimp only
    rw [if_neg hidx]
    refine ⟨_, _, rfl, ?_, ?_⟩
    · have hg5 := ((((hg1.delay nt t1.i2c_delay_short).SDA_RELEASE nt).delay nt
        t1.i2c_delay_short).SCL_LOW nt).delay nt t1.i2c_delay_short
      exact ⟨hg5.1, hg5.2.1, hg5.2.2⟩
    · exact hh

/-- On a bus without clock-stretch timeout `esp_i2c_start_read_write` returns. -/
theorem esp_i2c_start_read_write_ok (nt : NoTimeout H fuel scl mcs inv rel) (address : Nat)
    (stop_on_nack : Bool) (s : State σ) (hg : Good inv scl mcs s) :
    ∃ e s1, esp_i2c_start_read_write H fuel address stop_on_nack s = some (e, s1) ∧
      Good inv scl mcs s1 ∧ s1.w.heap = s.w.heap := by
  obtain ⟨e, t, ht, hgt, hht⟩ := esp_i2c_start_ok nt s hg
  unfold esp_i2c_start_read_write
  rw [ht]
  dsimp only
  by_cases he : e ≠ ESP_I2C_OK
  · rw [if_pos he]
    exact ⟨_, _, rfl, hgt, hht⟩
  · rw [if_neg he]
    obtain ⟨a1, t2, hw, hg2⟩ := esp_i2c_write_byte_ok nt address false t hgt
    have hh2 : t2.w.heap = t.w.heap := by
      rcases esp_i2c_write_byte_cases H fuel _ _ _ _ _ _ hw with ⟨_, _, new, hx⟩ | ⟨hne, _⟩
      · exact hx.heap
      · exact absurd rfl hne
    rw [hw]
    dsimp only
    rw [if_neg (by simp)]
    by_cases hack : a1 ≠ ESP_I2C_ACK
    · rw [if_pos hack]
      cases stop_on_nack
      · simp only [Bool.false_eq_true, if_false]
        exact ⟨_, _, rfl, (fail_fast_good nt ESP_I2C_ERR_NO_ACK t2 hg2).1, hh2.trans hht⟩
      · simp only [if_true]
        obtain ⟨e3, t3, h3, hg3, hh3⟩ := esp_i2c_stop_ok nt t2 hg2
        rw [h3]
        exact ⟨_, _, rfl, (fail_fast_good nt ESP_I2C_ERR_NO_ACK t3 hg3).1, (hh3.trans hh2).trans hht⟩
    · rw [if_neg hack]
      exact ⟨_, _, rfl, hg2, hh2.trans hht⟩

/-- On a bus without clock-stretch timeout the probe loop of `esp_i2c_scan` returns when
a node can be allocated for each address that is left. -/
theorem esp_i2c_scan_loop_ok (nt : NoTimeout H fuel scl mcs inv rel) :
    ∀ (n address : Nat) (nodes : List Nat) (s : State σ), Good inv scl mcs s →
      128 < address + n → address ≤ 128 → 128 ≤ address + s.w.heap →
      ∃ nodes1 s1, esp_i2c_scan_loop H fuel n address nodes s = some (nodes1, s1) := by
  intro n
  induction n with
  | zero =>
    intro address nodes s _ h1 h2 _
    omega
  | succ n ih =>
    intro address nodes s hg h1 h2 h3
    rw [esp_i2c_scan_loop]
    by_cases ha : address < 128
    · rw [if_neg (by simpa using ha)]
      have hnext : (address + 1) % 256 = address + 1 := by omega
      rw [hnext]
      by_cases hskip : scan_skip address = true
      · rw [if_pos hskip]
        exact ih _ _ _ hg (by omega) (by omega) (by omega)
      · rw [if_neg hskip]
        obtain ⟨e, t, ht, hgt, hht⟩ :=
          esp_i2c_start_read_write_ok nt (ESP_I2C_ADDR_WRITE address) true s hg
        rw [ht]
        dsimp only
        by_cases he : e ≠ ESP_I2C_OK
        · rw [if_pos he]
          exact ih _ _ _ hgt (by omega) (by omega) (by omega)
        · rw [if_neg he]
          unfold scan_record
          by_cases hl : nodes.getLastD 0 = 0
          · rw [if_pos hl]
            dsimp only
            obtain ⟨e3, t3, h3s, hg3, hh3⟩ := esp_i2c_stop_ok nt t hgt
            rw [h3s]
            exact ih _ _ _ hg3 (by omega) (by omega) (by omega)
          · rw [if_neg hl]
            have hz : os_zalloc t.w = (true, { t.w with heap := t.w.heap - 1 }) := by
              unfold os_zalloc
              rw [if_neg (by omega)]
            rw [hz]
            simp only [Bool.true_eq_false, if_false]
            obtain ⟨e3, t3, h3s, hg3, hh3⟩ := esp_i2c_stop_ok nt
              { t with w := { t.w with heap := t.w.heap - 1 } } ⟨hgt.1, hgt.2.1, hgt.2.2⟩
            rw [h3s]
            refine ih _ _ _ hg3 (by omega) (by omega) ?_
            rw [hh3]
            show 128 ≤ address + 1 + (t.w.heap - 1)
            omega
    · rw [if_pos (by simpa using ha)]
      exact ⟨_, _, rfl⟩

/-- On a bus without clock-stretch timeout `esp_i2c_scan` with an empty root returns
`ESP_I2C_OK` when a node can be allocated for every address. -/
theorem esp_i2c_scan_ok (nt : NoTimeout H fuel scl mcs inv rel) (s : State σ)
    (hg : Good inv scl mcs s) (hheap : 128 ≤ s.w.heap) :
    ∃ out s1, esp_i2c_scan H fuel [] s = some (ESP_I2C_OK, out, s1) := by
  have hz : os_zalloc s.w = (true, { s.w with heap := s.w.heap - 1 }) := by
    unfold os_zalloc
    rw [if_neg (by omega)]
  obtain ⟨nodes, s1, hl⟩ := esp_i2c_scan_loop_ok nt 128 1 [0]
    { s with w := { s.w with heap := s.w.heap - 1 } } ⟨hg.1, hg.2.1, hg.2.2⟩
    (by norm_num) (by norm_num) (by
      show 128 ≤ 1 + (s.w.heap - 1)
      omega)
  unfold esp_i2c_scan
  rw [if_neg (by simp), hz]
  simp only [Bool.true_eq_false, if_false]
  rw [hl]
  dsimp only
  split
  · exact ⟨_, _, rfl⟩
  · exact ⟨_, _, rfl⟩

end scantotal

section scanfail
variable {σ : Type}

/-- When every probe fails, the probe loop of `esp_i2c_scan` leaves the list as it is. `P`
holds of the states in which the probes are made. -/
theorem esp_i2c_scan_loop_all_fail (H : Hw σ) (fuel : Nat) (P : State σ → Prop)
    (hfail : ∀ (a : Nat) (t t1 : State σ) (e : esp_i2c_err), P t →
      esp_i2c_start_read_write H fuel a true t = some (e, t1) → e ≠ ESP_I2C_OK ∧ P t1) :
    ∀ (n address : Nat) (nodes : List Nat) (s : State σ) (nodes1 : List Nat) (s1 : State σ),
      P s → esp_i2c_scan_loop H fuel n address nodes s = some (nodes1, s1) →
      nodes1 = nodes := by
  intro n
  induction n with
  | zero =>
    intro address nodes s nodes1 s1 _ h
    simp [esp_i2c_scan_loop] at h
  | succ n ih =>
    intro address nodes s nodes1 s1 hP h
    rw [esp_i2c_scan_loop] at h
    split at h
    · simp only [Option.some.injEq, Prod.mk.injEq] at h
      exact h.1.symm
    · split at h
      · exact ih _ _ _ _ _ hP h
      · split at h
        · simp at h
        · rename_i err s2 hst
          obtain ⟨hne, hP2⟩ := hfail _ _ _ _ hP hst
          rw [if_pos hne] at h
          exact ih _ _ _ _ _ hP2 h

/-- When every probe fails, `esp_i2c_scan` returns the empty list. -/
theorem esp_i2c_scan_all_fail (H : Hw σ) (fuel : Nat) (P : State σ → Prop)
    (hfail : ∀ (a : Nat) (t t1 : State σ) (e : esp_i2c_err), P t →
      esp_i2c_start_read_write H fuel a true t = some (e, t1) → e ≠ ESP_I2C_OK ∧ P t1)
    (s : State σ) (hP : P { s with w := (os_zalloc s.w).2 })
    (e : esp_i2c_err) (out : List Nat) (s1 : State σ)
    (h : esp_i2c_scan H fuel [] s = some (e, out, s1)) : out = [] := by
  unfold esp_i2c_scan at h
  rw [if_neg (by simp)] at h
  split at h
  · simp at h
  · split at h
    · simp at h
    · rename_i nodes s2 hl
      have hn := esp_i2c_scan_loop_all_fail H fuel P hfail _ _ _ _ _ _ hP hl
      subst hn
      simp only [List.headD_cons, if_true, Option.some.injEq, Prod.mk.injEq] at h
      exact h.2.1.symm

end scanfail

/-- On the bus with the data line held low no clock-stretch wait times out: the
clock line reads high. -/
theorem arb_no_timeout (fuel scl sda mcs : Nat) (hne : scl ≠ sda) (hm : mcs ≠ 0) :
    NoTimeout (arb_hw sda) (fuel + 1) scl mcs (fun _ => True) (fun _ => True) := by
  refine ⟨fun _ _ _ => trivial, fun _ _ => trivial, fun _ _ _ _ => trivial,
    fun _ _ => trivial, ?_⟩
  intro t _ hscl hcs
  have hl : (SCL_READ (arb_hw sda) t).1 = true := by
    show decide (t.gpio_scl ≠ sda) = true
    rw [hscl]
    simpa using hne
  refine ⟨0, (SCL_READ (arb_hw sda) t).2, ?_, fun h => hm h.symm⟩
  rw [chk_cs, if_neg (by rw [hl]; simp [ESP_I2C_LO])]

/-- On the bus with the data line held low every start condition sent from outside a
transaction loses the arbitration. -/
theorem arb_start (fuel sda : Nat) (s : State Unit) (hsda : s.gpio_sda = sda)
    (hin : s.in_trans = false) :
    esp_i2c_start (arb_hw sda) fuel s =
      some (ESP_I2C_ERR_ARB_LOST,
        (SDA_READ (arb_hw sda) (SDA_RELEASE (arb_hw sda) (SCL_RELEASE (arb_hw sda) s))).2) := by
  unfold esp_i2c_start
  rw [if_neg (by rw [hin]; simp)]
  dsimp only
  have hl : (SDA_READ (arb_hw sda) (SDA_RELEASE (arb_hw sda) (SCL_RELEASE (arb_hw sda) s))).1 =
      ESP_I2C_LO := by
    show decide (s.gpio_sda ≠ sda) = false
    rw [hsda]
    simp
  rw [if_pos hl]

/-- On the bus with the data line held low every probe made outside a transaction
fails, and leaves the engine outside a transaction on the same data pin. -/
theorem arb_probe (fuel sda a : Nat) (t t1 : State Unit) (e : esp_i2c_err)
    (hP : t.gpio_sda = sda ∧ t.in_trans = false)
    (h : esp_i2c_start_read_write (arb_hw sda) fuel a true t = some (e, t1)) :
    e ≠ ESP_I2C_OK ∧ (t1.gpio_sda = sda ∧ t1.in_trans = false) := by
  unfold esp_i2c_start_read_write at h
  rw [arb_start fuel sda t hP.1 hP.2] at h
  simp only [ne_eq, reduceCtorEq, not_false_eq_true, if_true, Option.some.injEq,
    Prod.mk.injEq] at h
  obtain ⟨rfl, rfl⟩ := h
  exact ⟨by simp, hP.1, hP.2⟩

end I2C

/-! ## C28, C29, C30: the clock-stretch wait, the scan and the stop condition -/

namespace I2C

open esp_i2c_err

/-- C28 fails on the code. The counter of `chk_cs` is a `uint8_t` and the bound `max_cs`
is 690 after `esp_i2c_init`: the counter wraps at 256 and never reaches the bound. With
the engine initialised on pins 0 and 2: on a clock line held low forever `chk_cs`
does not return, whatever the bound on the number of polls; on a clock line that
reads low at the first 700 polls and high afterwards it returns after 701 polls
(the state of `stretch_hw` is the number of polls of the clock line), more than
`max_cs + 1`, with the result 188; and on no bus does it return `max_cs`. -/
theorem c28_clock_stretch_wait_unbounded :
    (∀ fuel, chk_cs (stuck_hw 0) fuel 0
      (esp_i2c_init (stuck_hw 0) 0 2 (State.boot { env := (), log := [], heap := 0 })).2 =
        none) ∧
    (chk_cs (stretch_hw 0 700) 701 0
      (esp_i2c_init (stretch_hw 0 700) 0 2
        (State.boot { env := 0, log := [], heap := 0 })).2).map
        (fun r => (r.1, r.2.max_cs, r.2.w.env)) = some (188, 690, 701) ∧
    (∀ (σ : Type) (H : Hw σ) (fuel : Nat) (s s1 : State σ) (r : Nat),
      s.max_cs = 690 → chk_cs H fuel 0 s = some (r, s1) → r ≠ s.max_cs) := by
  refine ⟨?_, by decide, ?_⟩
  · intro fuel
    exact chk_cs_stuck 0 fuel 0 _ rfl rfl (by norm_num)
  · intro σ H fuel s s1 r hm h
    have := (chk_cs_lt H fuel 0 s r s1 (by norm_num) h).1
    rw [hm]
    omega

/-- What `esp_i2c_scan` does with the errors of its probes, on every bus. Whenever the
call with an empty root returns, it returns `ESP_I2C_OK`: an error of a probe only
makes the loop go on with the next address. On a bus without clock-stretch timeout,
with a free node for every address, the call does return. When every probe fails,
in states of which `P` holds, the result is the empty list, whatever the error of
the probes. -/
theorem esp_i2c_scan_swallows {σ : Type} (H : Hw σ) (fuel : Nat) (s : State σ) :
    (∀ e out s1, esp_i2c_scan H fuel [] s = some (e, out, s1) → e = ESP_I2C_OK) ∧
    (∀ inv rel : σ → Prop, NoTimeout H fuel s.gpio_scl s.max_cs inv rel → inv s.w.env →
      128 ≤ s.w.heap → ∃ out s1, esp_i2c_scan H fuel [] s = some (ESP_I2C_OK, out, s1)) ∧
    (∀ P : State σ → Prop,
      (∀ (a : Nat) (t t1 : State σ) (e : esp_i2c_err), P t →
        esp_i2c_start_read_write H fuel a true t = some (e, t1) → e ≠ ESP_I2C_OK ∧ P t1) →
      P { s with w := (os_zalloc s.w).2 } →
      ∀ e out s1, esp_i2c_scan H fuel [] s = some (e, out, s1) →
        e = ESP_I2C_OK ∧ out = []) := by
  have hok : ∀ e out s1, esp_i2c_scan H fuel [] s = some (e, out, s1) → e = ESP_I2C_OK := by
    intro e out s1 h
    rcases esp_i2c_scan_err H fuel [] s e out s1 h with he | he
    · exact he
    · unfold esp_i2c_scan at h
      rw [if_neg (by simp)] at h
      split at h
      · simp at h
      · split at h
        · simp at h
        · split at h <;>
          · simp only [Option.some.injEq, Prod.mk.injEq] at h
            exact h.1.symm
  refine ⟨hok, ?_, ?_⟩
  · intro inv rel nt hinv hheap
    exact esp_i2c_scan_ok nt s ⟨hinv, rfl, rfl⟩ hheap
  · intro P hfail hP e out s1 h
    exact ⟨hok e out s1 h, esp_i2c_scan_all_fail H fuel P hfail s hP e out s1 h⟩

/-- The scan on two faulty buses, the engine on pins 0 and 2 with 128 free nodes: on
the bus with the data line held low, where every probe loses the arbitration, and
on the simulated bus without any slave, where every probe gets no acknowledge, the
scan returns `ESP_I2C_OK` with the empty list. -/
theorem esp_i2c_scan_faults_alike :
    (∃ s1, esp_i2c_scan (arb_hw 2) 1 []
      (esp_i2c_init (arb_hw 2) 0 2 (State.boot { env := (), log := [], heap := 128 })).2 =
        some (ESP_I2C_OK, [], s1)) ∧
    (∃ s1, esp_i2c_scan sim_hw 1 [] (sim_state 0 2 [] 128) = some (ESP_I2C_OK, [], s1)) := by
  constructor
  · have h := esp_i2c_scan_swallows (arb_hw 2) 1
      (esp_i2c_init (arb_hw 2) 0 2 (State.boot { env := (), log := [], heap := 128 })).2
    obtain ⟨out, s1, hs⟩ := h.2.1 _ _ (arb_no_timeout 0 0 2 690 (by decide) (by decide))
      trivial (by decide)
    have ho := (h.2.2 (fun t => t.gpio_sda = 2 ∧ t.in_trans = false)
      (fun a t t1 e hP hr => arb_probe 1 2 a t t1 e hP hr) ⟨rfl, rfl⟩ _ _ _ hs).2
    rw [ho] at hs
    exact ⟨s1, hs⟩
  · have he : scan_expect (fun b => decide (b % 2 = 0 ∧ b / 2 ∈ ([] : List Nat))) 1 127 = [] := by
      decide
    have h := sim_scan (fun b => decide (b % 2 = 0 ∧ b / 2 ∈ ([] : List Nat))) 1 (by decide)
      ⟨true, true, SimPhase.idle⟩ (sim_state 0 2 [] 128)
      ⟨⟨rfl, rfl, by decide, rfl, rfl⟩, rfl, rfl⟩ rfl (by decide) (by rw [he]; decide)
    rw [he] at h
    exact h

/-- On a clock line held low forever, with the data line high, the scan of an engine
initialised on pins 0 and 2 with 128 free nodes never returns, whatever the bound
on the number of polls: the first probe, at address 4, waits for the clock in
`esp_i2c_start` without end. -/
theorem esp_i2c_scan_stuck (fuel : Nat) :
    esp_i2c_scan (stuck_hw 0) fuel []
      (esp_i2c_init (stuck_hw 0) 0 2 (State.boot { env := (), log := [], heap := 128 })).2 =
        none := by
  have hs : ∀ s : State Unit, s.in_trans = false → s.gpio_scl = 0 → s.gpio_sda = 2 →
      s.max_cs = 690 → esp_i2c_start (stuck_hw 0) fuel s = none := by
    intro s hit hscl hsda hm
    have h := chk_cs_stuck 0 fuel 0
      (SDA_READ (stuck_hw 0) (SDA_RELEASE (stuck_hw 0) (SCL_RELEASE (stuck_hw 0) s))).2
      hscl hm (by norm_num)
    have hr : (SDA_READ (stuck_hw 0) (SDA_RELEASE (stuck_hw 0)
        (SCL_RELEASE (stuck_hw 0) s))).1 = true := by
      simp [SDA_READ, SDA_RELEASE, SCL_RELEASE, gpio_read, emit, stuck_hw, hsda]
    unfold esp_i2c_start
    rw [if_neg (by rw [hit]; simp)]
    dsimp only
    rw [if_neg (by rw [hr]; decide), h]
  have hp : ∀ (a : Nat) (s : State Unit), s.in_trans = false → s.gpio_scl = 0 →
      s.gpio_sda = 2 → s.max_cs = 690 →
      esp_i2c_start_read_write (stuck_hw 0) fuel a true s = none := by
    intro a s hit hscl hsda hm
    unfold esp_i2c_start_read_write
    rw [hs s hit hscl hsda hm]
  have hl : ∀ (nodes : List Nat) (s : State Unit), s.in_trans = false → s.gpio_scl = 0 →
      s.gpio_sda = 2 → s.max_cs = 690 →
      esp_i2c_scan_loop (stuck_hw 0) fuel (124 + 1 + 1 + 1 + 1) 1 nodes s = none := by
    intro nodes s hit hscl hsda hm
    rw [esp_i2c_scan_loop, if_neg (by decide), if_pos (by decide),
      esp_i2c_scan_loop, if_neg (by decide), if_pos (by decide),
      esp_i2c_scan_loop, if_neg (by decide), if_pos (by decide),
      esp_i2c_scan_loop, if_neg (by decide), if_neg (by decide),
      hp _ s hit hscl hsda hm]
  unfold esp_i2c_scan
  rw [if_neg (by simp), if_neg (by decide)]
  have := hl [0] { (esp_i2c_init (stuck_hw 0) 0 2
      (State.boot { env := (), log := [], heap := 128 })).2 with
    w := (os_zalloc (esp_i2c_init (stuck_hw 0) 0 2
      (State.boot { env := (), log := [], heap := 128 })).2.w).2 } rfl rfl rfl rfl
  rw [show (128 : Nat) = 124 + 1 + 1 + 1 + 1 from rfl, this]

/-- C29 fails on the code. The claim has the scan return `ESP_I2C_OK` for every
behaviour of the bus. With the engine initialised on pins 0 and 2 and 128 free
nodes, on a clock line held low forever, `esp_i2c_scan` called with an empty root
does not return, whatever the bound on the number of polls: the counter of `chk_cs`
is a `uint8_t` that never reaches `max_cs = 690`, so that the first probe never gets
the `ESP_I2C_ERR_LONG_STRETCH` the scan would skip. The rest of the claim holds of the
code: on every bus, whenever the call with an empty root returns, it returns
`ESP_I2C_OK`; and the bus with the data line held low (arbitration lost at every
address) and the bus without slaves (no acknowledge at every address) both give
`ESP_I2C_OK` with the empty list. -/
theorem c29_scan_hangs_on_held_clock :
    (∀ fuel, esp_i2c_scan (stuck_hw 0) fuel []
      (esp_i2c_init (stuck_hw 0) 0 2 (State.boot { env := (), log := [], heap := 128 })).2 =
        none) ∧
    (∀ (σ : Type) (H : Hw σ) (fuel : Nat) (s s1 : State σ) (e : esp_i2c_err) (out : List Nat),
      esp_i2c_scan H fuel [] s = some (e, out, s1) → e = ESP_I2C_OK) ∧
    (∃ s1, esp_i2c_scan (arb_hw 2) 1 []
      (esp_i2c_init (arb_hw 2) 0 2 (State.boot { env := (), log := [], heap := 128 })).2 =
        some (ESP_I2C_OK, [], s1)) ∧
    (∃ s1, esp_i2c_scan sim_hw 1 [] (sim_state 0 2 [] 128) = some (ESP_I2C_OK, [], s1)) :=
  ⟨esp_i2c_scan_stuck,
    fun _ H fuel s s1 e out h => (esp_i2c_scan_swallows H fuel s).1 e out s1 h,
    esp_i2c_scan_faults_alike.1, esp_i2c_scan_faults_alike.2⟩

theorem pin_actions_append (a b : List Ev) :
    pin_actions (a ++ b) = pin_actions a ++ pin_actions b :=
  List.filter_append _ _

/-- Samples of a line are no pin actions. -/
theorem pin_actions_reads (pin : Nat) (l : List Ev)
    (h : ∀ e ∈ l, ∃ v, e = Ev.gpio_in pin v) : pin_actions l = [] := by
  unfold pin_actions
  rw [List.filter_eq_nil_iff]
  intro e he
  obtain ⟨v, rfl⟩ := h e he
  simp

/-- C30. On every bus and from every state inside a transaction, when `esp_i2c_stop`
returns `ESP_I2C_OK`: what it did to the pins is, in the order of time, to drive the
data line low, to release the clock line, to release the data line and to drive
the clock line low; no static variable but `in_trans` has changed, and `in_trans` is
false. With distinct pins, the last thing done to the data line was to release it,
and the last thing done to the clock line was to drive it low. -/
theorem c30_stop_sequence {σ : Type} (H : Hw σ) (fuel : Nat) (s s1 : State σ)
    (hin : s.in_trans = true) (h : esp_i2c_stop H fuel s = some (ESP_I2C_OK, s1)) :
    ∃ new, Ext s s1 new ∧
      (pin_actions new).reverse =
        [Ev.out_en_s s.gpio_sda, Ev.out_en_c s.gpio_scl, Ev.out_en_c s.gpio_sda,
          Ev.out_en_s s.gpio_scl] ∧
      s1.in_trans = false ∧
      (s.gpio_scl ≠ s.gpio_sda →
        last_pin_action s.gpio_sda s1.w.log = some true ∧
        last_pin_action s.gpio_scl s1.w.log = some false) := by
  unfold esp_i2c_stop at h
  rw [if_neg (by rw [hin]; simp)] at h
  dsimp only at h
  split at h
  · simp at h
  · rename_i idx s2 hc
    obtain ⟨_, polls, hx, hpolls⟩ := chk_cs_ext H _ _ _ _ _ hc
    split at h
    · simp [esp_i2c_fail_fast] at h
    · simp only [Option.some.injEq, Prod.mk.injEq, true_and] at h
      have h0 : Ext s (SCL_RELEASE H (delay H s.i2c_delay_short (SDA_LOW H s)))
          [Ev.out_en_c s.gpio_scl, Ev.delay s.i2c_delay_short, Ev.out_en_s s.gpio_sda] :=
        ⟨rfl, rfl, rfl, rfl, rfl, rfl, rfl, rfl⟩
      have h2 : Ext s2 s1
          [Ev.delay s2.i2c_delay_short, Ev.out_en_s s2.gpio_scl, Ev.delay s2.i2c_delay_short,
            Ev.out_en_c s2.gpio_sda, Ev.delay s2.i2c_delay_short] := by
        rw [← h]
        exact ⟨rfl, rfl, rfl, rfl, rfl, rfl, rfl, rfl⟩
      have hit : s1.in_trans = false := by rw [← h]
      have hgs : s2.gpio_scl = s.gpio_scl := hx.gpio_scl
      have hgd : s2.gpio_sda = s.gpio_sda := hx.gpio_sda
      have hall := (h0.append hx).append h2
      refine ⟨_, hall, ?_, hit, ?_⟩
      · rw [pin_actions_append, pin_actions_append, pin_actions_reads _ polls hpolls, hgs, hgd]
        rfl
      · intro hne
        have hl : ∀ pin, last_pin_action pin
            ([Ev.delay s2.i2c_delay_short, Ev.out_en_s s2.gpio_scl, Ev.delay s2.i2c_delay_short,
              Ev.out_en_c s2.gpio_sda, Ev.delay s2.i2c_delay_short] ++
              (polls ++ [Ev.out_en_c s.gpio_scl, Ev.delay s.i2c_delay_short,
                Ev.out_en_s s.gpio_sda]) ++ s.w.log) =
            if s.gpio_scl = pin then some false
            else if s.gpio_sda = pin then some true
            else last_pin_action pin (polls ++ [Ev.out_en_c s.gpio_scl,
              Ev.delay s.i2c_delay_short, Ev.out_en_s s.gpio_sda] ++ s.w.log) := by
          intro pin
          rw [hgs, hgd]
          simp [last_pin_action]
        rw [hall.log, hl, hl]
        constructor
        · rw [if_neg hne, if_pos rfl]
        · rw [if_pos rfl]

/-- C30 on the simulated bus without any slave, the engine on pins 0 and 2: a start
condition, then the stop condition. -/
theorem c30_stop_sequence_witness :
    ∃ s s1, esp_i2c_start sim_hw 1 (sim_state 0 2 [] 0) = some (ESP_I2C_OK, s) ∧
      s.in_trans = true ∧ esp_i2c_stop sim_hw 1 s = some (ESP_I2C_OK, s1) ∧
      ∃ new, Ext s s1 new ∧
        (pin_actions new).reverse =
          [Ev.out_en_s s.gpio_sda, Ev.out_en_c s.gpio_scl, Ev.out_en_c s.gpio_sda,
            Ev.out_en_s s.gpio_scl] ∧
        s1.in_trans = false ∧
        (s.gpio_scl ≠ s.gpio_sda →
          last_pin_action s.gpio_sda s1.w.log = some true ∧
          last_pin_action s.gpio_scl s1.w.log = some false) :=
  ⟨_, _, rfl, rfl, rfl, c30_stop_sequence sim_hw 1 _ _ rfl rfl⟩

end I2C
